import Mathlib

/-!
# AMG setup (`jl/amg_setup.c`): a shallow embedding

The C code works on `double` arrays and `uint` index arrays.  Here

* a `double` is an element of a linearly ordered field `α` (exact arithmetic); the decimal
  constants `0.1`, `0.7`, `1e+30` are `1/10`, `7/10`, `10^30`, and the library function
  `sqrt` is a parameter `sqrt : α → α`, of which the theorems that need it assume
  `0 ≤ sqrt x` and `sqrt x * sqrt x = x` for `0 ≤ x` (as `Real.sqrt` satisfies);
* a `uint` index or counter is a `Nat` (all counters below are bounded by the
  length of an array, so they never wrap), and `(uint) x` of a `slong` is `toUint`;
* an array is a `List`, read with `rd` (a read past the end, undefined in C, yields 0) and
  written with `List.set`; an array returned by `tmalloc` has arbitrary initial content,
  passed as an input;
* a C loop `for (i=0;i<n;i++)` is a `List.foldl` over `List.range n`, and the row
  loop `for (j=row_off[i]; j<row_off[i+1]; j++)` a fold over `rowIdx`;
* the `while (1)` loop of `coarsen` runs on fuel: `none` when the fuel runs out before
  the `break`; so do the loop of `chebsim` and the `for(;;)` of `sec_root`.  The loops of
  `pcg` and `lanczos` are bounded by their own counters (`n`, `kmax`) and are total;
* the values `rand()/RAND_MAX` drawn by `lanczos` are an input (`rnd`);
* a collective `gs(...)` on a single process is the identity;
* in the assembly, a `slong` is an `Int` and `cols[i]+1` a `uint` sum; what the library
  hands to `build_setup_data` (`assign_dofs`, `mat_distribute`,
  `mat_list_nonlocal_sorted`) is an input (`assembly_ext`); `qsort` is an insertion sort
  and `bsearch` a binary search; the loop that fills `gs_id` records the indices it
  writes; `free` is not modelled;
* the skipping loop of `sp_restrict_sorted` runs on the fuel `Rn`, which it cannot use up
  since every round advances the counter that is bounded by `Rn`;
* the block that `interp` allocates is split into its three regions `sqv1`, `sqv2`, `Q`
  (of `max_nz`, `max_nz` and `max_Q` cells), each an array of its own; the call
  `mv_ut(qk, k, Q, sqv2)`, whose output lies in the array it reads, is `mv_ut_self`;
* sums, products and decimal constants are exact, where the code rounds them: a test at a
  threshold (`fabs(a[j]) < Amax` after `Amax *= tol` in `mat_max`, `fronorm < 1e-11` in
  `lanczos`) compares the exact values; `mat_max_fl` is `mat_max` with the rounding of its
  one product as a parameter.  A quotient `x / y` is the one of the field, which
  is `0` for `y = 0`, where the code computes `inf` or `NaN`: the theorems on `pcg` and on
  the array `D` of `amg_setup` name the divisors that must not be `0`, and `pcg` has a
  second model, `pcg_fp`, on doubles that may be infinite or `NaN` (`xdouble`), which
  agrees with `pcg` on the runs without a division by zero;
* the library function `abs` takes an `int`: on a `slong` it is `c_abs`, which converts
  its argument to 32 bits first.
-/

namespace AmgSetup

/-- The array read `l[i]`. -/
def rd {β : Type} [Zero β] (l : List β) (i : Nat) : β := l.getD i 0

/-- The struct `csr_mat`: a sparse matrix in compressed-sparse-row form. -/
structure csr_mat (α : Type) where
  rn : Nat
  cn : Nat
  row_off : List Nat
  col : List Nat
  a : List α
deriving DecidableEq, Repr

/-- The indices visited by `for (j=row_off[i]; j<row_off[i+1]; j++)`. -/
def rowIdx {α : Type} (A : csr_mat α) (i : Nat) : List Nat :=
  List.range' (rd A.row_off i) (rd A.row_off (i + 1) - rd A.row_off i)

/-- The stored entries `(col[j], a[j])` of row `i`, in storage order. -/
def rowEntries {α : Type} [Zero α] (A : csr_mat α) (i : Nat) : List (Nat × α) :=
  (rowIdx A i).map (fun j => (rd A.col j, rd A.a j))

/-- The data-model invariants of a CSR matrix (spec section 3), together with the
sizes of the three arrays. -/
def csr_wf {α : Type} (A : csr_mat α) : Prop :=
  A.row_off.length = A.rn + 1 ∧
  rd A.row_off 0 = 0 ∧
  (∀ i, i < A.rn → rd A.row_off i ≤ rd A.row_off (i + 1)) ∧
  rd A.row_off A.rn = A.col.length ∧
  A.a.length = A.col.length ∧
  (∀ c, c ∈ A.col → c < A.cn) ∧
  (∀ i, i < A.rn → ((rowIdx A i).map (fun j => rd A.col j)).Nodup)

instance {α : Type} (A : csr_mat α) : Decidable (csr_wf A) := by
  unfold csr_wf; infer_instance

/-! ## `sub_mat` (lines 1349-1428) -/

/-- The dummy `-1` stored in the `uint` table `g2lcol`. -/
def UINT_MAX : Nat := 4294967295

/-- First pass of `sub_mat`: the inner loop counting the kept entries of row `i`. -/
def sub_mat_count_row {α : Type} [Zero α] [DecidableEq α] (A : csr_mat α) (vc : List α)
    (i : Nat) (subncol : Nat) : Nat :=
  (rowIdx A i).foldl
    (fun n j => if rd vc (rd A.col j) ≠ 0 then n + 1 else n) subncol

/-- First pass of `sub_mat`: `(subrn, subncol)`. -/
def sub_mat_count {α : Type} [Zero α] [DecidableEq α] (A : csr_mat α) (vr vc : List α) :
    Nat × Nat :=
  (List.range A.rn).foldl
    (fun s i => if rd vr i ≠ 0 then (s.1 + 1, sub_mat_count_row A vc i s.2) else s)
    (0, 0)

/-- Second pass of `sub_mat`: `(subcn, c, g2lcol)`. -/
def sub_mat_g2l {α : Type} [Zero α] [DecidableEq α] (cn : Nat) (vc : List α) :
    Nat × Nat × List Nat :=
  (List.range cn).foldl
    (fun s i => if rd vc i ≠ 0 then (s.1 + 1, s.2.1 + 1, s.2.2 ++ [s.2.1])
                else (s.1, s.2.1, s.2.2 ++ [UINT_MAX]))
    (0, 0, [])

/-- The state of the third pass of `sub_mat`: the cells written so far through the
running pointers `subrow_off`, `subcol`, `suba`, and the counter `roffset`. -/
structure sub_state (α : Type) where
  subrow_off : List Nat
  subcol : List Nat
  suba : List α
  roffset : Nat

/-- Third pass of `sub_mat`: the inner loop over the entries of row `i`. -/
def sub_mat_fill_row {α : Type} [Zero α] [DecidableEq α] (A : csr_mat α) (vc : List α)
    (g2lcol : List Nat) (i : Nat) (s : sub_state α) : sub_state α :=
  (rowIdx A i).foldl
    (fun s j =>
      if rd vc (rd A.col j) ≠ 0 then
        { s with roffset := s.roffset + 1,
                 subcol := s.subcol ++ [rd g2lcol (rd A.col j)],
                 suba := s.suba ++ [rd A.a j] }
      else s) s

/-- Third pass of `sub_mat`. -/
def sub_mat_fill {α : Type} [Zero α] [DecidableEq α] (A : csr_mat α) (vr vc : List α)
    (g2lcol : List Nat) : sub_state α :=
  (List.range A.rn).foldl
    (fun s i =>
      if rd vr i ≠ 0 then
        let s1 := sub_mat_fill_row A vc g2lcol i s
        { s1 with subrow_off := s1.subrow_off ++ [s1.roffset] }
      else s)
    { subrow_off := [0], subcol := [], suba := [], roffset := 0 }

/-- The function `sub_mat`: `subA = A(vr, vc)`. -/
def sub_mat {α : Type} [Zero α] [DecidableEq α] (A : csr_mat α) (vr vc : List α) :
    csr_mat α :=
  let cnt := sub_mat_count A vr vc
  let g := sub_mat_g2l A.cn vc
  let s := sub_mat_fill A vr vc g.2.2
  { rn := cnt.1, cn := g.1, row_off := s.subrow_off, col := s.subcol, a := s.suba }

/-! ### Specification-level notions for `sub_mat` -/

/-- The rows kept by a selector: the indices `i < n` with `v[i] != 0`, increasing. -/
def selRows {α : Type} [Zero α] [DecidableEq α] (v : List α) (n : Nat) : List Nat :=
  (List.range n).filter (fun i => rd v i ≠ 0)

/-- The number of `j < c` with `v[j] != 0`. -/
def renum {α : Type} [Zero α] [DecidableEq α] (v : List α) (c : Nat) : Nat :=
  (selRows v c).length

/-- The positions of row `i` kept by the column selector `vc`. -/
def keptIdx {α : Type} [Zero α] [DecidableEq α] (A : csr_mat α) (vc : List α) (i : Nat) :
    List Nat :=
  (rowIdx A i).filter (fun j => rd vc (rd A.col j) ≠ 0)

/-- Row offsets of a concatenation of rows, starting at `base`. -/
def offs {β : Type} : Nat → List (List β) → List Nat
  | _, [] => []
  | base, r :: rs => (base + r.length) :: offs (base + r.length) rs

/-- The table `g2lcol` built by the second pass. -/
def g2lTable {α : Type} [Zero α] [DecidableEq α] (vc : List α) (cn : Nat) : List Nat :=
  (List.range cn).map (fun i => if rd vc i ≠ 0 then renum vc i else UINT_MAX)

/-! ## `min_skel` (lines 624-663) -/

/-- The inner loop of `min_skel` on row `i`: `(y_max[i], j)`. -/
def min_skel_row {α : Type} [LinearOrderedField α] (R : csr_mat α) (i : Nat) : α × Nat :=
  (rowIdx R i).foldl
    (fun s k => if rd R.a k > s.1 then (rd R.a k, rd R.col k) else s)
    (-(10 : α) ^ 30, 0)

/-- The function `min_skel`. -/
def min_skel {α : Type} [LinearOrderedField α] (R : csr_mat α) : csr_mat α :=
  let s := (List.range R.rn).foldl
    (fun (s : List Nat × List Nat × List α) i =>
      let r := min_skel_row R i
      (s.1 ++ [i], s.2.1 ++ [r.2], s.2.2 ++ [if r.1 > 0 then (1 : α) else 0]))
    ([], [], [])
  { rn := R.rn, cn := R.cn, row_off := s.1 ++ [R.rn], col := s.2.1, a := s.2.2 }

/-- The 4x4 tridiagonal matrix of spec section 8, scenario 1. -/
def tridiag4 (α : Type) [LinearOrderedField α] : csr_mat α :=
  ⟨4, 4, [0, 2, 5, 8, 10], [0, 1, 0, 1, 2, 1, 2, 3, 2, 3],
    [2, -1, -1, 2, -1, -1, 2, -1, -1, 2]⟩

/-! ## Elementwise array operations (lines 1460-1597) -/

/-- The loop `for (i=0;i<n;i++) a[i] = g i a[i]` over the first `n` cells of `a`. -/
def forUpd {β : Type} [Zero β] (n : Nat) (g : Nat → β → β) (a : List β) : List β :=
  (List.range n).foldl (fun a i => a.set i (g i (rd a i))) a

/-- A freshly allocated array of `n` cells: `tmalloc(type, n)`.  Its cells are not
initialised; their contents are the first `n` cells of `junk`. -/
def tmalloc {β : Type} [Zero β] (junk : List β) (n : Nat) : List β :=
  (List.range n).map (fun i => rd junk i)

/-- The call `memcpy(dst, src, n*sizeof(double))`. -/
def memcpy {β : Type} [Zero β] (dst src : List β) (n : Nat) : List β :=
  forUpd n (fun i _ => rd src i) dst

/-- The tags of `enum vv_ops`. -/
inductive vv_ops where
  | plus | minus | ewmult
deriving DecidableEq, Repr

/-- The function `vv_op`: `a = a (op) b` on the first `n` cells. -/
def vv_op {α : Type} [LinearOrderedField α] (a b : List α) (n : Nat) (op : vv_ops) :
    List α :=
  match op with
  | .plus => forUpd n (fun i x => x + rd b i) a
  | .minus => forUpd n (fun i x => x - rd b i) a
  | .ewmult => forUpd n (fun i x => x * rd b i) a

/-- The tags of `enum bin_ops`. -/
inductive bin_ops where
  | and_op | or_op | xor_op | not_op
deriving DecidableEq, Repr

/-- The function `bin_op`: `mask = mask (op) a` on the first `n` cells. -/
def bin_op {α : Type} [LinearOrderedField α] (mask a : List α) (n : Nat) (op : bin_ops) :
    List α :=
  match op with
  | .and_op => forUpd n (fun i x => if x ≠ 0 ∧ rd a i ≠ 0 then 1 else 0) mask
  | .or_op => forUpd n (fun i x => if x = 0 ∧ rd a i = 0 then 0 else 1) mask
  | .xor_op =>
    forUpd n (fun i x => if (x = 0 ∧ rd a i ≠ 0) ∨ (x ≠ 0 ∧ rd a i = 0) then 1 else 0) mask
  | .not_op => forUpd n (fun i _ => if rd a i = 0 then 1 else 0) mask

/-- The tags of `enum mask_ops`. -/
inductive mask_ops where
  | gt | lt | ge | le | eq
deriving DecidableEq, Repr

/-- The function `mask_op`; it returns `(mask, a)`, since the case `eq` assigns
`trigger` to the cells of `a` (the test is written `*a++ = trigger`). -/
def mask_op {α : Type} [LinearOrderedField α] (mask a : List α) (n : Nat) (trigger : α)
    (op : mask_ops) : List α × List α :=
  match op with
  | .gt => (forUpd n (fun i _ => if rd a i > trigger then 1 else 0) mask, a)
  | .lt => (forUpd n (fun i _ => if rd a i < trigger then 1 else 0) mask, a)
  | .ge => (forUpd n (fun i _ => if rd a i ≥ trigger then 1 else 0) mask, a)
  | .le => (forUpd n (fun i _ => if rd a i ≤ trigger then 1 else 0) mask, a)
  | .eq => (forUpd n (fun _ _ => if trigger ≠ 0 then 1 else 0) mask,
            forUpd n (fun _ _ => trigger) a)

/-- The tags of `enum extr_ops`. -/
inductive extr_ops where
  | max | min
deriving DecidableEq, Repr

/-- The function `extr_op`: `(extr, idx)`. -/
def extr_op {α : Type} [LinearOrderedField α] (a : List α) (n : Nat) (op : extr_ops) :
    α × Nat :=
  match op with
  | .max => (List.range' 1 (n - 1)).foldl
      (fun s i => if rd a i > s.1 then (rd a i, i) else s) (rd a 0, 0)
  | .min => (List.range' 1 (n - 1)).foldl
      (fun s i => if rd a i < s.1 then (rd a i, i) else s) (rd a 0, 0)

/-- The tags of `enum array_ops`. -/
inductive array_ops where
  | abs_op | sqrt_op | minv_op | sqr_op | sum_op | norm2_op
deriving DecidableEq, Repr

/-- The function `array_op`: `(r, a)`, the returned value and the array after the call.
The library function `sqrt` is the parameter `sqrt`. -/
def array_op {α : Type} [LinearOrderedField α] (sqrt : α → α) (a : List α) (n : Nat)
    (op : array_ops) : α × List α :=
  match op with
  | .abs_op => (0, forUpd n (fun _ x => |x|) a)
  | .sqrt_op => (0, forUpd n (fun _ x => sqrt x) a)
  | .minv_op => (0, forUpd n (fun _ x => 1 / x) a)
  | .sqr_op => (0, forUpd n (fun _ x => x * x) a)
  | .sum_op => ((List.range n).foldl (fun r i => r + rd a i) 0, a)
  | .norm2_op => (sqrt ((List.range n).foldl (fun r i => r + rd a i * rd a i) 0), a)

/-- The function `init_array`: `a = v*ones(n, 1)`. -/
def init_array {α : Type} [Zero α] (a : List α) (n : Nat) (v : α) : List α :=
  forUpd n (fun _ _ => v) a

/-! ## Diagonal operations (lines 1599-1685) -/

/-- The position of the first entry of row `i` with `col[j] == i`, if any: the inner loop
`for (j=jb; j<je; ++j) if (col[j] == i) { ...; break; }`. -/
def diagPos {α : Type} (A : csr_mat α) (i : Nat) : Option Nat :=
  (rowIdx A i).find? (fun j => rd A.col j = i)

/-- The body of the row loop of `diag`.  The state is the array `D` and the number of
cells written so far through the running pointer (`*D++ = a[j]`). -/
def diag_step {α : Type} [Zero α] (A : csr_mat α) (s : List α × Nat) (i : Nat) :
    List α × Nat :=
  match diagPos A i with
  | some j => (s.1.set s.2 (rd A.a j), s.2 + 1)
  | none => s

/-- The function `diag`. -/
def diag {α : Type} [Zero α] (D : List α) (A : csr_mat α) : List α :=
  ((List.range A.rn).foldl (diag_step A) (D, 0)).1

/-- The tags of `enum diagcsr_ops`. -/
inductive diagcsr_ops where
  | dplus | dminus | dmult | multd
deriving DecidableEq, Repr

/-- The body of the row loop of `diagcsr_op` for `dplus`. -/
def dplus_step {α : Type} [LinearOrderedField α] (A : csr_mat α) (D : List α) (a : List α)
    (i : Nat) : List α :=
  match diagPos A i with
  | some j => a.set j (rd a j + rd D i)
  | none => a

/-- The body of the row loop of `diagcsr_op` for `dminus`. -/
def dminus_step {α : Type} [LinearOrderedField α] (A : csr_mat α) (D : List α) (a : List α)
    (i : Nat) : List α :=
  match diagPos A i with
  | some j => a.set j (rd a j - rd D i)
  | none => a

/-- The function `diagcsr_op`, which updates the values of `A` in place. -/
def diagcsr_op {α : Type} [LinearOrderedField α] (A : csr_mat α) (D : List α)
    (op : diagcsr_ops) : csr_mat α :=
  match op with
  | .dplus =>
    let a := (List.range A.rn).foldl (dplus_step A D) A.a
    { A with a := a }
  | .dminus =>
    let a := (List.range A.rn).foldl (dminus_step A D) A.a
    { A with a := a }
  | .dmult =>
    let a := (List.range A.rn).foldl
      (fun a i => (rowIdx A i).foldl (fun a j => a.set j (rd a j * rd D i)) a) A.a
    { A with a := a }
  | .multd =>
    let a := (List.range A.rn).foldl
      (fun a i => (rowIdx A i).foldl (fun a j => a.set j (rd a j * rd D (rd A.col j))) a)
      A.a
    { A with a := a }

/-- The function `copy_csr`: the three arrays of `B` are allocated with `rn+1`, `nnz` and
`nnz` cells (`nnz = row_off[rn]`) and filled by `memcpy`. -/
def copy_csr {α : Type} (A : csr_mat α) : csr_mat α :=
  { rn := A.rn, cn := A.cn,
    row_off := A.row_off.take (A.rn + 1),
    col := A.col.take (rd A.row_off A.rn),
    a := A.a.take (rd A.row_off A.rn) }

/-! ## `mat_max` (lines 1951-1985) and `apply_M` -/

/-- The constant `DBL_MAX` of `float.h`: `(2^53 - 1) * 2^971`. -/
def DBL_MAX {α : Type} [LinearOrderedField α] : α := (2 ^ 53 - 1) * 2 ^ 971

/-- The first inner loop of `mat_max` on row `i`: the largest `|a[j]|` over the entries of
the row whose column has `f != 0` (0 when there is none). -/
def mat_max_Amax {α : Type} [LinearOrderedField α] (A : csr_mat α) (f : List α) (i : Nat) :
    α :=
  (rowIdx A i).foldl
    (fun Amax j => if rd f (rd A.col j) ≠ 0 ∧ |rd A.a j| > Amax then |rd A.a j| else Amax) 0

/-- The body of the row loop of `mat_max`, updating `yg`.  The cut-off `Amax * tol` is the
exact product; the code rounds it to a double before the comparisons, which
`mat_max_row_fl` makes explicit. -/
def mat_max_row {α : Type} [LinearOrderedField α] (A : csr_mat α) (f x : List α) (tol : α)
    (yg : List α) (i : Nat) : List α :=
  let xj := rd x i
  let Amax := mat_max_Amax A f i * tol
  (rowIdx A i).foldl
    (fun yg j =>
      let k := rd A.col j
      if rd f k = 0 ∨ |rd A.a j| < Amax then yg
      else if xj > rd yg k then yg.set k xj else yg) yg

/-- The function `mat_max` on a single process (the two `gs` calls are the identity): the
first `rn` cells of `y` receive those of `yg`. -/
def mat_max {α : Type} [LinearOrderedField α] (y : List α) (A : csr_mat α) (f x : List α)
    (tol : α) : List α :=
  let yg := (List.range A.rn).foldl (mat_max_row A f x tol)
    (List.replicate A.cn (-DBL_MAX))
  memcpy y yg A.rn

/-- Modelled from the spec: `apply_M` is declared in `amg_tools.h` and not defined in
`amg_setup.c`; by section 4.2 and the comments at its calls (`g = S*vf`), it computes
`z = alpha*y + beta*M*x` on the `rn` rows of `M`. -/
def apply_M {α : Type} [LinearOrderedField α] (z : List α) (alpha : α) (y : List α)
    (beta : α) (M : csr_mat α) (x : List α) : List α :=
  forUpd M.rn
    (fun i _ => alpha * rd y i +
      beta * (rowIdx M i).foldl (fun t j => t + rd M.a j * rd x (rd M.col j)) 0) z

/-! ## `coarsen` (lines 1165-1345), on a single process -/

/-- The strength matrix `S = abs(D*A*D) - diag`, `D = 1/sqrt(diag(A))`, built at the start
of `coarsen` (lines 1170-1188).  `D0` is the content of the fresh array `D`. -/
def coarsen_S {α : Type} [LinearOrderedField α] (sqrt : α → α) (D0 : List α)
    (A : csr_mat α) : csr_mat α :=
  let D := tmalloc D0 A.cn
  let D := diag D A
  let D := (array_op sqrt D A.cn .sqrt_op).2
  let D := (array_op sqrt D A.cn .minv_op).2
  let S := copy_csr A
  let S := diagcsr_op S D .dmult
  let S := diagcsr_op S D .multd
  let S := { S with a := (array_op sqrt S.a (rd S.row_off A.rn) .abs_op).2 }
  let D := diag D S
  diagcsr_op S D .dminus

/-- The arrays live across the iterations of the `while (1)` loop of `coarsen`. -/
structure coarsen_state (α : Type) where
  vc : List α
  vf : List α
  anyvc : Int
  g : List α
  w1 : List α
  w2 : List α
  tmp : List α
  w : List α
  mask : List α
  m : List α

/-- The conversion `(uint) x` of a `slong`. -/
def toUint (x : Int) : Nat := (x % 4294967296).toNat

/-- The seed promotion (lines 1260-1278): `vc` after the block `if (anyvc == 0) {...}`. -/
def coarsen_seed {α : Type} [LinearOrderedField α] (vc : List α) (rn : Nat)
    (gs_id : List Int) (w1ml w1m : α) (mil : Nat) : List α :=
  let mi : Nat := if w1ml = w1m then toUint (rd gs_id mil) else toUint (-1)
  match (List.range rn).find? (fun i => mi = toUint (rd gs_id i)) with
  | some i => vc.set i 1
  | none => vc

/-- One iteration of the `while (1)` loop of `coarsen`: `Sum.inl vc` when the iteration
ends in `break`, `Sum.inr s` when the loop goes on from the state `s`. -/
def coarsen_iter {α : Type} [LinearOrderedField α] (sqrt : α → α) (S : csr_mat α)
    (ctol : α) (gs_id : List Int) (s : coarsen_state α) : List α ⊕ coarsen_state α :=
  let rn := S.rn
  let vf := s.vf
  -- w1 = vf.*(S*(vf.*(S*vf)))
  let g := apply_M s.g 0 vf 1 S vf
  let g := vv_op g vf rn .ewmult
  let w1 := apply_M s.w1 0 g 1 S g
  let w1 := vv_op w1 vf rn .ewmult
  -- w2 = vf.*(S*(vf.*(S*w1)))
  let w2 := apply_M s.w2 0 w1 1 S w1
  let w2 := vv_op w2 vf rn .ewmult
  let tmp := apply_M s.tmp 0 w2 1 S w2
  let w2 := memcpy w2 tmp rn
  let w2 := vv_op w2 vf rn .ewmult
  -- w = w2./w1
  let w := memcpy s.w w1 rn
  let w := (array_op sqrt w rn .minv_op).2
  let w := vv_op w w2 rn .ewmult
  let w := forUpd rn (fun i x => if rd w1 i = 0 then 0 else x) w
  -- b = sqrt(min(max(w1),max(w)))
  let e1 := extr_op w1 rn .max
  let w1ml := e1.1
  let mil := e1.2
  let wm := (extr_op w rn .max).1
  let w1m := w1ml
  let b := if w1m < wm then sqrt w1m else sqrt wm
  if b ≤ ctol then
    if s.anyvc = 0 then Sum.inl (coarsen_seed s.vc rn gs_id w1ml w1m mil)
    else Sum.inl s.vc
  else
    -- mask = w > ctol^2
    let mask := (mask_op s.mask w rn (ctol * ctol) .gt).1
    -- m = mat_max(S,vf,mask.*g)
    let mat_max_tol : α := 1 / 10
    let tmp := memcpy tmp g rn
    let tmp := vv_op tmp mask rn .ewmult
    let m := mat_max s.m S vf tmp mat_max_tol
    -- mask = mask & (g-m>=0)
    let g := vv_op g m rn .minus
    let tmp := (mask_op tmp g rn 0 .ge).1
    let mask := bin_op mask tmp rn .and_op
    -- m = mat_max(S,vf,mask.*id)
    let g := forUpd rn (fun i _ => ((rd gs_id i : Int) : α)) g
    let tmp := memcpy tmp mask rn
    let tmp := vv_op tmp g rn .ewmult
    let m := mat_max m S vf tmp mat_max_tol
    -- mask = mask & (id-m>0)
    let g := vv_op g m rn .minus
    let tmp := (mask_op tmp g rn 0 .gt).1
    let mask := bin_op mask tmp rn .and_op
    -- vc = vc | mask ; vf = xor(vf, mask)
    let vc := bin_op s.vc mask rn .or_op
    let anyvc : Int :=
      if s.anyvc = 0 then (if (List.range rn).any (fun i => rd vc i = 1) then 1 else s.anyvc)
      else s.anyvc
    let vf := bin_op vf mask rn .xor_op
    Sum.inr { vc := vc, vf := vf, anyvc := anyvc, g := g, w1 := w1, w2 := w2, tmp := tmp,
              w := w, mask := mask, m := m }

/-- The `while (1)` loop of `coarsen`, run for at most `fuel` iterations: `some vc` when
the loop has ended in `break` within `fuel` iterations. -/
def coarsen_loop {α : Type} [LinearOrderedField α] (sqrt : α → α) (S : csr_mat α)
    (ctol : α) (gs_id : List Int) : Nat → coarsen_state α → Option (List α)
  | 0, _ => none
  | fuel + 1, s =>
    match coarsen_iter sqrt S ctol gs_id s with
    | Sum.inl vc => some vc
    | Sum.inr s1 => coarsen_loop sqrt S ctol gs_id fuel s1

/-- The initial contents of the arrays allocated by `coarsen` (they are not initialised
by `tmalloc`). -/
structure coarsen_mem (α : Type) where
  D : List α
  vf : List α
  g : List α
  w1 : List α
  w2 : List α
  tmp : List α
  w : List α
  mask : List α
  m : List α

/-- The state at the head of the first iteration of the loop of `coarsen`
(lines 1196-1213). -/
def coarsen_init {α : Type} [LinearOrderedField α] (mem : coarsen_mem α) (vc : List α)
    (A : csr_mat α) : coarsen_state α :=
  { vc := init_array vc A.rn 0,
    vf := init_array (tmalloc mem.vf A.cn) A.cn 1,
    anyvc := 0,
    g := tmalloc mem.g A.cn, w1 := tmalloc mem.w1 A.cn, w2 := tmalloc mem.w2 A.cn,
    tmp := tmalloc mem.tmp A.cn, w := tmalloc mem.w A.rn, mask := tmalloc mem.mask A.rn,
    m := tmalloc mem.m A.rn }

/-- The function `coarsen` on a single process: the array `vc` on return, when the loop
ends within `fuel` iterations. -/
def coarsen {α : Type} [LinearOrderedField α] (sqrt : α → α) (mem : coarsen_mem α)
    (fuel : Nat) (vc : List α) (A : csr_mat α) (ctol : α) (gs_id : List Int) :
    Option (List α) :=
  coarsen_loop sqrt (coarsen_S sqrt mem.D A) ctol gs_id fuel (coarsen_init mem vc A)

/-- Where a cell of `yg` comes from: it is `-DBL_MAX` unless some row `i` pushed `x[i]`
through an entry of that column passing the two tests of `mat_max`. -/
def mat_max_src {α : Type} [LinearOrderedField α] (A : csr_mat α) (f x : List α) (tol : α)
    (yg : List α) : Prop :=
  yg.length = A.cn ∧
  ∀ k, k < A.cn → rd yg k = -DBL_MAX ∨
    ∃ i j, i < A.rn ∧ j ∈ rowIdx A i ∧ rd A.col j = k ∧ rd f k ≠ 0 ∧
      ¬ |rd A.a j| < mat_max_Amax A f i * tol ∧ rd yg k = rd x i

/-- The array `D = 1/sqrt(diag(A))` of `coarsen` (lines 1171-1177). -/
def coarsen_D {α : Type} [LinearOrderedField α] (sqrt : α → α) (D0 : List α)
    (A : csr_mat α) : List α :=
  (array_op sqrt (array_op sqrt (diag (tmalloc D0 A.cn) A) A.cn .sqrt_op).2 A.cn .minv_op).2

/-- The matrix `abs(D*A*D)` of `coarsen` (lines 1180-1184), before its diagonal is
removed. -/
def coarsen_absDAD {α : Type} [LinearOrderedField α] (sqrt : α → α) (D0 : List α)
    (A : csr_mat α) : csr_mat α :=
  let S := diagcsr_op (diagcsr_op (copy_csr A) (coarsen_D sqrt D0 A) .dmult)
    (coarsen_D sqrt D0 A) .multd
  { S with a := (array_op sqrt S.a (rd S.row_off A.rn) .abs_op).2 }

/-- Every row of `A` stores its diagonal entry. -/
def stored_diag {α : Type} (A : csr_mat α) : Prop :=
  ∀ i, i < A.rn → ∃ j, diagPos A i = some j

/-! ### The arrays computed by one iteration of the loop of `coarsen`, by name -/

/-- The array `g = vf.*(S*vf)` (lines 1218-1219). -/
def it_g {α : Type} [LinearOrderedField α] (S : csr_mat α) (s : coarsen_state α) : List α :=
  vv_op (apply_M s.g 0 s.vf 1 S s.vf) s.vf S.rn .ewmult

/-- The array `w1 = vf.*(S*g)` (lines 1221-1222). -/
def it_w1 {α : Type} [LinearOrderedField α] (S : csr_mat α) (s : coarsen_state α) :
    List α :=
  vv_op (apply_M s.w1 0 (it_g S s) 1 S (it_g S s)) s.vf S.rn .ewmult

/-- The array `w2 = vf.*(S*w1)` after lines 1226-1227. -/
def it_w2a {α : Type} [LinearOrderedField α] (S : csr_mat α) (s : coarsen_state α) :
    List α :=
  vv_op (apply_M s.w2 0 (it_w1 S s) 1 S (it_w1 S s)) s.vf S.rn .ewmult

/-- The array `tmp = S*w2` (line 1229). -/
def it_tmp1 {α : Type} [LinearOrderedField α] (S : csr_mat α) (s : coarsen_state α) :
    List α :=
  apply_M s.tmp 0 (it_w2a S s) 1 S (it_w2a S s)

/-- The array `w2` after lines 1230-1231. -/
def it_w2 {α : Type} [LinearOrderedField α] (S : csr_mat α) (s : coarsen_state α) :
    List α :=
  vv_op (memcpy (it_w2a S s) (it_tmp1 S s) S.rn) s.vf S.rn .ewmult

/-- The array `w = w2./w1`, zero where `w1 == 0` (lines 1234-1242). -/
def it_w {α : Type} [LinearOrderedField α] (sqrt : α → α) (S : csr_mat α)
    (s : coarsen_state α) : List α :=
  forUpd S.rn (fun i x => if rd (it_w1 S s) i = 0 then 0 else x)
    (vv_op (array_op sqrt (memcpy s.w (it_w1 S s) S.rn) S.rn .minv_op).2 (it_w2 S s) S.rn
      .ewmult)

/-- The scalar `b = sqrt(min(max(w1),max(w)))` (line 1255). -/
def it_b {α : Type} [LinearOrderedField α] (sqrt : α → α) (S : csr_mat α)
    (s : coarsen_state α) : α :=
  if (extr_op (it_w1 S s) S.rn .max).1 < (extr_op (it_w sqrt S s) S.rn .max).1
  then sqrt (extr_op (it_w1 S s) S.rn .max).1
  else sqrt (extr_op (it_w sqrt S s) S.rn .max).1

/-- The array `mask = w > ctol^2` (line 1283). -/
def it_mask0 {α : Type} [LinearOrderedField α] (sqrt : α → α) (S : csr_mat α) (ctol : α)
    (s : coarsen_state α) : List α :=
  (mask_op s.mask (it_w sqrt S s) S.rn (ctol * ctol) .gt).1

/-- The array `tmp = mask.*g` (lines 1287-1289). -/
def it_tmpA {α : Type} [LinearOrderedField α] (sqrt : α → α) (S : csr_mat α) (ctol : α)
    (s : coarsen_state α) : List α :=
  vv_op (memcpy (it_tmp1 S s) (it_g S s) S.rn) (it_mask0 sqrt S ctol s) S.rn .ewmult

/-- The array `m = mat_max(S,vf,mask.*g)` (line 1290). -/
def it_m1 {α : Type} [LinearOrderedField α] (sqrt : α → α) (S : csr_mat α) (ctol : α)
    (s : coarsen_state α) : List α :=
  mat_max s.m S s.vf (it_tmpA sqrt S ctol s) (1 / 10)

/-- The array `g = g - m` (line 1293). -/
def it_g2 {α : Type} [LinearOrderedField α] (sqrt : α → α) (S : csr_mat α) (ctol : α)
    (s : coarsen_state α) : List α :=
  vv_op (it_g S s) (it_m1 sqrt S ctol s) S.rn .minus

/-- The array `tmp = (g-m>=0)` (line 1294). -/
def it_tmpB {α : Type} [LinearOrderedField α] (sqrt : α → α) (S : csr_mat α) (ctol : α)
    (s : coarsen_state α) : List α :=
  (mask_op (it_tmpA sqrt S ctol s) (it_g2 sqrt S ctol s) S.rn 0 .ge).1

/-- The array `mask = mask & (g-m>=0)` (line 1295). -/
def it_mask1 {α : Type} [LinearOrderedField α] (sqrt : α → α) (S : csr_mat α) (ctol : α)
    (s : coarsen_state α) : List α :=
  bin_op (it_mask0 sqrt S ctol s) (it_tmpB sqrt S ctol s) S.rn .and_op

/-- The array `g = (double) id` (lines 1298-1301). -/
def it_g3 {α : Type} [LinearOrderedField α] (sqrt : α → α) (S : csr_mat α) (ctol : α)
    (gs_id : List Int) (s : coarsen_state α) : List α :=
  forUpd S.rn (fun i _ => ((rd gs_id i : Int) : α)) (it_g2 sqrt S ctol s)

/-- The array `tmp = mask.*id` (lines 1302-1303). -/
def it_tmpC {α : Type} [LinearOrderedField α] (sqrt : α → α) (S : csr_mat α) (ctol : α)
    (gs_id : List Int) (s : coarsen_state α) : List α :=
  vv_op (memcpy (it_tmpB sqrt S ctol s) (it_mask1 sqrt S ctol s) S.rn)
    (it_g3 sqrt S ctol gs_id s) S.rn .ewmult

/-- The array `m = mat_max(S,vf,mask.*id)` (line 1304). -/
def it_m2 {α : Type} [LinearOrderedField α] (sqrt : α → α) (S : csr_mat α) (ctol : α)
    (gs_id : List Int) (s : coarsen_state α) : List α :=
  mat_max (it_m1 sqrt S ctol s) S s.vf (it_tmpC sqrt S ctol gs_id s) (1 / 10)

/-- The array `g = id - m` (line 1307). -/
def it_g4 {α : Type} [LinearOrderedField α] (sqrt : α → α) (S : csr_mat α) (ctol : α)
    (gs_id : List Int) (s : coarsen_state α) : List α :=
  vv_op (it_g3 sqrt S ctol gs_id s) (it_m2 sqrt S ctol gs_id s) S.rn .minus

/-- The array `tmp = (id-m>0)` (line 1308). -/
def it_tmpD {α : Type} [LinearOrderedField α] (sqrt : α → α) (S : csr_mat α) (ctol : α)
    (gs_id : List Int) (s : coarsen_state α) : List α :=
  (mask_op (it_tmpC sqrt S ctol gs_id s) (it_g4 sqrt S ctol gs_id s) S.rn 0 .gt).1

/-- The array `mask = mask & (id-m>0)` (line 1309): the dofs made coarse by the
iteration. -/
def it_mask2 {α : Type} [LinearOrderedField α] (sqrt : α → α) (S : csr_mat α) (ctol : α)
    (gs_id : List Int) (s : coarsen_state α) : List α :=
  bin_op (it_mask1 sqrt S ctol s) (it_tmpD sqrt S ctol gs_id s) S.rn .and_op

/-- The state after an iteration that does not end in `break`. -/
def it_next {α : Type} [LinearOrderedField α] (sqrt : α → α) (S : csr_mat α) (ctol : α)
    (gs_id : List Int) (s : coarsen_state α) : coarsen_state α :=
  { vc := bin_op s.vc (it_mask2 sqrt S ctol gs_id s) S.rn .or_op,
    vf := bin_op s.vf (it_mask2 sqrt S ctol gs_id s) S.rn .xor_op,
    anyvc := if s.anyvc = 0 then
        (if (List.range S.rn).any
            (fun i => rd (bin_op s.vc (it_mask2 sqrt S ctol gs_id s) S.rn .or_op) i = 1)
          then 1 else s.anyvc)
      else s.anyvc,
    g := it_g4 sqrt S ctol gs_id s, w1 := it_w1 S s, w2 := it_w2 S s,
    tmp := it_tmpD sqrt S ctol gs_id s, w := it_w sqrt S s,
    mask := it_mask2 sqrt S ctol gs_id s, m := it_m2 sqrt S ctol gs_id s }

/-- The state at the head of iteration `n+1` of the loop, when the first `n` iterations
did not end in `break`. -/
def coarsen_run {α : Type} [LinearOrderedField α] (sqrt : α → α) (S : csr_mat α)
    (ctol : α) (gs_id : List Int) : Nat → coarsen_state α → Option (coarsen_state α)
  | 0, s => some s
  | n + 1, s =>
    match coarsen_iter sqrt S ctol gs_id s with
    | Sum.inl _ => none
    | Sum.inr s1 => coarsen_run sqrt S ctol gs_id n s1

/-- Row `i` of the product `S*x`, as accumulated by `apply_M`. -/
def Sx {α : Type} [LinearOrderedField α] (S : csr_mat α) (x : List α) (i : Nat) : α :=
  (rowIdx S i).foldl (fun t j => t + rd S.a j * rd x (rd S.col j)) 0

/-- What the loop of `coarsen` uses of the strength matrix: a well-formed square matrix with
non-negative values and zero stored diagonal entries. -/
def strength_ok {α : Type} [LinearOrderedField α] (S : csr_mat α) : Prop :=
  csr_wf S ∧ S.rn = S.cn ∧ (∀ j, 0 ≤ rd S.a j) ∧
  ∀ i j, i < S.rn → j ∈ rowIdx S i → rd S.col j = i → rd S.a j = 0

/-- The arrays of the loop state have at least `n` cells. -/
def bufs_ok {α : Type} (n : Nat) (s : coarsen_state α) : Prop :=
  n ≤ s.vc.length ∧ n ≤ s.vf.length ∧ n ≤ s.g.length ∧ n ≤ s.w1.length ∧
  n ≤ s.w2.length ∧ n ≤ s.tmp.length ∧ n ≤ s.w.length ∧ n ≤ s.mask.length ∧
  n ≤ s.m.length

/-- On the first `n` cells, `vc` and `vf` are complementary 0/1 vectors. -/
def split_ok {α : Type} [LinearOrderedField α] (n : Nat) (vc vf : List α) : Prop :=
  ∀ i, i < n → (rd vc i = 0 ∧ rd vf i = 1) ∨ (rd vc i = 1 ∧ rd vf i = 0)

/-- The array `vf` of `amg_setup` (lines 155-156): `vf = ~vc` on the `cn` columns, in a
fresh array whose initial content is `vf0`. -/
def amg_setup_vf {α : Type} [LinearOrderedField α] (vf0 : List α) (cn : Nat)
    (vc : List α) : List α :=
  bin_op (tmalloc vf0 cn) vc cn .not_op

/-- A memory content for the fresh arrays of `coarsen`, used in the instances on concrete
inputs: every cell reads as 0. -/
def mem_zero (α : Type) : coarsen_mem α := ⟨[], [], [], [], [], [], [], [], []⟩

/-- Every row of `A` stores its diagonal entry, with a positive value. -/
def pos_diag {α : Type} [LinearOrderedField α] (A : csr_mat α) : Prop :=
  ∀ i, i < A.rn → ∃ j, diagPos A i = some j ∧ 0 < rd A.a j

/-- The strength matrix of the 4x4 tridiagonal matrix: 1/2 next to the diagonal. -/
def tri_S (α : Type) [LinearOrderedField α] : csr_mat α :=
  ⟨4, 4, [0, 2, 5, 8, 10], [0, 1, 0, 1, 2, 1, 2, 3, 2, 3],
    [0, 1 / 2, 1 / 2, 0, 1 / 2, 1 / 2, 0, 1 / 2, 1 / 2, 0]⟩

/-- The loop state of `coarsen` on the 4x4 tridiagonal matrix after the first iteration. -/
def tri_s1 (α : Type) [LinearOrderedField α] : coarsen_state α :=
  ⟨[0, 0, 1, 0], [1, 1, 0, 1], 1, [-1, -1, 1, 1], [1 / 2, 3 / 4, 3 / 4, 1 / 2],
    [5 / 16, 1 / 2, 1 / 2, 5 / 16], [0, 0, 1, 1], [5 / 8, 2 / 3, 2 / 3, 5 / 8], [0, 0, 1, 0],
    [2, 3, 2, 3]⟩

/-- The 2x2 identity matrix of spec section 8, scenario 2. -/
def identity2 (α : Type) [LinearOrderedField α] : csr_mat α :=
  ⟨2, 2, [0, 1, 2], [0, 1], [1, 1]⟩

/-- The sum of the stored values of row `i`. -/
def rowSum {α : Type} [LinearOrderedField α] (S : csr_mat α) (i : Nat) : α :=
  (rowIdx S i).foldl (fun t j => t + rd S.a j) 0

/-- A symmetric 2x2 matrix with unit diagonal and off-diagonal entries 5. -/
def offdiag2 (α : Type) [LinearOrderedField α] : csr_mat α :=
  ⟨2, 2, [0, 2, 4], [0, 1, 0, 1], [1, 5, 5, 1]⟩

/-- The strength matrix of `offdiag2`. -/
def offdiag2_S (α : Type) [LinearOrderedField α] : csr_mat α :=
  ⟨2, 2, [0, 2, 4], [0, 1, 0, 1], [0, 5, 5, 0]⟩

/-- The value stored at `(i, k)`, 0 when the entry is not stored. -/
def csr_get {α : Type} [Zero α] (A : csr_mat α) (i k : Nat) : α :=
  match (rowEntries A i).find? (fun e => e.1 = k) with
  | some e => e.2
  | none => 0

/-- The matrix is symmetric. -/
def csr_symm {α : Type} [Zero α] (A : csr_mat α) : Prop :=
  ∀ i k, i < A.rn → k < A.rn → csr_get A i k = csr_get A k i

/-- Entry `j` of row `i` reaches cell `k` of `mat_max`: it is stored in column `k`, passes
the test `f[k] != 0` and is not below the cut-off `tol * Amax` of its row. -/
def mat_max_contrib {α : Type} [LinearOrderedField α] (A : csr_mat α) (f : List α) (tol : α)
    (k i j : Nat) : Prop :=
  i < A.rn ∧ j ∈ rowIdx A i ∧ rd A.col j = k ∧ rd f k ≠ 0 ∧
    ¬ |rd A.a j| < mat_max_Amax A f i * tol

/-- A `1 x 1` matrix whose only stored entry is an explicit zero. -/
def zero1 (α : Type) [LinearOrderedField α] : csr_mat α := ⟨1, 1, [0, 1], [0], [0]⟩

/-- The body of the row loop of `mat_max` with the rounding of `Amax *= tol` made explicit:
`fl p` is the double that the code stores for the exact product `p`.  The other operations
of `mat_max` (`fabs`, the comparisons, the copies) are exact on doubles. -/
def mat_max_row_fl {α : Type} [LinearOrderedField α] (fl : α → α) (A : csr_mat α)
    (f x : List α) (tol : α) (yg : List α) (i : Nat) : List α :=
  let xj := rd x i
  let Amax := fl (mat_max_Amax A f i * tol)
  (rowIdx A i).foldl
    (fun yg j =>
      let k := rd A.col j
      if rd f k = 0 ∨ |rd A.a j| < Amax then yg
      else if xj > rd yg k then yg.set k xj else yg) yg

/-- The function `mat_max` on a single process, with the rounding `fl` of `Amax *= tol`. -/
def mat_max_fl {α : Type} [LinearOrderedField α] (fl : α → α) (y : List α) (A : csr_mat α)
    (f x : List α) (tol : α) : List α :=
  let yg := (List.range A.rn).foldl (mat_max_row_fl fl A f x tol)
    (List.replicate A.cn (-DBL_MAX))
  memcpy y yg A.rn

/-- Entry `j` of row `i` reaches cell `k` of `mat_max`: it is stored in column `k`, passes
the test `f[k] != 0` and is not below the cut-off of its row, the rounded product
`fl (Amax * tol)`. -/
def mat_max_contrib_fl {α : Type} [LinearOrderedField α] (fl : α → α) (A : csr_mat α)
    (f : List α) (tol : α) (k i j : Nat) : Prop :=
  i < A.rn ∧ j ∈ rowIdx A i ∧ rd A.col j = k ∧ rd f k ≠ 0 ∧
    ¬ |rd A.a j| < fl (mat_max_Amax A f i * tol)

/-! ## `chebsim` (lines 829-848) -/

/-- The local variables `*m`, `*c`, `cp`, `gamma` of `chebsim`. -/
structure cheb_state (α : Type) where
  m : α
  c : α
  cp : α
  gamma : α

/-- The body of the `while` loop of `chebsim`. -/
def chebsim_body {α : Type} [LinearOrderedField α] (alpha rho : α) (s : cheb_state α) :
    cheb_state α :=
  let m := s.m + 1
  let d := alpha * (1 + s.gamma)
  let gamma := d / (1 - d)
  let cn := (1 + gamma) * rho * s.c - gamma * s.cp
  ⟨m, cn, s.c, gamma⟩

/-- The loop `while (*c > tol) { ... }` of `chebsim`, on fuel: `none` when the fuel runs
out before the test fails. -/
def chebsim_loop {α : Type} [LinearOrderedField α] (alpha rho tol : α) :
    Nat → cheb_state α → Option (cheb_state α)
  | 0, _ => none
  | fuel + 1, s =>
    if s.c > tol then chebsim_loop alpha rho tol fuel (chebsim_body alpha rho s) else some s

/-- The function `chebsim`: the pair `(*m, *c)` it leaves on return. -/
def chebsim {α : Type} [LinearOrderedField α] (fuel : Nat) (rho tol : α) : Option (α × α) :=
  let alpha := 1 / 4 * rho * rho
  (chebsim_loop alpha rho tol fuel ⟨1, rho, 1, 1⟩).map (fun s => (s.m, s.c))

/-- The scaled Chebyshev polynomials `u_n = rho^n T_n(1/rho)`: `u_0 = u_1 = 1`,
`u_(n+2) = 2 u_(n+1) - rho^2 u_n`.  They give the closed form `c_n = rho^n / u_n` of the
values computed by `chebsim`. -/
def cheb_u {α : Type} [LinearOrderedField α] (rho : α) : Nat → α
  | 0 => 1
  | 1 => 1
  | n + 2 => 2 * cheb_u rho (n + 1) - rho ^ 2 * cheb_u rho n

/-! ## `pcg` (lines 665-757), on a single process -/

/-- The function `vv_dot`: the dot product of the first `n` cells. -/
def vv_dot {α : Type} [LinearOrderedField α] (a b : List α) (n : Nat) : α :=
  (List.range n).foldl (fun r i => r + rd a i * rd b i) 0

/-- The tags of `enum ar_scal_ops`. -/
inductive ar_scal_ops where
  | mult_op
deriving DecidableEq, Repr

/-- The function `ar_scal_op`: `a[i] = a[i] op scal` on the first `n` cells. -/
def ar_scal_op {α : Type} [LinearOrderedField α] (a : List α) (scal : α) (n : Nat)
    (op : ar_scal_ops) : List α :=
  match op with
  | .mult_op => forUpd n (fun _ x => x * scal) a

/-- The arrays and local variables of `pcg` that live across the iterations of its loop. -/
structure pcg_state (α : Type) where
  x : List α
  r : List α
  p : List α
  z : List α
  w : List α
  tmp : List α
  rho : α
  rho_old : α
  alpha : α
  beta : α
  k : Nat

/-- The contents of the arrays `p`, `z`, `tmp`, `w` of `pcg` when `tmalloc` returns
them. -/
structure pcg_mem (α : Type) where
  p : List α
  z : List α
  tmp : List α
  w : List α

/-- The body of the loop of `pcg` (lines 711-749).  The quotients `rho / rho_old` and
`rho / (p'*w)` are those of the field, `0` for a divisor `0`, where the code computes `inf`
or `NaN`; `pcg_body_fp` is the same body with the quotients of the code. -/
def pcg_body {α : Type} [LinearOrderedField α] (A : csr_mat α) (M : List α)
    (s : pcg_state α) : pcg_state α :=
  let rn := A.rn
  let k := s.k + 1
  let beta := s.rho / s.rho_old
  let p := ar_scal_op s.p beta rn .mult_op
  let p := vv_op p s.z rn .plus
  let w := apply_M s.w 0 p 1 A p
  let alpha := vv_dot p w rn
  let alpha := s.rho / alpha
  let tmp := memcpy s.tmp p rn
  let tmp := ar_scal_op tmp alpha rn .mult_op
  let x := vv_op s.x tmp rn .plus
  let w := ar_scal_op w alpha rn .mult_op
  let r := vv_op s.r w rn .minus
  let z := memcpy s.z M rn
  let z := vv_op z r rn .ewmult
  let rho_old := s.rho
  let rho := vv_dot r z rn
  ⟨x, r, p, z, w, tmp, rho, rho_old, alpha, beta, k⟩

/-- The loop `while (rho > rho_stop && k < n)` of `pcg`.  It is entered with `k = 0` and
each round increments `k`, so `n` rounds of fuel are never exhausted before the test
fails. -/
def pcg_loop {α : Type} [LinearOrderedField α] (A : csr_mat α) (M : List α)
    (rho_stop : α) (n : Nat) : Nat → pcg_state α → pcg_state α
  | 0, s => s
  | fuel + 1, s =>
    if s.rho > rho_stop ∧ s.k < n then pcg_loop A M rho_stop n fuel (pcg_body A M s) else s

/-- The state of `pcg` when the loop is reached (lines 669-706). -/
def pcg_init {α : Type} [LinearOrderedField α] (mem : pcg_mem α) (x : List α)
    (A : csr_mat α) (r M : List α) : pcg_state α :=
  let rn := A.rn
  let cn := A.cn
  let x := init_array x rn 0
  let p := init_array (tmalloc mem.p cn) cn 0
  let z := memcpy (tmalloc mem.z rn) M rn
  let z := vv_op z r rn .ewmult
  let rho := vv_dot r z rn
  ⟨x, r, p, z, tmalloc mem.w rn, tmalloc mem.tmp rn, rho, 1, 0, 0, 0⟩

/-- The iteration cap `n = (n <= 100) ? n : 100` of `pcg`; on a single process the global
row count is `rn`. -/
def pcg_n {α : Type} (A : csr_mat α) : Nat := if A.rn ≤ 100 then A.rn else 100

/-- The function `pcg`: the state it leaves on return; `k` is the returned count, `x` and
`r` are the arrays the caller sees. -/
def pcg {α : Type} [LinearOrderedField α] (mem : pcg_mem α) (x : List α) (A : csr_mat α)
    (r M : List α) (tol : α) : pcg_state α :=
  let s0 := pcg_init mem x A r M
  let rho_stop := tol * tol * s0.rho
  let n := pcg_n A
  if n = 0 then { s0 with w := ([] : List α), tmp := ([] : List α) }
  else pcg_loop A M rho_stop n n s0

/-- The `1 x 1` matrix `[[a]]`. -/
def scal1 {α : Type} (a : α) : csr_mat α := ⟨1, 1, [0, 1], [0], [a]⟩

/-! ## `interpolation` and `solve_weights` (lines 361-476), on a single process -/

/-- What `solve_weights` leaves behind: the two matrices it is given to write, and its
local array `au`. -/
structure solve_weights_out (α : Type) where
  W : csr_mat α
  W0 : csr_mat α
  au : List α

/-- The function `solve_weights`.  The call of `interp` is commented out in the source;
the only matrix written is `W0`.  `au0` is the content of the fresh array `au`. -/
def solve_weights {α : Type} [LinearOrderedField α] (au0 : List α) (W _W0 : csr_mat α)
    (_lam : List α) (W_skel _Af _Ar : csr_mat α) (rnc : Nat) (alpha u _v : List α)
    (_tol : α) : solve_weights_out α :=
  let au := memcpy (tmalloc au0 rnc) alpha rnc
  let au := vv_op au u rnc .ewmult
  let W0 := copy_csr W_skel
  ⟨W, W0, au⟩

/-- The contents of the arrays of `interpolation` when `tmalloc` returns them, and the
content of the fresh struct `W0`. -/
structure interpolation_mem (α : Type) where
  Df : List α
  Dfinv : List α
  uc : List α
  r : List α
  v : List α
  Dc : List α
  Dcinv : List α
  lam : List α
  au : List α
  W0 : csr_mat α
  pcg : pcg_mem α

/-- The array `Df` of `interpolation` (lines 380-381). -/
def interpolation_Df {α : Type} [LinearOrderedField α] (mem : interpolation_mem α)
    (Af : csr_mat α) : List α :=
  diag (tmalloc mem.Df Af.rn) Af

/-- The array `Dfinv` of `interpolation` (lines 383-385). -/
def interpolation_Dfinv {α : Type} [LinearOrderedField α] (sqrt : α → α)
    (mem : interpolation_mem α) (Af : csr_mat α) : List α :=
  (array_op sqrt (diag (tmalloc mem.Dfinv Af.rn) Af) Af.rn .minv_op).2

/-- The array `r = -Ar*uc` of `interpolation` (lines 389-394). -/
def interpolation_r {α : Type} [LinearOrderedField α] (mem : interpolation_mem α)
    (Af Ac Ar : csr_mat α) : List α :=
  let uc := init_array (tmalloc mem.uc Ac.cn) Ac.cn 1
  apply_M (tmalloc mem.r Af.rn) 0 uc (-1) Ar uc

/-- The matrix `ArD` of `interpolation` (lines 410-416). -/
def interpolation_ArD {α : Type} [LinearOrderedField α] (sqrt : α → α)
    (mem : interpolation_mem α) (Af Ac Ar : csr_mat α) : csr_mat α :=
  let Dcinv := diag (tmalloc mem.Dcinv Ac.cn) Ac
  let Dcinv := (array_op sqrt Dcinv Ac.rn .minv_op).2
  let ArD := copy_csr Ar
  let a := (array_op sqrt ArD.a (rd ArD.row_off ArD.rn) .sqr_op).2
  let ArD := { ArD with a := a }
  let ArD := diagcsr_op ArD (interpolation_Dfinv sqrt mem Af) .dmult
  diagcsr_op ArD Dcinv .multd

/-- What `interpolation` leaves behind: the matrix `W` it is given to write, and the local
objects `v`, `W_skel`, `W0` it computes; `pcg_M` records the array it passes to `pcg` as
the preconditioner, `pcg_k` the count `pcg` returns. -/
structure interpolation_out (α : Type) where
  W : csr_mat α
  W0 : csr_mat α
  W_skel : csr_mat α
  v : List α
  pcg_M : List α
  pcg_k : Nat

/-- The function `interpolation`. -/
def interpolation {α : Type} [LinearOrderedField α] (sqrt : α → α)
    (mem : interpolation_mem α) (W Af Ac Ar : csr_mat α) (_gamma2 tol : α) :
    interpolation_out α :=
  let rnf := Af.rn
  let rnc := Ac.rn
  let cnc := Ac.cn
  let W := if rnc = 0 then { W with rn := rnf, cn := 0 } else W
  let Df := interpolation_Df mem Af
  let uc := init_array (tmalloc mem.uc cnc) cnc 1
  let r := interpolation_r mem Af Ac Ar
  let v := tmalloc mem.v rnf
  let s := pcg mem.pcg v Af r Df (1 / 10 ^ 16)
  let Dc := diag (tmalloc mem.Dc cnc) Ac
  let W_skel := min_skel (interpolation_ArD sqrt mem Af Ac Ar)
  let lam := init_array (tmalloc mem.lam rnf) rnf 0
  let o := solve_weights mem.au W mem.W0 lam W_skel Af Ar rnc Dc uc s.x tol
  ⟨o.W, o.W0, W_skel, s.x, Df, s.k⟩

/-- An `interpolation_mem` whose arrays are all empty. -/
def interpolation_mem_zero (α : Type) : interpolation_mem α :=
  ⟨[], [], [], [], [], [], [], [], [], ⟨0, 0, [], [], []⟩, ⟨[], [], [], []⟩⟩

/-! ## `tdeig` and its helpers (lines 1045-1163) -/

/-- The constant `DBL_EPSILON` of `float.h`: `2^-52`. -/
def DBL_EPSILON {α : Type} [LinearOrderedField α] : α := 1 / 2 ^ 52

/-- The constant `EPS` (`#define EPS (128*DBL_EPSILON)`). -/
def EPS {α : Type} [LinearOrderedField α] : α := 128 * DBL_EPSILON

/-- The function `sum_3`. -/
def sum_3 {α : Type} [LinearOrderedField α] (a b c : α) : α :=
  if (a ≥ 0 ∧ b ≥ 0) ∨ (a ≤ 0 ∧ b ≤ 0) then (a + b) + c
  else if (a ≥ 0 ∧ c ≥ 0) ∨ (a ≤ 0 ∧ c ≤ 0) then (a + c) + b
  else a + (b + c)

/-- The function `rat_root`. -/
def rat_root {α : Type} [LinearOrderedField α] (sqrt : α → α) (a b c sign : α) : α :=
  let bh := (|b| + sqrt (b * b + 4 * a * c)) / 2
  sign * (if b * sign ≤ 0 then bh / a else c / bh)

/-- The accumulators of one round of `sec_root`. -/
structure sec_sums (α : Type) where
  al : α
  ar : α
  bln : α
  blp : α
  brn : α
  brp : α
  cl : α
  cr : α
  fn : α
  fp : α

/-- The body of the loop `for(i=1;i<=ri;++i)` of `sec_root`. -/
def sec_root_lo {α : Type} [LinearOrderedField α] (d v : List α) (dl dr x0l x0r : α)
    (s : sec_sums α) (i : Nat) : sec_sums α :=
  let den := (rd d i - dl) - x0l
  let fac := rd v i / den
  let num := sum_3 (rd d i) (-dr) (-2 * x0r)
  let fn := s.fn + rd v i * fac
  let fac := fac * fac
  let ar := s.ar + fac
  let brp := if num > 0 then s.brp + fac * num else s.brp
  let brn := if num > 0 then s.brn else s.brn + fac * num
  let bln := s.bln + fac * (rd d i - dl)
  let cl := s.cl + fac * x0l * x0l
  { s with fn := fn, ar := ar, brp := brp, brn := brn, bln := bln, cl := cl }

/-- The body of the loop `for(i=ri+1;i<=n;++i)` of `sec_root`. -/
def sec_root_hi {α : Type} [LinearOrderedField α] (d v : List α) (dl dr x0l x0r : α)
    (s : sec_sums α) (i : Nat) : sec_sums α :=
  let den := (rd d i - dr) - x0r
  let fac := rd v i / den
  let num := sum_3 (rd d i) (-dl) (-2 * x0l)
  let fp := s.fp + rd v i * fac
  let fac := fac * fac
  let al := s.al + fac
  let blp := if num > 0 then s.blp + fac * num else s.blp
  let bln := if num > 0 then s.bln else s.bln + fac * num
  let brp := s.brp + fac * (rd d i - dr)
  let cr := s.cr + fac * x0r * x0r
  { s with fp := fp, al := al, blp := blp, bln := bln, brp := brp, cr := cr }

/-- The sum `ty` of `sec_root` (the two loops of its last block). -/
def sec_root_ty {α : Type} [LinearOrderedField α] (d v : List α) (ri n : Nat)
    (dl dr x0l x0r : α) : α :=
  let ty := (List.range' 1 ri).foldl
    (fun ty i => ty + rd v i / ((rd d i - dl) - x0l) * (rd v i / ((rd d i - dl) - x0l))) 0
  (List.range' (ri + 1) (n - ri)).foldl
    (fun ty i => ty + rd v i / ((rd d i - dr) - x0r) * (rd v i / ((rd d i - dr) - x0r))) ty

/-- One round of the loop `for(;;)` of `sec_root`, from the computation of `lambda0` to
the update of `x0l`, `x0r`: the new `(x0l, x0r)`, then `(lambda0, lambda)`. -/
def sec_root_round {α : Type} [LinearOrderedField α] (sqrt : α → α) (d v : List α)
    (ri n : Nat) (dl dr L x0l x0r : α) : (α × α) × (α × α) :=
  let lambda0 := if |x0l| < |x0r| then dl + x0l else dr + x0r
  let s : sec_sums α := ⟨0, 0, 0, 0, 0, 0, 0, 0, 0, 0⟩
  let s := (List.range' 1 ri).foldl (sec_root_lo d v dl dr x0l x0r) s
  let s := (List.range' (ri + 1) (n - ri)).foldl (sec_root_hi d v dl dr x0l x0r) s
  let fp := if lambda0 > 0 then s.fp + lambda0 else s.fp
  let fn := if lambda0 > 0 then s.fn else s.fn + lambda0
  let neg := rd v 0 < 0
  let fp := if neg then fp - rd v 0 else fp
  let blp := if neg then s.blp - rd v 0 else s.blp
  let brp := if neg then s.brp - rd v 0 else s.brp
  let fn := if neg then fn else fn - rd v 0
  let bln := if neg then s.bln else s.bln - rd v 0
  let brn := if neg then s.brn else s.brn - rd v 0
  if fp + fn > 0 then
    let x0l1 := rat_root sqrt (1 + s.al) (sum_3 dl blp bln) s.cl 1
    let lambda := dl + x0l1
    let x0r1 := x0l1 - L
    ((x0l1, x0r1), (lambda0, lambda))
  else
    let x0r1 := rat_root sqrt (1 + s.ar) (sum_3 dr brp brn) s.cr (-1)
    let lambda := dr + x0r1
    let x0l1 := x0r1 + L
    ((x0l1, x0r1), (lambda0, lambda))

/-- The loop `for(;;)` of `sec_root`, on fuel; the state is `(x0l, x0r)` and the result is
`(lambda, *y)`. -/
def sec_root_loop {α : Type} [LinearOrderedField α] (sqrt : α → α) (d v : List α)
    (ri n : Nat) (dl dr L tol : α) : Nat → α → α → Option (α × α)
  | 0, _, _ => none
  | fuel + 1, x0l, x0r =>
    if |x0l| = 0 ∨ x0l < 0 then some (dl, 0)
    else if |x0r| = 0 ∨ x0r > 0 then some (dr, 0)
    else
      let t := sec_root_round sqrt d v ri n dl dr L x0l x0r
      if |t.2.2 - t.2.1| < tol then
        some (t.2.2, 1 / sqrt (1 + sec_root_ty d v ri n dl dr t.1.1 t.1.2))
      else sec_root_loop sqrt d v ri n dl dr L tol fuel t.1.1 t.1.2

/-- The function `sec_root`: `(lambda, *y)`, or `none` when the fuel runs out. -/
def sec_root {α : Type} [LinearOrderedField α] (sqrt : α → α) (fuel : Nat) (d v : List α)
    (ri n : Nat) : Option (α × α) :=
  let dl := rd d ri
  let dr := rd d (ri + 1)
  let L := dr - dl
  let x0l := L / 2
  let x0r := -L / 2
  let tol := L
  let tol := if |dl| > tol then |dl| else tol
  let tol := if |dr| > tol then |dr| else tol
  let tol := tol * EPS
  sec_root_loop sqrt d v ri n dl dr L tol fuel x0l x0r

/-- The first loop of `tdeig`: `(v1norm, min, max)`. -/
def tdeig_bounds {α : Type} [LinearOrderedField α] (d v : List α) (n : Nat) : α × α × α :=
  (List.range' 1 n).foldl
    (fun s i =>
      let vi := |rd v i|
      let a := rd d i - vi
      let b := rd d i + vi
      (s.1 + vi, (if a < s.2.1 then a else s.2.1), (if b > s.2.2 then b else s.2.2)))
    (0, rd v 0, rd v 0)

/-- The body of the last loop of `tdeig`: `lambda[i] = sec_root(&y[i],d,v,i,n)`. -/
def tdeig_step {α : Type} [LinearOrderedField α] (sqrt : α → α) (fuel : Nat)
    (d v : List α) (n : Nat) (acc : Option (List α × List α)) (i : Nat) :
    Option (List α × List α) :=
  match acc with
  | none => none
  | some p =>
    match sec_root sqrt fuel d v i n with
    | none => none
    | some q => some (p.1.set i q.1, p.2.set i q.2)

/-- The function `tdeig`: the arrays `(lambda, y, d)` after the call. -/
def tdeig {α : Type} [LinearOrderedField α] (sqrt : α → α) (fuel : Nat)
    (lambda y d v : List α) (n : Nat) : Option (List α × List α × List α) :=
  let s := tdeig_bounds d v n
  let v1norm := s.1
  let min := s.2.1
  let max := s.2.2
  let d := d.set 0 (if rd v 0 - v1norm < min then rd v 0 - v1norm else min)
  let d := d.set (n + 1) (if rd v 0 + v1norm > max then rd v 0 + v1norm else max)
  ((List.range (n + 1)).foldl (tdeig_step sqrt fuel d v n) (some (lambda, y))).map
    (fun p => (p.1, p.2, d))

/-! ## `lanczos` (lines 850-1043), on a single process -/

/-- The arrays and local variables of `lanczos` that live across the iterations of its
loop; `l` is the array `*lambda`. -/
structure lanczos_state (α : Type) where
  r : List α
  qk : List α
  qkm1 : List α
  alphaqk : List α
  Aqk : List α
  l : List α
  y : List α
  a : List α
  b : List α
  d : List α
  v : List α
  beta : α
  change : α
  k : Nat
  na : Nat
  nb : Nat

/-- The contents of the arrays of `lanczos` when `tmalloc` returns them. -/
structure lanczos_mem (α : Type) where
  r : List α
  l : List α
  y : List α
  a : List α
  b : List α
  d : List α
  v : List α
  eye : List α
  qk : List α
  qkm1 : List α
  alphaqk : List α
  Aqk : List α

/-- The local constant `kmax` of `lanczos`. -/
def lanczos_kmax : Nat := 300

/-- The value `fronorm` of `lanczos` (lines 887-909): the 2-norm of the stored values of
`A` after `1` is subtracted from every stored diagonal entry. -/
def lanczos_fronorm {α : Type} [LinearOrderedField α] (sqrt : α → α) (eye0 : List α)
    (A : csr_mat α) : α :=
  let rn := A.rn
  let eye := init_array (tmalloc eye0 rn) rn 1
  let Acpy := copy_csr A
  let Acpy := diagcsr_op Acpy eye .dminus
  let fronorm := (array_op sqrt Acpy.a (rd Acpy.row_off rn) .norm2_op).1
  let fronorm2 := fronorm * fronorm
  sqrt fronorm2

/-- The state of `lanczos` when its loop is reached (lines 856-946).  `rnd` holds the
values `(double)rand() / (double)RAND_MAX` drawn for `r`.  The test `fronorm < 1e-11`
compares the exact norm with `1/10^11`; the code compares the rounded norm with the double
nearest to `1e-11`. -/
def lanczos_start {α : Type} [LinearOrderedField α] (sqrt : α → α) (mem : lanczos_mem α)
    (rnd : List α) (A : csr_mat α) : lanczos_state α :=
  let rn := A.rn
  let cn := A.cn
  let r := forUpd rn (fun i _ => rd rnd i) (tmalloc mem.r rn)
  let kmax := lanczos_kmax
  let l := tmalloc mem.l kmax
  let y := tmalloc mem.y kmax
  let a := tmalloc mem.a kmax
  let b := tmalloc mem.b kmax
  let d := tmalloc mem.d (kmax + 1)
  let v := tmalloc mem.v kmax
  let beta := (array_op sqrt r rn .norm2_op).1
  let beta2 := beta * beta
  let beta := sqrt beta2
  let fronorm := lanczos_fronorm sqrt mem.eye A
  let small := fronorm < 1 / 10 ^ 11
  let l := if small then (l.set 0 1).set 1 1 else l
  let y := if small then (y.set 0 0).set 1 0 else y
  let k := if small then 2 else 0
  let change : α := if small then 0 else 1
  let rnglob := rn
  let A00 := if rn = 1 then rd A.a 0 else 0
  let l := if rnglob = 1 then (l.set 0 A00).set 1 A00 else l
  let y := if rnglob = 1 then (y.set 0 0).set 1 0 else y
  let k := if rnglob = 1 then 2 else k
  let change := if rnglob = 1 then 0 else change
  let qk := init_array (tmalloc mem.qk cn) cn 0
  let qkm1 := tmalloc mem.qkm1 rn
  let alphaqk := tmalloc mem.alphaqk rn
  let Aqk := tmalloc mem.Aqk rn
  ⟨r, qk, qkm1, alphaqk, Aqk, l, y, a, b, d, v, beta, change, k, 0, 0⟩

/-- The branch `if (k == 1) ... else ...` of the loop of `lanczos` (lines 987-1008): the
arrays `(l, y, d, v)` and `change` after it. -/
def lanczos_ritz {α : Type} [LinearOrderedField α] (sqrt : α → α) (fuel : Nat)
    (s : lanczos_state α) (k : Nat) (alpha : α) :
    Option (List α × List α × List α × List α × α) :=
  if k = 1 then some (s.l.set 0 alpha, s.y.set 0 1, s.d, s.v, s.change)
  else
    let l0 := rd s.l 0
    let lkm2 := rd s.l (k - 2)
    let d := s.d.set 0 0
    let d := (List.range' 1 (k - 1)).foldl (fun d i => d.set i (rd s.l (i - 1))) d
    let d := d.set k 0
    let v := s.v.set 0 alpha
    let v := (List.range' 1 (k - 1)).foldl (fun v i => v.set i (s.beta * rd s.y (i - 1))) v
    match tdeig sqrt fuel s.l s.y d v (k - 1) with
    | none => none
    | some t => some (t.1, t.2.1, t.2.2, v, |l0 - rd t.1 0| + |lkm2 - rd t.1 (k - 1)|)

/-- The body of the loop of `lanczos` (lines 958-1015), up to the test of the `break`. -/
def lanczos_body {α : Type} [LinearOrderedField α] (sqrt : α → α) (fuel : Nat)
    (A : csr_mat α) (s : lanczos_state α) : Option (lanczos_state α) :=
  let rn := A.rn
  let k := s.k + 1
  let qkm1 := memcpy s.qkm1 s.qk rn
  let qk := memcpy s.qk s.r rn
  let qk := ar_scal_op qk (1 / s.beta) rn .mult_op
  let Aqk := apply_M s.Aqk 0 qk 1 A qk
  let alpha := vv_dot qk Aqk rn
  let a := s.a.set s.na alpha
  let na := s.na + 1
  let alphaqk := memcpy s.alphaqk qk rn
  let alphaqk := ar_scal_op alphaqk alpha rn .mult_op
  let qkm1 := ar_scal_op qkm1 s.beta rn .mult_op
  let r := memcpy s.r Aqk rn
  let r := vv_op r alphaqk rn .minus
  let r := vv_op r qkm1 rn .minus
  match lanczos_ritz sqrt fuel s k alpha with
  | none => none
  | some t =>
    let beta := (array_op sqrt r rn .norm2_op).1
    let beta2 := beta * beta
    let beta := sqrt beta2
    let b := s.b.set s.nb beta
    let nb := s.nb + 1
    some ⟨r, qk, qkm1, alphaqk, Aqk, t.1, t.2.1, a, b, t.2.2.1, t.2.2.2.1, beta, t.2.2.2.2,
      k, na, nb⟩

/-- The loop `while (k < kmax && (change > 1e-5 || y[0] > 1e-3 || y[k-1] > 1e-3))` of
`lanczos`, with its `break` on `beta == 0`.  Every round increments `k`, so `kmax` rounds
are never exhausted before the test fails; `none` only when `sec_root` runs out of fuel.
At `k = 0` the test holds through `change = 1`, and C does not evaluate `y[k-1]`. -/
def lanczos_loop {α : Type} [LinearOrderedField α] (sqrt : α → α) (fuel : Nat)
    (A : csr_mat α) : Nat → lanczos_state α → Option (lanczos_state α)
  | 0, s => some s
  | rounds + 1, s =>
    if s.k < lanczos_kmax ∧
        (s.change > 1 / 10 ^ 5 ∨ rd s.y 0 > 1 / 10 ^ 3 ∨ rd s.y (s.k - 1) > 1 / 10 ^ 3) then
      match lanczos_body sqrt fuel A s with
      | none => none
      | some s1 => if s1.beta = 0 then some s1 else lanczos_loop sqrt fuel A rounds s1
    else some s

/-- The state of `lanczos` when its loop is left. -/
def lanczos_core {α : Type} [LinearOrderedField α] (sqrt : α → α) (mem : lanczos_mem α)
    (fuel : Nat) (rnd : List α) (A : csr_mat α) : Option (lanczos_state α) :=
  lanczos_loop sqrt fuel A lanczos_kmax (lanczos_start sqrt mem rnd A)

/-- The output loop of `lanczos` (lines 1021-1029): `(*lambda, n)`.  The array `*lambda`
is the array `l` itself, compacted in place. -/
def lanczos_filter {α : Type} [LinearOrderedField α] (l y : List α) (k : Nat) :
    List α × Nat :=
  (List.range k).foldl
    (fun s i => if rd y i < 1 / 100 then (s.1.set s.2 (rd s.1 i), s.2 + 1) else s) (l, 0)

/-- The function `lanczos`: the returned count and the array `*lambda`; `none` when
`sec_root` runs out of fuel. -/
def lanczos {α : Type} [LinearOrderedField α] (sqrt : α → α) (mem : lanczos_mem α)
    (fuel : Nat) (rnd : List α) (A : csr_mat α) : Option (Nat × List α) :=
  (lanczos_core sqrt mem fuel rnd A).map
    (fun s => ((lanczos_filter s.l s.y s.k).2, (lanczos_filter s.l s.y s.k).1))

/-- The squared Frobenius norm of `A - I`: every stored entry, less `1` on the diagonal, and
`1` for every diagonal entry that is not stored. -/
def fro2_sub_eye {α : Type} [LinearOrderedField α] (A : csr_mat α) : α :=
  (List.range A.rn).foldl
    (fun s i => s +
      ((rowIdx A i).foldl
          (fun t j => t + (rd A.a j - (if rd A.col j = i then 1 else 0)) ^ 2) 0 +
        (if diagPos A i = none ∧ i < A.cn then 1 else 0)))
    0

/-- A `lanczos_mem` whose arrays are all empty. -/
def lanczos_mem_zero (α : Type) : lanczos_mem α := ⟨[], [], [], [], [], [], [], [], [], [], [], []⟩

/-! ## The smoother block of `amg_setup` (lines 147-259), on a single process -/

/-- The contents of the arrays of the smoother block of `amg_setup` when `tmalloc` returns
them. -/
structure smoother_mem (α : Type) where
  af : List α
  s : List α
  D : List α
  Dh : List α
  lanczos : lanczos_mem α

/-- The array `af2 = Af.*Af` of `amg_setup` (lines 174-177). -/
def amg_setup_af2 {α : Type} [LinearOrderedField α] (af0 : List α) (Af : csr_mat α) :
    List α :=
  let ncolf := rd Af.row_off Af.rn
  let af := memcpy (tmalloc af0 ncolf) Af.a ncolf
  vv_op af af ncolf .ewmult

/-- The body of the loop that fills `s` (lines 182-190).  The state is the array `s` and
the distance the pointer `af2` has advanced. -/
def amg_setup_s_step {α : Type} [LinearOrderedField α] (sqrt : α → α) (Af : csr_mat α)
    (af2 : List α) (st : List α × Nat) (i : Nat) : List α × Nat :=
  let js := rd Af.row_off i
  let je := rd Af.row_off (i + 1)
  let nsum := toUint ((je : Int) - (js : Int))
  (st.1.set i (array_op sqrt (af2.drop st.2) nsum .sum_op).1, st.2 + nsum)

/-- The array `D = diag(Af)' .* s`, `s = 1./sum(Af.*Af)`, of `amg_setup`
(lines 174-199).  The quotient `1./sum` is the one of the field: for a row whose sum of
squares is `0` it is `0` here, where the code computes `inf`, and then `D[i] = NaN`. -/
def amg_setup_D {α : Type} [LinearOrderedField α] (sqrt : α → α) (mem : smoother_mem α)
    (Af : csr_mat α) : List α :=
  let rnf := Af.rn
  let af2 := amg_setup_af2 mem.af Af
  let s := ((List.range rnf).foldl (amg_setup_s_step sqrt Af af2) (tmalloc mem.s rnf, 0)).1
  let s := (array_op sqrt s rnf .minv_op).2
  let D := init_array (tmalloc mem.D rnf) rnf (-1)
  let D := diag D Af
  vv_op D s rnf .ewmult

/-- What the smoother block of `amg_setup` stores for the level: `data->Dff`,
`data->cheb_rho[slevel]`, `data->cheb_m[slevel]`, and the local `gap`. -/
structure smoother_out (α : Type) where
  Dff : List α
  cheb_rho : α
  cheb_m : Nat
  gap : α

/-- The smoother block of `amg_setup` (lines 174-259) for the fine matrix `Af`.  `fuelL`
and `fuelC` bound the loops of `sec_root` and `chebsim`; the result is `none` when one of
them runs out. -/
def amg_setup_smoother {α : Type} [LinearOrderedField α] [FloorRing α] (sqrt : α → α)
    (mem : smoother_mem α) (fuelL fuelC : Nat) (rnd : List α) (Af : csr_mat α) :
    Option (smoother_out α) :=
  let tol : α := 1 / 2
  let gamma2 := 1 - sqrt (1 - tol)
  let rnf := Af.rn
  let cnf := Af.cn
  let D := amg_setup_D sqrt mem Af
  let nf := rnf
  if nf ≥ 2 then
    let Dh := memcpy (tmalloc mem.Dh cnf) D rnf
    let Dh := (array_op sqrt Dh rnf .sqrt_op).2
    let DhAfDh := copy_csr Af
    let DhAfDh := diagcsr_op DhAfDh Dh .dmult
    let DhAfDh := diagcsr_op DhAfDh Dh .multd
    match lanczos sqrt mem.lanczos fuelL rnd DhAfDh with
    | none => none
    | some kl =>
      let a := rd kl.2 0
      let b := rd kl.2 (toUint ((kl.1 : Int) - 1))
      let D := ar_scal_op D (2 / (a + b)) rnf .mult_op
      let rho := (b - a) / (b + a)
      match chebsim fuelC rho gamma2 with
      | none => none
      | some mc => some ⟨D, rho, toUint (Int.floor mc.1), gamma2 - mc.2⟩
  else some ⟨D, 0, 1, 0⟩

/-- A `smoother_mem` whose arrays are all empty. -/
def smoother_mem_zero (α : Type) : smoother_mem α := ⟨[], [], [], [], lanczos_mem_zero α⟩

/-! ## Symmetric positive definite matrices and the iterates of `pcg` -/

/-- The first `N` cells of an array, as a vector. -/
def vecN {α : Type} [Zero α] (N : Nat) (l : List α) : Fin N → α := fun i => rd l i

/-- The product `A*u` of a CSR matrix with `N` rows and a vector of `N` values, row by row
as `apply_M` accumulates it. -/
def csr_op {α : Type} [LinearOrderedField α] (N : Nat) (A : csr_mat α) (u : Fin N → α) :
    Fin N → α :=
  fun i => (rowIdx A i).foldl
    (fun t j => t + rd A.a j * (if h : rd A.col j < N then u ⟨rd A.col j, h⟩ else 0)) 0

/-- A symmetric positive definite `N x N` matrix (`N = rn = cn`): well-formed, with
`u.(A v) = (A u).v` for all vectors and `u.(A u) > 0` for every `u != 0`. -/
def csr_spd {α : Type} [LinearOrderedField α] (A : csr_mat α) : Prop :=
  csr_wf A ∧ A.cn = A.rn ∧
  (∀ u v : Fin A.rn → α,
    Matrix.dotProduct u (csr_op A.rn A v) = Matrix.dotProduct (csr_op A.rn A u) v) ∧
  (∀ u : Fin A.rn → α, u ≠ 0 → 0 < Matrix.dotProduct u (csr_op A.rn A u))

/-- The state of `pcg` after `k` rounds of its loop body. -/
def pcg_iter {α : Type} [LinearOrderedField α] (mem : pcg_mem α) (x : List α)
    (A : csr_mat α) (r M : List α) (k : Nat) : pcg_state α :=
  (pcg_body A M)^[k] (pcg_init mem x A r M)

/-- The squared `A`-norm `e.(A e)` of a vector. -/
def Anorm2 {α : Type} [LinearOrderedField α] (A : csr_mat α) (e : Fin A.rn → α) : α :=
  Matrix.dotProduct e (csr_op A.rn A e)

/-- The symmetric positive definite `2 x 2` matrix `[[2, 1], [1, 2]]`. -/
def spd2 (α : Type) [LinearOrderedField α] : csr_mat α :=
  ⟨2, 2, [0, 2, 4], [0, 1, 0, 1], [2, 1, 1, 2]⟩

/-! ## Assembly: `build_setup_data`, `build_csr`, `remdup` (lines 1713-1943) -/

/-- The struct `rid` of the library: a process and a local index. -/
structure rid where
  p : Nat
  i : Nat
deriving DecidableEq, Repr

instance : Zero rid := ⟨⟨0, 0⟩⟩

/-- The struct `rnz` of the library: a value with the `rid` of its row and column. -/
structure rnz (α : Type) where
  v : α
  i : rid
  j : rid

/-- The struct `labelled_rid` of the library: a `rid` and its global id. -/
structure labelled_rid where
  rid : rid
  id : Nat
deriving DecidableEq, Repr

instance : Zero labelled_rid := ⟨⟨0, 0⟩⟩

/-- The struct `coo_mat`: a triple `(i, j, v)`. -/
structure coo_mat (α : Type) where
  i : Nat
  j : Nat
  v : α

instance {α : Type} [Zero α] : Zero (coo_mat α) := ⟨⟨0, 0, 0⟩⟩

instance {α : Type} [Zero α] : Zero (rnz α) := ⟨⟨0, 0, 0⟩⟩

/-- The first loop of `build_setup_data` (lines 1822-1828): the array `mat` of the triples
that are kept; `mat.n` is its length.  `rid_map` is the array filled by `assign_dofs`. -/
def build_setup_emit {α : Type} [LinearOrderedField α] (id Ai Aj : List Nat) (Av : List α)
    (rid_map : List rid) (nz_unassembled : Nat) : List (rnz α) :=
  (List.range nz_unassembled).foldl
    (fun out k =>
      let i := rd Ai k
      let j := rd Aj k
      let a := rd Av k
      if rd id i = 0 ∨ rd id j = 0 ∨ |a| = 0 then out
      else out ++ [⟨a, rd rid_map i, rd rid_map j⟩])
    []

/-- The body of the loop of `remdup`; the state is the array and `last`. -/
def remdup_step (s : List Nat × Nat) (i : Nat) : List Nat × Nat :=
  if rd s.1 i ≠ rd s.1 s.2 then (s.1.set (s.2 + 1) (rd s.1 i), s.2 + 1) else s

/-- The function `remdup`: the array after the call and the returned count. -/
def remdup (array : List Nat) (size : Nat) : List Nat × Nat :=
  let s := (List.range' 1 (size - 1)).foldl remdup_step (array, 0)
  (s.1, s.2 + 1)

/-- The function `comp_uint`. -/
def comp_uint (a b : Nat) : Int := if a > b then 1 else if a < b then -1 else 0

/-- The function `comp_coo_ij`. -/
def comp_coo_ij {α : Type} (a b : coo_mat α) : Int :=
  if a.i > b.i ∨ (a.i = b.i ∧ a.j > b.j) then 1
  else if a.i = b.i ∧ a.j = b.j then 0
  else -1

/-- The conversion of a `slong` to the `int` parameter of `abs`: the value modulo `2^32`
in the range from `-2^31` to `2^31 - 1`. -/
def toInt32 (x : Int) : Int := (x + 2147483648) % 4294967296 - 2147483648

/-- The library function `abs`, of type `int abs(int)`, called on a `slong`: the argument
is converted to `int` first.  `abs(INT_MIN)`, undefined in C, is `INT_MIN` here. -/
def c_abs (x : Int) : Int := if toInt32 x < 0 then toInt32 (-toInt32 x) else toInt32 x

/-- The function `comp_gs_id`: it compares `abs(*(slong*)a)` with `abs(*(slong*)b)`. -/
def comp_gs_id (a b : Int) : Int :=
  if c_abs a > c_abs b then 1 else if c_abs a < c_abs b then -1 else 0

/-- The library function `qsort`, as an insertion sort for the order `cmp a b <= 0`.  On an
array of numbers, and on an array without two elements that compare equal, every sorting
function returns the same array. -/
def qsort {β : Type} (cmp : β → β → Int) (l : List β) : List β :=
  l.insertionSort (fun a b => cmp a b ≤ 0)

/-- The loop of a binary search on `base[lo..hi)`, on fuel. -/
def bsearch_loop {β : Type} [Zero β] (cmp : β → β → Int) (key : β) (base : List β) :
    Nat → Nat → Nat → Option Nat
  | 0, _, _ => none
  | fuel + 1, lo, hi =>
    if lo < hi then
      let mid := (lo + hi) / 2
      let c := cmp key (rd base mid)
      if c < 0 then bsearch_loop cmp key base fuel lo mid
      else if c > 0 then bsearch_loop cmp key base fuel (mid + 1) hi
      else some mid
    else none

/-- The library function `bsearch` on the first `n` cells of `base`, as a binary search:
the index of a cell that compares equal to `key`, or `none` for `NULL`.  The interval
shrinks in every round, so `n` rounds of fuel are never exhausted. -/
def bsearch {β : Type} [Zero β] (cmp : β → β → Int) (key : β) (base : List β) (n : Nat) :
    Option Nat :=
  bsearch_loop cmp key base n 0 n

/-- The state of the loop that fills `gs_id` (lines 1891-1895): the array, the positions
`p` and `q`, and the list of the indices written so far. -/
structure gs_id_state where
  gs_id : List Int
  p : Nat
  q : Nat
  writes : List Nat

/-- The body of the loop that fills `gs_id`.  `cols[i]+1` is a `uint` sum. -/
def build_gs_id_step (rows cols : List Nat) (s : gs_id_state) (i : Nat) : gs_id_state :=
  if rd cols i = rd rows s.p then
    ⟨s.gs_id.set s.p (((rd cols i + 1) % 4294967296 : Nat) : Int), s.p + 1, s.q,
      s.writes ++ [s.p]⟩
  else
    ⟨s.gs_id.set s.q (-(((rd cols i + 1) % 4294967296 : Nat) : Int)), s.p, s.q + 1,
      s.writes ++ [s.q]⟩

/-- The loop that fills `gs_id` (lines 1888-1895). -/
def build_gs_id (gs0 : List Int) (rows cols : List Nat) (rn cn : Nat) : gs_id_state :=
  (List.range cn).foldl (build_gs_id_step rows cols) ⟨tmalloc gs0 cn, 0, rn, []⟩

/-- The state of the loop of `build_csr`: the arrays of `A` and the locals `counter`,
`row_prev`. -/
structure build_csr_state (α : Type) where
  row_off : List Nat
  col : List Nat
  a : List α
  counter : Nat
  row_prev : Nat

/-- The column index computed by `build_csr` for the global column `j` (lines 1741-1749).
`bad` is the value of `(uint)(NULL - gs_id)`, taken when both searches fail. -/
def build_csr_col (gs_id : List Int) (rn cn : Nat) (bad : Nat) (j : Nat) : Nat :=
  let key : Int := (j : Int) + 1
  match bsearch comp_gs_id key gs_id rn with
  | some t => t
  | none =>
    match bsearch comp_gs_id key (gs_id.drop rn) (toUint ((cn : Int) - (rn : Int))) with
    | some t => rn + t
    | none => bad

/-- The body of the loop of `build_csr`. -/
def build_csr_step {α : Type} [Zero α] (coo_A : List (coo_mat α)) (nnz rn cn : Nat)
    (gs_id : List Int) (bad : Nat) (s : build_csr_state α) (i : Nat) : build_csr_state α :=
  let row_cur := (rd coo_A i).i
  let row_off1 := if row_cur ≠ s.row_prev then s.row_off.set s.counter i else s.row_off
  let counter1 := if row_cur ≠ s.row_prev then s.counter + 1 else s.counter
  let last := i = toUint ((nnz : Int) - 1)
  let row_off2 := if last then row_off1.set counter1 nnz else row_off1
  let counter2 := if last then counter1 + 1 else counter1
  ⟨row_off2, s.col.set i (build_csr_col gs_id rn cn bad (rd coo_A i).j),
    s.a.set i (rd coo_A i).v, counter2, row_cur⟩

/-- The function `build_csr`: the matrix `A` after the call, and the final value of
`counter` (the cells `row_off[0..counter)` have been written, in this order). -/
def build_csr {α : Type} [Zero α] (A : csr_mat α) (coo_A : List (coo_mat α)) (nnz : Nat)
    (gs_id : List Int) (bad : Nat) : csr_mat α × Nat :=
  let s0 : build_csr_state α := ⟨A.row_off.set 0 0, A.col, A.a, 1, (rd coo_A 0).i⟩
  let s := (List.range nnz).foldl (build_csr_step coo_A nnz A.rn A.cn gs_id bad) s0
  (⟨A.rn, A.cn, s.row_off, s.col, s.a⟩, s.counter)

/-- The contents of the arrays of `build_setup_data` when `tmalloc` returns them. -/
structure build_setup_mem (α : Type) where
  rows : List Nat
  cols : List Nat
  gs_id : List Int
  row_off : List Nat
  col : List Nat
  a : List α
  bad : Nat

/-- What the second half of `build_setup_data` computes from the array `coo_A`
(lines 1868-1906): the matrix `A`, the array `gs_id`, the indices of `gs_id` that were
written, and the arrays `rows` and `cols` after `remdup`. -/
structure build_setup_out (α : Type) where
  A : csr_mat α
  gs_id : List Int
  writes : List Nat
  rows : List Nat
  cols : List Nat

/-- The second half of `build_setup_data`, from the `qsort` of `coo_A` (lines 1868-1906). -/
def build_setup_tail {α : Type} [Zero α] (mem : build_setup_mem α)
    (coo_A : List (coo_mat α)) (nnz : Nat) : build_setup_out α :=
  let coo_A := qsort comp_coo_ij coo_A
  let rows := forUpd nnz (fun i _ => (rd coo_A i).i) (tmalloc mem.rows nnz)
  let cols := forUpd nnz (fun i _ => (rd coo_A i).j) (tmalloc mem.cols nnz)
  let rr := remdup rows nnz
  let cols := qsort comp_uint cols
  let cc := remdup cols nnz
  let rn := rr.2
  let cn := cc.2
  let g := build_gs_id mem.gs_id rr.1 cc.1 rn cn
  let A : csr_mat α :=
    ⟨rn, cn, tmalloc mem.row_off (rn + 1), tmalloc mem.col nnz, tmalloc mem.a nnz⟩
  ⟨(build_csr A coo_A nnz g.gs_id mem.bad).1, g.gs_id, g.writes, rr.1, cc.1⟩

/-- The position reached by `while (P(*rlbl)) ++rlbl` from position `r`. -/
def advance {β : Type} (P : β → Bool) (l : List β) (r : Nat) : Nat :=
  r + ((l.drop r).takeWhile P).length

/-- The body of the loop that builds `coo_A` (lines 1843-1861); the state is the array
written so far and the position of `rlbl`.  `(uint)uid_ptr[k]-1` and `rlbl->id-1` are taken
modulo `2^32`. -/
def build_coo_step {α : Type} (uid : List Nat) (pid : Nat) (nonlocal_id : List labelled_rid)
    (s : List (coo_mat α) × Nat) (nz : rnz α) : List (coo_mat α) × Nat :=
  let i := (rd uid nz.i.i % 4294967296 + 4294967295) % 4294967296
  if nz.j.p = pid then
    (s.1 ++ [⟨i, (rd uid nz.j.i % 4294967296 + 4294967295) % 4294967296, nz.v⟩], s.2)
  else
    let r1 := advance (fun x => decide (x.rid.p < nz.j.p)) nonlocal_id s.2
    let r2 := advance (fun x => decide (x.rid.i < nz.j.i)) nonlocal_id r1
    (s.1 ++ [⟨i, ((rd nonlocal_id r2).id % 4294967296 + 4294967295) % 4294967296, nz.v⟩], r2)

/-- What `build_setup_data` obtains from the library: the arrays `rid_map` and `uid` of
`assign_dofs`, the process id, the effect of `mat_distribute` on the array `mat`, and the
array of `mat_list_nonlocal_sorted`. -/
structure assembly_ext (α : Type) where
  rid_map : List rid
  uid : List Nat
  pid : Nat
  distribute : List (rnz α) → List (rnz α)
  nonlocal_id : List labelled_rid

/-- The function `build_setup_data`. -/
def build_setup_data {α : Type} [LinearOrderedField α] (ext : assembly_ext α)
    (mem : build_setup_mem α) (id : List Nat) (nz_unassembled : Nat)
    (Ai Aj : List Nat) (Av : List α) : build_setup_out α :=
  let mat := build_setup_emit id Ai Aj Av ext.rid_map nz_unassembled
  let mat := ext.distribute mat
  let nnz := mat.length
  let coo_A := (mat.foldl (build_coo_step ext.uid ext.pid ext.nonlocal_id) ([], 0)).1
  build_setup_tail mem coo_A nnz

/-! ## The driver `amg_setup` (lines 54-352), on a single process -/

instance {α : Type} : Zero (csr_mat α) := ⟨⟨0, 0, [], [], []⟩⟩

/-- The fields of `struct crs_data` that `amg_setup` fills, without the gather-scatter
handles.  An array of structs is a list; after `data->Aff = Af` the field `Aff` points to
the single struct `Af`. -/
structure crs_data (α : Type) where
  tni : α
  levels : Nat
  lvl_offset : List Nat
  cheb_m : List Nat
  cheb_rho : List α
  Dff : List α
  W : List (csr_mat α)
  AfP : List (csr_mat α)
  Aff : List (csr_mat α)
  b : List α
  x : List α
  c : List α
  c_old : List α
  r : List α
  buf : List α
  timing_n : Nat
  timing : List α

/-- The contents of the memory that `amg_setup` allocates itself, when `tmalloc` returns
it; `Wloc` is the content of the fresh struct `W` of line 286. -/
structure amg_setup_mem (α : Type) where
  cheb_m : List Nat
  cheb_rho : List α
  lvl_offset : List Nat
  Dff : List α
  W : List (csr_mat α)
  AfP : List (csr_mat α)
  Aff : List (csr_mat α)
  vc : List α
  vf : List α
  Wloc : csr_mat α
  b : List α
  x : List α
  c : List α
  c_old : List α
  r : List α
  buf : List α
  timing : List α
  coarsen : coarsen_mem α
  smoother : smoother_mem α
  interpolation : interpolation_mem α

/-- What `amg_setup` has computed when it returns: the struct `data`, and the locals `Af`
and `W` (the matrix written by `interpolation`) as they are before the frees. -/
structure amg_setup_out (α : Type) where
  data : crs_data α
  Af : csr_mat α
  W : csr_mat α

/-- One round of the loop that computes `max_f` and `max_e` (lines 302-315). -/
def amg_setup_max_step {α : Type} (lvl_offset : List Nat) (W AfP Aff : List (csr_mat α))
    (s : Nat × Nat) (i : Nat) : Nat × Nat :=
  let f := toUint ((rd lvl_offset (i + 1) : Int) - (rd lvl_offset i : Int))
  let max_f := if f > s.1 then f else s.1
  let e := (rd W i).cn
  let max_e := if e > s.2 then e else s.2
  let e := (rd AfP i).cn
  let max_e := if e > max_e then e else max_e
  let e := (rd Aff i).cn
  let max_e := if e > max_e then e else max_e
  (max_f, max_e)

/-- The body of `amg_setup` after the call of `build_setup_data` (lines 70-352), for the
assembled matrix `A` and the array `gs_id`.  `fuel`, `fuelL` and `fuelC` bound the loops of
`coarsen`, `sec_root` and `chebsim`; the result is `none` when one of them runs out. -/
def amg_setup_core {α : Type} [LinearOrderedField α] [FloorRing α] (sqrt : α → α)
    (mem : amg_setup_mem α) (fuel fuelL fuelC : Nat) (rnd : List α) (A : csr_mat α)
    (gs_id : List Int) : Option (amg_setup_out α) :=
  let rn := A.rn
  let cn := A.cn
  let rnglob := rn
  let tni : α := 1 / (rnglob : α)
  let initsize := 10
  let cheb_m := tmalloc mem.cheb_m initsize
  let cheb_rho := tmalloc mem.cheb_rho initsize
  let lvl_offset := tmalloc mem.lvl_offset (initsize + 1)
  let W := tmalloc mem.W initsize
  let AfP := tmalloc mem.AfP initsize
  let slevel := 0
  let offset := 0
  let lvl_offset := lvl_offset.set slevel offset
  let tol : α := 1 / 2
  let ctol : α := 7 / 10
  let itol : α := 1 / 10 ^ 4
  let gamma2 := 1 - sqrt (1 - tol)
  match coarsen sqrt mem.coarsen fuel (tmalloc mem.vc cn) A ctol gs_id with
  | none => none
  | some vc =>
    let vf := amg_setup_vf mem.vf cn vc
    let Af := sub_mat A vf vf
    let rnf := Af.rn
    match amg_setup_smoother sqrt mem.smoother fuelL fuelC rnd Af with
    | none => none
    | some sm =>
      let Dff := sm.Dff
      let cheb_rho := cheb_rho.set slevel sm.cheb_rho
      let cheb_m := cheb_m.set slevel sm.cheb_m
      let Aff := [Af]
      let Afc := sub_mat A vf vc
      let Ac := sub_mat A vc vc
      let Wl := (interpolation sqrt mem.interpolation mem.Wloc Af Ac Afc gamma2 itol).W
      let offset := (offset + rnf) % 4294967296
      let slevel := slevel + 1
      let lvl_offset := lvl_offset.set slevel offset
      let levels := slevel
      let mx := (List.range slevel).foldl (amg_setup_max_step lvl_offset W AfP Aff) (0, 0)
      let nt := toUint (6 * ((slevel : Int) - 1))
      some ⟨⟨tni, levels, lvl_offset, cheb_m, cheb_rho, Dff, W, AfP, Aff,
          init_array (tmalloc mem.b rn) rn 0, init_array (tmalloc mem.x rn) rn 0,
          init_array (tmalloc mem.c mx.1) mx.1 0,
          init_array (tmalloc mem.c_old mx.1) mx.1 0,
          init_array (tmalloc mem.r mx.1) mx.1 0,
          init_array (tmalloc mem.buf mx.2) mx.2 0,
          0, init_array (tmalloc mem.timing nt) nt 0⟩, Af, Wl⟩

/-- The function `amg_setup`. -/
def amg_setup {α : Type} [LinearOrderedField α] [FloorRing α] (sqrt : α → α)
    (ext : assembly_ext α) (memb : build_setup_mem α) (mem : amg_setup_mem α)
    (fuel fuelL fuelC : Nat) (rnd : List α) (id : List Nat) (nz_unassembled : Nat)
    (Ai Aj : List Nat) (Av : List α) : Option (amg_setup_out α) :=
  let o := build_setup_data ext memb id nz_unassembled Ai Aj Av
  amg_setup_core sqrt mem fuel fuelL fuelC rnd o.A o.gs_id

/-- An `amg_setup_mem` whose arrays are all empty and whose structs are all zero. -/
def amg_setup_mem_zero (α : Type) : amg_setup_mem α :=
  ⟨[], [], [], [], [], [], [], [], [], ⟨0, 0, [], [], []⟩, [], [], [], [], [], [], [],
    mem_zero α, smoother_mem_zero α, interpolation_mem_zero α⟩

/-- A `build_setup_mem` whose arrays are all empty. -/
def build_setup_mem_zero (α : Type) : build_setup_mem α := ⟨[], [], [], [], [], [], 0⟩

/-- An `assembly_ext` for a single process with no dofs: `mat_distribute` returns the array
it is given. -/
def assembly_ext_empty (α : Type) : assembly_ext α := ⟨[], [], 0, fun m => m, []⟩

/-- The positions `k < n` where a new value starts in the array `l`: `k = 0`, or
`l[k] != l[k-1]`. -/
def chg (l : List Nat) (n : Nat) : List Nat :=
  (List.range n).filter (fun k => decide (k = 0 ∨ rd l k ≠ rd l (k - 1)))

/-- The values of `l[0..n)` without the repetitions of the previous value. -/
def kept (l : List Nat) (n : Nat) : List Nat := (chg l n).map (fun k => rd l k)

/-- The rows of an array `coo_A`. -/
def coo_rows {α : Type} (coo : List (coo_mat α)) : List Nat := coo.map (fun e => e.i)

/-- The columns of an array `coo_A`. -/
def coo_cols {α : Type} (coo : List (coo_mat α)) : List Nat := coo.map (fun e => e.j)

/-! ## `sub_slong` (lines 1445-1458) -/

/-- The body of the loop of `sub_slong`; the state is the array `a` and the number of cells
written through the running pointer (`*a++ = b[i]`). -/
def sub_slong_step {α : Type} [Zero α] [DecidableEq α] (b : List Int) (v : List α)
    (s : List Int × Nat) (i : Nat) : List Int × Nat :=
  if rd v i ≠ 0 then (s.1.set s.2 (rd b i), s.2 + 1) else s

/-- The function `sub_slong`, `a = b(v)`: the array `a` after the call, and the number of
cells written. -/
def sub_slong {α : Type} [Zero α] [DecidableEq α] (a b : List Int) (v : List α) (n : Nat) :
    List Int × Nat :=
  (List.range n).foldl (sub_slong_step b v) (a, 0)

/-! ## `sparsify` (lines 764-825) -/

/-- The function `comp_coo_v`. -/
def comp_coo_v {α : Type} [LinearOrderedField α] (a b : coo_mat α) : Int :=
  if a.v > b.v then 1 else if a.v < b.v then -1 else 0

/-- The contents of the arrays `E` and `coo_A` of `sparsify` when `tmalloc` returns
them. -/
structure sparsify_mem (α : Type) where
  E : List α
  coo : List (coo_mat α)

/-- The inner loop of the first loop of `sparsify` on row `i`.  The state is the array
`coo_A` and the distance the pointers `p`, `col` and `a` have advanced together. -/
def sparsify_fill_row {α : Type} [LinearOrderedField α] (A : csr_mat α) (i : Nat)
    (s : List (coo_mat α) × Nat) : List (coo_mat α) × Nat :=
  (rowIdx A i).foldl
    (fun s _ => (s.1.set s.2 ⟨i, rd A.col s.2, |rd A.a s.2|⟩, s.2 + 1)) s

/-- The array `coo_A = abs(A)` of `sparsify`, before it is sorted (lines 794-805). -/
def sparsify_coo {α : Type} [LinearOrderedField α] (A : csr_mat α)
    (coo0 : List (coo_mat α)) : List (coo_mat α) :=
  ((List.range A.rn).foldl (fun s i => sparsify_fill_row A i s)
    (tmalloc coo0 (rd A.row_off A.rn), 0)).1

/-- The body of the last loop of `sparsify` (lines 809-818).  The state is `S`, `E` and
whether the `break` has been taken. -/
def sparsify_mark_step {α : Type} [LinearOrderedField α] (coo : List (coo_mat α)) (tol : α)
    (s : List α × List α × Bool) (i : Nat) : List α × List α × Bool :=
  if s.2.2 then s
  else if (rd coo i).v > tol then (s.1, s.2.1, true)
  else if (rd coo i).i ≠ (rd coo i).j then
    let E := s.2.1.set (rd coo i).i (rd s.2.1 (rd coo i).i + |(rd coo i).v|)
    (if rd E (rd coo i).i < tol then s.1.set i 0 else s.1, E, false)
  else s

/-- The function `sparsify`: the array `S` after the call.  When two entries of `A` have
the same absolute value, their order after `qsort` is not fixed by the C standard; the
model takes the order of the insertion sort. -/
def sparsify {α : Type} [LinearOrderedField α] (mem : sparsify_mem α) (S : List α)
    (A : csr_mat α) (tol : α) : List α :=
  let ncol := rd A.row_off A.rn
  let S := init_array S ncol 1
  let E := init_array (tmalloc mem.E A.rn) A.rn 0
  let coo := qsort comp_coo_v (sparsify_coo A mem.coo)
  ((List.range ncol).foldl (sparsify_mark_step coo tol) (S, E, false)).1

/-! ## `sp_restrict_sorted` (lines 596-618) -/

/-- The loop `while(iy<ix) { *y++ = 0; if(y==ye) return; iy = *(++Ri); }` of
`sp_restrict_sorted`.  The state is the array `y` and the number `k` of cells written,
which is also the distance the pointer `Ri` has advanced (`iy = Ri[k]`); `k = Rn` stands
for the `return`.  Every round advances `k`, so the loop runs on the fuel `Rn`, which is
never exhausted. -/
def sp_skip {α : Type} [Zero α] (Ri : List Nat) (Rn ix : Nat) :
    Nat → List α × Nat → List α × Nat
  | 0, s => s
  | fuel + 1, s =>
    if s.2 < Rn ∧ rd Ri s.2 < ix then sp_skip Ri Rn ix fuel (s.1.set s.2 0, s.2 + 1)
    else s

/-- The body of the `for` loop of `sp_restrict_sorted` for the entry `t` of `x`. -/
def sp_restrict_step {α : Type} [Zero α] (Ri : List Nat) (Rn : Nat) (xi : List Nat)
    (x : List α) (s : List α × Nat) (t : Nat) : List α × Nat :=
  let s1 := sp_skip Ri Rn (rd xi t) Rn s
  if s1.2 < Rn ∧ rd Ri s1.2 = rd xi t then (s1.1.set s1.2 (rd x t), s1.2 + 1) else s1

/-- The function `sp_restrict_sorted`: the array `y` after the call. -/
def sp_restrict_sorted {α : Type} [Zero α] (y : List α) (Rn : Nat) (Ri : List Nat)
    (xn : Nat) (xi : List Nat) (x : List α) : List α :=
  let s := (List.range xn).foldl (sp_restrict_step Ri Rn xi x) (y, 0)
  (List.range' s.2 (Rn - s.2)).foldl (fun y k => y.set k 0) s.1

/-- The value of the sparse vector `(xi, x)` of `xn` entries at the index `i`: the value of
the first entry with that index, 0 when there is none. -/
def sp_val {α : Type} [Zero α] (xn : Nat) (xi : List Nat) (x : List α) (i : Nat) : α :=
  match (List.range xn).find? (fun t => rd xi t = i) with
  | some t => rd x t
  | none => 0

/-! ## `interp`, `mv_utt`, `mv_ut` (lines 478-574) -/

/-- The distance the pointer `qk` of `interp` has advanced from `Q` when column `k`
starts: the loop header `for(k=0;k<nz;++k,qk+=k)` adds `k + 1` after column `k`.  It is
also the distance `U` has advanced in `mv_utt` and `mv_ut` when round `k` starts. -/
def tri : Nat → Nat
  | 0 => 0
  | k + 1 => tri k + (k + 1)

/-- One round of the outer loop of `mv_utt`.  The state is `y` and the distance the
pointer `U` has advanced; the inner loop reads `j + 1` cells of `U` and of `x`. -/
def mv_utt_step {α : Type} [LinearOrderedField α] (U x : List α) (s : List α × Nat)
    (j : Nat) : List α × Nat :=
  (s.1.set j ((List.range (j + 1)).foldl (fun v m => v + rd U (s.2 + m) * rd x m) 0),
    s.2 + (j + 1))

/-- The function `mv_utt(y, n, U, x)`. -/
def mv_utt {α : Type} [LinearOrderedField α] (y : List α) (n : Nat) (U x : List α) :
    List α :=
  ((List.range n).foldl (mv_utt_step U x) (y, 0)).1

/-- One round of the outer loop of `mv_ut`, writing to the cells `yo, yo + 1, ...` of the
array `y`.  The state is the array and the distance the pointer `U` has advanced. -/
def mv_ut_step {α : Type} [LinearOrderedField α] (yo : Nat) (U x : List α)
    (s : List α × Nat) (j : Nat) : List α × Nat :=
  ((List.range (j + 1)).foldl
      (fun y i => y.set (yo + i) (rd y (yo + i) + rd U (s.2 + i) * rd x j))
      (s.1.set (yo + j) 0),
    s.2 + (j + 1))

/-- The function `mv_ut(&y[yo], n, U, x)`, for `U` in another array than `y`. -/
def mv_ut {α : Type} [LinearOrderedField α] (y : List α) (yo n : Nat) (U x : List α) :
    List α :=
  ((List.range n).foldl (mv_ut_step yo U x) (y, 0)).1

/-- One round of the outer loop of `mv_ut` when `y` and `U` point into the same array
`Q`, as in the call `mv_ut(qk, k, Q, sqv2)`: every read of `U` sees the writes made so
far. -/
def mv_ut_self_step {α : Type} [LinearOrderedField α] (yo : Nat) (x : List α)
    (s : List α × Nat) (j : Nat) : List α × Nat :=
  ((List.range (j + 1)).foldl
      (fun y i => y.set (yo + i) (rd y (yo + i) + rd y (s.2 + i) * rd x j))
      (s.1.set (yo + j) 0),
    s.2 + (j + 1))

/-- The call `mv_ut(&Q[yo], n, Q, x)`. -/
def mv_ut_self {α : Type} [LinearOrderedField α] (Q : List α) (yo n : Nat) (x : List α) :
    List α :=
  ((List.range n).foldl (mv_ut_self_step yo x) (Q, 0)).1

/-- The contents of the block allocated by `interp` when `tmalloc` returns it, split into
its three regions `sqv1`, `sqv2` and `Q`. -/
structure interp_mem (α : Type) where
  sqv1 : List α
  sqv2 : List α
  Q : List α

/-- The three regions `sqv1`, `sqv2`, `Q` of the block of `interp`, and the distance of
the pointer `qk` from `Q`. -/
structure interp_state (α : Type) where
  sqv1 : List α
  sqv2 : List α
  Q : List α
  qk : Nat

/-- The number of entries of row `r`, as the code computes it in `uint`:
`A->row_off[r+1] - A->row_off[r]`. -/
def row_nz {α : Type} (A : csr_mat α) (r : Nat) : Nat :=
  toUint (((rd A.row_off (r + 1) : Nat) : Int) - ((rd A.row_off r : Nat) : Int))

/-- The first loop of `interp`: `max_nz`. -/
def interp_max_nz {α : Type} (Wt : csr_mat α) : Nat :=
  (List.range Wt.rn).foldl
    (fun max_nz i =>
      let nz := row_nz Wt i
      if nz > max_nz then nz else max_nz) 0

/-- The scalar `alpha` of `interp` after `alpha = -1.0 / sqrt(alpha)`, for the column
`qk = &Q[qo]`. -/
def interp_alpha {α : Type} [LinearOrderedField α] (sqrt : α → α) (sqv1 Q : List α)
    (qo k : Nat) : α :=
  let alpha := (List.range k).foldl (fun alpha m => alpha - rd sqv1 m * rd Q (qo + m))
    (rd sqv1 k)
  (-1) / sqrt alpha

/-- The lines `for(m=0;m<k;++m) qk[m] *= alpha; qk[k] = -alpha;` of `interp`, for
`qk = &Q[qo]`. -/
def interp_scale {α : Type} [LinearOrderedField α] (Q : List α) (qo k : Nat) (alpha : α) :
    List α :=
  ((List.range k).foldl (fun Q m => Q.set (qo + m) (rd Q (qo + m) * alpha)) Q).set (qo + k)
    (-alpha)

/-- One round of the loop over `k` of `interp`, `Qj` being the columns of the current
row of `Wt`. -/
def interp_col {α : Type} [LinearOrderedField α] (sqrt : α → α) (At : csr_mat α)
    (Qj : List Nat) (st : interp_state α) (k : Nat) : interp_state α :=
  let s := rd Qj k
  let sqv1 := sp_restrict_sorted st.sqv1 (k + 1) Qj
    (row_nz At s)
    (At.col.drop (rd At.row_off s)) (At.a.drop (rd At.row_off s))
  let sqv2 := mv_utt st.sqv2 k st.Q sqv1
  let Q := mv_ut_self st.Q st.qk k sqv2
  let alpha := interp_alpha sqrt sqv1 Q st.qk k
  ⟨sqv1, sqv2, interp_scale Q st.qk k alpha, st.qk + (k + 1)⟩

/-- The loop over `k` of `interp` for the row with the columns `Qj`: the packed basis
`Q`. -/
def interp_basis {α : Type} [LinearOrderedField α] (sqrt : α → α) (At : csr_mat α)
    (Qj : List Nat) (nz : Nat) (st : interp_state α) : interp_state α :=
  (List.range nz).foldl (interp_col sqrt At Qj) ⟨st.sqv1, st.sqv2, st.Q, 0⟩

/-- One round of the main loop of `interp`.  The state is the block and the array
`Wt->a`. -/
def interp_row {α : Type} [LinearOrderedField α] (sqrt : α → α) (Wt At Bt : csr_mat α)
    (u lambda : List α) (s : interp_state α × List α) (i : Nat) :
    interp_state α × List α :=
  let wir := rd Wt.row_off i
  let Qj := Wt.col.drop wir
  let nz := row_nz Wt i
  let st := interp_basis sqrt At Qj nz s.1
  let sqv1 := sp_restrict_sorted st.sqv1 nz Qj
    (row_nz Bt i)
    (Bt.col.drop (rd Bt.row_off i)) (Bt.a.drop (rd Bt.row_off i))
  let sqv1 := forUpd nz (fun k v => v + rd u i * rd lambda (rd Qj k)) sqv1
  let sqv2 := mv_utt st.sqv2 nz st.Q sqv1
  (⟨sqv1, sqv2, st.Q, st.qk⟩, mv_ut s.2 wir nz st.Q sqv2)

/-- The function `interp`: the matrix `Wt` when it returns.  The sizes are computed in
`uint`. -/
def interp {α : Type} [LinearOrderedField α] (sqrt : α → α) (mem : interp_mem α)
    (Wt At Bt : csr_mat α) (u lambda : List α) : csr_mat α :=
  let nf := Wt.rn
  let max_nz := interp_max_nz Wt
  let max_Q := (max_nz * (max_nz + 1)) % 4294967296 / 2
  let st : interp_state α :=
    ⟨tmalloc mem.sqv1 max_nz, tmalloc mem.sqv2 max_nz, tmalloc mem.Q max_Q, 0⟩
  { Wt with a := ((List.range nf).foldl (interp_row sqrt Wt At Bt u lambda) (st, Wt.a)).2 }

/-- The value stored for column `c` in row `r` of `A`, 0 if the row stores none: the
sparse vector that `interp` passes to `sp_restrict_sorted` for row `r`, read at `c`. -/
def csr_entry {α : Type} [Zero α] (A : csr_mat α) (r c : Nat) : α :=
  sp_val (row_nz A r)
    (A.col.drop (rd A.row_off r)) (A.a.drop (rd A.row_off r)) c

/-- Column `j` of the packed upper triangular matrix `Q`, as a vector: entry `a` is
`Q[tri j + a]` for `a ≤ j` and 0 below the diagonal. -/
def packed_col {α : Type} [Zero α] (Q : List α) (j a : Nat) : α :=
  if a ≤ j then rd Q (tri j + a) else 0

/-- The matrix `At` restricted to the rows and columns `Qj[0], Qj[1], ...`: entry
`(a, b)` is the value stored in row `Qj[a]` for the column `Qj[b]`. -/
def pattern_mat {α : Type} [Zero α] (At : csr_mat α) (Qj : List Nat) (a b : Nat) : α :=
  csr_entry At (rd Qj a) (rd Qj b)

/-- The bilinear form of the matrix `M` on the first `n` coordinates. -/
def bform {α : Type} [LinearOrderedField α] (n : Nat) (M : Nat → Nat → α)
    (u v : Nat → α) : α :=
  ∑ a in Finset.range n, ∑ b in Finset.range n, u a * M a b * v b

/-- The unit vector `e_k`. -/
def unit_vec {α : Type} [LinearOrderedField α] (k : Nat) (a : Nat) : α :=
  if a = k then 1 else 0

/-- Every row of `A` stores its columns in strictly increasing order. -/
def csr_rows_sorted {α : Type} (A : csr_mat α) : Prop :=
  ∀ i, i < A.rn → ((rowIdx A i).map (fun j => rd A.col j)).Pairwise (fun a b => a < b)

instance {α : Type} (A : csr_mat α) : Decidable (csr_rows_sorted A) := by
  unfold csr_rows_sorted; infer_instance

/-- The example of a 1 x 2 matrix `Wt` with the pattern `{0, 1}` in its row. -/
def interp_ex_W (α : Type) [LinearOrderedField α] : csr_mat α :=
  ⟨1, 2, [0, 2], [0, 1], [0, 0]⟩

/-- The example of the matrix `At = [[2, 1], [1, 2]]`. -/
def interp_ex_A (α : Type) [LinearOrderedField α] : csr_mat α :=
  ⟨2, 2, [0, 2, 4], [0, 1, 0, 1], [2, 1, 1, 2]⟩

/-- The example of the 1 x 2 matrix `Bt = [[3, 3]]`. -/
def interp_ex_B (α : Type) [LinearOrderedField α] : csr_mat α :=
  ⟨1, 2, [0, 2], [0, 1], [3, 3]⟩

/-! ## `pcg` on doubles that may be infinite or `NaN` -/

/-- The divisor of `alpha = rho / (p'*w)` in the round of `pcg` that starts in state `s`:
the value of `alpha` after `alpha = vv_dot(p, w, rn)` (lines 714-726). -/
def pcg_pw {α : Type} [LinearOrderedField α] (A : csr_mat α) (s : pcg_state α) : α :=
  let rn := A.rn
  let beta := s.rho / s.rho_old
  let p := ar_scal_op s.p beta rn .mult_op
  let p := vv_op p s.z rn .plus
  let w := apply_M s.w 0 p 1 A p
  vv_dot p w rn

/-- The `2 x 2` matrix that stores two diagonal entries of value `0`. -/
def zero2 (α : Type) [LinearOrderedField α] : csr_mat α :=
  ⟨2, 2, [0, 1, 2], [0, 1], [0, 0]⟩

/-- A double that may be infinite or not a number.  Finite values are exact; `inf false`
is `+inf`, `inf true` is `-inf`.  The two zeros of IEEE 754 are one value here, taken as
`+0` where its sign matters (a non-zero number divided by it). -/
inductive xdouble (α : Type) where
  | fin (v : α)
  | inf (neg : Bool)
  | nan
deriving DecidableEq, Repr

instance xdouble_zero {α : Type} [Zero α] : Zero (xdouble α) := ⟨.fin 0⟩

/-- The sum of two doubles: `inf + (-inf)` and every sum with a `NaN` is `NaN`. -/
def xdouble.add {α : Type} [LinearOrderedField α] : xdouble α → xdouble α → xdouble α
  | .fin a, .fin b => .fin (a + b)
  | .fin _, .inf s => .inf s
  | .inf s, .fin _ => .inf s
  | .inf s, .inf t => if s = t then .inf s else .nan
  | _, _ => .nan

/-- The difference of two doubles. -/
def xdouble.sub {α : Type} [LinearOrderedField α] : xdouble α → xdouble α → xdouble α
  | .fin a, .fin b => .fin (a - b)
  | .fin _, .inf s => .inf (!s)
  | .inf s, .fin _ => .inf s
  | .inf s, .inf t => if s = t then .nan else .inf s
  | _, _ => .nan

/-- The product of two doubles: `0 * inf` and every product with a `NaN` is `NaN`. -/
def xdouble.mul {α : Type} [LinearOrderedField α] : xdouble α → xdouble α → xdouble α
  | .fin a, .fin b => .fin (a * b)
  | .fin a, .inf s => if a = 0 then .nan else .inf (xor s (decide (a < 0)))
  | .inf s, .fin b => if b = 0 then .nan else .inf (xor s (decide (b < 0)))
  | .inf s, .inf t => .inf (xor s t)
  | _, _ => .nan

/-- The quotient of two doubles: a non-zero number divided by `0` is infinite, `0 / 0`,
`inf / inf` and every quotient with a `NaN` are `NaN`, a finite number divided by an
infinite one is `0`. -/
def xdouble.div {α : Type} [LinearOrderedField α] : xdouble α → xdouble α → xdouble α
  | .fin a, .fin b =>
    if b = 0 then (if a = 0 then .nan else .inf (decide (a < 0))) else .fin (a / b)
  | .fin _, .inf _ => .fin 0
  | .inf s, .fin b => .inf (xor s (decide (b < 0)))
  | .inf _, .inf _ => .nan
  | _, _ => .nan

/-- The comparison `a > b` of two doubles: false when one of them is `NaN`. -/
def xdouble.gt {α : Type} [LinearOrderedField α] : xdouble α → xdouble α → Bool
  | .fin a, .fin b => decide (a > b)
  | .fin _, .inf s => s
  | .inf s, .fin _ => !s
  | .inf s, .inf t => !s && t
  | _, _ => false

/-- The function `vv_op` on doubles that may be infinite or `NaN`. -/
def vv_op_fp {α : Type} [LinearOrderedField α] (a b : List (xdouble α)) (n : Nat)
    (op : vv_ops) : List (xdouble α) :=
  match op with
  | .plus => forUpd n (fun i x => x.add (rd b i)) a
  | .minus => forUpd n (fun i x => x.sub (rd b i)) a
  | .ewmult => forUpd n (fun i x => x.mul (rd b i)) a

/-- The function `vv_dot` on doubles that may be infinite or `NaN`. -/
def vv_dot_fp {α : Type} [LinearOrderedField α] (a b : List (xdouble α)) (n : Nat) :
    xdouble α :=
  (List.range n).foldl (fun r i => r.add ((rd a i).mul (rd b i))) (.fin 0)

/-- The function `ar_scal_op` on doubles that may be infinite or `NaN`. -/
def ar_scal_op_fp {α : Type} [LinearOrderedField α] (a : List (xdouble α))
    (scal : xdouble α) (n : Nat) (op : ar_scal_ops) : List (xdouble α) :=
  match op with
  | .mult_op => forUpd n (fun _ x => x.mul scal) a

/-- Modelled from the spec: `apply_M` (see above) on doubles that may be infinite or
`NaN`. -/
def apply_M_fp {α : Type} [LinearOrderedField α] (z : List (xdouble α)) (alpha : xdouble α)
    (y : List (xdouble α)) (beta : xdouble α) (M : csr_mat (xdouble α))
    (x : List (xdouble α)) : List (xdouble α) :=
  forUpd M.rn
    (fun i _ => (alpha.mul (rd y i)).add
      (beta.mul ((rowIdx M i).foldl
        (fun t j => t.add ((rd M.a j).mul (rd x (rd M.col j)))) (.fin 0))))
    z

/-- The body of the loop of `pcg` (lines 711-749) on doubles that may be infinite or
`NaN`: `pcg_body` with the operations of `xdouble`. -/
def pcg_body_fp {α : Type} [LinearOrderedField α] (A : csr_mat (xdouble α))
    (M : List (xdouble α)) (s : pcg_state (xdouble α)) : pcg_state (xdouble α) :=
  let rn := A.rn
  let k := s.k + 1
  let beta := s.rho.div s.rho_old
  let p := ar_scal_op_fp s.p beta rn .mult_op
  let p := vv_op_fp p s.z rn .plus
  let w := apply_M_fp s.w (.fin 0) p (.fin 1) A p
  let alpha := vv_dot_fp p w rn
  let alpha := s.rho.div alpha
  let tmp := memcpy s.tmp p rn
  let tmp := ar_scal_op_fp tmp alpha rn .mult_op
  let x := vv_op_fp s.x tmp rn .plus
  let w := ar_scal_op_fp w alpha rn .mult_op
  let r := vv_op_fp s.r w rn .minus
  let z := memcpy s.z M rn
  let z := vv_op_fp z r rn .ewmult
  let rho_old := s.rho
  let rho := vv_dot_fp r z rn
  ⟨x, r, p, z, w, tmp, rho, rho_old, alpha, beta, k⟩

/-- The loop `while (rho > rho_stop && k < n)` of `pcg` on doubles that may be infinite or
`NaN`. -/
def pcg_loop_fp {α : Type} [LinearOrderedField α] (A : csr_mat (xdouble α))
    (M : List (xdouble α)) (rho_stop : xdouble α) (n : Nat) :
    Nat → pcg_state (xdouble α) → pcg_state (xdouble α)
  | 0, s => s
  | fuel + 1, s =>
    if s.rho.gt rho_stop = true ∧ s.k < n then
      pcg_loop_fp A M rho_stop n fuel (pcg_body_fp A M s)
    else s

/-- The state of `pcg` when the loop is reached (lines 669-706), on doubles that may be
infinite or `NaN`. -/
def pcg_init_fp {α : Type} [LinearOrderedField α] (mem : pcg_mem (xdouble α))
    (x : List (xdouble α)) (A : csr_mat (xdouble α)) (r M : List (xdouble α)) :
    pcg_state (xdouble α) :=
  let rn := A.rn
  let cn := A.cn
  let x := init_array x rn (.fin 0)
  let p := init_array (tmalloc mem.p cn) cn (.fin 0)
  let z := memcpy (tmalloc mem.z rn) M rn
  let z := vv_op_fp z r rn .ewmult
  let rho := vv_dot_fp r z rn
  ⟨x, r, p, z, tmalloc mem.w rn, tmalloc mem.tmp rn, rho, .fin 1, .fin 0, .fin 0, 0⟩

/-- The function `pcg` on doubles that may be infinite or `NaN`: the same steps as `pcg`,
with the operations of `xdouble`, so that a division by zero has the result it has in the
code. -/
def pcg_fp {α : Type} [LinearOrderedField α] (mem : pcg_mem (xdouble α))
    (x : List (xdouble α)) (A : csr_mat (xdouble α)) (r M : List (xdouble α))
    (tol : xdouble α) : pcg_state (xdouble α) :=
  let s0 := pcg_init_fp mem x A r M
  let rho_stop := (tol.mul tol).mul s0.rho
  let n := pcg_n A
  if n = 0 then { s0 with w := ([] : List (xdouble α)), tmp := ([] : List (xdouble α)) }
  else pcg_loop_fp A M rho_stop n n s0

/-- The `2 x 2` matrix that stores two diagonal entries of value `0`, as doubles. -/
def zero2_fp : csr_mat (xdouble ℚ) := ⟨2, 2, [0, 1, 2], [0, 1], [.fin 0, .fin 0]⟩

/-- An array of finite doubles, as an array of doubles that may be infinite or `NaN`. -/
def xvec {α : Type} (l : List α) : List (xdouble α) := l.map .fin

/-- A matrix of finite doubles, as a matrix of doubles that may be infinite or `NaN`. -/
def xmat {α : Type} (A : csr_mat α) : csr_mat (xdouble α) :=
  ⟨A.rn, A.cn, A.row_off, A.col, xvec A.a⟩

/-- A state of `pcg` whose numbers are all finite. -/
def xstate {α : Type} (s : pcg_state α) : pcg_state (xdouble α) :=
  ⟨xvec s.x, xvec s.r, xvec s.p, xvec s.z, xvec s.w, xvec s.tmp, .fin s.rho, .fin s.rho_old,
    .fin s.alpha, .fin s.beta, s.k⟩

/-- Fresh memory whose numbers are all finite. -/
def xmem {α : Type} (m : pcg_mem α) : pcg_mem (xdouble α) :=
  ⟨xvec m.p, xvec m.z, xvec m.tmp, xvec m.w⟩

/-! ## An example for `lanczos` -/

theorem renum_succ {α : Type} [Zero α] [DecidableEq α] (v : List α) (c : Nat) :
    renum v (c + 1) = if rd v c ≠ 0 then renum v c + 1 else renum v c := by
  unfold renum selRows
  rw [List.range_succ, List.filter_append]
  by_cases h : rd v c = 0 <;> simp [h]

theorem sub_mat_g2l_eq {α : Type} [Zero α] [DecidableEq α] (vc : List α) (n : Nat) :
    sub_mat_g2l n vc = (renum vc n, renum vc n,
      (List.range n).map (fun i => if rd vc i ≠ 0 then renum vc i else UINT_MAX)) := by
  unfold sub_mat_g2l
  induction n with
  | zero => simp [renum, selRows]
  | succ n ih =>
    rw [List.range_succ, List.foldl_append, ih]
    by_cases h : rd vc n = 0 <;> simp [h, renum_succ]

theorem sub_mat_fill_row_eq {α : Type} [Zero α] [DecidableEq α] (A : csr_mat α)
    (vc : List α) (g : List Nat) (i : Nat) (s : sub_state α) :
    sub_mat_fill_row A vc g i s =
      { subrow_off := s.subrow_off,
        subcol := s.subcol ++ (keptIdx A vc i).map (fun j => rd g (rd A.col j)),
        suba := s.suba ++ (keptIdx A vc i).map (fun j => rd A.a j),
        roffset := s.roffset + (keptIdx A vc i).length } := by
  unfold sub_mat_fill_row keptIdx
  generalize rowIdx A i = l
  induction l generalizing s with
  | nil => simp
  | cons j l ih =>
    rw [List.foldl_cons, ih]
    by_cases h : rd vc (rd A.col j) = 0
    · simp [h, List.filter_cons]
    · simp [h, List.filter_cons]; omega

/-- The third pass over an arbitrary list of rows, from an arbitrary state. -/
theorem sub_mat_fill_fold {α : Type} [Zero α] [DecidableEq α] (A : csr_mat α)
    (vr vc : List α) (g : List Nat) (rows : List Nat) (s : sub_state α) :
    rows.foldl
      (fun s i =>
        if rd vr i ≠ 0 then
          let s1 := sub_mat_fill_row A vc g i s
          { s1 with subrow_off := s1.subrow_off ++ [s1.roffset] }
        else s) s =
      { subrow_off := s.subrow_off ++
          offs s.roffset ((rows.filter (fun i => rd vr i ≠ 0)).map (keptIdx A vc)),
        subcol := s.subcol ++
          (((rows.filter (fun i => rd vr i ≠ 0)).map (keptIdx A vc)).flatten).map
            (fun j => rd g (rd A.col j)),
        suba := s.suba ++
          (((rows.filter (fun i => rd vr i ≠ 0)).map (keptIdx A vc)).flatten).map
            (fun j => rd A.a j),
        roffset := s.roffset +
          (((rows.filter (fun i => rd vr i ≠ 0)).map (keptIdx A vc)).flatten).length } := by
  induction rows generalizing s with
  | nil => simp [offs]
  | cons i rows ih =>
    rw [List.foldl_cons, ih]
    by_cases h : rd vr i = 0
    · simp [h, List.filter_cons]
    · simp [h, List.filter_cons, sub_mat_fill_row_eq, offs, Nat.add_assoc]

theorem rd_cons_succ {β : Type} [Zero β] (x : β) (l : List β) (k : Nat) :
    rd (x :: l) (k + 1) = rd l k := by
  simp [rd]

theorem rd_cons_zero {β : Type} [Zero β] (x : β) (l : List β) : rd (x :: l) 0 = x := by
  simp [rd]

theorem rd_append_right {β : Type} [Zero β] (l₁ l₂ : List β) (k : Nat) :
    rd (l₁ ++ l₂) (l₁.length + k) = rd l₂ k := by
  simp [rd, List.getD_eq_getElem?_getD, List.getElem?_append_right]

theorem rd_append_left {β : Type} [Zero β] (l₁ l₂ : List β) (k : Nat) (h : k < l₁.length) :
    rd (l₁ ++ l₂) k = rd l₁ k := by
  simp [rd, List.getD_eq_getElem?_getD, List.getElem?_append_left h]

theorem rd_eq_getElem {β : Type} [Zero β] (l : List β) (k : Nat) (h : k < l.length) :
    rd l k = l[k] := by
  simp [rd, List.getD_eq_getElem?_getD, List.getElem?_eq_getElem h]

theorem rd_map_range {β : Type} [Zero β] (f : Nat → β) (n k : Nat) (h : k < n) :
    rd ((List.range n).map f) k = f k := by
  rw [rd_eq_getElem _ _ (by simpa using h)]
  simp

theorem map_rd_range' {β : Type} [Zero β] (l : List β) :
    (List.range' 0 l.length).map (fun j => rd l j) = l := by
  apply List.ext_getElem
  · simp
  · intro n h1 h2
    simp at h1
    simp [rd_eq_getElem l n h1]

theorem offs_rd {β : Type} (M : List (List β)) (base k : Nat) (hk : k ≤ M.length) :
    rd (base :: offs base M) k = base + ((M.take k).map List.length).sum := by
  induction M generalizing base k with
  | nil =>
    have : k = 0 := by simpa using hk
    subst this; simp [rd_cons_zero]
  | cons r rs ih =>
    cases k with
    | zero => simp [rd_cons_zero]
    | succ k =>
      rw [rd_cons_succ, offs, ih _ _ (by simpa using hk)]
      simp [Nat.add_assoc]

theorem flatten_slice {β γ : Type} [Zero γ] (M : List (List β)) (f : β → γ) (k : Nat)
    (hk : k < M.length) :
    (List.range' ((M.take k).map List.length).sum (M[k].length)).map
      (fun j => rd (M.flatten.map f) j) = M[k].map f := by
  induction M generalizing k with
  | nil => simp at hk
  | cons r rs ih =>
    cases k with
    | zero =>
      simp only [List.take_zero, List.map_nil, List.sum_nil, List.getElem_cons_zero,
        List.flatten_cons, List.map_append]
      have h := map_rd_range' (r.map f)
      rw [List.length_map] at h
      conv_rhs => rw [← h]
      apply List.map_congr_left
      intro j hj
      simp at hj
      exact rd_append_left _ _ _ (by simpa using hj)
    | succ k =>
      have hk' : k < rs.length := by simpa using hk
      simp only [List.take_succ_cons, List.map_cons, List.sum_cons, List.getElem_cons_succ,
        List.flatten_cons, List.map_append]
      rw [← ih k hk']
      have hr : List.range' (r.length + ((rs.take k).map List.length).sum) (rs[k].length) =
          (List.range' ((rs.take k).map List.length).sum (rs[k].length)).map
            (fun x => r.length + x) := by
        rw [List.map_add_range']
      rw [hr, List.map_map]
      apply List.map_congr_left
      intro j _
      simp only [Function.comp]
      have := rd_append_right (r.map f) (rs.flatten.map f) j
      rw [List.length_map] at this
      exact this

theorem sub_mat_count_row_eq {α : Type} [Zero α] [DecidableEq α] (A : csr_mat α)
    (vc : List α) (i n : Nat) :
    sub_mat_count_row A vc i n = n + (keptIdx A vc i).length := by
  unfold sub_mat_count_row keptIdx
  generalize rowIdx A i = l
  induction l generalizing n with
  | nil => simp
  | cons j l ih =>
    rw [List.foldl_cons, ih]
    by_cases h : rd vc (rd A.col j) = 0
    · simp [h, List.filter_cons]
    · simp [h, List.filter_cons]; omega

theorem sub_mat_count_fold {α : Type} [Zero α] [DecidableEq α] (A : csr_mat α)
    (vr vc : List α) (rows : List Nat) (s : Nat × Nat) :
    rows.foldl
      (fun s i => if rd vr i ≠ 0 then (s.1 + 1, sub_mat_count_row A vc i s.2) else s) s =
      (s.1 + (rows.filter (fun i => rd vr i ≠ 0)).length,
       s.2 + (((rows.filter (fun i => rd vr i ≠ 0)).map (keptIdx A vc)).flatten).length) := by
  induction rows generalizing s with
  | nil => simp
  | cons i rows ih =>
    rw [List.foldl_cons, ih]
    by_cases h : rd vr i = 0
    · simp [h, List.filter_cons]
    · simp [h, List.filter_cons, sub_mat_count_row_eq]; omega

theorem sub_mat_rn {α : Type} [Zero α] [DecidableEq α] (A : csr_mat α) (vr vc : List α) :
    (sub_mat A vr vc).rn = (selRows vr A.rn).length := by
  show (sub_mat_count A vr vc).1 = _
  unfold sub_mat_count
  rw [sub_mat_count_fold]
  simp [selRows]

theorem sub_mat_cn {α : Type} [Zero α] [DecidableEq α] (A : csr_mat α) (vr vc : List α) :
    (sub_mat A vr vc).cn = renum vc A.cn := by
  simp [sub_mat, sub_mat_g2l_eq]

theorem sub_mat_row_off {α : Type} [Zero α] [DecidableEq α] (A : csr_mat α)
    (vr vc : List α) :
    (sub_mat A vr vc).row_off = 0 :: offs 0 ((selRows vr A.rn).map (keptIdx A vc)) := by
  show (sub_mat_fill A vr vc _).subrow_off = _
  unfold sub_mat_fill
  rw [sub_mat_fill_fold]
  simp [selRows]

theorem sub_mat_col {α : Type} [Zero α] [DecidableEq α] (A : csr_mat α) (vr vc : List α) :
    (sub_mat A vr vc).col = (((selRows vr A.rn).map (keptIdx A vc)).flatten).map
      (fun j => rd (g2lTable vc A.cn) (rd A.col j)) := by
  show (sub_mat_fill A vr vc (sub_mat_g2l A.cn vc).2.2).subcol = _
  unfold sub_mat_fill
  rw [sub_mat_fill_fold, sub_mat_g2l_eq]
  simp [selRows, g2lTable]

theorem sub_mat_a {α : Type} [Zero α] [DecidableEq α] (A : csr_mat α) (vr vc : List α) :
    (sub_mat A vr vc).a = (((selRows vr A.rn).map (keptIdx A vc)).flatten).map
      (fun j => rd A.a j) := by
  show (sub_mat_fill A vr vc _).suba = _
  unfold sub_mat_fill
  rw [sub_mat_fill_fold]
  simp [selRows]

theorem sub_mat_rowIdx {α : Type} [Zero α] [DecidableEq α] (A : csr_mat α)
    (vr vc : List α) (k : Nat) (hk : k < (selRows vr A.rn).length) :
    rowIdx (sub_mat A vr vc) k =
      List.range' ((((selRows vr A.rn).map (keptIdx A vc)).take k).map List.length).sum
        (keptIdx A vc ((selRows vr A.rn)[k])).length := by
  unfold rowIdx
  rw [sub_mat_row_off, offs_rd _ _ _ (by simp; omega), offs_rd _ _ _ (by simp; omega)]
  congr 1
  · simp
  · rw [List.take_succ]
    simp [List.getElem?_eq_getElem hk]

theorem g2lTable_rd {α : Type} [Zero α] [DecidableEq α] (vc : List α) (cn c : Nat)
    (hc : c < cn ∨ c = 0) (hv : rd vc c ≠ 0) : rd (g2lTable vc cn) c = renum vc c := by
  unfold g2lTable
  by_cases h : c < cn
  · rw [rd_map_range _ _ _ h]; simp [hv]
  · have h0 : c = 0 := by rcases hc with h' | h'; exact absurd h' h; exact h'
    subst h0
    have : cn = 0 := by omega
    subst this
    simp [rd, renum, selRows]

theorem rd_col_bound {α : Type} (A : csr_mat α) (hcol : ∀ c, c ∈ A.col → c < A.cn)
    (j : Nat) : rd A.col j < A.cn ∨ rd A.col j = 0 := by
  by_cases h : j < A.col.length
  · left; rw [rd_eq_getElem _ _ h]; exact hcol _ (List.getElem_mem _)
  · right; simp [rd, List.getD_eq_getElem?_getD, List.getElem?_eq_none (Nat.le_of_not_lt h)]

theorem sub_mat_rowEntries {α : Type} [Zero α] [DecidableEq α] (A : csr_mat α)
    (vr vc : List α) (k : Nat) (hk : k < (selRows vr A.rn).length) :
    rowEntries (sub_mat A vr vc) k =
      (keptIdx A vc ((selRows vr A.rn)[k])).map
        (fun j => (rd (g2lTable vc A.cn) (rd A.col j), rd A.a j)) := by
  unfold rowEntries
  rw [sub_mat_rowIdx A vr vc k hk]
  have hk' : k < ((selRows vr A.rn).map (keptIdx A vc)).length := by simpa using hk
  have h1 := flatten_slice ((selRows vr A.rn).map (keptIdx A vc))
    (fun j => rd (g2lTable vc A.cn) (rd A.col j)) k hk'
  have h2 := flatten_slice ((selRows vr A.rn).map (keptIdx A vc))
    (fun j => rd A.a j) k hk'
  rw [← sub_mat_col A vr vc] at h1
  rw [← sub_mat_a A vr vc] at h2
  simp only [List.getElem_map] at h1 h2
  apply List.ext_getElem
  · simp
  · intro n hn1 hn2
    have e1 := congrArg (fun l => l[n]?) h1
    have e2 := congrArg (fun l => l[n]?) h2
    simp only [List.length_map, List.length_range'] at hn1
    simp [List.getElem?_map, List.getElem?_eq_getElem, hn1] at e1 e2
    simp [e1, e2]

theorem renum_mono {α : Type} [Zero α] [DecidableEq α] (v : List α) (c d : Nat)
    (h : c ≤ d) : renum v c ≤ renum v d := by
  induction d with
  | zero => have : c = 0 := by omega
            subst this; exact Nat.le_refl _
  | succ d ih =>
    by_cases hc : c = d + 1
    · subst hc; exact Nat.le_refl _
    · have := ih (by omega)
      rw [renum_succ]; split_ifs <;> omega

theorem renum_lt {α : Type} [Zero α] [DecidableEq α] (v : List α) (c d : Nat)
    (h : c < d) (hv : rd v c ≠ 0) : renum v c < renum v d := by
  have h1 := renum_mono v (c + 1) d h
  rw [renum_succ, if_pos hv] at h1
  omega

theorem renum_inj {α : Type} [Zero α] [DecidableEq α] (v : List α) (c d : Nat)
    (hc : rd v c ≠ 0) (hd : rd v d ≠ 0) (h : renum v c = renum v d) : c = d := by
  rcases Nat.lt_trichotomy c d with hlt | heq | hgt
  · have := renum_lt v c d hlt hc; omega
  · exact heq
  · have := renum_lt v d c hgt hd; omega

theorem wf_row_off_le {α : Type} (A : csr_mat α) (h : csr_wf A) (i k : Nat)
    (hk : i + k ≤ A.rn) : rd A.row_off i ≤ rd A.row_off (i + k) := by
  induction k with
  | zero => exact Nat.le_refl _
  | succ k ih =>
    have h1 := ih (by omega)
    have h2 := h.2.2.1 (i + k) (by omega)
    exact Nat.le_trans h1 h2

theorem mem_rowIdx_lt {α : Type} (A : csr_mat α) (h : csr_wf A) (i j : Nat)
    (hi : i < A.rn) (hj : j ∈ rowIdx A i) : j < A.col.length := by
  unfold rowIdx at hj
  rw [List.mem_range'_1] at hj
  have h1 := wf_row_off_le A h (i + 1) (A.rn - (i + 1)) (by omega)
  rw [show i + 1 + (A.rn - (i + 1)) = A.rn by omega, h.2.2.2.1] at h1
  have h2 := h.2.2.1 i hi
  omega

theorem selRows_rd_mem {α : Type} [Zero α] [DecidableEq α] (v : List α) (n k : Nat)
    (hk : k < (selRows v n).length) :
    rd (selRows v n) k < n ∧ rd v (rd (selRows v n) k) ≠ 0 := by
  rw [rd_eq_getElem _ _ hk]
  have := List.getElem_mem hk
  unfold selRows at this ⊢
  rw [List.mem_filter] at this
  simpa using this

/-- C1: for a CSR matrix `A` and selectors `vr`, `vc`, the result of `sub_mat` has one row
per `i < rn` with `vr[i] != 0`, in increasing order of `i`, and its `k`-th row holds
exactly the stored entries `(col, a)` of that row of `A` with `vc[col] != 0`, in their
original order and with unchanged values, the column being renumbered to the number of
selected columns before it. -/
theorem sub_mat_rows {α : Type} [Zero α] [DecidableEq α] (A : csr_mat α) (vr vc : List α)
    (hA : csr_wf A) :
    (sub_mat A vr vc).rn = (selRows vr A.rn).length ∧
    ∀ k, k < (sub_mat A vr vc).rn →
      rowEntries (sub_mat A vr vc) k =
        ((rowEntries A (rd (selRows vr A.rn) k)).filter (fun e => rd vc e.1 ≠ 0)).map
          (fun e => (renum vc e.1, e.2)) := by
  refine ⟨sub_mat_rn A vr vc, ?_⟩
  intro k hk
  rw [sub_mat_rn] at hk
  rw [sub_mat_rowEntries A vr vc k hk, rd_eq_getElem _ _ hk]
  unfold rowEntries keptIdx
  rw [List.filter_map, List.map_map]
  apply List.map_congr_left
  intro j hj
  rw [List.mem_filter] at hj
  simp only [Function.comp, Prod.mk.injEq, and_true]
  apply g2lTable_rd
  · exact rd_col_bound A hA.2.2.2.2.2.1 j
  · simpa using hj.2

theorem sub_mat_rows_witness :
    csr_wf (tridiag4 ℚ) ∧
    ((sub_mat (tridiag4 ℚ) [1, 0, 1, 1] [0, 1, 1, 0]).rn =
        (selRows ([1, 0, 1, 1] : List ℚ) (tridiag4 ℚ).rn).length ∧
      ∀ k, k < (sub_mat (tridiag4 ℚ) [1, 0, 1, 1] [0, 1, 1, 0]).rn →
        rowEntries (sub_mat (tridiag4 ℚ) [1, 0, 1, 1] [0, 1, 1, 0]) k =
          ((rowEntries (tridiag4 ℚ) (rd (selRows ([1, 0, 1, 1] : List ℚ) (tridiag4 ℚ).rn) k)).filter
            (fun e => rd ([0, 1, 1, 0] : List ℚ) e.1 ≠ 0)).map
            (fun e => (renum ([0, 1, 1, 0] : List ℚ) e.1, e.2))) :=
  ⟨by decide, sub_mat_rows (tridiag4 ℚ) [1, 0, 1, 1] [0, 1, 1, 0] (by decide)⟩


theorem sum_selector {α : Type} [LinearOrderedField α] (vr : List α) (n : Nat)
    (h01 : ∀ i, i < n → rd vr i = 0 ∨ rd vr i = 1) :
    (((selRows vr n).length : Nat) : α) = ((List.range n).map (fun i => rd vr i)).sum := by
  induction n with
  | zero => simp [selRows]
  | succ n ih =>
    have ih' := ih (fun i hi => h01 i (by omega))
    have hlen : (selRows vr (n + 1)).length = renum vr (n + 1) := rfl
    have hlen' : (selRows vr n).length = renum vr n := rfl
    rw [hlen, renum_succ, List.range_succ, List.map_append, List.sum_append, ← ih', hlen']
    rcases h01 n (by omega) with h | h
    · simp [h]
    · simp [h]

theorem mem_sub_mat_col {α : Type} [Zero α] [DecidableEq α] (A : csr_mat α)
    (vr vc : List α) (hA : csr_wf A) (c' : Nat) (hc' : c' ∈ (sub_mat A vr vc).col) :
    ∃ i j, i < A.rn ∧ rd vr i ≠ 0 ∧ j ∈ rowIdx A i ∧ j < A.col.length ∧
      rd vc (rd A.col j) ≠ 0 ∧ rd A.col j < A.cn ∧ c' = renum vc (rd A.col j) := by
  rw [sub_mat_col, List.mem_map] at hc'
  obtain ⟨j, hj, rfl⟩ := hc'
  rw [List.mem_flatten] at hj
  obtain ⟨l, hl, hjl⟩ := hj
  rw [List.mem_map] at hl
  obtain ⟨i, hi, rfl⟩ := hl
  unfold selRows at hi
  rw [List.mem_filter, List.mem_range] at hi
  unfold keptIdx at hjl
  rw [List.mem_filter] at hjl
  have hv : rd vc (rd A.col j) ≠ 0 := by simpa using hjl.2
  have hjlt := mem_rowIdx_lt A hA i j hi.1 hjl.1
  have hcn : rd A.col j < A.cn := by
    rw [rd_eq_getElem _ _ hjlt]; exact hA.2.2.2.2.2.1 _ (List.getElem_mem _)
  exact ⟨i, j, hi.1, by simpa using hi.2, hjl.1, hjlt, hv, hcn,
    g2lTable_rd vc A.cn _ (Or.inl hcn) hv⟩

/-- C2: for a CSR matrix `A` and 0/1 selectors, `sub_mat` returns `rn` equal to the sum of
`vr[i]` over the `rn` rows of `A` and `cn` equal to the number of `i < cn` with
`vc[i] != 0`.  Its stored entries are, in order, the entries of `A` at the positions of
the selected rows whose column `c` has `vc[c] != 0`: the entry that originates from
position `j` of `A` has the value `a[j]` and the column index `c'` equal to the number of
`i < c` with `vc[i] != 0`, for `c = col[j]`, the column of this position, which is below
`cn` and has `vc[c] != 0`. -/
theorem sub_mat_dims {α : Type} [LinearOrderedField α] (A : csr_mat α) (vr vc : List α)
    (hA : csr_wf A) (h01 : ∀ i, i < A.rn → rd vr i = 0 ∨ rd vr i = 1) :
    (((sub_mat A vr vc).rn : Nat) : α) = ((List.range A.rn).map (fun i => rd vr i)).sum ∧
    (sub_mat A vr vc).cn = ((List.range A.cn).filter (fun i => rd vc i ≠ 0)).length ∧
    (∀ c', c' ∈ (sub_mat A vr vc).col →
      ∃ c, c ∈ A.col ∧ c < A.cn ∧ rd vc c ≠ 0 ∧
        c' = ((List.range c).filter (fun j => rd vc j ≠ 0)).length) ∧
    (sub_mat A vr vc).col =
      (((selRows vr A.rn).map (keptIdx A vc)).flatten).map
        (fun j => ((List.range (rd A.col j)).filter (fun i => rd vc i ≠ 0)).length) ∧
    (sub_mat A vr vc).a =
      (((selRows vr A.rn).map (keptIdx A vc)).flatten).map (fun j => rd A.a j) ∧
    (∀ j, j ∈ ((selRows vr A.rn).map (keptIdx A vc)).flatten →
      j < A.col.length ∧ rd A.col j < A.cn ∧ rd vc (rd A.col j) ≠ 0 ∧
      ∃ i, i < A.rn ∧ rd vr i ≠ 0 ∧ j ∈ rowIdx A i) := by
  have hsrc : ∀ j, j ∈ ((selRows vr A.rn).map (keptIdx A vc)).flatten →
      j < A.col.length ∧ rd A.col j < A.cn ∧ rd vc (rd A.col j) ≠ 0 ∧
      ∃ i, i < A.rn ∧ rd vr i ≠ 0 ∧ j ∈ rowIdx A i := by
    intro j hj
    rw [List.mem_flatten] at hj
    obtain ⟨l, hl, hjl⟩ := hj
    rw [List.mem_map] at hl
    obtain ⟨i, hi, rfl⟩ := hl
    unfold selRows at hi
    rw [List.mem_filter, List.mem_range] at hi
    unfold keptIdx at hjl
    rw [List.mem_filter] at hjl
    have hv : rd vc (rd A.col j) ≠ 0 := by simpa using hjl.2
    have hjlt := mem_rowIdx_lt A hA i j hi.1 hjl.1
    have hcn : rd A.col j < A.cn := by
      rw [rd_eq_getElem _ _ hjlt]; exact hA.2.2.2.2.2.1 _ (List.getElem_mem _)
    exact ⟨hjlt, hcn, hv, i, hi.1, by simpa using hi.2, hjl.1⟩
  refine ⟨?_, ?_, ?_, ?_, sub_mat_a A vr vc, hsrc⟩
  · rw [sub_mat_rn]; exact sum_selector vr A.rn h01
  · rw [sub_mat_cn]; rfl
  · intro c' hc'
    obtain ⟨i, j, _, _, _, hjlt, hv, hcn, he⟩ := mem_sub_mat_col A vr vc hA c' hc'
    refine ⟨rd A.col j, ?_, hcn, hv, he⟩
    rw [rd_eq_getElem _ _ hjlt]; exact List.getElem_mem _
  · rw [sub_mat_col]
    apply List.map_congr_left
    intro j hj
    obtain ⟨_, hcn, hv, _⟩ := hsrc j hj
    exact g2lTable_rd vc A.cn _ (Or.inl hcn) hv

theorem sub_mat_dims_witness :
    (csr_wf (tridiag4 ℚ) ∧
      ∀ i, i < (tridiag4 ℚ).rn → rd ([1, 0, 1, 1] : List ℚ) i = 0 ∨
        rd ([1, 0, 1, 1] : List ℚ) i = 1) ∧
    ((((sub_mat (tridiag4 ℚ) [1, 0, 1, 1] [0, 1, 1, 0]).rn : Nat) : ℚ) =
        ((List.range (tridiag4 ℚ).rn).map (fun i => rd ([1, 0, 1, 1] : List ℚ) i)).sum ∧
      (sub_mat (tridiag4 ℚ) [1, 0, 1, 1] [0, 1, 1, 0]).cn =
        ((List.range (tridiag4 ℚ).cn).filter
          (fun i => rd ([0, 1, 1, 0] : List ℚ) i ≠ 0)).length ∧
      (sub_mat (tridiag4 ℚ) [1, 0, 1, 1] [0, 1, 1, 0]).col =
        ((((selRows ([1, 0, 1, 1] : List ℚ) (tridiag4 ℚ).rn).map
          (keptIdx (tridiag4 ℚ) [0, 1, 1, 0])).flatten).map
          (fun j => ((List.range (rd (tridiag4 ℚ).col j)).filter
            (fun i => rd ([0, 1, 1, 0] : List ℚ) i ≠ 0)).length)) ∧
      ((selRows ([1, 0, 1, 1] : List ℚ) (tridiag4 ℚ).rn).map
        (keptIdx (tridiag4 ℚ) [0, 1, 1, 0])).flatten = [1, 5, 6, 8] ∧
      (sub_mat (tridiag4 ℚ) [1, 0, 1, 1] [0, 1, 1, 0]).col = [0, 0, 1, 1]) :=
  ⟨⟨by decide, by decide⟩,
    (sub_mat_dims (tridiag4 ℚ) [1, 0, 1, 1] [0, 1, 1, 0] (by decide) (by decide)).1,
    (sub_mat_dims (tridiag4 ℚ) [1, 0, 1, 1] [0, 1, 1, 0] (by decide) (by decide)).2.1,
    (sub_mat_dims (tridiag4 ℚ) [1, 0, 1, 1] [0, 1, 1, 0] (by decide)
      (by decide)).2.2.2.1, by decide, by decide⟩

theorem offs_length {β : Type} (M : List (List β)) (base : Nat) :
    (offs base M).length = M.length := by
  induction M generalizing base with
  | nil => rfl
  | cons r rs ih => simp [offs, ih]

theorem sum_length_take_le {β : Type} (M : List (List β)) (k : Nat) :
    ((M.take k).map List.length).sum ≤ ((M.take (k + 1)).map List.length).sum := by
  induction M generalizing k with
  | nil => simp
  | cons r rs ih =>
    cases k with
    | zero => simp
    | succ k => simpa using ih k

theorem keptIdx_cols_nodup {α : Type} [Zero α] [DecidableEq α] (A : csr_mat α)
    (vc : List α) (i : Nat)
    (h : ((rowIdx A i).map (fun j => rd A.col j)).Nodup) :
    ((keptIdx A vc i).map (fun j => renum vc (rd A.col j))).Nodup := by
  have h1 : ((keptIdx A vc i).map (fun j => rd A.col j)).Nodup := by
    unfold keptIdx
    exact List.Nodup.sublist (List.Sublist.map _ (List.filter_sublist _)) h
  have h2 : (keptIdx A vc i).map (fun j => renum vc (rd A.col j)) =
      ((keptIdx A vc i).map (fun j => rd A.col j)).map (renum vc) := by
    rw [List.map_map]; rfl
  rw [h2]
  apply List.Nodup.map_on _ h1
  intro c hc d hd hcd
  rw [List.mem_map] at hc hd
  obtain ⟨j, hj, rfl⟩ := hc
  obtain ⟨j', hj', rfl⟩ := hd
  unfold keptIdx at hj hj'
  rw [List.mem_filter] at hj hj'
  exact renum_inj vc _ _ (by simpa using hj.2) (by simpa using hj'.2) hcd

/-- C3: `sub_mat` preserves the CSR invariants: if `A` has `row_off[0] = 0`, `row_off`
non-decreasing, `row_off[rn] = nnz`, every `col < cn` and no duplicate column within a row
(with arrays of the matching sizes), so does `sub_mat(A, vr, vc)` for every `vr`, `vc`. -/
theorem sub_mat_wf {α : Type} [Zero α] [DecidableEq α] (A : csr_mat α) (vr vc : List α)
    (hA : csr_wf A) : csr_wf (sub_mat A vr vc) := by
  have hrn := sub_mat_rn A vr vc
  have hlenL : ((selRows vr A.rn).map (keptIdx A vc)).length = (sub_mat A vr vc).rn := by
    rw [hrn]; simp
  refine ⟨?_, ?_, ?_, ?_, ?_, ?_, ?_⟩
  · rw [sub_mat_row_off, List.length_cons, offs_length, hlenL]
  · rw [sub_mat_row_off, rd_cons_zero]
  · intro i hi
    rw [sub_mat_row_off, offs_rd _ _ _ (by omega), offs_rd _ _ _ (by omega)]
    have := sum_length_take_le ((selRows vr A.rn).map (keptIdx A vc)) i
    omega
  · rw [sub_mat_row_off, offs_rd _ _ _ (by omega), sub_mat_col, ← hlenL, List.take_length,
      List.length_map, List.length_flatten, Nat.zero_add]
  · rw [sub_mat_a, sub_mat_col, List.length_map, List.length_map]
  · intro c' hc'
    obtain ⟨i, j, _, _, _, _, hv, hcn, he⟩ := mem_sub_mat_col A vr vc hA c' hc'
    rw [sub_mat_cn, he]
    exact renum_lt vc _ _ hcn hv
  · intro k hk
    rw [hrn] at hk
    have he := sub_mat_rowEntries A vr vc k hk
    have h1 : (rowIdx (sub_mat A vr vc) k).map (fun j => rd (sub_mat A vr vc).col j) =
        (rowEntries (sub_mat A vr vc) k).map Prod.fst := by
      unfold rowEntries; rw [List.map_map]; rfl
    rw [h1, he, List.map_map]
    have hsel := selRows_rd_mem vr A.rn k hk
    rw [rd_eq_getElem _ _ hk] at hsel
    have hnd := keptIdx_cols_nodup A vc _ (hA.2.2.2.2.2.2 _ hsel.1)
    have h2 : (keptIdx A vc (selRows vr A.rn)[k]).map
        (Prod.fst ∘ fun j => (rd (g2lTable vc A.cn) (rd A.col j), rd A.a j)) =
        (keptIdx A vc (selRows vr A.rn)[k]).map (fun j => renum vc (rd A.col j)) := by
      apply List.map_congr_left
      intro j hj
      unfold keptIdx at hj
      rw [List.mem_filter] at hj
      simp only [Function.comp]
      exact g2lTable_rd vc A.cn _ (rd_col_bound A hA.2.2.2.2.2.1 j) (by simpa using hj.2)
    rw [h2]; exact hnd

theorem sub_mat_wf_witness :
    csr_wf (tridiag4 ℚ) ∧ csr_wf (sub_mat (tridiag4 ℚ) [1, 0, 1, 1] [0, 1, 1, 0]) :=
  ⟨by decide, sub_mat_wf (tridiag4 ℚ) [1, 0, 1, 1] [0, 1, 1, 0] (by decide)⟩

theorem min_skel_fold {α : Type} [LinearOrderedField α] (R : csr_mat α) (rows : List Nat)
    (s : List Nat × List Nat × List α) :
    rows.foldl
      (fun (s : List Nat × List Nat × List α) i =>
        let r := min_skel_row R i
        (s.1 ++ [i], s.2.1 ++ [r.2], s.2.2 ++ [if r.1 > 0 then (1 : α) else 0])) s =
      (s.1 ++ rows, s.2.1 ++ rows.map (fun i => (min_skel_row R i).2),
        s.2.2 ++ rows.map (fun i => if (min_skel_row R i).1 > 0 then (1 : α) else 0)) := by
  induction rows generalizing s with
  | nil => simp
  | cons i rows ih => rw [List.foldl_cons, ih]; simp

theorem min_skel_row_off {α : Type} [LinearOrderedField α] (R : csr_mat α) :
    (min_skel R).row_off = List.range (R.rn + 1) := by
  unfold min_skel
  simp only [min_skel_fold]
  rw [List.range_succ]; simp

theorem min_skel_col {α : Type} [LinearOrderedField α] (R : csr_mat α) :
    (min_skel R).col = (List.range R.rn).map (fun i => (min_skel_row R i).2) := by
  unfold min_skel
  simp only [min_skel_fold]; simp

theorem min_skel_a {α : Type} [LinearOrderedField α] (R : csr_mat α) :
    (min_skel R).a =
      (List.range R.rn).map (fun i => if (min_skel_row R i).1 > 0 then (1 : α) else 0) := by
  unfold min_skel
  simp only [min_skel_fold]; simp

theorem rd_range {n k : Nat} (h : k < n) : rd (List.range n) k = k := by
  rw [rd_eq_getElem _ _ (by simpa using h)]; simp

/-- C4: for every CSR matrix `R`, `min_skel(R)` has the same `rn` and `cn` as `R`,
`row_off[i] = i` for all `i` in `0..rn` (so each row holds exactly one stored entry, the
arrays `col` and `a` having `rn` cells), and every stored value is either 1 or 0. -/
theorem min_skel_shape {α : Type} [LinearOrderedField α] (R : csr_mat α) :
    (min_skel R).rn = R.rn ∧ (min_skel R).cn = R.cn ∧
    (∀ i, i ≤ R.rn → rd (min_skel R).row_off i = i) ∧
    (∀ i, i < R.rn → rowIdx (min_skel R) i = [i]) ∧
    (min_skel R).col.length = R.rn ∧ (min_skel R).a.length = R.rn ∧
    ∀ x, x ∈ (min_skel R).a → x = 1 ∨ x = 0 := by
  have hro : ∀ i, i ≤ R.rn → rd (min_skel R).row_off i = i := by
    intro i hi
    rw [min_skel_row_off]; exact rd_range (by omega)
  refine ⟨rfl, rfl, hro, ?_, ?_, ?_, ?_⟩
  · intro i hi
    unfold rowIdx
    rw [hro i (by omega), hro (i + 1) (by omega)]
    simp [List.range']
  · rw [min_skel_col]; simp
  · rw [min_skel_a]; simp
  · intro x hx
    rw [min_skel_a, List.mem_map] at hx
    obtain ⟨i, _, rfl⟩ := hx
    split_ifs
    · exact Or.inl rfl
    · exact Or.inr rfl

/-- The scan of `min_skel` over the positions `l`, started at `(y, j)`: the result is the
start state when no value exceeds `y`, and otherwise the first position of `l` attaining the
maximum. -/
theorem min_skel_scan {α : Type} [LinearOrderedField α] (R : csr_mat α) (l : List Nat)
    (y : α) (j : Nat) :
    ((∀ k, k ∈ l → rd R.a k ≤ y) ∧
      l.foldl (fun s k => if rd R.a k > s.1 then (rd R.a k, rd R.col k) else s) (y, j)
        = (y, j)) ∨
    ∃ l₁ k l₂, l = l₁ ++ k :: l₂ ∧ y < rd R.a k ∧
      (∀ k', k' ∈ l₁ → rd R.a k' < rd R.a k) ∧ (∀ k', k' ∈ l₂ → rd R.a k' ≤ rd R.a k) ∧
      l.foldl (fun s k => if rd R.a k > s.1 then (rd R.a k, rd R.col k) else s) (y, j)
        = (rd R.a k, rd R.col k) := by
  induction l generalizing y j with
  | nil => left; simp
  | cons k l ih =>
    rw [List.foldl_cons]
    by_cases hk : rd R.a k > y
    · simp only [hk, if_true]
      right
      rcases ih (rd R.a k) (rd R.col k) with ⟨hall, he⟩ | ⟨l₁, k₂, l₂, hl, hlt, h1, h2, he⟩
      · exact ⟨[], k, l, rfl, hk, by simp, hall, he⟩
      · refine ⟨k :: l₁, k₂, l₂, by simp [hl], lt_trans hk hlt, ?_, h2, he⟩
        intro k' hk'
        rcases List.mem_cons.1 hk' with rfl | hk'
        · exact hlt
        · exact h1 k' hk'
    · simp only [hk, if_false]
      rcases ih y j with ⟨hall, he⟩ | ⟨l₁, k₂, l₂, hl, hlt, h1, h2, he⟩
      · left
        refine ⟨?_, he⟩
        intro k' hk'
        rcases List.mem_cons.1 hk' with rfl | hk'
        · exact not_lt.1 hk
        · exact hall k' hk'
      · right
        refine ⟨k :: l₁, k₂, l₂, by simp [hl], hlt, ?_, h2, he⟩
        intro k' hk'
        rcases List.mem_cons.1 hk' with rfl | hk'
        · exact lt_of_le_of_lt (not_lt.1 hk) hlt
        · exact h1 k' hk'

theorem range'_split_lt (s n : Nat) (l₁ l₂ : List Nat) (k : Nat)
    (h : List.range' s n = l₁ ++ k :: l₂) : ∀ k', k' ∈ l₂ → k < k' := by
  have hp : List.Pairwise (· < ·) (List.range' s n) := List.pairwise_lt_range' s n
  rw [h] at hp
  have := (List.pairwise_append.1 hp).2.1
  exact (List.pairwise_cons.1 this).1

/-- C5: for every CSR matrix `R` and every row `i` with at least one stored entry, all of
whose values are `> -1e30`, `min_skel` stores in row `i` the column of the first stored entry
attaining the maximum value of the row, with value 1 if that maximum is `> 0` and value 0
otherwise. -/
theorem min_skel_argmax {α : Type} [LinearOrderedField α] (R : csr_mat α) (i : Nat)
    (hi : i < R.rn) (hne : rowIdx R i ≠ [])
    (hbig : ∀ k, k ∈ rowIdx R i → -(10 : α) ^ 30 < rd R.a k) :
    ∃ k, k ∈ rowIdx R i ∧
      (∀ k', k' ∈ rowIdx R i → rd R.a k' ≤ rd R.a k) ∧
      (∀ k', k' ∈ rowIdx R i → k' < k → rd R.a k' < rd R.a k) ∧
      rd (min_skel R).col i = rd R.col k ∧
      rd (min_skel R).a i = if rd R.a k > 0 then 1 else 0 := by
  rw [min_skel_col, min_skel_a, rd_map_range _ _ _ hi, rd_map_range _ _ _ hi]
  unfold min_skel_row
  rcases min_skel_scan R (rowIdx R i) (-(10 : α) ^ 30) 0 with
    ⟨hall, _⟩ | ⟨l₁, k, l₂, hl, hlt, h1, h2, he⟩
  · exfalso
    obtain ⟨k, hk⟩ := List.exists_mem_of_ne_nil _ hne
    exact absurd (hall k hk) (not_le.2 (hbig k hk))
  · refine ⟨k, by rw [hl]; simp, ?_, ?_, by rw [he], by rw [he]⟩
    · intro k' hk'
      rw [hl] at hk'
      rcases List.mem_append.1 hk' with h | h
      · exact le_of_lt (h1 k' h)
      · rcases List.mem_cons.1 h with rfl | h
        · exact le_refl _
        · exact h2 k' h
    · intro k' hk' hlt'
      rw [hl] at hk'
      rcases List.mem_append.1 hk' with h | h
      · exact h1 k' h
      · rcases List.mem_cons.1 h with rfl | h
        · exact absurd hlt' (lt_irrefl _)
        · have := range'_split_lt _ _ l₁ l₂ k hl k' h
          omega

theorem min_skel_argmax_witness :
    ((1 : Nat) < (tridiag4 ℚ).rn ∧ rowIdx (tridiag4 ℚ) 1 ≠ [] ∧
      ∀ k, k ∈ rowIdx (tridiag4 ℚ) 1 → -(10 : ℚ) ^ 30 < rd (tridiag4 ℚ).a k) ∧
    ∃ k, k ∈ rowIdx (tridiag4 ℚ) 1 ∧
      (∀ k', k' ∈ rowIdx (tridiag4 ℚ) 1 → rd (tridiag4 ℚ).a k' ≤ rd (tridiag4 ℚ).a k) ∧
      (∀ k', k' ∈ rowIdx (tridiag4 ℚ) 1 → k' < k →
        rd (tridiag4 ℚ).a k' < rd (tridiag4 ℚ).a k) ∧
      rd (min_skel (tridiag4 ℚ)).col 1 = rd (tridiag4 ℚ).col k ∧
      rd (min_skel (tridiag4 ℚ)).a 1 = if rd (tridiag4 ℚ).a k > 0 then 1 else 0 :=
  ⟨⟨by decide, by decide, by decide⟩,
    min_skel_argmax (tridiag4 ℚ) 1 (by decide) (by decide) (by decide)⟩

/-! ## Elementwise operations, pointwise -/

theorem rd_of_le {β : Type} [Zero β] (l : List β) (k : Nat) (h : l.length ≤ k) :
    rd l k = 0 := by
  simp [rd, List.getD_eq_getElem?_getD, List.getElem?_eq_none h]

theorem rd_set {β : Type} [Zero β] (l : List β) (i k : Nat) (x : β) :
    rd (l.set i x) k = if i = k ∧ k < l.length then x else rd l k := by
  by_cases hk : k < l.length
  · rw [rd_eq_getElem _ _ (by simpa using hk), rd_eq_getElem _ _ hk, List.getElem_set]
    by_cases hik : i = k <;> simp [hik, hk]
  · rw [rd_of_le _ _ (by simpa using Nat.le_of_not_lt hk), rd_of_le _ _ (Nat.le_of_not_lt hk)]
    simp [hk]

theorem forUpd_length {β : Type} [Zero β] (n : Nat) (g : Nat → β → β) (a : List β) :
    (forUpd n g a).length = a.length := by
  unfold forUpd
  induction n with
  | zero => simp
  | succ n ih => rw [List.range_succ, List.foldl_append]; simp [ih]

theorem rd_forUpd {β : Type} [Zero β] (n : Nat) (g : Nat → β → β) (a : List β) (k : Nat) :
    rd (forUpd n g a) k = if k < n ∧ k < a.length then g k (rd a k) else rd a k := by
  induction n with
  | zero => simp [forUpd]
  | succ n ih =>
    have hstep : forUpd (n + 1) g a = (forUpd n g a).set n (g n (rd (forUpd n g a) n)) := by
      unfold forUpd; rw [List.range_succ, List.foldl_append]; rfl
    rw [hstep, rd_set, forUpd_length, ih]
    by_cases hk : n = k
    · subst hk
      by_cases hl : n < a.length
      · simp [hl, ih]
      · simp [hl]
    · by_cases hkn : k < n
      · have : k < n + 1 := by omega
        simp [hk, hkn, this]
      · have : ¬ k < n + 1 := by omega
        simp [hk, hkn, this]

theorem tmalloc_length {β : Type} [Zero β] (junk : List β) (n : Nat) :
    (tmalloc junk n).length = n := by
  simp [tmalloc]

theorem memcpy_length {β : Type} [Zero β] (dst src : List β) (n : Nat) :
    (memcpy dst src n).length = dst.length := forUpd_length _ _ _

theorem rd_memcpy {β : Type} [Zero β] (dst src : List β) (n k : Nat) :
    rd (memcpy dst src n) k = if k < n ∧ k < dst.length then rd src k else rd dst k :=
  rd_forUpd _ _ _ _

theorem vv_op_length {α : Type} [LinearOrderedField α] (a b : List α) (n : Nat)
    (op : vv_ops) : (vv_op a b n op).length = a.length := by
  cases op <;> simp only [vv_op] <;> exact forUpd_length _ _ _

theorem rd_vv_op_ewmult {α : Type} [LinearOrderedField α] (a b : List α) (n k : Nat) :
    rd (vv_op a b n .ewmult) k =
      if k < n ∧ k < a.length then rd a k * rd b k else rd a k := by
  simp only [vv_op]; exact rd_forUpd _ _ _ _

theorem rd_vv_op_minus {α : Type} [LinearOrderedField α] (a b : List α) (n k : Nat) :
    rd (vv_op a b n .minus) k =
      if k < n ∧ k < a.length then rd a k - rd b k else rd a k := by
  simp only [vv_op]; exact rd_forUpd _ _ _ _

theorem bin_op_length {α : Type} [LinearOrderedField α] (mask a : List α) (n : Nat)
    (op : bin_ops) : (bin_op mask a n op).length = mask.length := by
  cases op <;> simp only [bin_op] <;> exact forUpd_length _ _ _

theorem rd_bin_op_and {α : Type} [LinearOrderedField α] (mask a : List α) (n k : Nat) :
    rd (bin_op mask a n .and_op) k =
      if k < n ∧ k < mask.length then (if rd mask k ≠ 0 ∧ rd a k ≠ 0 then 1 else 0)
      else rd mask k := by
  simp only [bin_op]; exact rd_forUpd _ _ _ _

theorem rd_bin_op_or {α : Type} [LinearOrderedField α] (mask a : List α) (n k : Nat) :
    rd (bin_op mask a n .or_op) k =
      if k < n ∧ k < mask.length then (if rd mask k = 0 ∧ rd a k = 0 then 0 else 1)
      else rd mask k := by
  simp only [bin_op]; exact rd_forUpd _ _ _ _

theorem rd_bin_op_xor {α : Type} [LinearOrderedField α] (mask a : List α) (n k : Nat) :
    rd (bin_op mask a n .xor_op) k =
      if k < n ∧ k < mask.length then
        (if (rd mask k = 0 ∧ rd a k ≠ 0) ∨ (rd mask k ≠ 0 ∧ rd a k = 0) then 1 else 0)
      else rd mask k := by
  simp only [bin_op]; exact rd_forUpd _ _ _ _

theorem rd_bin_op_not {α : Type} [LinearOrderedField α] (mask a : List α) (n k : Nat) :
    rd (bin_op mask a n .not_op) k =
      if k < n ∧ k < mask.length then (if rd a k = 0 then 1 else 0)
      else rd mask k := by
  simp only [bin_op]; exact rd_forUpd _ _ _ _

theorem mask_op_length {α : Type} [LinearOrderedField α] (mask a : List α) (n : Nat)
    (t : α) (op : mask_ops) : (mask_op mask a n t op).1.length = mask.length := by
  cases op <;> simp only [mask_op] <;> exact forUpd_length _ _ _

theorem rd_mask_op_gt {α : Type} [LinearOrderedField α] (mask a : List α) (n k : Nat)
    (t : α) :
    rd (mask_op mask a n t .gt).1 k =
      if k < n ∧ k < mask.length then (if rd a k > t then 1 else 0) else rd mask k := by
  simp only [mask_op]; exact rd_forUpd _ _ _ _

theorem rd_mask_op_ge {α : Type} [LinearOrderedField α] (mask a : List α) (n k : Nat)
    (t : α) :
    rd (mask_op mask a n t .ge).1 k =
      if k < n ∧ k < mask.length then (if rd a k ≥ t then 1 else 0) else rd mask k := by
  simp only [mask_op]; exact rd_forUpd _ _ _ _

theorem init_array_length {α : Type} [Zero α] (a : List α) (n : Nat) (v : α) :
    (init_array a n v).length = a.length := forUpd_length _ _ _

theorem rd_init_array {α : Type} [Zero α] (a : List α) (n k : Nat) (v : α) :
    rd (init_array a n v) k = if k < n ∧ k < a.length then v else rd a k :=
  rd_forUpd _ _ _ _

theorem array_op_length {α : Type} [LinearOrderedField α] (sqrt : α → α) (a : List α)
    (n : Nat) (op : array_ops) : (array_op sqrt a n op).2.length = a.length := by
  cases op <;> simp only [array_op] <;> exact forUpd_length _ _ _

theorem rd_array_op_minv {α : Type} [LinearOrderedField α] (sqrt : α → α) (a : List α)
    (n k : Nat) :
    rd (array_op sqrt a n .minv_op).2 k =
      if k < n ∧ k < a.length then 1 / rd a k else rd a k := by
  simp only [array_op]; exact rd_forUpd _ _ _ _

theorem rd_array_op_abs {α : Type} [LinearOrderedField α] (sqrt : α → α) (a : List α)
    (n k : Nat) :
    rd (array_op sqrt a n .abs_op).2 k =
      if k < n ∧ k < a.length then |rd a k| else rd a k := by
  simp only [array_op]; exact rd_forUpd _ _ _ _

theorem apply_M_length {α : Type} [LinearOrderedField α] (z : List α) (alpha : α)
    (y : List α) (beta : α) (M : csr_mat α) (x : List α) :
    (apply_M z alpha y beta M x).length = z.length := forUpd_length _ _ _

theorem rd_apply_M {α : Type} [LinearOrderedField α] (z : List α) (alpha : α)
    (y : List α) (beta : α) (M : csr_mat α) (x : List α) (k : Nat) :
    rd (apply_M z alpha y beta M x) k =
      if k < M.rn ∧ k < z.length then
        alpha * rd y k +
          beta * (rowIdx M k).foldl (fun t j => t + rd M.a j * rd x (rd M.col j)) 0
      else rd z k := rd_forUpd _ _ _ _

/-! ## Folds: invariants, maxima -/

theorem foldl_inv {σ ι : Type} (P : σ → Prop) (f : σ → ι → σ) (l : List ι) (s : σ)
    (h0 : P s) (hstep : ∀ s i, i ∈ l → P s → P (f s i)) : P (l.foldl f s) := by
  induction l generalizing s with
  | nil => exact h0
  | cons i l ih =>
    rw [List.foldl_cons]
    exact ih _ (hstep s i (List.mem_cons_self _ _) h0)
      (fun s' i' hi' hs' => hstep s' i' (List.mem_cons_of_mem _ hi') hs')

/-- A running maximum with its position: the scan `if v i > s.1 then (v i, i) else s`. -/
theorem scan_max {α : Type} [LinearOrderedField α] (v : Nat → α) (l : List Nat) (y : α)
    (j : Nat) :
    ((∀ k, k ∈ l → v k ≤ y) ∧
      l.foldl (fun s k => if v k > s.1 then (v k, k) else s) (y, j) = (y, j)) ∨
    ∃ l₁ k l₂, l = l₁ ++ k :: l₂ ∧ y < v k ∧
      (∀ k', k' ∈ l₁ → v k' < v k) ∧ (∀ k', k' ∈ l₂ → v k' ≤ v k) ∧
      l.foldl (fun s k => if v k > s.1 then (v k, k) else s) (y, j) = (v k, k) := by
  induction l generalizing y j with
  | nil => left; simp
  | cons k l ih =>
    rw [List.foldl_cons]
    by_cases hk : v k > y
    · simp only [hk, if_true]
      right
      rcases ih (v k) k with ⟨hall, he⟩ | ⟨l₁, k₂, l₂, hl, hlt, h1, h2, he⟩
      · exact ⟨[], k, l, rfl, hk, by simp, hall, he⟩
      · refine ⟨k :: l₁, k₂, l₂, by simp [hl], lt_trans hk hlt, ?_, h2, he⟩
        intro k' hk'
        rcases List.mem_cons.1 hk' with rfl | hk'
        · exact hlt
        · exact h1 k' hk'
    · simp only [hk, if_false]
      rcases ih y j with ⟨hall, he⟩ | ⟨l₁, k₂, l₂, hl, hlt, h1, h2, he⟩
      · left
        refine ⟨?_, he⟩
        intro k' hk'
        rcases List.mem_cons.1 hk' with rfl | hk'
        · exact not_lt.1 hk
        · exact hall k' hk'
      · right
        refine ⟨k :: l₁, k₂, l₂, by simp [hl], hlt, ?_, h2, he⟩
        intro k' hk'
        rcases List.mem_cons.1 hk' with rfl | hk'
        · exact lt_of_le_of_lt (not_lt.1 hk) hlt
        · exact h1 k' hk'

/-- `extr_op` with `max` returns the largest of `a[0..n)` and the first index holding it. -/
theorem extr_op_max {α : Type} [LinearOrderedField α] (a : List α) (n : Nat) (hn : 0 < n) :
    (extr_op a n .max).2 < n ∧ (extr_op a n .max).1 = rd a (extr_op a n .max).2 ∧
    (∀ i, i < n → rd a i ≤ (extr_op a n .max).1) ∧
    (∀ i, i < (extr_op a n .max).2 → rd a i < (extr_op a n .max).1) := by
  simp only [extr_op]
  rcases scan_max (fun i => rd a i) (List.range' 1 (n - 1)) (rd a 0) 0 with
    ⟨hall, he⟩ | ⟨l₁, k, l₂, hl, hlt, h1, h2, he⟩
  · rw [he]
    refine ⟨hn, rfl, ?_, ?_⟩
    · intro i hi
      rcases Nat.eq_zero_or_pos i with rfl | hpos
      · exact le_refl _
      · exact hall i (by rw [List.mem_range'_1]; omega)
    · intro i hi; omega
  · rw [he]
    have hk : k ∈ List.range' 1 (n - 1) := by rw [hl]; simp
    rw [List.mem_range'_1] at hk
    have hmem : ∀ i, 1 ≤ i → i < n → i ∈ l₁ ∨ i = k ∨ i ∈ l₂ := by
      intro i h1' h2'
      have : i ∈ List.range' 1 (n - 1) := by rw [List.mem_range'_1]; omega
      rw [hl] at this
      simpa using this
    refine ⟨by omega, rfl, ?_, ?_⟩
    · intro i hi
      rcases Nat.eq_zero_or_pos i with rfl | hpos
      · exact le_of_lt hlt
      · rcases hmem i hpos hi with h | rfl | h
        · exact le_of_lt (h1 i h)
        · exact le_refl _
        · exact h2 i h
    · intro i hi
      rcases Nat.eq_zero_or_pos i with rfl | hpos
      · exact hlt
      · rcases hmem i hpos (by omega) with h | rfl | h
        · exact h1 i h
        · omega
        · have := range'_split_lt _ _ l₁ l₂ k hl i h
          omega

theorem foldl_add_nonneg {α : Type} [LinearOrderedField α] (t : Nat → α) (l : List Nat)
    (h : ∀ j, j ∈ l → 0 ≤ t j) : 0 ≤ l.foldl (fun s j => s + t j) 0 := by
  apply foldl_inv (fun s => (0 : α) ≤ s)
  · exact le_refl _
  · intro s j hj hs; exact add_nonneg hs (h j hj)

theorem foldl_add_eq_zero {α : Type} [LinearOrderedField α] (t : Nat → α) (l : List Nat)
    (h : ∀ j, j ∈ l → t j = 0) : l.foldl (fun s j => s + t j) 0 = 0 := by
  apply foldl_inv (fun s => s = (0 : α))
  · rfl
  · intro s j hj hs; rw [hs, h j hj, add_zero]

theorem foldl_add_ne_zero {α : Type} [LinearOrderedField α] (t : Nat → α) (l : List Nat)
    (h : l.foldl (fun s j => s + t j) 0 ≠ 0) : ∃ j, j ∈ l ∧ t j ≠ 0 := by
  by_contra hc
  push_neg at hc
  exact h (foldl_add_eq_zero t l hc)

/-! ## `mat_max` -/

theorem DBL_MAX_pos {α : Type} [LinearOrderedField α] : (0 : α) < DBL_MAX := by
  unfold DBL_MAX
  apply mul_pos
  · have : (1 : α) < 2 ^ 53 := one_lt_pow₀ (by norm_num) (by norm_num)
    linarith
  · positivity

theorem Amax_fold_mono {α : Type} [LinearOrderedField α] (A : csr_mat α) (f : List α)
    (l : List Nat) (y : α) :
    y ≤ l.foldl
      (fun Amax j => if rd f (rd A.col j) ≠ 0 ∧ |rd A.a j| > Amax then |rd A.a j| else Amax)
      y := by
  induction l generalizing y with
  | nil => exact le_refl _
  | cons k l ih =>
    rw [List.foldl_cons]
    refine le_trans ?_ (ih _)
    split_ifs with h
    · exact le_of_lt h.2
    · exact le_refl _

theorem Amax_fold_ge {α : Type} [LinearOrderedField α] (A : csr_mat α) (f : List α)
    (l : List Nat) (y : α) (j : Nat) (hj : j ∈ l) (hf : rd f (rd A.col j) ≠ 0) :
    |rd A.a j| ≤ l.foldl
      (fun Amax j => if rd f (rd A.col j) ≠ 0 ∧ |rd A.a j| > Amax then |rd A.a j| else Amax)
      y := by
  induction l generalizing y with
  | nil => simp at hj
  | cons k l ih =>
    rw [List.foldl_cons]
    rcases List.mem_cons.1 hj with rfl | hj
    · refine le_trans ?_ (Amax_fold_mono A f l _)
      split_ifs with h
      · exact le_refl _
      · push_neg at h
        exact h hf
    · exact ih _ hj

theorem mat_max_Amax_ge {α : Type} [LinearOrderedField α] (A : csr_mat α) (f : List α)
    (i j : Nat) (hj : j ∈ rowIdx A i) (hf : rd f (rd A.col j) ≠ 0) :
    |rd A.a j| ≤ mat_max_Amax A f i :=
  Amax_fold_ge A f _ 0 j hj hf

theorem mat_max_row_length {α : Type} [LinearOrderedField α] (A : csr_mat α)
    (f x : List α) (tol : α) (yg : List α) (i : Nat) :
    (mat_max_row A f x tol yg i).length = yg.length := by
  unfold mat_max_row
  apply foldl_inv (fun y : List α => y.length = yg.length)
  · rfl
  · intro s j _ hs
    simp only
    split_ifs <;> simp [hs]

theorem mat_max_row_src {α : Type} [LinearOrderedField α] (A : csr_mat α)
    (f x : List α) (tol : α) (yg : List α) (i : Nat) (hi : i < A.rn)
    (h : mat_max_src A f x tol yg) : mat_max_src A f x tol (mat_max_row A f x tol yg i) := by
  unfold mat_max_row
  apply foldl_inv (fun y : List α => mat_max_src A f x tol y) _ _ _ h
  intro s j hj hs
  simp only
  split_ifs with h1 h2
  · exact hs
  · refine ⟨by simp [hs.1], ?_⟩
    intro k hk
    rw [rd_set]
    split_ifs with h3
    · right
      push_neg at h1
      exact ⟨i, j, hi, hj, h3.1, by rw [← h3.1]; exact h1.1, not_lt.2 h1.2, rfl⟩
    · exact hs.2 k hk
  · exact hs

theorem mat_max_yg_src {α : Type} [LinearOrderedField α] (A : csr_mat α) (f x : List α)
    (tol : α) :
    mat_max_src A f x tol
      ((List.range A.rn).foldl (mat_max_row A f x tol) (List.replicate A.cn (-DBL_MAX))) := by
  apply foldl_inv (fun y : List α => mat_max_src A f x tol y)
  · refine ⟨by simp, ?_⟩
    intro k hk
    left
    rw [rd_eq_getElem _ _ (by simpa using hk)]
    simp
  · intro s i hi hs
    exact mat_max_row_src A f x tol s i (List.mem_range.1 hi) hs

/-- The value `mat_max` stores at `k < rn`. -/
theorem rd_mat_max {α : Type} [LinearOrderedField α] (y : List α) (A : csr_mat α)
    (f x : List α) (tol : α) (k : Nat) (hk : k < A.rn) (hy : k < y.length)
    (hkc : k < A.cn) :
    rd (mat_max y A f x tol) k = -DBL_MAX ∨
    ∃ i j, i < A.rn ∧ j ∈ rowIdx A i ∧ rd A.col j = k ∧ rd f k ≠ 0 ∧
      ¬ |rd A.a j| < mat_max_Amax A f i * tol ∧ rd (mat_max y A f x tol) k = rd x i := by
  unfold mat_max
  simp only
  rw [rd_memcpy, if_pos ⟨hk, hy⟩]
  exact (mat_max_yg_src A f x tol).2 k hkc

theorem mat_max_length {α : Type} [LinearOrderedField α] (y : List α) (A : csr_mat α)
    (f x : List α) (tol : α) : (mat_max y A f x tol).length = y.length := by
  unfold mat_max; exact memcpy_length _ _ _

/-! ## The strength matrix of `coarsen` -/

theorem coarsen_S_eq {α : Type} [LinearOrderedField α] (sqrt : α → α) (D0 : List α)
    (A : csr_mat α) :
    coarsen_S sqrt D0 A =
      diagcsr_op (coarsen_absDAD sqrt D0 A)
        (diag (coarsen_D sqrt D0 A) (coarsen_absDAD sqrt D0 A)) .dminus := rfl

theorem copy_csr_eq {α : Type} (A : csr_mat α) (hA : csr_wf A) : copy_csr A = A := by
  obtain ⟨h1, _, _, h4, h5, _, _⟩ := hA
  unfold copy_csr
  cases A with
  | mk rn cn row_off col a =>
    simp only at h1 h4 h5 ⊢
    rw [h4, ← h1, List.take_length, List.take_length, ← h5, List.take_length]

theorem diagcsr_op_struct {α : Type} [LinearOrderedField α] (A : csr_mat α) (D : List α)
    (op : diagcsr_ops) :
    (diagcsr_op A D op).rn = A.rn ∧ (diagcsr_op A D op).cn = A.cn ∧
    (diagcsr_op A D op).row_off = A.row_off ∧ (diagcsr_op A D op).col = A.col := by
  cases op <;> exact ⟨rfl, rfl, rfl, rfl⟩

theorem diagcsr_op_length {α : Type} [LinearOrderedField α] (A : csr_mat α) (D : List α)
    (op : diagcsr_ops) : (diagcsr_op A D op).a.length = A.a.length := by
  cases op <;> simp only [diagcsr_op]
  · apply foldl_inv (fun a : List α => a.length = A.a.length) _ _ _ rfl
    intro s i _ hs
    unfold dplus_step
    cases diagPos A i <;> simp [hs]
  · apply foldl_inv (fun a : List α => a.length = A.a.length) _ _ _ rfl
    intro s i _ hs
    unfold dminus_step
    cases diagPos A i <;> simp [hs]
  · apply foldl_inv (fun a : List α => a.length = A.a.length) _ _ _ rfl
    intro s i _ hs
    apply foldl_inv (fun a : List α => a.length = A.a.length) _ _ _ hs
    intro s' j _ hs'
    simp [hs']
  · apply foldl_inv (fun a : List α => a.length = A.a.length) _ _ _ rfl
    intro s i _ hs
    apply foldl_inv (fun a : List α => a.length = A.a.length) _ _ _ hs
    intro s' j _ hs'
    simp [hs']

theorem rowIdx_congr {α β : Type} (A : csr_mat α) (B : csr_mat β)
    (h : A.row_off = B.row_off) (i : Nat) : rowIdx A i = rowIdx B i := by
  unfold rowIdx; rw [h]

theorem diagPos_congr {α β : Type} (A : csr_mat α) (B : csr_mat β)
    (h : A.row_off = B.row_off) (hc : A.col = B.col) (i : Nat) :
    diagPos A i = diagPos B i := by
  unfold diagPos; rw [rowIdx_congr A B h, hc]

theorem diagPos_some {α : Type} (A : csr_mat α) (i j : Nat) (h : diagPos A i = some j) :
    j ∈ rowIdx A i ∧ rd A.col j = i := by
  unfold diagPos at h
  have h1 := List.find?_some h
  have h2 := List.mem_of_find?_eq_some h
  exact ⟨h2, by simpa using h1⟩

/-- The rows of a well-formed matrix are disjoint ranges of positions. -/
theorem rowIdx_disjoint {α : Type} (A : csr_mat α) (hA : csr_wf A) (i i' j : Nat)
    (hi : i < A.rn) (hi' : i' < A.rn) (hj : j ∈ rowIdx A i) (hj' : j ∈ rowIdx A i') :
    i = i' := by
  unfold rowIdx at hj hj'
  rw [List.mem_range'_1] at hj hj'
  have key : ∀ a b, a < b → b < A.rn → rd A.row_off (a + 1) ≤ rd A.row_off b := by
    intro a b hab hb
    have := wf_row_off_le A hA (a + 1) (b - (a + 1)) (by omega)
    rwa [show a + 1 + (b - (a + 1)) = b by omega] at this
  rcases Nat.lt_trichotomy i i' with h | h | h
  · have := key i i' h hi'; omega
  · exact h
  · have := key i' i h hi; omega

/-- In a well-formed matrix an entry of row `i` in column `i` is the one found by the
diagonal search. -/
theorem diagPos_unique {α : Type} (A : csr_mat α) (hA : csr_wf A) (i j j' : Nat)
    (hi : i < A.rn) (h : diagPos A i = some j) (hj' : j' ∈ rowIdx A i)
    (hc : rd A.col j' = i) : j' = j := by
  obtain ⟨hj, hcj⟩ := diagPos_some A i j h
  have hnd := hA.2.2.2.2.2.2 i hi
  exact List.inj_on_of_nodup_map hnd hj' hj (by rw [hc, hcj])

theorem stored_diag_lt_cn {α : Type} (A : csr_mat α) (hA : csr_wf A)
    (hd : stored_diag A) : A.rn ≤ A.cn := by
  by_contra hlt
  have hpos : 0 < A.rn := by omega
  obtain ⟨j, hj⟩ := hd (A.rn - 1) (by omega)
  obtain ⟨hjr, hjc⟩ := diagPos_some A _ j hj
  have hjl := mem_rowIdx_lt A hA _ j (by omega) hjr
  have := hA.2.2.2.2.2.1 (rd A.col j) (by rw [rd_eq_getElem _ _ hjl]; exact List.getElem_mem _)
  omega

/-- With every diagonal stored, `diag` writes the diagonal of row `i` at `D[i]`. -/
theorem diag_fold {α : Type} [Zero α] (D : List α) (A : csr_mat α) (hd : stored_diag A)
    (n : Nat) (hn : n ≤ A.rn) (hD : A.rn ≤ D.length) :
    ∃ D', (List.range n).foldl
      (diag_step A) (D, 0) = (D', n) ∧ D'.length = D.length ∧
      ∀ i j, i < n → diagPos A i = some j → rd D' i = rd A.a j := by
  induction n with
  | zero => exact ⟨D, rfl, rfl, fun i j hi => absurd hi (Nat.not_lt_zero _)⟩
  | succ n ih =>
    obtain ⟨D', he, hl, hv⟩ := ih (by omega)
    obtain ⟨j, hj⟩ := hd n (by omega)
    rw [List.range_succ, List.foldl_append, he]
    refine ⟨D'.set n (rd A.a j), by simp [diag_step, hj], by simp [hl], ?_⟩
    intro i j' hi hj'
    rw [rd_set]
    by_cases hin : n = i
    · subst hin
      rw [hj] at hj'
      cases hj'
      simp; intro h; omega
    · rw [if_neg (by simp [hin])]
      exact hv i j' (by omega) hj'

theorem rd_diag {α : Type} [Zero α] (D : List α) (A : csr_mat α) (hd : stored_diag A)
    (hD : A.rn ≤ D.length) (i j : Nat) (hi : i < A.rn) (hj : diagPos A i = some j) :
    rd (diag D A) i = rd A.a j := by
  obtain ⟨D', he, _, hv⟩ := diag_fold D A hd A.rn (Nat.le_refl _) hD
  unfold diag
  rw [he]
  exact hv i j hi hj

theorem diag_length {α : Type} [Zero α] (D : List α) (A : csr_mat α) :
    (diag D A).length = D.length := by
  unfold diag
  have : ∀ s : List α × Nat, s.1.length = D.length →
      ((List.range A.rn).foldl
        (diag_step A) s).1.length = D.length := by
    intro s hs
    apply foldl_inv (fun s : List α × Nat => s.1.length = D.length) _ _ _ hs
    intro s i _ hs
    unfold diag_step
    cases diagPos A i <;> simp [hs]
  exact this (D, 0) rfl

theorem csr_wf_congr {α β : Type} (A : csr_mat α) (B : csr_mat β) (hA : csr_wf A)
    (h1 : B.rn = A.rn) (h2 : B.cn = A.cn) (h3 : B.row_off = A.row_off)
    (h4 : B.col = A.col) (h5 : B.a.length = A.a.length) : csr_wf B := by
  obtain ⟨a1, a2, a3, a4, a5, a6, a7⟩ := hA
  refine ⟨by rw [h3, h1]; exact a1, by rw [h3]; exact a2, ?_, by rw [h3, h1, h4]; exact a4,
    by rw [h5, h4]; exact a5, by rw [h4, h2]; exact a6, ?_⟩
  · intro i hi; rw [h3]; exact a3 i (by omega)
  · intro i hi
    rw [rowIdx_congr B A h3, h4]; exact a7 i (by omega)

theorem stored_diag_congr {α β : Type} (A : csr_mat α) (B : csr_mat β)
    (hd : stored_diag A) (h1 : B.rn = A.rn) (h3 : B.row_off = A.row_off)
    (h4 : B.col = A.col) : stored_diag B := by
  intro i hi
  rw [diagPos_congr B A h3 h4]
  exact hd i (by omega)

/-- The `dminus` loop when `D[i]` is the stored diagonal of row `i`: the diagonal entries
become 0 and the other cells are unchanged. -/
theorem dminus_fold {α : Type} [LinearOrderedField α] (B : csr_mat α) (hB : csr_wf B)
    (hd : stored_diag B) (D : List α)
    (hDv : ∀ i j, i < B.rn → diagPos B i = some j → rd D i = rd B.a j)
    (n : Nat) (hn : n ≤ B.rn) :
    ((List.range n).foldl (dminus_step B D) B.a).length = B.a.length ∧
    ∀ j, (∀ i, i < n → diagPos B i = some j →
        rd ((List.range n).foldl (dminus_step B D) B.a) j = 0) ∧
      ((∀ i, i < n → diagPos B i ≠ some j) →
        rd ((List.range n).foldl (dminus_step B D) B.a) j = rd B.a j) := by
  induction n with
  | zero =>
    refine ⟨rfl, fun j => ⟨fun i hi => absurd hi (Nat.not_lt_zero _), fun _ => rfl⟩⟩
  | succ n ih =>
    obtain ⟨hl, hv⟩ := ih (by omega)
    obtain ⟨jn, hjn⟩ := hd n (by omega)
    have hjnr := (diagPos_some B n jn hjn).1
    have hstep : (List.range (n + 1)).foldl (dminus_step B D) B.a =
        ((List.range n).foldl (dminus_step B D) B.a).set jn 0 := by
      rw [List.range_succ, List.foldl_append]
      simp only [List.foldl_cons, List.foldl_nil, dminus_step, hjn]
      have h1 : rd ((List.range n).foldl (dminus_step B D) B.a) jn = rd B.a jn := by
        apply (hv jn).2
        intro i hi hc
        have := rowIdx_disjoint B hB i n jn (by omega) (by omega) (diagPos_some B i jn hc).1 hjnr
        omega
      rw [h1, hDv n jn (by omega) hjn, sub_self]
    rw [hstep]
    refine ⟨by simp [hl], ?_⟩
    intro j
    rw [rd_set]
    refine ⟨?_, ?_⟩
    · intro i hi hc
      split_ifs with h
      · rfl
      · by_cases hin : i = n
        · subst hin
          have hjj : jn = j := Option.some.inj (hjn.symm.trans hc)
          have : ¬ j < ((List.range i).foldl (dminus_step B D) B.a).length := by
            intro hlt; exact h ⟨hjj, hlt⟩
          exact rd_of_le _ _ (Nat.le_of_not_lt this)
        · exact (hv j).1 i (by omega) hc
    · intro hno
      have hne : jn ≠ j := by
        intro he; subst he; exact hno n (by omega) hjn
      rw [if_neg (by simp [hne])]
      exact (hv j).2 (fun i hi => hno i (by omega))

/-- Removing the stored diagonal of a non-negative matrix `B` (lines 1187-1188): the
result has the pattern of `B`, non-negative values, zero diagonal entries and the
off-diagonal values of `B`. -/
theorem dminus_diag {α : Type} [LinearOrderedField α] (B : csr_mat α) (hB : csr_wf B)
    (hd : stored_diag B) (D : List α) (hD : B.rn ≤ D.length)
    (hnn : ∀ j, 0 ≤ rd B.a j) :
    (∀ j, 0 ≤ rd (diagcsr_op B (diag D B) .dminus).a j) ∧
    (∀ i j, i < B.rn → j ∈ rowIdx B i → rd B.col j = i →
      rd (diagcsr_op B (diag D B) .dminus).a j = 0) ∧
    (∀ i j, i < B.rn → j ∈ rowIdx B i → rd B.col j ≠ i →
      rd (diagcsr_op B (diag D B) .dminus).a j = rd B.a j) := by
  have hDv : ∀ i j, i < B.rn → diagPos B i = some j → rd (diag D B) i = rd B.a j :=
    fun i j hi hj => rd_diag D B hd hD i j hi hj
  obtain ⟨_, hv⟩ := dminus_fold B hB hd (diag D B) hDv B.rn (Nat.le_refl _)
  have ha : (diagcsr_op B (diag D B) .dminus).a =
      (List.range B.rn).foldl (dminus_step B (diag D B)) B.a := rfl
  rw [ha]
  refine ⟨?_, ?_, ?_⟩
  · intro j
    by_cases h : ∃ i, i < B.rn ∧ diagPos B i = some j
    · obtain ⟨i, hi, hc⟩ := h
      rw [(hv j).1 i hi hc]
    · push_neg at h
      rw [(hv j).2 h]; exact hnn j
  · intro i j hi hj hc
    obtain ⟨j0, hj0⟩ := hd i hi
    have := diagPos_unique B hB i j0 j hi hj0 hj hc
    subst this
    exact (hv j).1 i hi hj0
  · intro i j hi hj hc
    apply (hv j).2
    intro i' hi' hc'
    obtain ⟨hjr, hjc⟩ := diagPos_some B i' j hc'
    have := rowIdx_disjoint B hB i i' j hi hi' hj hjr
    subst this
    exact hc hjc

theorem coarsen_absDAD_struct {α : Type} [LinearOrderedField α] (sqrt : α → α)
    (D0 : List α) (A : csr_mat α) (hA : csr_wf A) :
    (coarsen_absDAD sqrt D0 A).rn = A.rn ∧ (coarsen_absDAD sqrt D0 A).cn = A.cn ∧
    (coarsen_absDAD sqrt D0 A).row_off = A.row_off ∧
    (coarsen_absDAD sqrt D0 A).col = A.col ∧
    (coarsen_absDAD sqrt D0 A).a.length = A.a.length ∧
    ∀ j, 0 ≤ rd (coarsen_absDAD sqrt D0 A).a j := by
  unfold coarsen_absDAD
  simp only [copy_csr_eq A hA]
  refine ⟨rfl, rfl, rfl, rfl, ?_, ?_⟩
  · rw [array_op_length, diagcsr_op_length, diagcsr_op_length]
  · intro j
    rw [rd_array_op_abs]
    split_ifs with h
    · exact abs_nonneg _
    · have hro : (diagcsr_op (diagcsr_op A (coarsen_D sqrt D0 A) .dmult)
          (coarsen_D sqrt D0 A) .multd).row_off = A.row_off := rfl
      rw [hro, hA.2.2.2.1, diagcsr_op_length, diagcsr_op_length, hA.2.2.2.2.1] at h
      rw [rd_of_le]
      rw [diagcsr_op_length, diagcsr_op_length, hA.2.2.2.2.1]
      by_contra hc
      exact h ⟨by omega, by omega⟩

theorem coarsen_D_length {α : Type} [LinearOrderedField α] (sqrt : α → α) (D0 : List α)
    (A : csr_mat α) : (coarsen_D sqrt D0 A).length = A.cn := by
  unfold coarsen_D
  rw [array_op_length, array_op_length, diag_length, tmalloc_length]

/-- The strength matrix `S` of `coarsen`: it has the pattern of `A`, non-negative values
and zero stored diagonal entries. -/
theorem coarsen_S_props {α : Type} [LinearOrderedField α] (sqrt : α → α) (D0 : List α)
    (A : csr_mat α) (hA : csr_wf A) (hd : stored_diag A) :
    (coarsen_S sqrt D0 A).rn = A.rn ∧ (coarsen_S sqrt D0 A).cn = A.cn ∧
    (coarsen_S sqrt D0 A).row_off = A.row_off ∧ (coarsen_S sqrt D0 A).col = A.col ∧
    csr_wf (coarsen_S sqrt D0 A) ∧
    (∀ j, 0 ≤ rd (coarsen_S sqrt D0 A).a j) ∧
    (∀ i j, i < A.rn → j ∈ rowIdx A i → rd A.col j = i → rd (coarsen_S sqrt D0 A).a j = 0) ∧
    (∀ i j, i < A.rn → j ∈ rowIdx A i → rd A.col j ≠ i →
      rd (coarsen_S sqrt D0 A).a j = rd (coarsen_absDAD sqrt D0 A).a j) := by
  obtain ⟨b1, b2, b3, b4, b5, b6⟩ := coarsen_absDAD_struct sqrt D0 A hA
  have hB : csr_wf (coarsen_absDAD sqrt D0 A) := csr_wf_congr A _ hA b1 b2 b3 b4 b5
  have hdB : stored_diag (coarsen_absDAD sqrt D0 A) := stored_diag_congr A _ hd b1 b3 b4
  have hlen : (coarsen_absDAD sqrt D0 A).rn ≤ (coarsen_D sqrt D0 A).length := by
    rw [coarsen_D_length, b1]; exact stored_diag_lt_cn A hA hd
  obtain ⟨c1, c2, c3⟩ := dminus_diag _ hB hdB (coarsen_D sqrt D0 A) hlen b6
  rw [coarsen_S_eq]
  obtain ⟨d1, d2, d3, d4⟩ := diagcsr_op_struct (coarsen_absDAD sqrt D0 A)
    (diag (coarsen_D sqrt D0 A) (coarsen_absDAD sqrt D0 A)) .dminus
  refine ⟨d1.trans b1, d2.trans b2, d3.trans b3, d4.trans b4, ?_, c1, ?_, ?_⟩
  · exact csr_wf_congr _ _ hB d1 d2 d3 d4 (diagcsr_op_length _ _ _)
  · intro i j hi hj hc
    exact c2 i j (by rw [b1]; exact hi) (by rw [rowIdx_congr _ A b3]; exact hj)
      (by rw [b4]; exact hc)
  · intro i j hi hj hc
    exact c3 i j (by rw [b1]; exact hi) (by rw [rowIdx_congr _ A b3]; exact hj)
      (by rw [b4]; exact hc)

/-! ## One iteration of the loop of `coarsen` -/

theorem coarsen_iter_eq {α : Type} [LinearOrderedField α] (sqrt : α → α) (S : csr_mat α)
    (ctol : α) (gs_id : List Int) (s : coarsen_state α) :
    coarsen_iter sqrt S ctol gs_id s =
      if it_b sqrt S s ≤ ctol then
        if s.anyvc = 0 then
          Sum.inl (coarsen_seed s.vc S.rn gs_id (extr_op (it_w1 S s) S.rn .max).1
            (extr_op (it_w1 S s) S.rn .max).1 (extr_op (it_w1 S s) S.rn .max).2)
        else Sum.inl s.vc
      else Sum.inr (it_next sqrt S ctol gs_id s) := rfl

theorem rd_apply_M_Sx {α : Type} [LinearOrderedField α] (z y : List α) (M : csr_mat α)
    (x : List α) (k : Nat) (hk : k < M.rn) (hz : k < z.length) :
    rd (apply_M z 0 y 1 M x) k = Sx M x k := by
  rw [rd_apply_M, if_pos ⟨hk, hz⟩]
  simp [Sx]

theorem mem_rowIdx_col_lt {α : Type} (S : csr_mat α) (hS : csr_wf S) (i j : Nat)
    (hi : i < S.rn) (hj : j ∈ rowIdx S i) : rd S.col j < S.cn := by
  have hjl := mem_rowIdx_lt S hS i j hi hj
  rw [rd_eq_getElem _ _ hjl]
  exact hS.2.2.2.2.2.1 _ (List.getElem_mem _)

theorem Sx_nonneg {α : Type} [LinearOrderedField α] (S : csr_mat α) (hS : strength_ok S)
    (x : List α) (hx : ∀ k, k < S.rn → 0 ≤ rd x k) (i : Nat) (hi : i < S.rn) :
    0 ≤ Sx S x i := by
  unfold Sx
  apply foldl_add_nonneg (fun j => rd S.a j * rd x (rd S.col j))
  intro j hj
  have := mem_rowIdx_col_lt S hS.1 i j hi hj
  exact mul_nonneg (hS.2.2.1 j) (hx _ (by rw [hS.2.1]; exact this))

theorem Sx_ne_zero {α : Type} [LinearOrderedField α] (S : csr_mat α) (x : List α) (i : Nat)
    (h : Sx S x i ≠ 0) : ∃ j, j ∈ rowIdx S i ∧ rd S.a j ≠ 0 ∧ rd x (rd S.col j) ≠ 0 := by
  obtain ⟨j, hj, hne⟩ := foldl_add_ne_zero (fun j => rd S.a j * rd x (rd S.col j)) _ h
  exact ⟨j, hj, left_ne_zero_of_mul hne, right_ne_zero_of_mul hne⟩

/-! ### Values of the arrays of an iteration -/

theorem it_g_length {α : Type} [LinearOrderedField α] (S : csr_mat α)
    (s : coarsen_state α) : (it_g S s).length = s.g.length := by
  unfold it_g; rw [vv_op_length, apply_M_length]

theorem rd_it_g {α : Type} [LinearOrderedField α] (S : csr_mat α) (s : coarsen_state α)
    (hb : bufs_ok S.rn s) (i : Nat) (hi : i < S.rn) :
    rd (it_g S s) i = Sx S s.vf i * rd s.vf i := by
  have hl : i < s.g.length := by have := hb.2.2.1; omega
  unfold it_g
  rw [rd_vv_op_ewmult, if_pos ⟨hi, by rw [apply_M_length]; exact hl⟩,
    rd_apply_M_Sx _ _ _ _ _ hi hl]

theorem it_w1_length {α : Type} [LinearOrderedField α] (S : csr_mat α)
    (s : coarsen_state α) : (it_w1 S s).length = s.w1.length := by
  unfold it_w1; rw [vv_op_length, apply_M_length]

theorem rd_it_w1 {α : Type} [LinearOrderedField α] (S : csr_mat α) (s : coarsen_state α)
    (hb : bufs_ok S.rn s) (i : Nat) (hi : i < S.rn) :
    rd (it_w1 S s) i = Sx S (it_g S s) i * rd s.vf i := by
  have hl : i < s.w1.length := by have := hb.2.2.2.1; omega
  unfold it_w1
  rw [rd_vv_op_ewmult, if_pos ⟨hi, by rw [apply_M_length]; exact hl⟩,
    rd_apply_M_Sx _ _ _ _ _ hi hl]

theorem it_w2a_length {α : Type} [LinearOrderedField α] (S : csr_mat α)
    (s : coarsen_state α) : (it_w2a S s).length = s.w2.length := by
  unfold it_w2a; rw [vv_op_length, apply_M_length]

theorem rd_it_w2a {α : Type} [LinearOrderedField α] (S : csr_mat α) (s : coarsen_state α)
    (hb : bufs_ok S.rn s) (i : Nat) (hi : i < S.rn) :
    rd (it_w2a S s) i = Sx S (it_w1 S s) i * rd s.vf i := by
  have hl : i < s.w2.length := by have := hb.2.2.2.2.1; omega
  unfold it_w2a
  rw [rd_vv_op_ewmult, if_pos ⟨hi, by rw [apply_M_length]; exact hl⟩,
    rd_apply_M_Sx _ _ _ _ _ hi hl]

theorem it_tmp1_length {α : Type} [LinearOrderedField α] (S : csr_mat α)
    (s : coarsen_state α) : (it_tmp1 S s).length = s.tmp.length := by
  unfold it_tmp1; rw [apply_M_length]

theorem rd_it_tmp1 {α : Type} [LinearOrderedField α] (S : csr_mat α) (s : coarsen_state α)
    (hb : bufs_ok S.rn s) (i : Nat) (hi : i < S.rn) :
    rd (it_tmp1 S s) i = Sx S (it_w2a S s) i := by
  have hl : i < s.tmp.length := by have := hb.2.2.2.2.2.1; omega
  unfold it_tmp1
  rw [rd_apply_M_Sx _ _ _ _ _ hi hl]

theorem it_w2_length {α : Type} [LinearOrderedField α] (S : csr_mat α)
    (s : coarsen_state α) : (it_w2 S s).length = s.w2.length := by
  unfold it_w2; rw [vv_op_length, memcpy_length, it_w2a_length]

theorem rd_it_w2 {α : Type} [LinearOrderedField α] (S : csr_mat α) (s : coarsen_state α)
    (hb : bufs_ok S.rn s) (i : Nat) (hi : i < S.rn) :
    rd (it_w2 S s) i = Sx S (it_w2a S s) i * rd s.vf i := by
  have hl : i < s.w2.length := by have := hb.2.2.2.2.1; omega
  unfold it_w2
  rw [rd_vv_op_ewmult, if_pos ⟨hi, by rw [memcpy_length, it_w2a_length]; exact hl⟩,
    rd_memcpy, if_pos ⟨hi, by rw [it_w2a_length]; exact hl⟩, rd_it_tmp1 S s hb i hi]

theorem it_w_length {α : Type} [LinearOrderedField α] (sqrt : α → α) (S : csr_mat α)
    (s : coarsen_state α) : (it_w sqrt S s).length = s.w.length := by
  unfold it_w; rw [forUpd_length, vv_op_length, array_op_length, memcpy_length]

/-- For `i < rn`, `w[i]` is 0 when `w1[i] == 0` and `(1/w1[i])*w2[i]` otherwise. -/
theorem rd_it_w {α : Type} [LinearOrderedField α] (sqrt : α → α) (S : csr_mat α)
    (s : coarsen_state α) (i : Nat) (hi : i < S.rn) :
    rd (it_w sqrt S s) i = 0 ∨
      (rd (it_w1 S s) i ≠ 0 ∧
        rd (it_w sqrt S s) i = 1 / rd (it_w1 S s) i * rd (it_w2 S s) i) := by
  unfold it_w
  rw [rd_forUpd]
  by_cases hl : i < s.w.length
  · rw [if_pos ⟨hi, by rw [vv_op_length, array_op_length, memcpy_length]; exact hl⟩]
    by_cases h0 : rd (it_w1 S s) i = 0
    · left; rw [if_pos h0]
    · right
      refine ⟨h0, ?_⟩
      rw [if_neg h0, rd_vv_op_ewmult,
        if_pos ⟨hi, by rw [array_op_length, memcpy_length]; exact hl⟩, rd_array_op_minv,
        if_pos ⟨hi, by rw [memcpy_length]; exact hl⟩, rd_memcpy, if_pos ⟨hi, hl⟩]
  · left
    have hlen : (vv_op (array_op sqrt (memcpy s.w (it_w1 S s) S.rn) S.rn .minv_op).2
        (it_w2 S s) S.rn .ewmult).length ≤ i := by
      rw [vv_op_length, array_op_length, memcpy_length]; omega
    rw [if_neg (by intro h; omega), rd_of_le _ _ hlen]

theorem rd_and_lt {α : Type} [LinearOrderedField α] (mask a : List α) (n k : Nat)
    (hk : k < n) :
    rd (bin_op mask a n .and_op) k = if rd mask k ≠ 0 ∧ rd a k ≠ 0 then 1 else 0 := by
  rw [rd_bin_op_and]
  by_cases hl : k < mask.length
  · rw [if_pos ⟨hk, hl⟩]
  · have h0 : rd mask k = 0 := rd_of_le _ _ (Nat.le_of_not_lt hl)
    rw [if_neg (fun h => hl h.2), h0]
    simp

theorem rd_gt_ne_zero {α : Type} [LinearOrderedField α] (mask a : List α) (n k : Nat)
    (t : α) (hk : k < n) (h : rd (mask_op mask a n t .gt).1 k ≠ 0) : rd a k > t := by
  rw [rd_mask_op_gt] at h
  by_cases hl : k < mask.length
  · rw [if_pos ⟨hk, hl⟩] at h
    by_contra hc
    rw [if_neg hc] at h
    exact h rfl
  · rw [if_neg (fun h => hl h.2)] at h
    exact absurd (rd_of_le _ _ (Nat.le_of_not_lt hl)) h

theorem it_mask0_length {α : Type} [LinearOrderedField α] (sqrt : α → α) (S : csr_mat α)
    (ctol : α) (s : coarsen_state α) : (it_mask0 sqrt S ctol s).length = s.mask.length := by
  unfold it_mask0; rw [mask_op_length]

theorem it_tmpA_length {α : Type} [LinearOrderedField α] (sqrt : α → α) (S : csr_mat α)
    (ctol : α) (s : coarsen_state α) : (it_tmpA sqrt S ctol s).length = s.tmp.length := by
  unfold it_tmpA; rw [vv_op_length, memcpy_length, it_tmp1_length]

theorem it_m1_length {α : Type} [LinearOrderedField α] (sqrt : α → α) (S : csr_mat α)
    (ctol : α) (s : coarsen_state α) : (it_m1 sqrt S ctol s).length = s.m.length := by
  unfold it_m1; rw [mat_max_length]

theorem it_g2_length {α : Type} [LinearOrderedField α] (sqrt : α → α) (S : csr_mat α)
    (ctol : α) (s : coarsen_state α) : (it_g2 sqrt S ctol s).length = s.g.length := by
  unfold it_g2; rw [vv_op_length, it_g_length]

theorem it_tmpB_length {α : Type} [LinearOrderedField α] (sqrt : α → α) (S : csr_mat α)
    (ctol : α) (s : coarsen_state α) : (it_tmpB sqrt S ctol s).length = s.tmp.length := by
  unfold it_tmpB; rw [mask_op_length, it_tmpA_length]

theorem it_mask1_length {α : Type} [LinearOrderedField α] (sqrt : α → α) (S : csr_mat α)
    (ctol : α) (s : coarsen_state α) : (it_mask1 sqrt S ctol s).length = s.mask.length := by
  unfold it_mask1; rw [bin_op_length, it_mask0_length]

theorem it_g3_length {α : Type} [LinearOrderedField α] (sqrt : α → α) (S : csr_mat α)
    (ctol : α) (gs_id : List Int) (s : coarsen_state α) :
    (it_g3 sqrt S ctol gs_id s).length = s.g.length := by
  unfold it_g3; rw [forUpd_length, it_g2_length]

theorem it_tmpC_length {α : Type} [LinearOrderedField α] (sqrt : α → α) (S : csr_mat α)
    (ctol : α) (gs_id : List Int) (s : coarsen_state α) :
    (it_tmpC sqrt S ctol gs_id s).length = s.tmp.length := by
  unfold it_tmpC; rw [vv_op_length, memcpy_length, it_tmpB_length]

theorem it_m2_length {α : Type} [LinearOrderedField α] (sqrt : α → α) (S : csr_mat α)
    (ctol : α) (gs_id : List Int) (s : coarsen_state α) :
    (it_m2 sqrt S ctol gs_id s).length = s.m.length := by
  unfold it_m2; rw [mat_max_length, it_m1_length]

theorem it_g4_length {α : Type} [LinearOrderedField α] (sqrt : α → α) (S : csr_mat α)
    (ctol : α) (gs_id : List Int) (s : coarsen_state α) :
    (it_g4 sqrt S ctol gs_id s).length = s.g.length := by
  unfold it_g4; rw [vv_op_length, it_g3_length]

theorem it_tmpD_length {α : Type} [LinearOrderedField α] (sqrt : α → α) (S : csr_mat α)
    (ctol : α) (gs_id : List Int) (s : coarsen_state α) :
    (it_tmpD sqrt S ctol gs_id s).length = s.tmp.length := by
  unfold it_tmpD; rw [mask_op_length, it_tmpC_length]

theorem it_mask2_length {α : Type} [LinearOrderedField α] (sqrt : α → α) (S : csr_mat α)
    (ctol : α) (gs_id : List Int) (s : coarsen_state α) :
    (it_mask2 sqrt S ctol gs_id s).length = s.mask.length := by
  unfold it_mask2; rw [bin_op_length, it_mask1_length]

theorem it_next_bufs {α : Type} [LinearOrderedField α] (sqrt : α → α) (S : csr_mat α)
    (ctol : α) (gs_id : List Int) (s : coarsen_state α) (n : Nat) (hb : bufs_ok n s) :
    bufs_ok n (it_next sqrt S ctol gs_id s) := by
  obtain ⟨h1, h2, h3, h4, h5, h6, h7, h8, h9⟩ := hb
  unfold it_next
  refine ⟨?_, ?_, ?_, ?_, ?_, ?_, ?_, ?_, ?_⟩ <;> simp only
  · rw [bin_op_length]; exact h1
  · rw [bin_op_length]; exact h2
  · rw [it_g4_length]; exact h3
  · rw [it_w1_length]; exact h4
  · rw [it_w2_length]; exact h5
  · rw [it_tmpD_length]; exact h6
  · rw [it_w_length]; exact h7
  · rw [it_mask2_length]; exact h8
  · rw [it_m2_length]; exact h9

/-! ### The mask of an iteration -/

theorem rd_it_mask1 {α : Type} [LinearOrderedField α] (sqrt : α → α) (S : csr_mat α)
    (ctol : α) (s : coarsen_state α) (i : Nat) (hi : i < S.rn) :
    rd (it_mask1 sqrt S ctol s) i =
      if rd (it_mask0 sqrt S ctol s) i ≠ 0 ∧ rd (it_tmpB sqrt S ctol s) i ≠ 0 then 1
      else 0 := by
  unfold it_mask1; exact rd_and_lt _ _ _ _ hi

theorem rd_it_mask2 {α : Type} [LinearOrderedField α] (sqrt : α → α) (S : csr_mat α)
    (ctol : α) (gs_id : List Int) (s : coarsen_state α) (i : Nat) (hi : i < S.rn) :
    rd (it_mask2 sqrt S ctol gs_id s) i =
      if rd (it_mask1 sqrt S ctol s) i ≠ 0 ∧ rd (it_tmpD sqrt S ctol gs_id s) i ≠ 0 then 1
      else 0 := by
  unfold it_mask2; exact rd_and_lt _ _ _ _ hi

theorem it_mask2_01 {α : Type} [LinearOrderedField α] (sqrt : α → α) (S : csr_mat α)
    (ctol : α) (gs_id : List Int) (s : coarsen_state α) (i : Nat) (hi : i < S.rn) :
    rd (it_mask2 sqrt S ctol gs_id s) i = 0 ∨ rd (it_mask2 sqrt S ctol gs_id s) i = 1 := by
  rw [rd_it_mask2 sqrt S ctol gs_id s i hi]
  split_ifs
  · exact Or.inr rfl
  · exact Or.inl rfl

theorem it_mask2_sub_mask1 {α : Type} [LinearOrderedField α] (sqrt : α → α)
    (S : csr_mat α) (ctol : α) (gs_id : List Int) (s : coarsen_state α) (i : Nat)
    (hi : i < S.rn) (h : rd (it_mask2 sqrt S ctol gs_id s) i ≠ 0) :
    rd (it_mask1 sqrt S ctol s) i ≠ 0 := by
  rw [rd_it_mask2 sqrt S ctol gs_id s i hi] at h
  by_contra hc
  rw [if_neg (fun h' => h'.1 hc)] at h
  exact h rfl

theorem it_mask1_sub_mask0 {α : Type} [LinearOrderedField α] (sqrt : α → α)
    (S : csr_mat α) (ctol : α) (s : coarsen_state α) (i : Nat)
    (hi : i < S.rn) (h : rd (it_mask1 sqrt S ctol s) i ≠ 0) :
    rd (it_mask0 sqrt S ctol s) i ≠ 0 := by
  rw [rd_it_mask1 sqrt S ctol s i hi] at h
  by_contra hc
  rw [if_neg (fun h' => h'.1 hc)] at h
  exact h rfl

theorem it_mask0_w {α : Type} [LinearOrderedField α] (sqrt : α → α)
    (S : csr_mat α) (ctol : α) (s : coarsen_state α) (i : Nat)
    (hi : i < S.rn) (h : rd (it_mask0 sqrt S ctol s) i ≠ 0) :
    rd (it_w sqrt S s) i > ctol * ctol := by
  unfold it_mask0 at h
  exact rd_gt_ne_zero _ _ _ _ _ hi h

/-- A dof selected by `mask = w > ctol^2` has `w1 != 0`. -/
theorem it_mask0_w1 {α : Type} [LinearOrderedField α] (sqrt : α → α)
    (S : csr_mat α) (ctol : α) (s : coarsen_state α) (i : Nat)
    (hi : i < S.rn) (h : rd (it_mask0 sqrt S ctol s) i ≠ 0) :
    rd (it_w1 S s) i ≠ 0 := by
  have hw := it_mask0_w sqrt S ctol s i hi h
  rcases rd_it_w sqrt S s i hi with h0 | ⟨h1, _⟩
  · rw [h0] at hw
    exact absurd hw (not_lt.2 (mul_self_nonneg ctol))
  · exact h1

/-- A dof with `w1 != 0` is fine: `w1 = vf.*(...)`. -/
theorem it_w1_vf {α : Type} [LinearOrderedField α] (S : csr_mat α) (s : coarsen_state α)
    (i : Nat) (hi : i < S.rn) (h : rd (it_w1 S s) i ≠ 0) : rd s.vf i ≠ 0 := by
  unfold it_w1 at h
  rw [rd_vv_op_ewmult] at h
  by_cases hl : i < (apply_M s.w1 0 (it_g S s) 1 S (it_g S s)).length
  · rw [if_pos ⟨hi, hl⟩] at h
    exact right_ne_zero_of_mul h
  · rw [if_neg (fun h' => hl h'.2)] at h
    exact absurd (rd_of_le _ _ (Nat.le_of_not_lt hl)) h

/-- Only fine dofs are made coarse by an iteration. -/
theorem it_mask2_vf {α : Type} [LinearOrderedField α] (sqrt : α → α)
    (S : csr_mat α) (ctol : α) (gs_id : List Int) (s : coarsen_state α) (i : Nat)
    (hi : i < S.rn) (h : rd (it_mask2 sqrt S ctol gs_id s) i ≠ 0) : rd s.vf i ≠ 0 :=
  it_w1_vf S s i hi (it_mask0_w1 sqrt S ctol s i hi
    (it_mask1_sub_mask0 sqrt S ctol s i hi
      (it_mask2_sub_mask1 sqrt S ctol gs_id s i hi h)))

/-- One iteration keeps `vc` and `vf` complementary 0/1 vectors on the owned rows. -/
theorem it_next_split {α : Type} [LinearOrderedField α] (sqrt : α → α)
    (S : csr_mat α) (ctol : α) (gs_id : List Int) (s : coarsen_state α)
    (h1 : S.rn ≤ s.vc.length) (h2 : S.rn ≤ s.vf.length)
    (h : split_ok S.rn s.vc s.vf) :
    split_ok S.rn (it_next sqrt S ctol gs_id s).vc (it_next sqrt S ctol gs_id s).vf := by
  intro i hi
  have hm := it_mask2_01 sqrt S ctol gs_id s i hi
  have hv := it_mask2_vf sqrt S ctol gs_id s i hi
  show (rd (bin_op s.vc (it_mask2 sqrt S ctol gs_id s) S.rn .or_op) i = 0 ∧
      rd (bin_op s.vf (it_mask2 sqrt S ctol gs_id s) S.rn .xor_op) i = 1) ∨
    (rd (bin_op s.vc (it_mask2 sqrt S ctol gs_id s) S.rn .or_op) i = 1 ∧
      rd (bin_op s.vf (it_mask2 sqrt S ctol gs_id s) S.rn .xor_op) i = 0)
  rw [rd_bin_op_or, rd_bin_op_xor, if_pos (⟨hi, by omega⟩ : i < S.rn ∧ i < s.vc.length),
    if_pos (⟨hi, by omega⟩ : i < S.rn ∧ i < s.vf.length)]
  rcases h i hi with ⟨hc, hf⟩ | ⟨hc, hf⟩
  · rcases hm with hm | hm
    · left; simp [hc, hf, hm]
    · right; simp [hc, hf, hm]
  · rcases hm with hm | hm
    · right; simp [hc, hf, hm]
    · exact absurd hf (hv (by rw [hm]; exact one_ne_zero))

/-! ## The loop of `coarsen`: runs and results -/

theorem coarsen_S_rn {α : Type} [LinearOrderedField α] (sqrt : α → α) (D0 : List α)
    (A : csr_mat α) : (coarsen_S sqrt D0 A).rn = A.rn := rfl

theorem coarsen_loop_some {α : Type} [LinearOrderedField α] (sqrt : α → α) (S : csr_mat α)
    (ctol : α) (gs_id : List Int) (fuel : Nat) (s : coarsen_state α) (vc : List α)
    (h : coarsen_loop sqrt S ctol gs_id fuel s = some vc) :
    ∃ n s', n < fuel ∧ coarsen_run sqrt S ctol gs_id n s = some s' ∧
      coarsen_iter sqrt S ctol gs_id s' = Sum.inl vc := by
  induction fuel generalizing s with
  | zero => simp [coarsen_loop] at h
  | succ fuel ih =>
    unfold coarsen_loop at h
    cases hc : coarsen_iter sqrt S ctol gs_id s with
    | inl v =>
      rw [hc] at h
      simp only [Option.some.injEq] at h
      subst h
      exact ⟨0, s, Nat.succ_pos _, rfl, hc⟩
    | inr s1 =>
      rw [hc] at h
      obtain ⟨n, s', hn, hr, hi⟩ := ih s1 h
      refine ⟨n + 1, s', by omega, ?_, hi⟩
      unfold coarsen_run
      rw [hc]
      exact hr

theorem coarsen_iter_inr {α : Type} [LinearOrderedField α] (sqrt : α → α) (S : csr_mat α)
    (ctol : α) (gs_id : List Int) (s s1 : coarsen_state α)
    (h : coarsen_iter sqrt S ctol gs_id s = Sum.inr s1) :
    ¬ it_b sqrt S s ≤ ctol ∧ s1 = it_next sqrt S ctol gs_id s := by
  rw [coarsen_iter_eq] at h
  by_cases hb : it_b sqrt S s ≤ ctol
  · rw [if_pos hb] at h
    split_ifs at h
  · rw [if_neg hb] at h
    exact ⟨hb, (Sum.inr.inj h).symm⟩

theorem coarsen_seed_cases {α : Type} [LinearOrderedField α] (vc : List α) (rn : Nat)
    (gs_id : List Int) (a b : α) (mil : Nat) :
    coarsen_seed vc rn gs_id a b mil = vc ∨
      ∃ k, k < rn ∧ coarsen_seed vc rn gs_id a b mil = vc.set k 1 := by
  unfold coarsen_seed
  simp only
  cases hf : (List.range rn).find?
      (fun i => (if a = b then toUint (rd gs_id mil) else toUint (-1)) = toUint (rd gs_id i)) with
  | none => left; rfl
  | some k =>
    right
    exact ⟨k, List.mem_range.1 (List.mem_of_find?_eq_some hf), rfl⟩

theorem coarsen_iter_inl {α : Type} [LinearOrderedField α] (sqrt : α → α) (S : csr_mat α)
    (ctol : α) (gs_id : List Int) (s : coarsen_state α) (vc : List α)
    (h : coarsen_iter sqrt S ctol gs_id s = Sum.inl vc) :
    it_b sqrt S s ≤ ctol ∧ (vc = s.vc ∨ ∃ k, k < S.rn ∧ vc = s.vc.set k 1) := by
  rw [coarsen_iter_eq] at h
  by_cases hb : it_b sqrt S s ≤ ctol
  · refine ⟨hb, ?_⟩
    rw [if_pos hb] at h
    by_cases ha : s.anyvc = 0
    · rw [if_pos ha] at h
      have h' := (Sum.inl.inj h).symm
      rcases coarsen_seed_cases s.vc S.rn gs_id (extr_op (it_w1 S s) S.rn .max).1
        (extr_op (it_w1 S s) S.rn .max).1 (extr_op (it_w1 S s) S.rn .max).2 with hc | ⟨k, hk, hc⟩
      · left; rw [h', hc]
      · right; exact ⟨k, hk, by rw [h', hc]⟩
    · rw [if_neg ha] at h
      left; exact (Sum.inl.inj h).symm
  · rw [if_neg hb] at h
    cases h

/-- Along a run of the loop, `vc` and `vf` stay complementary on the owned rows. -/
theorem coarsen_run_split {α : Type} [LinearOrderedField α] (sqrt : α → α)
    (S : csr_mat α) (ctol : α) (gs_id : List Int) (n : Nat) (s s' : coarsen_state α)
    (h1 : S.rn ≤ s.vc.length) (h2 : S.rn ≤ s.vf.length) (h : split_ok S.rn s.vc s.vf)
    (hr : coarsen_run sqrt S ctol gs_id n s = some s') :
    S.rn ≤ s'.vc.length ∧ S.rn ≤ s'.vf.length ∧ split_ok S.rn s'.vc s'.vf := by
  induction n generalizing s with
  | zero =>
    simp only [coarsen_run, Option.some.injEq] at hr
    subst hr
    exact ⟨h1, h2, h⟩
  | succ n ih =>
    unfold coarsen_run at hr
    cases hc : coarsen_iter sqrt S ctol gs_id s with
    | inl v => rw [hc] at hr; cases hr
    | inr s1 =>
      rw [hc] at hr
      obtain ⟨_, hs1⟩ := coarsen_iter_inr sqrt S ctol gs_id s s1 hc
      subst hs1
      refine ih _ ?_ ?_ (it_next_split sqrt S ctol gs_id s h1 h2 h) hr
      · show S.rn ≤ (bin_op s.vc (it_mask2 sqrt S ctol gs_id s) S.rn .or_op).length
        rw [bin_op_length]; exact h1
      · show S.rn ≤ (bin_op s.vf (it_mask2 sqrt S ctol gs_id s) S.rn .xor_op).length
        rw [bin_op_length]; exact h2

theorem coarsen_init_split {α : Type} [LinearOrderedField α] (mem : coarsen_mem α)
    (vc : List α) (A : csr_mat α) (hcn : A.rn ≤ A.cn) (hvc : A.rn ≤ vc.length) :
    A.rn ≤ (coarsen_init mem vc A).vc.length ∧ A.rn ≤ (coarsen_init mem vc A).vf.length ∧
    split_ok A.rn (coarsen_init mem vc A).vc (coarsen_init mem vc A).vf := by
  refine ⟨?_, ?_, ?_⟩
  · show A.rn ≤ (init_array vc A.rn 0).length
    rw [init_array_length]; exact hvc
  · show A.rn ≤ (init_array (tmalloc mem.vf A.cn) A.cn 1).length
    rw [init_array_length, tmalloc_length]; exact hcn
  · intro i hi
    left
    show rd (init_array vc A.rn 0) i = 0 ∧ rd (init_array (tmalloc mem.vf A.cn) A.cn 1) i = 1
    rw [rd_init_array, rd_init_array, if_pos ⟨hi, by omega⟩,
      if_pos ⟨by omega, by rw [tmalloc_length]; omega⟩]
    exact ⟨rfl, rfl⟩

/-- C6: on a single process, for a matrix `A` with as many columns as rows (no ghost
column), every tolerance `ctol` and every content of the fresh arrays: at the head of every
iteration of the loop of `coarsen`, `vc` and the internal `vf` are 0/1 vectors with
`vc[i]+vf[i] = 1`, hence not both 1, on every owned row; the returned `vc` is 0/1 and is
the `vc` of the last loop head, up to the single seed promotion; and the `vf = ~vc` of
`amg_setup` satisfies `vc[i]+vf[i] = 1` for every `i < cn`. -/
theorem coarsen_split {α : Type} [LinearOrderedField α] (sqrt : α → α)
    (mem : coarsen_mem α) (vc0 vf0 : List α) (A : csr_mat α) (ctol : α)
    (gs_id : List Int) (hsq : A.rn = A.cn) :
    (∀ n s, coarsen_run sqrt (coarsen_S sqrt mem.D A) ctol gs_id n
        (coarsen_init mem (tmalloc vc0 A.cn) A) = some s →
      ∀ i, i < A.rn → (rd s.vc i = 0 ∨ rd s.vc i = 1) ∧ (rd s.vf i = 0 ∨ rd s.vf i = 1) ∧
        rd s.vc i + rd s.vf i = 1 ∧ ¬ (rd s.vc i = 1 ∧ rd s.vf i = 1)) ∧
    (∀ fuel vc, coarsen sqrt mem fuel (tmalloc vc0 A.cn) A ctol gs_id = some vc →
      (∀ i, i < A.rn → rd vc i = 0 ∨ rd vc i = 1) ∧
      (∃ n s, coarsen_run sqrt (coarsen_S sqrt mem.D A) ctol gs_id n
          (coarsen_init mem (tmalloc vc0 A.cn) A) = some s ∧
        split_ok A.rn s.vc s.vf ∧ (vc = s.vc ∨ ∃ k, k < A.rn ∧ vc = s.vc.set k 1)) ∧
      ∀ i, i < A.cn → rd vc i + rd (amg_setup_vf vf0 A.cn vc) i = 1) := by
  have hinit := coarsen_init_split mem (tmalloc vc0 A.cn) A (by omega)
    (by rw [tmalloc_length]; omega)
  have hrun : ∀ n s, coarsen_run sqrt (coarsen_S sqrt mem.D A) ctol gs_id n
      (coarsen_init mem (tmalloc vc0 A.cn) A) = some s →
      A.rn ≤ s.vc.length ∧ A.rn ≤ s.vf.length ∧ split_ok A.rn s.vc s.vf := by
    intro n s hr
    exact coarsen_run_split sqrt (coarsen_S sqrt mem.D A) ctol gs_id n _ s
      hinit.1 hinit.2.1 hinit.2.2 hr
  refine ⟨?_, ?_⟩
  · intro n s hr i hi
    rcases (hrun n s hr).2.2 i hi with ⟨hc, hf⟩ | ⟨hc, hf⟩
    · rw [hc, hf]; simp
    · rw [hc, hf]; simp
  · intro fuel vc hv
    obtain ⟨n, s, _, hr, hi⟩ := coarsen_loop_some sqrt _ ctol gs_id fuel _ vc hv
    obtain ⟨hl1, _, hsp⟩ := hrun n s hr
    obtain ⟨_, hcase⟩ := coarsen_iter_inl sqrt _ ctol gs_id s vc hi
    have h01 : ∀ i, i < A.rn → rd vc i = 0 ∨ rd vc i = 1 := by
      intro i hi'
      have hs : rd s.vc i = 0 ∨ rd s.vc i = 1 := by
        rcases hsp i hi' with ⟨hc, _⟩ | ⟨hc, _⟩
        · exact Or.inl hc
        · exact Or.inr hc
      rcases hcase with rfl | ⟨k, _, rfl⟩
      · exact hs
      · rw [rd_set]
        split_ifs
        · exact Or.inr rfl
        · exact hs
    refine ⟨h01, ⟨n, s, hr, hsp, hcase⟩, ?_⟩
    intro i hi'
    unfold amg_setup_vf
    rw [rd_bin_op_not, if_pos ⟨hi', by rw [tmalloc_length]; exact hi'⟩]
    rcases h01 i (by omega) with h | h
    · rw [h]; simp
    · rw [h]; simp

/-! ### Values of the arrays of the second half of an iteration -/

theorem rd_it_mask0 {α : Type} [LinearOrderedField α] (sqrt : α → α) (S : csr_mat α)
    (ctol : α) (s : coarsen_state α) (hb : bufs_ok S.rn s) (i : Nat) (hi : i < S.rn) :
    rd (it_mask0 sqrt S ctol s) i = if rd (it_w sqrt S s) i > ctol * ctol then 1 else 0 := by
  have hl : i < s.mask.length := by have := hb.2.2.2.2.2.2.2.1; omega
  unfold it_mask0
  rw [rd_mask_op_gt, if_pos ⟨hi, hl⟩]

theorem rd_it_tmpA {α : Type} [LinearOrderedField α] (sqrt : α → α) (S : csr_mat α)
    (ctol : α) (s : coarsen_state α) (hb : bufs_ok S.rn s) (i : Nat) (hi : i < S.rn) :
    rd (it_tmpA sqrt S ctol s) i = rd (it_g S s) i * rd (it_mask0 sqrt S ctol s) i := by
  have hl : i < s.tmp.length := by have := hb.2.2.2.2.2.1; omega
  unfold it_tmpA
  rw [rd_vv_op_ewmult, if_pos ⟨hi, by rw [memcpy_length, it_tmp1_length]; exact hl⟩,
    rd_memcpy, if_pos ⟨hi, by rw [it_tmp1_length]; exact hl⟩]

theorem rd_it_g2 {α : Type} [LinearOrderedField α] (sqrt : α → α) (S : csr_mat α)
    (ctol : α) (s : coarsen_state α) (hb : bufs_ok S.rn s) (i : Nat) (hi : i < S.rn) :
    rd (it_g2 sqrt S ctol s) i = rd (it_g S s) i - rd (it_m1 sqrt S ctol s) i := by
  have hl : i < s.g.length := by have := hb.2.2.1; omega
  unfold it_g2
  rw [rd_vv_op_minus, if_pos ⟨hi, by rw [it_g_length]; exact hl⟩]

theorem rd_it_tmpB {α : Type} [LinearOrderedField α] (sqrt : α → α) (S : csr_mat α)
    (ctol : α) (s : coarsen_state α) (hb : bufs_ok S.rn s) (i : Nat) (hi : i < S.rn) :
    rd (it_tmpB sqrt S ctol s) i = if rd (it_g2 sqrt S ctol s) i ≥ 0 then 1 else 0 := by
  have hl : i < s.tmp.length := by have := hb.2.2.2.2.2.1; omega
  unfold it_tmpB
  rw [rd_mask_op_ge, if_pos ⟨hi, by rw [it_tmpA_length]; exact hl⟩]

theorem rd_it_g3 {α : Type} [LinearOrderedField α] (sqrt : α → α) (S : csr_mat α)
    (ctol : α) (gs_id : List Int) (s : coarsen_state α) (hb : bufs_ok S.rn s) (i : Nat)
    (hi : i < S.rn) : rd (it_g3 sqrt S ctol gs_id s) i = ((rd gs_id i : Int) : α) := by
  have hl : i < s.g.length := by have := hb.2.2.1; omega
  unfold it_g3
  rw [rd_forUpd, if_pos ⟨hi, by rw [it_g2_length]; exact hl⟩]

theorem rd_it_tmpC {α : Type} [LinearOrderedField α] (sqrt : α → α) (S : csr_mat α)
    (ctol : α) (gs_id : List Int) (s : coarsen_state α) (hb : bufs_ok S.rn s) (i : Nat)
    (hi : i < S.rn) :
    rd (it_tmpC sqrt S ctol gs_id s) i =
      rd (it_mask1 sqrt S ctol s) i * ((rd gs_id i : Int) : α) := by
  have hl : i < s.tmp.length := by have := hb.2.2.2.2.2.1; omega
  unfold it_tmpC
  rw [rd_vv_op_ewmult, if_pos ⟨hi, by rw [memcpy_length, it_tmpB_length]; exact hl⟩,
    rd_memcpy, if_pos ⟨hi, by rw [it_tmpB_length]; exact hl⟩,
    rd_it_g3 sqrt S ctol gs_id s hb i hi]

theorem rd_it_g4 {α : Type} [LinearOrderedField α] (sqrt : α → α) (S : csr_mat α)
    (ctol : α) (gs_id : List Int) (s : coarsen_state α) (hb : bufs_ok S.rn s) (i : Nat)
    (hi : i < S.rn) :
    rd (it_g4 sqrt S ctol gs_id s) i =
      ((rd gs_id i : Int) : α) - rd (it_m2 sqrt S ctol gs_id s) i := by
  have hl : i < s.g.length := by have := hb.2.2.1; omega
  unfold it_g4
  rw [rd_vv_op_minus, if_pos ⟨hi, by rw [it_g3_length]; exact hl⟩,
    rd_it_g3 sqrt S ctol gs_id s hb i hi]

theorem rd_it_tmpD {α : Type} [LinearOrderedField α] (sqrt : α → α) (S : csr_mat α)
    (ctol : α) (gs_id : List Int) (s : coarsen_state α) (hb : bufs_ok S.rn s) (i : Nat)
    (hi : i < S.rn) :
    rd (it_tmpD sqrt S ctol gs_id s) i =
      if rd (it_g4 sqrt S ctol gs_id s) i > 0 then 1 else 0 := by
  have hl : i < s.tmp.length := by have := hb.2.2.2.2.2.1; omega
  unfold it_tmpD
  rw [rd_mask_op_gt, if_pos ⟨hi, by rw [it_tmpC_length]; exact hl⟩]

/-! ### Signs -/

theorem it_g_nonneg {α : Type} [LinearOrderedField α] (S : csr_mat α) (hS : strength_ok S)
    (s : coarsen_state α) (hb : bufs_ok S.rn s)
    (hvf : ∀ i, i < S.rn → rd s.vf i = 0 ∨ rd s.vf i = 1) (i : Nat) (hi : i < S.rn) :
    0 ≤ rd (it_g S s) i := by
  have hvf0 : ∀ k, k < S.rn → 0 ≤ rd s.vf k := by
    intro k hk
    rcases hvf k hk with h | h <;> rw [h]
    exact zero_le_one
  rw [rd_it_g S s hb i hi]
  exact mul_nonneg (Sx_nonneg S hS _ hvf0 i hi) (hvf0 i hi)

theorem it_w1_nonneg {α : Type} [LinearOrderedField α] (S : csr_mat α)
    (hS : strength_ok S) (s : coarsen_state α) (hb : bufs_ok S.rn s)
    (hvf : ∀ i, i < S.rn → rd s.vf i = 0 ∨ rd s.vf i = 1) (i : Nat) (hi : i < S.rn) :
    0 ≤ rd (it_w1 S s) i := by
  have hvf0 : ∀ k, k < S.rn → 0 ≤ rd s.vf k := by
    intro k hk
    rcases hvf k hk with h | h <;> rw [h]
    exact zero_le_one
  rw [rd_it_w1 S s hb i hi]
  exact mul_nonneg (Sx_nonneg S hS _ (it_g_nonneg S hS s hb hvf) i hi) (hvf0 i hi)

theorem it_w2a_nonneg {α : Type} [LinearOrderedField α] (S : csr_mat α)
    (hS : strength_ok S) (s : coarsen_state α) (hb : bufs_ok S.rn s)
    (hvf : ∀ i, i < S.rn → rd s.vf i = 0 ∨ rd s.vf i = 1) (i : Nat) (hi : i < S.rn) :
    0 ≤ rd (it_w2a S s) i := by
  have hvf0 : ∀ k, k < S.rn → 0 ≤ rd s.vf k := by
    intro k hk
    rcases hvf k hk with h | h <;> rw [h]
    exact zero_le_one
  rw [rd_it_w2a S s hb i hi]
  exact mul_nonneg (Sx_nonneg S hS _ (it_w1_nonneg S hS s hb hvf) i hi) (hvf0 i hi)

theorem it_w2_nonneg {α : Type} [LinearOrderedField α] (S : csr_mat α)
    (hS : strength_ok S) (s : coarsen_state α) (hb : bufs_ok S.rn s)
    (hvf : ∀ i, i < S.rn → rd s.vf i = 0 ∨ rd s.vf i = 1) (i : Nat) (hi : i < S.rn) :
    0 ≤ rd (it_w2 S s) i := by
  have hvf0 : ∀ k, k < S.rn → 0 ≤ rd s.vf k := by
    intro k hk
    rcases hvf k hk with h | h <;> rw [h]
    exact zero_le_one
  rw [rd_it_w2 S s hb i hi]
  exact mul_nonneg (Sx_nonneg S hS _ (it_w2a_nonneg S hS s hb hvf) i hi) (hvf0 i hi)

theorem it_w_nonneg {α : Type} [LinearOrderedField α] (sqrt : α → α) (S : csr_mat α)
    (hS : strength_ok S) (s : coarsen_state α) (hb : bufs_ok S.rn s)
    (hvf : ∀ i, i < S.rn → rd s.vf i = 0 ∨ rd s.vf i = 1) (i : Nat) (hi : i < S.rn) :
    0 ≤ rd (it_w sqrt S s) i := by
  rcases rd_it_w sqrt S s i hi with h | ⟨_, h⟩
  · rw [h]
  · rw [h]
    exact mul_nonneg (div_nonneg zero_le_one (it_w1_nonneg S hS s hb hvf i hi))
      (it_w2_nonneg S hS s hb hvf i hi)

/-- A dof selected by `mask = w > ctol^2` has a non-zero strength entry towards a fine dof,
so the cut-off `Amax*tol` of its row in `mat_max` is positive. -/
theorem it_mask0_Amax {α : Type} [LinearOrderedField α] (sqrt : α → α) (S : csr_mat α)
    (hS : strength_ok S) (ctol : α) (s : coarsen_state α) (hb : bufs_ok S.rn s)
    (i : Nat) (hi : i < S.rn) (h : rd (it_mask0 sqrt S ctol s) i ≠ 0) :
    0 < mat_max_Amax S s.vf i * (1 / 10) := by
  have hw1 := it_mask0_w1 sqrt S ctol s i hi h
  rw [rd_it_w1 S s hb i hi] at hw1
  obtain ⟨j, hj, ha, hg⟩ := Sx_ne_zero S _ i (left_ne_zero_of_mul hw1)
  have hc : rd S.col j < S.rn := by
    rw [hS.2.1]; exact mem_rowIdx_col_lt S hS.1 i j hi hj
  rw [rd_it_g S s hb _ hc] at hg
  have hvf := right_ne_zero_of_mul hg
  have := mat_max_Amax_ge S s.vf i j hj hvf
  have hpos : 0 < |rd S.a j| := abs_pos.2 ha
  exact mul_pos (lt_of_lt_of_le hpos this) (by norm_num)

/-! ### Progress of an iteration that does not end in `break` -/

theorem sqrt_gt {α : Type} [LinearOrderedField α] (sqrt : α → α)
    (hsqrt : ∀ x, 0 ≤ x → 0 ≤ sqrt x ∧ sqrt x * sqrt x = x) (x c : α) (hx : 0 ≤ x)
    (hc : 0 ≤ c) (h : c < sqrt x) : c * c < x := by
  have h2 := (hsqrt x hx).2
  calc c * c < sqrt x * sqrt x := mul_lt_mul'' h h hc hc
    _ = x := h2

/-- When the test `b <= ctol` fails, some dof has `w > ctol^2`. -/
theorem it_exists_w {α : Type} [LinearOrderedField α] (sqrt : α → α)
    (hsqrt : ∀ x, 0 ≤ x → 0 ≤ sqrt x ∧ sqrt x * sqrt x = x) (S : csr_mat α)
    (hS : strength_ok S) (hn : 0 < S.rn) (ctol : α) (hc : 0 < ctol) (s : coarsen_state α)
    (hb : bufs_ok S.rn s) (hvf : ∀ i, i < S.rn → rd s.vf i = 0 ∨ rd s.vf i = 1)
    (h : ¬ it_b sqrt S s ≤ ctol) :
    ∃ i, i < S.rn ∧ rd (it_w sqrt S s) i > ctol * ctol := by
  obtain ⟨a1, a2, _, _⟩ := extr_op_max (it_w1 S s) S.rn hn
  obtain ⟨b1, b2, _, _⟩ := extr_op_max (it_w sqrt S s) S.rn hn
  have ha : 0 ≤ (extr_op (it_w1 S s) S.rn .max).1 := by
    rw [a2]; exact it_w1_nonneg S hS s hb hvf _ a1
  have hb' : 0 ≤ (extr_op (it_w sqrt S s) S.rn .max).1 := by
    rw [b2]; exact it_w_nonneg sqrt S hS s hb hvf _ b1
  refine ⟨(extr_op (it_w sqrt S s) S.rn .max).2, b1, ?_⟩
  rw [← b2]
  unfold it_b at h
  by_cases hlt : (extr_op (it_w1 S s) S.rn .max).1 < (extr_op (it_w sqrt S s) S.rn .max).1
  · rw [if_pos hlt] at h
    exact lt_trans (sqrt_gt sqrt hsqrt _ _ ha (le_of_lt hc) (not_le.1 h)) hlt
  · rw [if_neg hlt] at h
    exact sqrt_gt sqrt hsqrt _ _ hb' (le_of_lt hc) (not_le.1 h)

/-- The first filter `mask & (g-m>=0)` keeps a candidate with the largest `g`. -/
theorem it_exists_mask1 {α : Type} [LinearOrderedField α] (sqrt : α → α) (S : csr_mat α)
    (hS : strength_ok S) (ctol : α) (s : coarsen_state α)
    (hb : bufs_ok S.rn s) (hvf : ∀ i, i < S.rn → rd s.vf i = 0 ∨ rd s.vf i = 1)
    (h : ∃ i, i < S.rn ∧ rd (it_w sqrt S s) i > ctol * ctol) :
    ∃ i, i < S.rn ∧ rd (it_mask1 sqrt S ctol s) i ≠ 0 := by
  obtain ⟨i0, hi0, hw0⟩ := h
  have hne : ((Finset.range S.rn).filter
      (fun i => rd (it_mask0 sqrt S ctol s) i ≠ 0)).Nonempty := by
    refine ⟨i0, ?_⟩
    rw [Finset.mem_filter, Finset.mem_range]
    refine ⟨hi0, ?_⟩
    rw [rd_it_mask0 sqrt S ctol s hb i0 hi0, if_pos hw0]
    exact one_ne_zero
  obtain ⟨i1, hi1, hmax⟩ := Finset.exists_max_image _ (fun i => rd (it_g S s) i) hne
  rw [Finset.mem_filter, Finset.mem_range] at hi1
  refine ⟨i1, hi1.1, ?_⟩
  rw [rd_it_mask1 sqrt S ctol s i1 hi1.1]
  have hg1 : 0 ≤ rd (it_g S s) i1 := it_g_nonneg S hS s hb hvf i1 hi1.1
  have hB : rd (it_tmpB sqrt S ctol s) i1 ≠ 0 := by
    rw [rd_it_tmpB sqrt S ctol s hb i1 hi1.1]
    have hge : rd (it_g2 sqrt S ctol s) i1 ≥ 0 := by
      rw [rd_it_g2 sqrt S ctol s hb i1 hi1.1]
      have hm : i1 < s.m.length := by have := hb.2.2.2.2.2.2.2.2; omega
      unfold it_m1
      rcases rd_mat_max s.m S s.vf (it_tmpA sqrt S ctol s) (1 / 10) i1 hi1.1 hm
        (by rw [← hS.2.1]; exact hi1.1) with hneg | ⟨i', j, hi', _, _, _, _, he⟩
      · rw [hneg]
        have := @DBL_MAX_pos α _
        linarith
      · rw [he, rd_it_tmpA sqrt S ctol s hb i' hi', rd_it_mask0 sqrt S ctol s hb i' hi']
        by_cases hw : rd (it_w sqrt S s) i' > ctol * ctol
        · rw [if_pos hw, mul_one]
          have := hmax i' (by
            rw [Finset.mem_filter, Finset.mem_range]
            refine ⟨hi', ?_⟩
            rw [rd_it_mask0 sqrt S ctol s hb i' hi', if_pos hw]
            exact one_ne_zero)
          simp only at this
          linarith
        · rw [if_neg hw, mul_zero]
          linarith
    rw [if_pos hge]
    exact one_ne_zero
  rw [if_pos ⟨hi1.2, hB⟩]
  exact one_ne_zero

/-- The second filter `mask & (id-m>0)` keeps the candidate with the largest global id. -/
theorem it_exists_mask2 {α : Type} [LinearOrderedField α] (sqrt : α → α) (S : csr_mat α)
    (hS : strength_ok S) (ctol : α) (gs_id : List Int)
    (hpos : ∀ i, i < S.rn → 0 < rd gs_id i)
    (hinj : ∀ i i', i < S.rn → i' < S.rn → rd gs_id i = rd gs_id i' → i = i')
    (s : coarsen_state α) (hb : bufs_ok S.rn s)
    (h : ∃ i, i < S.rn ∧ rd (it_mask1 sqrt S ctol s) i ≠ 0) :
    ∃ i, i < S.rn ∧ rd (it_mask2 sqrt S ctol gs_id s) i ≠ 0 := by
  obtain ⟨i0, hi0, hm0⟩ := h
  have hne : ((Finset.range S.rn).filter
      (fun i => rd (it_mask1 sqrt S ctol s) i ≠ 0)).Nonempty := by
    refine ⟨i0, ?_⟩
    rw [Finset.mem_filter, Finset.mem_range]
    exact ⟨hi0, hm0⟩
  obtain ⟨i2, hi2, hmax⟩ := Finset.exists_max_image _ (fun i => rd gs_id i) hne
  rw [Finset.mem_filter, Finset.mem_range] at hi2
  refine ⟨i2, hi2.1, ?_⟩
  rw [rd_it_mask2 sqrt S ctol gs_id s i2 hi2.1]
  have hid : (0 : α) < ((rd gs_id i2 : Int) : α) := by exact_mod_cast hpos i2 hi2.1
  have hD : rd (it_tmpD sqrt S ctol gs_id s) i2 ≠ 0 := by
    rw [rd_it_tmpD sqrt S ctol gs_id s hb i2 hi2.1]
    have hgt : rd (it_g4 sqrt S ctol gs_id s) i2 > 0 := by
      rw [rd_it_g4 sqrt S ctol gs_id s hb i2 hi2.1]
      have hm : i2 < (it_m1 sqrt S ctol s).length := by
        rw [it_m1_length]; have := hb.2.2.2.2.2.2.2.2; omega
      unfold it_m2
      rcases rd_mat_max (it_m1 sqrt S ctol s) S s.vf (it_tmpC sqrt S ctol gs_id s) (1 / 10)
        i2 hi2.1 hm (by rw [← hS.2.1]; exact hi2.1) with
        hneg | ⟨i', j, hi', hj, hcol, _, hA, he⟩
      · rw [hneg]
        have := @DBL_MAX_pos α _
        linarith
      · rw [he, rd_it_tmpC sqrt S ctol gs_id s hb i' hi',
          rd_it_mask1 sqrt S ctol s i' hi']
        by_cases hm1 : rd (it_mask0 sqrt S ctol s) i' ≠ 0 ∧ rd (it_tmpB sqrt S ctol s) i' ≠ 0
        · rw [if_pos hm1, one_mul]
          have hmem : rd (it_mask1 sqrt S ctol s) i' ≠ 0 := by
            rw [rd_it_mask1 sqrt S ctol s i' hi', if_pos hm1]; exact one_ne_zero
          have hle := hmax i' (by
            rw [Finset.mem_filter, Finset.mem_range]; exact ⟨hi', hmem⟩)
          simp only at hle
          have hne' : i' ≠ i2 := by
            intro heq
            subst heq
            have hz := hS.2.2.2 i' j hi' hj hcol
            rw [hz, abs_zero] at hA
            exact hA (it_mask0_Amax sqrt S hS ctol s hb i' hi' hm1.1)
          have hlt : rd gs_id i' < rd gs_id i2 :=
            lt_of_le_of_ne hle (fun heq => hne' (hinj i' i2 hi' hi2.1 heq))
          have : ((rd gs_id i' : Int) : α) < ((rd gs_id i2 : Int) : α) := by
            exact_mod_cast hlt
          linarith
        · rw [if_neg hm1, zero_mul]
          linarith
    rw [if_pos hgt]
    exact one_ne_zero
  rw [if_pos ⟨hi2.2, hD⟩]
  exact one_ne_zero

theorem pos_diag_stored {α : Type} [LinearOrderedField α] (A : csr_mat α)
    (h : pos_diag A) : stored_diag A := by
  intro i hi
  obtain ⟨j, hj, _⟩ := h i hi
  exact ⟨j, hj⟩

theorem renum_le_of {α : Type} [Zero α] [DecidableEq α] (v v' : List α) (n : Nat)
    (h : ∀ i, i < n → rd v' i ≠ 0 → rd v i ≠ 0) : renum v' n ≤ renum v n := by
  induction n with
  | zero => exact Nat.le_refl _
  | succ n ih =>
    have := ih (fun i hi => h i (by omega))
    rw [renum_succ, renum_succ]
    by_cases h' : rd v' n ≠ 0
    · rw [if_pos h', if_pos (h n (by omega) h')]; omega
    · rw [if_neg h']; split_ifs <;> omega

theorem renum_lt_of {α : Type} [Zero α] [DecidableEq α] (v v' : List α) (n : Nat)
    (h : ∀ i, i < n → rd v' i ≠ 0 → rd v i ≠ 0)
    (hex : ∃ i, i < n ∧ rd v i ≠ 0 ∧ rd v' i = 0) : renum v' n < renum v n := by
  induction n with
  | zero => obtain ⟨i, hi, _⟩ := hex; exact absurd hi (Nat.not_lt_zero _)
  | succ n ih =>
    obtain ⟨i, hi, hv, hv'⟩ := hex
    have hle := renum_le_of v v' n (fun i hi => h i (by omega))
    rw [renum_succ, renum_succ]
    by_cases hin : i = n
    · subst hin
      rw [if_pos hv, if_neg (by simpa using hv')]; omega
    · have := ih (fun i hi => h i (by omega)) ⟨i, by omega, hv, hv'⟩
      by_cases h' : rd v' n ≠ 0
      · rw [if_pos h', if_pos (h n (by omega) h')]; omega
      · rw [if_neg h']; split_ifs <;> omega

theorem renum_le_self {α : Type} [Zero α] [DecidableEq α] (v : List α) (n : Nat) :
    renum v n ≤ n := by
  induction n with
  | zero => exact Nat.le_refl _
  | succ n ih => rw [renum_succ]; split_ifs <;> omega

theorem split_ok_vf {α : Type} [LinearOrderedField α] (n : Nat) (vc vf : List α)
    (h : split_ok n vc vf) : ∀ i, i < n → rd vf i = 0 ∨ rd vf i = 1 := by
  intro i hi
  rcases h i hi with ⟨_, hf⟩ | ⟨_, hf⟩
  · exact Or.inr hf
  · exact Or.inl hf

theorem rd_it_next_vf {α : Type} [LinearOrderedField α] (sqrt : α → α) (S : csr_mat α)
    (ctol : α) (gs_id : List Int) (s : coarsen_state α) (hb : bufs_ok S.rn s) (i : Nat)
    (hi : i < S.rn) :
    rd (it_next sqrt S ctol gs_id s).vf i =
      if rd s.vf i ≠ 0 ∧ rd (it_mask2 sqrt S ctol gs_id s) i = 0 then 1 else 0 := by
  have hv := it_mask2_vf sqrt S ctol gs_id s i hi
  show rd (bin_op s.vf (it_mask2 sqrt S ctol gs_id s) S.rn .xor_op) i = _
  rw [rd_bin_op_xor, if_pos (⟨hi, by have := hb.2.1; omega⟩ : i < S.rn ∧ i < s.vf.length)]
  by_cases hm : rd (it_mask2 sqrt S ctol gs_id s) i = 0
  · by_cases hf : rd s.vf i = 0 <;> simp [hm, hf]
  · have := hv hm
    simp [hm, this]

theorem rd_it_next_vc {α : Type} [LinearOrderedField α] (sqrt : α → α) (S : csr_mat α)
    (ctol : α) (gs_id : List Int) (s : coarsen_state α) (hb : bufs_ok S.rn s) (i : Nat)
    (hi : i < S.rn) :
    rd (it_next sqrt S ctol gs_id s).vc i =
      if rd s.vc i = 0 ∧ rd (it_mask2 sqrt S ctol gs_id s) i = 0 then 0 else 1 := by
  show rd (bin_op s.vc (it_mask2 sqrt S ctol gs_id s) S.rn .or_op) i = _
  rw [rd_bin_op_or, if_pos (⟨hi, by have := hb.1; omega⟩ : i < S.rn ∧ i < s.vc.length)]

/-- An iteration that does not end in `break` moves at least one dof from fine to coarse,
and none back. -/
theorem it_next_progress {α : Type} [LinearOrderedField α] (sqrt : α → α)
    (hsqrt : ∀ x, 0 ≤ x → 0 ≤ sqrt x ∧ sqrt x * sqrt x = x) (S : csr_mat α)
    (hS : strength_ok S) (hn : 0 < S.rn) (ctol : α) (hc : 0 < ctol) (gs_id : List Int)
    (hpos : ∀ i, i < S.rn → 0 < rd gs_id i)
    (hinj : ∀ i i', i < S.rn → i' < S.rn → rd gs_id i = rd gs_id i' → i = i')
    (s : coarsen_state α) (hb : bufs_ok S.rn s) (hsp : split_ok S.rn s.vc s.vf)
    (h : ¬ it_b sqrt S s ≤ ctol) :
    (∃ i, i < S.rn ∧ rd s.vc i = 0 ∧ rd s.vf i = 1 ∧
      rd (it_next sqrt S ctol gs_id s).vc i = 1 ∧
      rd (it_next sqrt S ctol gs_id s).vf i = 0) ∧
    renum (it_next sqrt S ctol gs_id s).vf S.rn < renum s.vf S.rn := by
  have hvf := split_ok_vf S.rn s.vc s.vf hsp
  obtain ⟨i, hi, hm⟩ := it_exists_mask2 sqrt S hS ctol gs_id hpos hinj s hb
    (it_exists_mask1 sqrt S hS ctol s hb hvf
      (it_exists_w sqrt hsqrt S hS hn ctol hc s hb hvf h))
  have hfi := it_mask2_vf sqrt S ctol gs_id s i hi hm
  have hvf' : rd (it_next sqrt S ctol gs_id s).vf i = 0 := by
    rw [rd_it_next_vf sqrt S ctol gs_id s hb i hi, if_neg (fun h' => hm h'.2)]
  refine ⟨⟨i, hi, ?_, ?_, ?_, hvf'⟩, ?_⟩
  · rcases hsp i hi with ⟨h1, _⟩ | ⟨_, h2⟩
    · exact h1
    · exact absurd h2 hfi
  · rcases hsp i hi with ⟨_, h1⟩ | ⟨_, h2⟩
    · exact h1
    · exact absurd h2 hfi
  · rw [rd_it_next_vc sqrt S ctol gs_id s hb i hi, if_neg (fun h' => hm h'.2)]
  · apply renum_lt_of
    · intro k hk hk'
      rw [rd_it_next_vf sqrt S ctol gs_id s hb k hk] at hk'
      by_contra hc'
      rw [if_neg (fun h' => h'.1 hc')] at hk'
      exact hk' rfl
    · exact ⟨i, hi, hfi, hvf'⟩

/-- The loop ends within `fuel` iterations as soon as `fuel` exceeds the number of fine
dofs. -/
theorem coarsen_loop_terminates {α : Type} [LinearOrderedField α] (sqrt : α → α)
    (hsqrt : ∀ x, 0 ≤ x → 0 ≤ sqrt x ∧ sqrt x * sqrt x = x) (S : csr_mat α)
    (hS : strength_ok S) (hn : 0 < S.rn) (ctol : α) (hc : 0 < ctol) (gs_id : List Int)
    (hpos : ∀ i, i < S.rn → 0 < rd gs_id i)
    (hinj : ∀ i i', i < S.rn → i' < S.rn → rd gs_id i = rd gs_id i' → i = i')
    (fuel : Nat) (s : coarsen_state α) (hb : bufs_ok S.rn s)
    (hsp : split_ok S.rn s.vc s.vf) (hf : renum s.vf S.rn < fuel) :
    ∃ vc, coarsen_loop sqrt S ctol gs_id fuel s = some vc := by
  induction fuel generalizing s with
  | zero => exact absurd hf (Nat.not_lt_zero _)
  | succ fuel ih =>
    unfold coarsen_loop
    cases hit : coarsen_iter sqrt S ctol gs_id s with
    | inl vc => exact ⟨vc, rfl⟩
    | inr s1 =>
      obtain ⟨hnb, hs1⟩ := coarsen_iter_inr sqrt S ctol gs_id s s1 hit
      subst hs1
      have hp := (it_next_progress sqrt hsqrt S hS hn ctol hc gs_id hpos hinj s hb hsp hnb).2
      exact ih _ (it_next_bufs sqrt S ctol gs_id s S.rn hb)
        (it_next_split sqrt S ctol gs_id s hb.1 hb.2.1 hsp) (by omega)

theorem coarsen_run_bufs {α : Type} [LinearOrderedField α] (sqrt : α → α)
    (S : csr_mat α) (ctol : α) (gs_id : List Int) (n : Nat) (s s' : coarsen_state α)
    (hb : bufs_ok S.rn s) (hr : coarsen_run sqrt S ctol gs_id n s = some s') :
    bufs_ok S.rn s' := by
  induction n generalizing s with
  | zero =>
    simp only [coarsen_run, Option.some.injEq] at hr
    subst hr; exact hb
  | succ n ih =>
    unfold coarsen_run at hr
    cases hc : coarsen_iter sqrt S ctol gs_id s with
    | inl v => rw [hc] at hr; cases hr
    | inr s1 =>
      rw [hc] at hr
      obtain ⟨_, hs1⟩ := coarsen_iter_inr sqrt S ctol gs_id s s1 hc
      subst hs1
      exact ih _ (it_next_bufs sqrt S ctol gs_id s S.rn hb) hr

theorem coarsen_init_bufs {α : Type} [LinearOrderedField α] (mem : coarsen_mem α)
    (vc : List α) (A : csr_mat α) (hsq : A.rn = A.cn) (hvc : A.rn ≤ vc.length) :
    bufs_ok A.rn (coarsen_init mem vc A) := by
  unfold coarsen_init bufs_ok
  simp only [init_array_length, tmalloc_length]
  omega

theorem coarsen_S_strength {α : Type} [LinearOrderedField α] (sqrt : α → α)
    (D0 : List α) (A : csr_mat α) (hA : csr_wf A) (hsq : A.rn = A.cn)
    (hd : stored_diag A) : strength_ok (coarsen_S sqrt D0 A) := by
  obtain ⟨p1, p2, p3, p4, p5, p6, p7, _⟩ := coarsen_S_props sqrt D0 A hA hd
  refine ⟨p5, by rw [p1, p2]; exact hsq, p6, ?_⟩
  intro i j hi hj hc
  exact p7 i j (by rw [← p1]; exact hi) (by rw [← rowIdx_congr _ A p3]; exact hj)
    (by rw [← p4]; exact hc)

/-- C7: on a single process (a square matrix, no ghost column), in exact arithmetic (`sqrt`
is a square root on the non-negative numbers), for a CSR matrix `A` with `rn >= 1` rows and
positive stored diagonal, distinct positive global ids and `ctol > 0`, the loop of `coarsen`
terminates: `rn+1` iterations are enough, and every iteration that does not end in `break`
moves at least one dof from fine to coarse. -/
theorem coarsen_terminates {α : Type} [LinearOrderedField α] (sqrt : α → α)
    (hsqrt : ∀ x, 0 ≤ x → 0 ≤ sqrt x ∧ sqrt x * sqrt x = x) (mem : coarsen_mem α)
    (vc : List α) (A : csr_mat α) (ctol : α) (gs_id : List Int)
    (hA : csr_wf A) (hsq : A.rn = A.cn) (hn : 1 ≤ A.rn) (hd : pos_diag A)
    (hvc : A.rn ≤ vc.length) (hc : 0 < ctol)
    (hpos : ∀ i, i < A.rn → 0 < rd gs_id i)
    (hinj : ∀ i i', i < A.rn → i' < A.rn → rd gs_id i = rd gs_id i' → i = i') :
    (∀ fuel, A.rn + 1 ≤ fuel → ∃ vc', coarsen sqrt mem fuel vc A ctol gs_id = some vc') ∧
    ∀ n s s', coarsen_run sqrt (coarsen_S sqrt mem.D A) ctol gs_id n
        (coarsen_init mem vc A) = some s →
      coarsen_iter sqrt (coarsen_S sqrt mem.D A) ctol gs_id s = Sum.inr s' →
      (∃ i, i < A.rn ∧ rd s.vc i = 0 ∧ rd s.vf i = 1 ∧ rd s'.vc i = 1 ∧ rd s'.vf i = 0) ∧
      renum s'.vf A.rn < renum s.vf A.rn := by
  have hS := coarsen_S_strength sqrt mem.D A hA hsq (pos_diag_stored A hd)
  have hb0 := coarsen_init_bufs mem vc A hsq hvc
  have hsp0 := (coarsen_init_split mem vc A (by omega) hvc).2.2
  refine ⟨?_, ?_⟩
  · intro fuel hfuel
    unfold coarsen
    apply coarsen_loop_terminates sqrt hsqrt (coarsen_S sqrt mem.D A) hS hn ctol hc gs_id hpos
      hinj fuel _ hb0 hsp0
    have := renum_le_self (coarsen_init mem vc A).vf A.rn
    show renum (coarsen_init mem vc A).vf A.rn < fuel
    omega
  · intro n s s' hr hit
    have hb := coarsen_run_bufs sqrt (coarsen_S sqrt mem.D A) ctol gs_id n _ s hb0 hr
    have hsp := (coarsen_run_split sqrt (coarsen_S sqrt mem.D A) ctol gs_id n _ s hb0.1
      hb0.2.1 hsp0 hr).2.2
    obtain ⟨hnb, hs'⟩ := coarsen_iter_inr sqrt _ ctol gs_id s s' hit
    subst hs'
    exact it_next_progress sqrt hsqrt (coarsen_S sqrt mem.D A) hS hn ctol hc gs_id hpos hinj
      s hb hsp hnb

/-! ## `coarsen` on the 4x4 tridiagonal matrix -/

theorem range'_cons' (s n : Nat) : List.range' s (n + 1) = s :: List.range' (s + 1) n := rfl

theorem neg_DBL_MAX_lt {α : Type} [LinearOrderedField α] (x : α) (h : 0 ≤ x) :
    (-DBL_MAX < x) = True := by
  have := @DBL_MAX_pos α _
  simp; linarith

set_option maxHeartbeats 4000000 in
theorem tri_iter1 {α : Type} [LinearOrderedField α] (sqrt : α → α) (mem : coarsen_mem α)
    (vc0 : List α) :
    it_b sqrt (tri_S α) (coarsen_init mem (tmalloc vc0 4) (tridiag4 α)) = sqrt (2 / 3) ∧
    it_next sqrt (tri_S α) (7 / 10) [1, 2, 3, 4] (coarsen_init mem (tmalloc vc0 4) (tridiag4 α)) = tri_s1 α := by
  have h_it_g : it_g (tri_S α) (coarsen_init mem (tmalloc vc0 4) (tridiag4 α)) = [1/2, 1, 1, 1/2] := by
    simp only [it_g]
    norm_num [coarsen_init, tridiag4, tmalloc, init_array, memcpy, array_op, tri_S, tri_s1, apply_M, vv_op, bin_op, mask_op, forUpd, rowIdx, rd, List.range_succ, range'_cons', abs_of_nonneg]
  have h_it_w1 : it_w1 (tri_S α) (coarsen_init mem (tmalloc vc0 4) (tridiag4 α)) = [1/2, 3/4, 3/4, 1/2] := by
    simp only [it_w1, h_it_g]
    norm_num [coarsen_init, tridiag4, tmalloc, init_array, memcpy, array_op, tri_S, tri_s1, apply_M, vv_op, bin_op, mask_op, forUpd, rowIdx, rd, List.range_succ, range'_cons', abs_of_nonneg]
  have h_it_w2a : it_w2a (tri_S α) (coarsen_init mem (tmalloc vc0 4) (tridiag4 α)) = [3/8, 5/8, 5/8, 3/8] := by
    simp only [it_w2a, h_it_w1]
    norm_num [coarsen_init, tridiag4, tmalloc, init_array, memcpy, array_op, tri_S, tri_s1, apply_M, vv_op, bin_op, mask_op, forUpd, rowIdx, rd, List.range_succ, range'_cons', abs_of_nonneg]
  have h_it_tmp1 : it_tmp1 (tri_S α) (coarsen_init mem (tmalloc vc0 4) (tridiag4 α)) = [5/16, 1/2, 1/2, 5/16] := by
    simp only [it_tmp1, h_it_w2a]
    norm_num [coarsen_init, tridiag4, tmalloc, init_array, memcpy, array_op, tri_S, tri_s1, apply_M, vv_op, bin_op, mask_op, forUpd, rowIdx, rd, List.range_succ, range'_cons', abs_of_nonneg]
  have h_it_w2 : it_w2 (tri_S α) (coarsen_init mem (tmalloc vc0 4) (tridiag4 α)) = [5/16, 1/2, 1/2, 5/16] := by
    simp only [it_w2, h_it_w2a, h_it_tmp1]
    norm_num [coarsen_init, tridiag4, tmalloc, init_array, memcpy, array_op, tri_S, tri_s1, apply_M, vv_op, bin_op, mask_op, forUpd, rowIdx, rd, List.range_succ, range'_cons', abs_of_nonneg]
  have h_it_w : it_w sqrt (tri_S α) (coarsen_init mem (tmalloc vc0 4) (tridiag4 α)) = [5/8, 2/3, 2/3, 5/8] := by
    simp only [it_w, h_it_w1, h_it_w2]
    norm_num [coarsen_init, tridiag4, tmalloc, init_array, memcpy, array_op, tri_S, tri_s1, apply_M, vv_op, bin_op, mask_op, forUpd, rowIdx, rd, List.range_succ, range'_cons', abs_of_nonneg]
  have h_it_mask0 : it_mask0 sqrt (tri_S α) (7 / 10) (coarsen_init mem (tmalloc vc0 4) (tridiag4 α)) = [1, 1, 1, 1] := by
    simp only [it_mask0, h_it_w]
    norm_num [coarsen_init, tridiag4, tmalloc, init_array, memcpy, array_op, tri_S, tri_s1, apply_M, vv_op, bin_op, mask_op, forUpd, rowIdx, rd, List.range_succ, range'_cons', abs_of_nonneg]
  have h_it_tmpA : it_tmpA sqrt (tri_S α) (7 / 10) (coarsen_init mem (tmalloc vc0 4) (tridiag4 α)) = [1/2, 1, 1, 1/2] := by
    simp only [it_tmpA, h_it_tmp1, h_it_g, h_it_mask0]
    norm_num [coarsen_init, tridiag4, tmalloc, init_array, memcpy, array_op, tri_S, tri_s1, apply_M, vv_op, bin_op, mask_op, forUpd, rowIdx, rd, List.range_succ, range'_cons', abs_of_nonneg]
  have h_it_m1 : it_m1 sqrt (tri_S α) (7 / 10) (coarsen_init mem (tmalloc vc0 4) (tridiag4 α)) = [1, 1, 1, 1] := by
    simp only [it_m1, h_it_tmpA]
    norm_num [mat_max, mat_max_row, mat_max_Amax, neg_DBL_MAX_lt, DBL_MAX_pos, List.replicate, coarsen_init, tridiag4, tmalloc, init_array, memcpy, array_op, tri_S, tri_s1, apply_M, vv_op, bin_op, mask_op, forUpd, rowIdx, rd, List.range_succ, range'_cons', abs_of_nonneg]
  have h_it_g2 : it_g2 sqrt (tri_S α) (7 / 10) (coarsen_init mem (tmalloc vc0 4) (tridiag4 α)) = [-(1/2), 0, 0, -(1/2)] := by
    simp only [it_g2, h_it_g, h_it_m1]
    norm_num [coarsen_init, tridiag4, tmalloc, init_array, memcpy, array_op, tri_S, tri_s1, apply_M, vv_op, bin_op, mask_op, forUpd, rowIdx, rd, List.range_succ, range'_cons', abs_of_nonneg]
  have h_it_tmpB : it_tmpB sqrt (tri_S α) (7 / 10) (coarsen_init mem (tmalloc vc0 4) (tridiag4 α)) = [0, 1, 1, 0] := by
    simp only [it_tmpB, h_it_tmpA, h_it_g2]
    norm_num [coarsen_init, tridiag4, tmalloc, init_array, memcpy, array_op, tri_S, tri_s1, apply_M, vv_op, bin_op, mask_op, forUpd, rowIdx, rd, List.range_succ, range'_cons', abs_of_nonneg]
  have h_it_mask1 : it_mask1 sqrt (tri_S α) (7 / 10) (coarsen_init mem (tmalloc vc0 4) (tridiag4 α)) = [0, 1, 1, 0] := by
    simp only [it_mask1, h_it_mask0, h_it_tmpB]
    norm_num [coarsen_init, tridiag4, tmalloc, init_array, memcpy, array_op, tri_S, tri_s1, apply_M, vv_op, bin_op, mask_op, forUpd, rowIdx, rd, List.range_succ, range'_cons', abs_of_nonneg]
  have h_it_g3 : it_g3 sqrt (tri_S α) (7 / 10) [1, 2, 3, 4] (coarsen_init mem (tmalloc vc0 4) (tridiag4 α)) = [1, 2, 3, 4] := by
    simp only [it_g3, h_it_g2]
    norm_num [coarsen_init, tridiag4, tmalloc, init_array, memcpy, array_op, tri_S, tri_s1, apply_M, vv_op, bin_op, mask_op, forUpd, rowIdx, rd, List.range_succ, range'_cons', abs_of_nonneg]
  have h_it_tmpC : it_tmpC sqrt (tri_S α) (7 / 10) [1, 2, 3, 4] (coarsen_init mem (tmalloc vc0 4) (tridiag4 α)) = [0, 2, 3, 0] := by
    simp only [it_tmpC, h_it_tmpB, h_it_mask1, h_it_g3]
    norm_num [coarsen_init, tridiag4, tmalloc, init_array, memcpy, array_op, tri_S, tri_s1, apply_M, vv_op, bin_op, mask_op, forUpd, rowIdx, rd, List.range_succ, range'_cons', abs_of_nonneg]
  have h_it_m2 : it_m2 sqrt (tri_S α) (7 / 10) [1, 2, 3, 4] (coarsen_init mem (tmalloc vc0 4) (tridiag4 α)) = [2, 3, 2, 3] := by
    simp only [it_m2, h_it_m1, h_it_tmpC]
    norm_num [mat_max, mat_max_row, mat_max_Amax, neg_DBL_MAX_lt, DBL_MAX_pos, List.replicate, coarsen_init, tridiag4, tmalloc, init_array, memcpy, array_op, tri_S, tri_s1, apply_M, vv_op, bin_op, mask_op, forUpd, rowIdx, rd, List.range_succ, range'_cons', abs_of_nonneg]
  have h_it_g4 : it_g4 sqrt (tri_S α) (7 / 10) [1, 2, 3, 4] (coarsen_init mem (tmalloc vc0 4) (tridiag4 α)) = [-1, -1, 1, 1] := by
    simp only [it_g4, h_it_g3, h_it_m2]
    norm_num [coarsen_init, tridiag4, tmalloc, init_array, memcpy, array_op, tri_S, tri_s1, apply_M, vv_op, bin_op, mask_op, forUpd, rowIdx, rd, List.range_succ, range'_cons', abs_of_nonneg]
  have h_it_tmpD : it_tmpD sqrt (tri_S α) (7 / 10) [1, 2, 3, 4] (coarsen_init mem (tmalloc vc0 4) (tridiag4 α)) = [0, 0, 1, 1] := by
    simp only [it_tmpD, h_it_tmpC, h_it_g4]
    norm_num [coarsen_init, tridiag4, tmalloc, init_array, memcpy, array_op, tri_S, tri_s1, apply_M, vv_op, bin_op, mask_op, forUpd, rowIdx, rd, List.range_succ, range'_cons', abs_of_nonneg]
  have h_it_mask2 : it_mask2 sqrt (tri_S α) (7 / 10) [1, 2, 3, 4] (coarsen_init mem (tmalloc vc0 4) (tridiag4 α)) = [0, 0, 1, 0] := by
    simp only [it_mask2, h_it_mask1, h_it_tmpD]
    norm_num [coarsen_init, tridiag4, tmalloc, init_array, memcpy, array_op, tri_S, tri_s1, apply_M, vv_op, bin_op, mask_op, forUpd, rowIdx, rd, List.range_succ, range'_cons', abs_of_nonneg]
  refine ⟨?_, ?_⟩
  · simp only [it_b, h_it_w1, h_it_w]
    norm_num [extr_op, rd, range'_cons', tri_S]
  · simp only [it_next, h_it_mask2, h_it_g4, h_it_w1, h_it_w2, h_it_tmpD, h_it_w, h_it_m2]
    norm_num [coarsen_init, tridiag4, tmalloc, init_array, memcpy, array_op, tri_S, tri_s1, apply_M, vv_op, bin_op, mask_op, forUpd, rowIdx, rd, List.range_succ, range'_cons', abs_of_nonneg]

set_option maxHeartbeats 4000000 in
theorem tri_iter2 {α : Type} [LinearOrderedField α] (sqrt : α → α) :
    it_b sqrt (tri_S α) (tri_s1 α) = sqrt (1 / 4) := by
  have h_it_g : it_g (tri_S α) (tri_s1 α) = [1/2, 1/2, 0, 0] := by
    simp only [it_g]
    norm_num [coarsen_init, tridiag4, tmalloc, init_array, memcpy, array_op, tri_S, tri_s1, apply_M, vv_op, bin_op, mask_op, forUpd, rowIdx, rd, List.range_succ, range'_cons', abs_of_nonneg]
  have h_it_w1 : it_w1 (tri_S α) (tri_s1 α) = [1/4, 1/4, 0, 0] := by
    simp only [it_w1, h_it_g]
    norm_num [coarsen_init, tridiag4, tmalloc, init_array, memcpy, array_op, tri_S, tri_s1, apply_M, vv_op, bin_op, mask_op, forUpd, rowIdx, rd, List.range_succ, range'_cons', abs_of_nonneg]
  have h_it_w2a : it_w2a (tri_S α) (tri_s1 α) = [1/8, 1/8, 0, 0] := by
    simp only [it_w2a, h_it_w1]
    norm_num [coarsen_init, tridiag4, tmalloc, init_array, memcpy, array_op, tri_S, tri_s1, apply_M, vv_op, bin_op, mask_op, forUpd, rowIdx, rd, List.range_succ, range'_cons', abs_of_nonneg]
  have h_it_tmp1 : it_tmp1 (tri_S α) (tri_s1 α) = [1/16, 1/16, 1/16, 0] := by
    simp only [it_tmp1, h_it_w2a]
    norm_num [coarsen_init, tridiag4, tmalloc, init_array, memcpy, array_op, tri_S, tri_s1, apply_M, vv_op, bin_op, mask_op, forUpd, rowIdx, rd, List.range_succ, range'_cons', abs_of_nonneg]
  have h_it_w2 : it_w2 (tri_S α) (tri_s1 α) = [1/16, 1/16, 0, 0] := by
    simp only [it_w2, h_it_w2a, h_it_tmp1]
    norm_num [coarsen_init, tridiag4, tmalloc, init_array, memcpy, array_op, tri_S, tri_s1, apply_M, vv_op, bin_op, mask_op, forUpd, rowIdx, rd, List.range_succ, range'_cons', abs_of_nonneg]
  have h_it_w : it_w sqrt (tri_S α) (tri_s1 α) = [1/4, 1/4, 0, 0] := by
    simp only [it_w, h_it_w1, h_it_w2]
    norm_num [coarsen_init, tridiag4, tmalloc, init_array, memcpy, array_op, tri_S, tri_s1, apply_M, vv_op, bin_op, mask_op, forUpd, rowIdx, rd, List.range_succ, range'_cons', abs_of_nonneg]
  simp only [it_b, h_it_w1, h_it_w]
  norm_num [extr_op, rd, range'_cons', tri_S]

theorem sqrt_le_of {α : Type} [LinearOrderedField α] (sqrt : α → α)
    (hsqrt : ∀ x, 0 ≤ x → 0 ≤ sqrt x ∧ sqrt x * sqrt x = x) (x c : α) (hx : 0 ≤ x)
    (hc : 0 ≤ c) (h : x ≤ c * c) : sqrt x ≤ c := by
  by_contra hcon
  have := sqrt_gt sqrt hsqrt x c hx hc (not_le.1 hcon)
  exact absurd h (not_le.2 this)

theorem sqrt_not_le_of {α : Type} [LinearOrderedField α] (sqrt : α → α)
    (hsqrt : ∀ x, 0 ≤ x → 0 ≤ sqrt x ∧ sqrt x * sqrt x = x) (x c : α) (hx : 0 ≤ x)
    (h : c * c < x) : ¬ sqrt x ≤ c := by
  intro hle
  obtain ⟨h0, h2⟩ := hsqrt x hx
  have : sqrt x * sqrt x ≤ c * c := mul_le_mul hle hle h0 (le_trans h0 hle)
  rw [h2] at this
  exact absurd h (not_lt.2 this)

theorem tri_coarsen_S {α : Type} [LinearOrderedField α] (sqrt : α → α)
    (hsqrt : ∀ x, 0 ≤ x → 0 ≤ sqrt x ∧ sqrt x * sqrt x = x) (D0 : List α) :
    coarsen_S sqrt D0 (tridiag4 α) = tri_S α := by
  have h2 := (hsqrt 2 (by norm_num)).2
  simp [coarsen_S, tridiag4, tri_S, tmalloc, diag, diag_step, diagPos, rowIdx, rd, array_op,
    forUpd, copy_csr, diagcsr_op, dminus_step, List.range_succ, range'_cons', List.find?]
  rw [← mul_inv, h2]

/-- The run of `coarsen` on the 4x4 tridiagonal matrix: the first iteration goes on
(`b = sqrt(2/3) > 0.7`) and makes dof 2 coarse, the second ends in `break`
(`b = sqrt(1/4) <= 0.7`). -/
theorem tri_coarsen_loop {α : Type} [LinearOrderedField α] (sqrt : α → α)
    (hsqrt : ∀ x, 0 ≤ x → 0 ≤ sqrt x ∧ sqrt x * sqrt x = x) (mem : coarsen_mem α)
    (vc0 : List α) :
    coarsen sqrt mem 0 (tmalloc vc0 4) (tridiag4 α) (7 / 10) [1, 2, 3, 4] = none ∧
    coarsen sqrt mem 1 (tmalloc vc0 4) (tridiag4 α) (7 / 10) [1, 2, 3, 4] = none ∧
    ∀ fuel, 2 ≤ fuel →
      coarsen sqrt mem fuel (tmalloc vc0 4) (tridiag4 α) (7 / 10) [1, 2, 3, 4] =
        some [0, 0, 1, 0] := by
  obtain ⟨hb1, hn1⟩ := tri_iter1 sqrt mem vc0
  have hb2 := tri_iter2 sqrt
  have h1 : coarsen_iter sqrt (tri_S α) (7 / 10) [1, 2, 3, 4]
      (coarsen_init mem (tmalloc vc0 4) (tridiag4 α)) = Sum.inr (tri_s1 α) := by
    rw [coarsen_iter_eq, hb1, hn1,
      if_neg (sqrt_not_le_of sqrt hsqrt _ _ (by norm_num) (by norm_num))]
  have h2 : coarsen_iter sqrt (tri_S α) (7 / 10) [1, 2, 3, 4] (tri_s1 α) =
      Sum.inl [0, 0, 1, 0] := by
    rw [coarsen_iter_eq, hb2,
      if_pos (sqrt_le_of sqrt hsqrt _ _ (by norm_num) (by norm_num) (by norm_num))]
    rfl
  refine ⟨rfl, ?_, ?_⟩
  · unfold coarsen
    rw [tri_coarsen_S sqrt hsqrt]
    simp only [coarsen_loop, h1]
  · intro fuel hf
    obtain ⟨k, rfl⟩ : ∃ k, fuel = k + 2 := ⟨fuel - 2, by omega⟩
    unfold coarsen
    rw [tri_coarsen_S sqrt hsqrt]
    simp only [coarsen_loop, h1, h2]

theorem real_sqrt_ok : ∀ x : ℝ, 0 ≤ x → 0 ≤ Real.sqrt x ∧ Real.sqrt x * Real.sqrt x = x :=
  fun x hx => ⟨Real.sqrt_nonneg x, Real.mul_self_sqrt hx⟩

/-- C8 (as stated, refuted): with the real square root, on the 4x4 tridiagonal matrix with
global ids 1..4 and `ctol = 0.7`, `coarsen` returns neither `{1,0,1,0}` nor `{0,1,0,1}`,
whatever the number of iterations allowed. -/
theorem tridiag_not_alternating :
    ¬ ∃ fuel, coarsen Real.sqrt (mem_zero ℝ) fuel (tmalloc [] 4) (tridiag4 ℝ) (7 / 10)
          [1, 2, 3, 4] = some [1, 0, 1, 0] ∨
        coarsen Real.sqrt (mem_zero ℝ) fuel (tmalloc [] 4) (tridiag4 ℝ) (7 / 10)
          [1, 2, 3, 4] = some [0, 1, 0, 1] := by
  obtain ⟨h0, h1, h2⟩ := tri_coarsen_loop Real.sqrt real_sqrt_ok (mem_zero ℝ) []
  rintro ⟨fuel, h⟩
  rcases Nat.lt_or_ge fuel 2 with hlt | hge
  · have hf : fuel = 0 ∨ fuel = 1 := by omega
    rcases hf with rfl | rfl
    · rw [h0] at h; simp at h
    · rw [h1] at h; simp at h
  · rw [h2 fuel hge] at h
    norm_num at h

/-- C8 (amended): in exact arithmetic, on the 4x4 tridiagonal matrix with 2 on the diagonal
and -1 next to it, global ids 1..4, on a single process with `ctol = 0.7`, `coarsen`
returns `vc = {0,0,1,0}`, in its second iteration. -/
theorem tridiag_coarsen {α : Type} [LinearOrderedField α] (sqrt : α → α)
    (hsqrt : ∀ x, 0 ≤ x → 0 ≤ sqrt x ∧ sqrt x * sqrt x = x) (mem : coarsen_mem α)
    (vc0 : List α) (fuel : Nat) (hfuel : 2 ≤ fuel) :
    coarsen sqrt mem fuel (tmalloc vc0 4) (tridiag4 α) (7 / 10) [1, 2, 3, 4] =
      some [0, 0, 1, 0] :=
  (tri_coarsen_loop sqrt hsqrt mem vc0).2.2 fuel hfuel

theorem tridiag_coarsen_witness :
    ((∀ x : ℝ, 0 ≤ x → 0 ≤ Real.sqrt x ∧ Real.sqrt x * Real.sqrt x = x) ∧ 2 ≤ 2) ∧
    coarsen Real.sqrt (mem_zero ℝ) 2 (tmalloc [] 4) (tridiag4 ℝ) (7 / 10) [1, 2, 3, 4] =
      some [0, 0, 1, 0] :=
  ⟨⟨real_sqrt_ok, Nat.le_refl 2⟩,
    tridiag_coarsen Real.sqrt real_sqrt_ok (mem_zero ℝ) [] 2 (Nat.le_refl 2)⟩

/-! ## `coarsen` on a diagonal matrix -/

theorem coarsen_init_bufs_le {α : Type} [LinearOrderedField α] (mem : coarsen_mem α)
    (vc : List α) (A : csr_mat α) (hcn : A.rn ≤ A.cn) (hvc : A.rn ≤ vc.length) :
    bufs_ok A.rn (coarsen_init mem vc A) := by
  unfold coarsen_init bufs_ok
  simp only [init_array_length, tmalloc_length]
  omega

theorem sqrt_zero_of {α : Type} [LinearOrderedField α] (sqrt : α → α)
    (hsqrt : ∀ x, 0 ≤ x → 0 ≤ sqrt x ∧ sqrt x * sqrt x = x) : sqrt 0 = 0 :=
  mul_self_eq_zero.1 (hsqrt 0 (le_refl _)).2

/-- The seed promotion marks the first owned dof whose id equals that of `mil`. -/
theorem coarsen_seed_found {α : Type} [LinearOrderedField α] (vc : List α) (rn : Nat)
    (gs_id : List Int) (a : α) (mil : Nat) (hmil : mil < rn) :
    ∃ k, k ≤ mil ∧ coarsen_seed vc rn gs_id a a mil = vc.set k 1 := by
  unfold coarsen_seed
  simp only [if_true]
  cases hf : (List.range rn).find? (fun i => toUint (rd gs_id mil) = toUint (rd gs_id i)) with
  | none =>
    rw [List.find?_eq_none] at hf
    have := hf mil (List.mem_range.2 hmil)
    simp at this
  | some k =>
    refine ⟨k, ?_, rfl⟩
    rw [List.find?_range_eq_some] at hf
    by_contra hlt
    have := hf.2.2 mil (by omega)
    simp at this

/-- The first iteration on a state whose `w1` and `w` vanish on the owned rows ends in
`break` and, when no dof is coarse yet, promotes local index 0. -/
theorem coarsen_iter_zero {α : Type} [LinearOrderedField α] (sqrt : α → α)
    (hsqrt : ∀ x, 0 ≤ x → 0 ≤ sqrt x ∧ sqrt x * sqrt x = x) (S : csr_mat α)
    (hn : 0 < S.rn) (ctol : α) (hc : 0 ≤ ctol) (gs_id : List Int) (s : coarsen_state α)
    (ha : s.anyvc = 0)
    (hw1 : ∀ i, i < S.rn → rd (it_w1 S s) i = 0)
    (hw : ∀ i, i < S.rn → rd (it_w sqrt S s) i = 0) :
    coarsen_iter sqrt S ctol gs_id s = Sum.inl (s.vc.set 0 1) := by
  obtain ⟨a1, a2, _, a4⟩ := extr_op_max (it_w1 S s) S.rn hn
  obtain ⟨b1, b2, _, _⟩ := extr_op_max (it_w sqrt S s) S.rn hn
  have he1 : (extr_op (it_w1 S s) S.rn .max).1 = 0 := by rw [a2, hw1 _ a1]
  have he2 : (extr_op (it_w sqrt S s) S.rn .max).1 = 0 := by rw [b2, hw _ b1]
  have hidx : (extr_op (it_w1 S s) S.rn .max).2 = 0 := by
    by_contra hne
    have := a4 0 (Nat.pos_of_ne_zero hne)
    rw [hw1 0 hn, he1] at this
    exact lt_irrefl _ this
  have hb : it_b sqrt S s ≤ ctol := by
    unfold it_b
    rw [he1, he2, if_neg (lt_irrefl _), sqrt_zero_of sqrt hsqrt]
    exact hc
  rw [coarsen_iter_eq, if_pos hb, if_pos ha, hidx]
  obtain ⟨k, hk, he⟩ := coarsen_seed_found s.vc S.rn gs_id
    (extr_op (it_w1 S s) S.rn .max).1 0 hn
  have hk0 : k = 0 := by omega
  rw [he, hk0]

/-- C9: on a single process, in exact arithmetic, for a diagonal matrix `A` (every stored
entry on the diagonal) with at least one row and positive diagonal and every `ctol > 0`,
`coarsen` ends in its first iteration and returns `vc` with exactly one entry equal to 1,
at local index 0, all other owned entries being 0; when the global ids increase with the
local index (as `build_setup_data` builds them) this is the owned dof with the smallest
global id. -/
theorem coarsen_diagonal {α : Type} [LinearOrderedField α] (sqrt : α → α)
    (hsqrt : ∀ x, 0 ≤ x → 0 ≤ sqrt x ∧ sqrt x * sqrt x = x) (mem : coarsen_mem α)
    (vc : List α) (A : csr_mat α) (ctol : α) (gs_id : List Int)
    (hA : csr_wf A) (hn : 1 ≤ A.rn) (hd : pos_diag A)
    (hdiag : ∀ i j, i < A.rn → j ∈ rowIdx A i → rd A.col j = i)
    (hvc : A.rn ≤ vc.length) (hc : 0 < ctol) :
    ∃ vc', (∀ fuel, 1 ≤ fuel → coarsen sqrt mem fuel vc A ctol gs_id = some vc') ∧
      (∀ i, i < A.rn → (rd vc' i = 1 ↔ i = 0) ∧ (rd vc' i = 0 ↔ i ≠ 0)) ∧
      ((∀ i j, i < j → j < A.rn → rd gs_id i < rd gs_id j) →
        ∀ i, i < A.rn → (rd vc' i = 1 ↔ ∀ k, k < A.rn → rd gs_id i ≤ rd gs_id k)) := by
  have hst := pos_diag_stored A hd
  have hcn := stored_diag_lt_cn A hA hst
  obtain ⟨p1, p2, p3, p4, p5, p6, p7, _⟩ := coarsen_S_props sqrt mem.D A hA hst
  have hb := coarsen_init_bufs_le mem vc A hcn hvc
  have hz : ∀ x i, i < A.rn → Sx (coarsen_S sqrt mem.D A) x i = 0 := by
    intro x i hi
    unfold Sx
    apply foldl_add_eq_zero (fun j => rd (coarsen_S sqrt mem.D A).a j *
      rd x (rd (coarsen_S sqrt mem.D A).col j))
    intro j hj
    rw [rowIdx_congr _ A p3] at hj
    rw [p7 i j hi hj (hdiag i j hi hj), zero_mul]
  have hw1 : ∀ i, i < (coarsen_S sqrt mem.D A).rn →
      rd (it_w1 (coarsen_S sqrt mem.D A) (coarsen_init mem vc A)) i = 0 := by
    intro i hi
    rw [rd_it_w1 (coarsen_S sqrt mem.D A) _ hb i hi, hz _ i hi, zero_mul]
  have hw : ∀ i, i < (coarsen_S sqrt mem.D A).rn →
      rd (it_w sqrt (coarsen_S sqrt mem.D A) (coarsen_init mem vc A)) i = 0 := by
    intro i hi
    rcases rd_it_w sqrt _ (coarsen_init mem vc A) i hi with h | ⟨h, _⟩
    · exact h
    · exact absurd (hw1 i hi) h
  have hit := coarsen_iter_zero sqrt hsqrt (coarsen_S sqrt mem.D A) hn ctol (le_of_lt hc)
    gs_id (coarsen_init mem vc A) rfl hw1 hw
  have hval : ∀ i, i < A.rn → rd ((coarsen_init mem vc A).vc.set 0 1) i =
      if i = 0 then 1 else 0 := by
    intro i hi
    show rd ((init_array vc A.rn 0).set 0 1) i = _
    rw [rd_set, init_array_length]
    by_cases h0 : i = 0
    · subst h0
      rw [if_pos ⟨rfl, by omega⟩, if_pos rfl]
    · rw [if_neg (fun h => h0 h.1.symm), if_neg h0, rd_init_array, if_pos ⟨hi, by omega⟩]
  refine ⟨(coarsen_init mem vc A).vc.set 0 1, ?_, ?_, ?_⟩
  · intro fuel hf
    obtain ⟨k, rfl⟩ : ∃ k, fuel = k + 1 := ⟨fuel - 1, by omega⟩
    unfold coarsen
    simp only [coarsen_loop, hit]
  · intro i hi
    rw [hval i hi]
    by_cases h0 : i = 0 <;> simp [h0]
  · intro hinc i hi
    rw [hval i hi]
    by_cases h0 : i = 0
    · subst h0
      simp only [if_true, true_iff]
      intro k hk
      rcases Nat.eq_zero_or_pos k with rfl | hpos
      · exact le_refl _
      · exact le_of_lt (hinc 0 k hpos hk)
    · simp only [if_neg h0, zero_ne_one, false_iff, not_forall]
      exact ⟨0, by omega, not_le.2 (hinc 0 i (Nat.pos_of_ne_zero h0) hi)⟩

/-! ## `coarsen` with `ctol >= 1` -/

theorem foldl_add_le {α : Type} [LinearOrderedField α] (t u : Nat → α) (l : List Nat)
    (h : ∀ j, j ∈ l → t j ≤ u j) (a b : α) (hab : a ≤ b) :
    l.foldl (fun s j => s + t j) a ≤ l.foldl (fun s j => s + u j) b := by
  induction l generalizing a b with
  | nil => exact hab
  | cons k l ih =>
    rw [List.foldl_cons, List.foldl_cons]
    exact ih (fun j hj => h j (List.mem_cons_of_mem _ hj)) _ _
      (add_le_add hab (h k (List.mem_cons_self _ _)))

theorem Sx_le_rowSum {α : Type} [LinearOrderedField α] (S : csr_mat α)
    (hS : strength_ok S) (x : List α) (hx : ∀ k, k < S.rn → rd x k ≤ 1) (i : Nat)
    (hi : i < S.rn) : Sx S x i ≤ rowSum S i := by
  unfold Sx rowSum
  apply foldl_add_le (fun j => rd S.a j * rd x (rd S.col j)) (fun j => rd S.a j) _ _ _ _
    (le_refl _)
  intro j hj
  have hc : rd S.col j < S.rn := by
    rw [hS.2.1]; exact mem_rowIdx_col_lt S hS.1 i j hi hj
  calc rd S.a j * rd x (rd S.col j) ≤ rd S.a j * 1 :=
        mul_le_mul_of_nonneg_left (hx _ hc) (hS.2.2.1 j)
    _ = rd S.a j := mul_one _

/-- With all dofs fine and the row sums of `S` at most 1, the test `b <= ctol` holds for
every `ctol >= 1`. -/
theorem it_b_le_one {α : Type} [LinearOrderedField α] (sqrt : α → α)
    (hsqrt : ∀ x, 0 ≤ x → 0 ≤ sqrt x ∧ sqrt x * sqrt x = x) (S : csr_mat α)
    (hS : strength_ok S) (hn : 0 < S.rn) (s : coarsen_state α) (hb : bufs_ok S.rn s)
    (hvf : ∀ i, i < S.rn → rd s.vf i = 1) (hrow : ∀ i, i < S.rn → rowSum S i ≤ 1) :
    it_b sqrt S s ≤ 1 := by
  have hvf01 : ∀ i, i < S.rn → rd s.vf i = 0 ∨ rd s.vf i = 1 := fun i hi => Or.inr (hvf i hi)
  have hg : ∀ i, i < S.rn → rd (it_g S s) i ≤ 1 := by
    intro i hi
    rw [rd_it_g S s hb i hi, hvf i hi, mul_one]
    exact le_trans (Sx_le_rowSum S hS _ (fun k hk => le_of_eq (hvf k hk)) i hi) (hrow i hi)
  have hw1 : ∀ i, i < S.rn → rd (it_w1 S s) i ≤ 1 := by
    intro i hi
    rw [rd_it_w1 S s hb i hi, hvf i hi, mul_one]
    exact le_trans (Sx_le_rowSum S hS _ hg i hi) (hrow i hi)
  obtain ⟨a1, a2, _, _⟩ := extr_op_max (it_w1 S s) S.rn hn
  obtain ⟨b1, b2, _, _⟩ := extr_op_max (it_w sqrt S s) S.rn hn
  have ha0 : 0 ≤ (extr_op (it_w1 S s) S.rn .max).1 := by
    rw [a2]; exact it_w1_nonneg S hS s hb hvf01 _ a1
  have ha1 : (extr_op (it_w1 S s) S.rn .max).1 ≤ 1 := by
    rw [a2]; exact hw1 _ a1
  have hb0 : 0 ≤ (extr_op (it_w sqrt S s) S.rn .max).1 := by
    rw [b2]; exact it_w_nonneg sqrt S hS s hb hvf01 _ b1
  unfold it_b
  by_cases hlt : (extr_op (it_w1 S s) S.rn .max).1 < (extr_op (it_w sqrt S s) S.rn .max).1
  · rw [if_pos hlt]
    exact sqrt_le_of sqrt hsqrt _ 1 ha0 zero_le_one (by rw [mul_one]; exact ha1)
  · rw [if_neg hlt]
    exact sqrt_le_of sqrt hsqrt _ 1 hb0 zero_le_one
      (by rw [mul_one]; exact le_trans (not_lt.1 hlt) ha1)

/-- C10 (amended): on a single process, in exact arithmetic, for a square CSR matrix `A`
with at least one row and positive stored diagonal whose strength matrix has all row sums
at most 1, and every `ctol >= 1`, `coarsen` ends in its first iteration and returns `vc`
with exactly one coarse dof, the seed. -/
theorem coarsen_big_ctol {α : Type} [LinearOrderedField α] (sqrt : α → α)
    (hsqrt : ∀ x, 0 ≤ x → 0 ≤ sqrt x ∧ sqrt x * sqrt x = x) (mem : coarsen_mem α)
    (vc : List α) (A : csr_mat α) (ctol : α) (gs_id : List Int)
    (hA : csr_wf A) (hsq : A.rn = A.cn) (hn : 1 ≤ A.rn) (hd : pos_diag A)
    (hrow : ∀ i, i < A.rn → rowSum (coarsen_S sqrt mem.D A) i ≤ 1)
    (hvc : A.rn ≤ vc.length) (hc : 1 ≤ ctol) :
    ∃ vc' k, k < A.rn ∧ coarsen sqrt mem 1 vc A ctol gs_id = some vc' ∧
      (∀ fuel, 1 ≤ fuel → coarsen sqrt mem fuel vc A ctol gs_id = some vc') ∧
      ∀ i, i < A.rn → (rd vc' i = 1 ↔ i = k) ∧ (rd vc' i = 0 ↔ i ≠ k) := by
  have hS := coarsen_S_strength sqrt mem.D A hA hsq (pos_diag_stored A hd)
  have hb := coarsen_init_bufs mem vc A hsq hvc
  have hvf : ∀ i, i < A.rn → rd (coarsen_init mem vc A).vf i = 1 := by
    intro i hi
    show rd (init_array (tmalloc mem.vf A.cn) A.cn 1) i = 1
    rw [rd_init_array, if_pos ⟨by omega, by rw [tmalloc_length]; omega⟩]
  have hble := it_b_le_one sqrt hsqrt (coarsen_S sqrt mem.D A) hS hn (coarsen_init mem vc A)
    hb hvf hrow
  obtain ⟨a1, _, _, _⟩ := extr_op_max
    (it_w1 (coarsen_S sqrt mem.D A) (coarsen_init mem vc A)) A.rn hn
  obtain ⟨k, hk, he⟩ := coarsen_seed_found (coarsen_init mem vc A).vc A.rn gs_id
    (extr_op (it_w1 (coarsen_S sqrt mem.D A) (coarsen_init mem vc A)) A.rn .max).1 _ a1
  have hit : coarsen_iter sqrt (coarsen_S sqrt mem.D A) ctol gs_id (coarsen_init mem vc A) =
      Sum.inl ((coarsen_init mem vc A).vc.set k 1) := by
    have ha : (coarsen_init mem vc A).anyvc = 0 := rfl
    rw [coarsen_iter_eq, if_pos (le_trans hble hc), if_pos ha]
    exact congrArg Sum.inl he
  have hk' : k < A.rn := lt_of_le_of_lt hk a1
  have hval : ∀ i, i < A.rn → rd ((coarsen_init mem vc A).vc.set k 1) i =
      if i = k then 1 else 0 := by
    intro i hi
    show rd ((init_array vc A.rn 0).set k 1) i = _
    rw [rd_set, init_array_length]
    by_cases h0 : i = k
    · subst h0
      rw [if_pos ⟨rfl, by omega⟩, if_pos rfl]
    · rw [if_neg (fun h => h0 h.1.symm), if_neg h0, rd_init_array, if_pos ⟨hi, by omega⟩]
  have hall : ∀ fuel, 1 ≤ fuel → coarsen sqrt mem fuel vc A ctol gs_id =
      some ((coarsen_init mem vc A).vc.set k 1) := by
    intro fuel hf
    obtain ⟨m, rfl⟩ : ∃ m, fuel = m + 1 := ⟨fuel - 1, by omega⟩
    unfold coarsen
    simp only [coarsen_loop, hit]
  refine ⟨(coarsen_init mem vc A).vc.set k 1, k, hk', hall 1 (Nat.le_refl _), hall, ?_⟩
  intro i hi
  rw [hval i hi]
  by_cases h0 : i = k <;> simp [h0]

/-! ## `coarsen` with `ctol = 1` on a matrix with strong off-diagonal entries -/

theorem offdiag2_coarsen_S {α : Type} [LinearOrderedField α] (sqrt : α → α)
    (hsqrt : ∀ x, 0 ≤ x → 0 ≤ sqrt x ∧ sqrt x * sqrt x = x) (D0 : List α) :
    coarsen_S sqrt D0 (offdiag2 α) = offdiag2_S α := by
  obtain ⟨h0, h1⟩ := hsqrt 1 zero_le_one
  have hs1 : sqrt 1 = 1 := by
    rcases mul_self_eq_one_iff.1 h1 with h | h
    · exact h
    · rw [h] at h0; norm_num at h0
  simp [coarsen_S, offdiag2, offdiag2_S, tmalloc, diag, diag_step, diagPos, rowIdx, rd,
    array_op, forUpd, copy_csr, diagcsr_op, dminus_step, List.range_succ, range'_cons',
    List.find?, hs1]

set_option maxHeartbeats 4000000 in
theorem offdiag2_iter1 {α : Type} [LinearOrderedField α] (sqrt : α → α)
    (mem : coarsen_mem α) (vc0 : List α) :
    it_b sqrt (offdiag2_S α) (coarsen_init mem (tmalloc vc0 2) (offdiag2 α)) = sqrt 25 := by
  have h_it_g : it_g (offdiag2_S α) (coarsen_init mem (tmalloc vc0 2) (offdiag2 α)) = [5, 5] := by
    simp only [it_g]
    norm_num [coarsen_init, offdiag2, tmalloc, init_array, memcpy, array_op, offdiag2_S, apply_M, vv_op, bin_op, mask_op, forUpd, rowIdx, rd, List.range_succ, range'_cons', abs_of_nonneg]
  have h_it_w1 : it_w1 (offdiag2_S α) (coarsen_init mem (tmalloc vc0 2) (offdiag2 α)) = [25, 25] := by
    simp only [it_w1, h_it_g]
    norm_num [coarsen_init, offdiag2, tmalloc, init_array, memcpy, array_op, offdiag2_S, apply_M, vv_op, bin_op, mask_op, forUpd, rowIdx, rd, List.range_succ, range'_cons', abs_of_nonneg]
  have h_it_w2a : it_w2a (offdiag2_S α) (coarsen_init mem (tmalloc vc0 2) (offdiag2 α)) = [125, 125] := by
    simp only [it_w2a, h_it_w1]
    norm_num [coarsen_init, offdiag2, tmalloc, init_array, memcpy, array_op, offdiag2_S, apply_M, vv_op, bin_op, mask_op, forUpd, rowIdx, rd, List.range_succ, range'_cons', abs_of_nonneg]
  have h_it_tmp1 : it_tmp1 (offdiag2_S α) (coarsen_init mem (tmalloc vc0 2) (offdiag2 α)) = [625, 625] := by
    simp only [it_tmp1, h_it_w2a]
    norm_num [coarsen_init, offdiag2, tmalloc, init_array, memcpy, array_op, offdiag2_S, apply_M, vv_op, bin_op, mask_op, forUpd, rowIdx, rd, List.range_succ, range'_cons', abs_of_nonneg]
  have h_it_w2 : it_w2 (offdiag2_S α) (coarsen_init mem (tmalloc vc0 2) (offdiag2 α)) = [625, 625] := by
    simp only [it_w2, h_it_w2a, h_it_tmp1]
    norm_num [coarsen_init, offdiag2, tmalloc, init_array, memcpy, array_op, offdiag2_S, apply_M, vv_op, bin_op, mask_op, forUpd, rowIdx, rd, List.range_succ, range'_cons', abs_of_nonneg]
  have h_it_w : it_w sqrt (offdiag2_S α) (coarsen_init mem (tmalloc vc0 2) (offdiag2 α)) = [25, 25] := by
    simp only [it_w, h_it_w1, h_it_w2]
    norm_num [coarsen_init, offdiag2, tmalloc, init_array, memcpy, array_op, offdiag2_S, apply_M, vv_op, bin_op, mask_op, forUpd, rowIdx, rd, List.range_succ, range'_cons', abs_of_nonneg]
  simp only [it_b, h_it_w1, h_it_w]
  norm_num [extr_op, rd, range'_cons', offdiag2_S]

/-- C10 (as stated, refuted): with the real square root and `ctol = 1`, on a symmetric
2x2 matrix with positive stored diagonal, the first iteration of `coarsen` does not end in
`break`: with one iteration allowed `coarsen` has not returned. -/
theorem big_ctol_not_first :
    csr_wf (offdiag2 ℝ) ∧ csr_symm (offdiag2 ℝ) ∧ pos_diag (offdiag2 ℝ) ∧ (1 : ℝ) ≥ 1 ∧
    coarsen Real.sqrt (mem_zero ℝ) 1 (tmalloc [] 2) (offdiag2 ℝ) 1 [1, 2] = none := by
  refine ⟨by decide, ?_, ?_, le_refl _, ?_⟩
  · intro i k hi hk
    have hi' : i < 2 := hi
    have hk' : k < 2 := hk
    interval_cases i <;> interval_cases k <;>
      simp [csr_get, rowEntries, rowIdx, rd, offdiag2, range'_cons', List.find?]
  · intro i hi
    have hi' : i < 2 := hi
    interval_cases i
    · exact ⟨0, by decide, by norm_num [rd, offdiag2]⟩
    · exact ⟨3, by decide, by norm_num [rd, offdiag2]⟩
  · have hb := offdiag2_iter1 Real.sqrt (mem_zero ℝ) []
    have hnb : ¬ it_b Real.sqrt (offdiag2_S ℝ)
        (coarsen_init (mem_zero ℝ) (tmalloc [] 2) (offdiag2 ℝ)) ≤ 1 := by
      rw [hb]
      exact sqrt_not_le_of Real.sqrt real_sqrt_ok _ _ (by norm_num) (by norm_num)
    unfold coarsen
    rw [offdiag2_coarsen_S Real.sqrt real_sqrt_ok]
    simp only [coarsen_loop, coarsen_iter_eq, if_neg hnb]

/-! ## Instances on concrete inputs -/

theorem tridiag4_pos_diag : pos_diag (tridiag4 ℝ) := by
  intro i hi
  have hi' : i < 4 := hi
  interval_cases i
  · exact ⟨0, by decide, by norm_num [rd, tridiag4]⟩
  · exact ⟨3, by decide, by norm_num [rd, tridiag4]⟩
  · exact ⟨6, by decide, by norm_num [rd, tridiag4]⟩
  · exact ⟨9, by decide, by norm_num [rd, tridiag4]⟩

theorem identity2_pos_diag : pos_diag (identity2 ℝ) := by
  intro i hi
  have hi' : i < 2 := hi
  interval_cases i
  · exact ⟨0, by decide, by norm_num [rd, identity2]⟩
  · exact ⟨1, by decide, by norm_num [rd, identity2]⟩

theorem tridiag4_rowSum (D0 : List ℝ) :
    ∀ i, i < (tridiag4 ℝ).rn → rowSum (coarsen_S Real.sqrt D0 (tridiag4 ℝ)) i ≤ 1 := by
  intro i hi
  have hi' : i < 4 := hi
  rw [tri_coarsen_S Real.sqrt real_sqrt_ok]
  interval_cases i <;> norm_num [rowSum, tri_S, rowIdx, rd, range'_cons']

theorem ids4_inj : ∀ i i', i < (tridiag4 ℝ).rn → i' < (tridiag4 ℝ).rn →
    rd ([1, 2, 3, 4] : List Int) i = rd ([1, 2, 3, 4] : List Int) i' → i = i' := by
  intro i i' hi hi'
  have h1 : i < 4 := hi
  have h2 : i' < 4 := hi'
  interval_cases i <;> interval_cases i' <;> simp [rd]

theorem identity2_diag_only : ∀ i j, i < (identity2 ℝ).rn → j ∈ rowIdx (identity2 ℝ) i →
    rd (identity2 ℝ).col j = i := by
  intro i j hi hj
  have h1 : i < 2 := hi
  interval_cases i <;> simp [rowIdx, rd, identity2] at hj ⊢ <;> simp [hj]

theorem coarsen_split_witness :
    (tridiag4 ℚ).rn = (tridiag4 ℚ).cn ∧
    ((∀ n s, coarsen_run (fun x => x) (coarsen_S (fun x => x) (mem_zero ℚ).D (tridiag4 ℚ))
          (7 / 10) [1, 2, 3, 4] n
          (coarsen_init (mem_zero ℚ) (tmalloc [] (tridiag4 ℚ).cn) (tridiag4 ℚ)) = some s →
        ∀ i, i < (tridiag4 ℚ).rn → (rd s.vc i = 0 ∨ rd s.vc i = 1) ∧
          (rd s.vf i = 0 ∨ rd s.vf i = 1) ∧
          rd s.vc i + rd s.vf i = 1 ∧ ¬ (rd s.vc i = 1 ∧ rd s.vf i = 1)) ∧
      (∀ fuel vc, coarsen (fun x => x) (mem_zero ℚ) fuel (tmalloc [] (tridiag4 ℚ).cn)
            (tridiag4 ℚ) (7 / 10) [1, 2, 3, 4] = some vc →
        (∀ i, i < (tridiag4 ℚ).rn → rd vc i = 0 ∨ rd vc i = 1) ∧
        (∃ n s, coarsen_run (fun x => x)
              (coarsen_S (fun x => x) (mem_zero ℚ).D (tridiag4 ℚ)) (7 / 10) [1, 2, 3, 4] n
              (coarsen_init (mem_zero ℚ) (tmalloc [] (tridiag4 ℚ).cn) (tridiag4 ℚ)) =
              some s ∧
          split_ok (tridiag4 ℚ).rn s.vc s.vf ∧
          (vc = s.vc ∨ ∃ k, k < (tridiag4 ℚ).rn ∧ vc = s.vc.set k 1)) ∧
        ∀ i, i < (tridiag4 ℚ).cn →
          rd vc i + rd (amg_setup_vf [] (tridiag4 ℚ).cn vc) i = 1)) :=
  ⟨rfl, coarsen_split (fun x => x) (mem_zero ℚ) [] [] (tridiag4 ℚ) (7 / 10) [1, 2, 3, 4] rfl⟩

theorem coarsen_terminates_witness :
    ((∀ x : ℝ, 0 ≤ x → 0 ≤ Real.sqrt x ∧ Real.sqrt x * Real.sqrt x = x) ∧
      csr_wf (tridiag4 ℝ) ∧ (tridiag4 ℝ).rn = (tridiag4 ℝ).cn ∧ 1 ≤ (tridiag4 ℝ).rn ∧
      pos_diag (tridiag4 ℝ) ∧ (tridiag4 ℝ).rn ≤ ([0, 0, 0, 0] : List ℝ).length ∧
      (0 : ℝ) < 7 / 10 ∧
      (∀ i, i < (tridiag4 ℝ).rn → 0 < rd ([1, 2, 3, 4] : List Int) i) ∧
      (∀ i i', i < (tridiag4 ℝ).rn → i' < (tridiag4 ℝ).rn →
        rd ([1, 2, 3, 4] : List Int) i = rd ([1, 2, 3, 4] : List Int) i' → i = i')) ∧
    ((∀ fuel, (tridiag4 ℝ).rn + 1 ≤ fuel →
        ∃ vc', coarsen Real.sqrt (mem_zero ℝ) fuel [0, 0, 0, 0] (tridiag4 ℝ) (7 / 10)
          [1, 2, 3, 4] = some vc') ∧
      ∀ n s s', coarsen_run Real.sqrt (coarsen_S Real.sqrt (mem_zero ℝ).D (tridiag4 ℝ))
          (7 / 10) [1, 2, 3, 4] n (coarsen_init (mem_zero ℝ) [0, 0, 0, 0] (tridiag4 ℝ)) =
          some s →
        coarsen_iter Real.sqrt (coarsen_S Real.sqrt (mem_zero ℝ).D (tridiag4 ℝ)) (7 / 10)
          [1, 2, 3, 4] s = Sum.inr s' →
        (∃ i, i < (tridiag4 ℝ).rn ∧ rd s.vc i = 0 ∧ rd s.vf i = 1 ∧ rd s'.vc i = 1 ∧
          rd s'.vf i = 0) ∧
        renum s'.vf (tridiag4 ℝ).rn < renum s.vf (tridiag4 ℝ).rn) :=
  ⟨⟨real_sqrt_ok, by decide, rfl, by decide, tridiag4_pos_diag, by decide, by norm_num,
      by decide, ids4_inj⟩,
    coarsen_terminates Real.sqrt real_sqrt_ok (mem_zero ℝ) [0, 0, 0, 0] (tridiag4 ℝ) (7 / 10)
      [1, 2, 3, 4] (by decide) rfl (by decide) tridiag4_pos_diag (by decide) (by norm_num)
      (by decide) ids4_inj⟩

theorem coarsen_diagonal_witness :
    ((∀ x : ℝ, 0 ≤ x → 0 ≤ Real.sqrt x ∧ Real.sqrt x * Real.sqrt x = x) ∧
      csr_wf (identity2 ℝ) ∧ 1 ≤ (identity2 ℝ).rn ∧ pos_diag (identity2 ℝ) ∧
      (∀ i j, i < (identity2 ℝ).rn → j ∈ rowIdx (identity2 ℝ) i →
        rd (identity2 ℝ).col j = i) ∧
      (identity2 ℝ).rn ≤ ([0, 0] : List ℝ).length ∧ (0 : ℝ) < 7 / 10) ∧
    ∃ vc', (∀ fuel, 1 ≤ fuel →
        coarsen Real.sqrt (mem_zero ℝ) fuel [0, 0] (identity2 ℝ) (7 / 10) [1, 2] = some vc') ∧
      (∀ i, i < (identity2 ℝ).rn → (rd vc' i = 1 ↔ i = 0) ∧ (rd vc' i = 0 ↔ i ≠ 0)) ∧
      ((∀ i j, i < j → j < (identity2 ℝ).rn →
          rd ([1, 2] : List Int) i < rd ([1, 2] : List Int) j) →
        ∀ i, i < (identity2 ℝ).rn →
          (rd vc' i = 1 ↔ ∀ k, k < (identity2 ℝ).rn →
            rd ([1, 2] : List Int) i ≤ rd ([1, 2] : List Int) k)) :=
  ⟨⟨real_sqrt_ok, by decide, by decide, identity2_pos_diag, identity2_diag_only, by decide,
      by norm_num⟩,
    coarsen_diagonal Real.sqrt real_sqrt_ok (mem_zero ℝ) [0, 0] (identity2 ℝ) (7 / 10) [1, 2]
      (by decide) (by decide) identity2_pos_diag identity2_diag_only (by decide)
      (by norm_num)⟩

theorem coarsen_big_ctol_witness :
    ((∀ x : ℝ, 0 ≤ x → 0 ≤ Real.sqrt x ∧ Real.sqrt x * Real.sqrt x = x) ∧
      csr_wf (tridiag4 ℝ) ∧ (tridiag4 ℝ).rn = (tridiag4 ℝ).cn ∧ 1 ≤ (tridiag4 ℝ).rn ∧
      pos_diag (tridiag4 ℝ) ∧
      (∀ i, i < (tridiag4 ℝ).rn →
        rowSum (coarsen_S Real.sqrt (mem_zero ℝ).D (tridiag4 ℝ)) i ≤ 1) ∧
      (tridiag4 ℝ).rn ≤ ([0, 0, 0, 0] : List ℝ).length ∧ (1 : ℝ) ≤ 1) ∧
    ∃ vc' k, k < (tridiag4 ℝ).rn ∧
      coarsen Real.sqrt (mem_zero ℝ) 1 [0, 0, 0, 0] (tridiag4 ℝ) 1 [1, 2, 3, 4] = some vc' ∧
      (∀ fuel, 1 ≤ fuel →
        coarsen Real.sqrt (mem_zero ℝ) fuel [0, 0, 0, 0] (tridiag4 ℝ) 1 [1, 2, 3, 4] =
          some vc') ∧
      ∀ i, i < (tridiag4 ℝ).rn → (rd vc' i = 1 ↔ i = k) ∧ (rd vc' i = 0 ↔ i ≠ k) :=
  ⟨⟨real_sqrt_ok, by decide, rfl, by decide, tridiag4_pos_diag, tridiag4_rowSum _,
      by decide, le_refl _⟩,
    coarsen_big_ctol Real.sqrt real_sqrt_ok (mem_zero ℝ) [0, 0, 0, 0] (tridiag4 ℝ) 1
      [1, 2, 3, 4] (by decide) rfl (by decide) tridiag4_pos_diag (tridiag4_rowSum _)
      (by decide) (le_refl _)⟩

/-! ## `mat_max`: the value of every cell -/

theorem mat_max_Amax_attained {α : Type} [LinearOrderedField α] (A : csr_mat α)
    (f : List α) (i : Nat) :
    mat_max_Amax A f i = 0 ∨
      ∃ j, j ∈ rowIdx A i ∧ rd f (rd A.col j) ≠ 0 ∧ mat_max_Amax A f i = |rd A.a j| := by
  unfold mat_max_Amax
  apply foldl_inv (fun y : α => y = 0 ∨
      ∃ j, j ∈ rowIdx A i ∧ rd f (rd A.col j) ≠ 0 ∧ y = |rd A.a j|)
  · left; rfl
  · intro s j hj hs
    split_ifs with h
    · right; exact ⟨j, hj, h.1, rfl⟩
    · exact hs

theorem mat_max_push_mono {α : Type} [LinearOrderedField α] (A : csr_mat α) (f : List α)
    (xj Am : α) (l : List Nat) (yg : List α) (k : Nat) :
    rd yg k ≤ rd (l.foldl
      (fun yg j =>
        let k := rd A.col j
        if rd f k = 0 ∨ |rd A.a j| < Am then yg
        else if xj > rd yg k then yg.set k xj else yg) yg) k := by
  induction l generalizing yg with
  | nil => exact le_refl _
  | cons j l ih =>
    rw [List.foldl_cons]
    refine le_trans ?_ (ih _)
    simp only
    split_ifs with h1 h2
    · exact le_refl _
    · rw [rd_set]
      split_ifs with h3
      · rw [← h3.1]; exact le_of_lt h2
      · exact le_refl _
    · exact le_refl _

theorem mat_max_push_length {α : Type} [LinearOrderedField α] (A : csr_mat α) (f : List α)
    (xj Am : α) (l : List Nat) (yg : List α) :
    (l.foldl
      (fun yg j =>
        let k := rd A.col j
        if rd f k = 0 ∨ |rd A.a j| < Am then yg
        else if xj > rd yg k then yg.set k xj else yg) yg).length = yg.length := by
  apply foldl_inv (fun y : List α => y.length = yg.length)
  · rfl
  · intro s j _ hs
    simp only
    split_ifs <;> simp [hs]

theorem mat_max_push_ge {α : Type} [LinearOrderedField α] (A : csr_mat α) (f : List α)
    (xj Am : α) (l : List Nat) (yg : List α) (j : Nat) (hj : j ∈ l)
    (hk : rd A.col j < yg.length) (hf : rd f (rd A.col j) ≠ 0) (ha : ¬ |rd A.a j| < Am) :
    xj ≤ rd (l.foldl
      (fun yg j =>
        let k := rd A.col j
        if rd f k = 0 ∨ |rd A.a j| < Am then yg
        else if xj > rd yg k then yg.set k xj else yg) yg) (rd A.col j) := by
  induction l generalizing yg with
  | nil => simp at hj
  | cons j0 l ih =>
    rw [List.foldl_cons]
    rcases List.mem_cons.1 hj with rfl | hj
    · refine le_trans ?_ (mat_max_push_mono A f xj Am l _ _)
      simp only
      rw [if_neg (by push_neg; exact ⟨hf, not_lt.1 ha⟩)]
      split_ifs with h2
      · rw [rd_set, if_pos ⟨rfl, hk⟩]
      · exact not_lt.1 h2
    · apply ih _ hj
      simp only
      split_ifs <;> simp [hk]

theorem mat_max_row_mono {α : Type} [LinearOrderedField α] (A : csr_mat α)
    (f x : List α) (tol : α) (yg : List α) (i k : Nat) :
    rd yg k ≤ rd (mat_max_row A f x tol yg i) k :=
  mat_max_push_mono A f (rd x i) (mat_max_Amax A f i * tol) (rowIdx A i) yg k

theorem mat_max_rows_mono {α : Type} [LinearOrderedField α] (A : csr_mat α)
    (f x : List α) (tol : α) (l : List Nat) (yg : List α) (k : Nat) :
    rd yg k ≤ rd (l.foldl (mat_max_row A f x tol) yg) k := by
  induction l generalizing yg with
  | nil => exact le_refl _
  | cons i l ih =>
    rw [List.foldl_cons]
    exact le_trans (mat_max_row_mono A f x tol yg i k) (ih _)

theorem mat_max_rows_ge {α : Type} [LinearOrderedField α] (A : csr_mat α)
    (f x : List α) (tol : α) (l : List Nat) (yg : List α) (i j : Nat) (hi : i ∈ l)
    (hj : j ∈ rowIdx A i) (hk : rd A.col j < yg.length) (hf : rd f (rd A.col j) ≠ 0)
    (ha : ¬ |rd A.a j| < mat_max_Amax A f i * tol) :
    rd x i ≤ rd (l.foldl (mat_max_row A f x tol) yg) (rd A.col j) := by
  induction l generalizing yg with
  | nil => simp at hi
  | cons i0 l ih =>
    rw [List.foldl_cons]
    rcases List.mem_cons.1 hi with rfl | hi
    · refine le_trans ?_ (mat_max_rows_mono A f x tol l _ _)
      exact mat_max_push_ge A f (rd x i) (mat_max_Amax A f i * tol) (rowIdx A i) yg j hj hk
        hf ha
    · apply ih _ hi
      rw [mat_max_row_length]; exact hk

/-- Every entry that passes the tests of `mat_max` bounds its cell from below. -/
theorem mat_max_ge {α : Type} [LinearOrderedField α] (y : List α) (A : csr_mat α)
    (f x : List α) (tol : α) (k : Nat) (hk : k < A.rn) (hy : k < y.length)
    (hkc : k < A.cn) (i j : Nat) (h : mat_max_contrib A f tol k i j) :
    rd x i ≤ rd (mat_max y A f x tol) k := by
  obtain ⟨hi, hj, hc, hf, ha⟩ := h
  unfold mat_max
  simp only
  rw [rd_memcpy, if_pos ⟨hk, hy⟩]
  subst hc
  exact mat_max_rows_ge A f x tol _ _ i j (List.mem_range.2 hi) hj (by simpa using hkc) hf ha

/-- Without rounding, `mat_max_fl` is `mat_max`. -/
theorem mat_max_fl_id {α : Type} [LinearOrderedField α] (y : List α) (A : csr_mat α)
    (f x : List α) (tol : α) : mat_max_fl id y A f x tol = mat_max y A f x tol := rfl

theorem mat_max_row_fl_length {α : Type} [LinearOrderedField α] (fl : α → α) (A : csr_mat α)
    (f x : List α) (tol : α) (yg : List α) (i : Nat) :
    (mat_max_row_fl fl A f x tol yg i).length = yg.length :=
  mat_max_push_length A f (rd x i) (fl (mat_max_Amax A f i * tol)) (rowIdx A i) yg

/-- Where a cell of `yg` comes from: it is `-DBL_MAX` unless some row `i` pushed `x[i]`
through an entry of that column passing the two tests of `mat_max`. -/
theorem mat_max_fl_yg_src {α : Type} [LinearOrderedField α] (fl : α → α) (A : csr_mat α)
    (f x : List α) (tol : α) :
    ((List.range A.rn).foldl (mat_max_row_fl fl A f x tol)
        (List.replicate A.cn (-DBL_MAX))).length = A.cn ∧
    ∀ k, k < A.cn →
      rd ((List.range A.rn).foldl (mat_max_row_fl fl A f x tol)
        (List.replicate A.cn (-DBL_MAX))) k = -DBL_MAX ∨
      ∃ i j, mat_max_contrib_fl fl A f tol k i j ∧
        rd ((List.range A.rn).foldl (mat_max_row_fl fl A f x tol)
          (List.replicate A.cn (-DBL_MAX))) k = rd x i := by
  apply foldl_inv (fun yg : List α => yg.length = A.cn ∧
    ∀ k, k < A.cn → rd yg k = -DBL_MAX ∨
      ∃ i j, mat_max_contrib_fl fl A f tol k i j ∧ rd yg k = rd x i)
  · refine ⟨by simp, ?_⟩
    intro k hk
    left
    rw [rd_eq_getElem _ _ (by simpa using hk)]
    simp
  · intro s i hi hs
    have hi1 : i < A.rn := List.mem_range.1 hi
    unfold mat_max_row_fl
    apply foldl_inv (fun yg : List α => yg.length = A.cn ∧
      ∀ k, k < A.cn → rd yg k = -DBL_MAX ∨
        ∃ i j, mat_max_contrib_fl fl A f tol k i j ∧ rd yg k = rd x i) _ _ _ hs
    intro t j hj ht
    simp only
    split_ifs with h1 h2
    · exact ht
    · refine ⟨by simp [ht.1], ?_⟩
      intro k hk
      rw [rd_set]
      split_ifs with h3
      · right
        push_neg at h1
        exact ⟨i, j, ⟨hi1, hj, h3.1, by rw [← h3.1]; exact h1.1, not_lt.2 h1.2⟩, rfl⟩
      · exact ht.2 k hk
    · exact ht

theorem mat_max_fl_rows_mono {α : Type} [LinearOrderedField α] (fl : α → α) (A : csr_mat α)
    (f x : List α) (tol : α) (l : List Nat) (yg : List α) (k : Nat) :
    rd yg k ≤ rd (l.foldl (mat_max_row_fl fl A f x tol) yg) k := by
  induction l generalizing yg with
  | nil => exact le_refl _
  | cons i l ih =>
    rw [List.foldl_cons]
    exact le_trans
      (mat_max_push_mono A f (rd x i) (fl (mat_max_Amax A f i * tol)) (rowIdx A i) yg k) (ih _)

theorem mat_max_fl_rows_ge {α : Type} [LinearOrderedField α] (fl : α → α) (A : csr_mat α)
    (f x : List α) (tol : α) (l : List Nat) (yg : List α) (i j : Nat) (hi : i ∈ l)
    (hj : j ∈ rowIdx A i) (hk : rd A.col j < yg.length) (hf : rd f (rd A.col j) ≠ 0)
    (ha : ¬ |rd A.a j| < fl (mat_max_Amax A f i * tol)) :
    rd x i ≤ rd (l.foldl (mat_max_row_fl fl A f x tol) yg) (rd A.col j) := by
  induction l generalizing yg with
  | nil => simp at hi
  | cons i0 l ih =>
    rw [List.foldl_cons]
    rcases List.mem_cons.1 hi with rfl | hi
    · refine le_trans ?_ (mat_max_fl_rows_mono fl A f x tol l _ _)
      exact mat_max_push_ge A f (rd x i) (fl (mat_max_Amax A f i * tol)) (rowIdx A i) yg j hj
        hk hf ha
    · apply ih _ hi
      rw [mat_max_row_fl_length]; exact hk

/-- Every entry that passes the tests of `mat_max` bounds its cell from below. -/
theorem mat_max_fl_ge {α : Type} [LinearOrderedField α] (fl : α → α) (y : List α)
    (A : csr_mat α) (f x : List α) (tol : α) (k : Nat) (hk : k < A.rn) (hy : k < y.length)
    (hkc : k < A.cn) (i j : Nat) (h : mat_max_contrib_fl fl A f tol k i j) :
    rd x i ≤ rd (mat_max_fl fl y A f x tol) k := by
  obtain ⟨hi, hj, hc, hf, ha⟩ := h
  unfold mat_max_fl
  simp only
  rw [rd_memcpy, if_pos ⟨hk, hy⟩]
  subst hc
  exact mat_max_fl_rows_ge fl A f x tol _ _ i j (List.mem_range.2 hi) hj (by simpa using hkc)
    hf ha

/-- C11 (as the code computes it): on a single process, for `k < rn` (and `k < cn`, the
length of the scratch array), `mat_max` stores in `y[k]` the maximum of `x[i]` over the
stored entries `(i,k)` with `f[k] != 0` and `|S[i,k]| >= c_i`, and `-DBL_MAX` when there is
none; the cut-off `c_i` is the product `tol*Amax_i` as the code stores it, `fl (Amax_i*tol)`
for the rounding `fl` of doubles (the statement holds for every function `fl`; in exact
arithmetic, `fl = id`, it is about `mat_max`), and `Amax_i` is the largest `|S[i,j]|` with
`f[j] != 0` (`0` when there is none).  Stored entries of value `0` are not excluded.  The
values `x[i]` are assumed not to lie below `-DBL_MAX`, as every finite double does. -/
theorem mat_max_spec {α : Type} [LinearOrderedField α] (fl : α → α) (y : List α)
    (A : csr_mat α) (f x : List α) (tol : α) (k : Nat) (hk : k < A.rn) (hy : k < y.length)
    (hkc : k < A.cn) (hx : ∀ i, i < A.rn → -DBL_MAX ≤ rd x i) :
    (∀ i j, mat_max_contrib_fl fl A f tol k i j → rd x i ≤ rd (mat_max_fl fl y A f x tol) k) ∧
    ((∃ i j, mat_max_contrib_fl fl A f tol k i j ∧
        rd (mat_max_fl fl y A f x tol) k = rd x i) ∨
      ((∀ i j, ¬ mat_max_contrib_fl fl A f tol k i j) ∧
        rd (mat_max_fl fl y A f x tol) k = -DBL_MAX)) ∧
    (∀ i, (∀ j, j ∈ rowIdx A i → rd f (rd A.col j) ≠ 0 → |rd A.a j| ≤ mat_max_Amax A f i) ∧
      (mat_max_Amax A f i = 0 ∨
        ∃ j, j ∈ rowIdx A i ∧ rd f (rd A.col j) ≠ 0 ∧ mat_max_Amax A f i = |rd A.a j|)) ∧
    mat_max_fl id y A f x tol = mat_max y A f x tol ∧
    (∀ i j, mat_max_contrib_fl id A f tol k i j ↔ mat_max_contrib A f tol k i j) := by
  refine ⟨fun i j h => mat_max_fl_ge fl y A f x tol k hk hy hkc i j h, ?_,
    fun i => ⟨fun j hj hf => mat_max_Amax_ge A f i j hj hf, mat_max_Amax_attained A f i⟩,
    rfl, fun i j => Iff.rfl⟩
  have hsrc : rd (mat_max_fl fl y A f x tol) k = -DBL_MAX ∨
      ∃ i j, mat_max_contrib_fl fl A f tol k i j ∧
        rd (mat_max_fl fl y A f x tol) k = rd x i := by
    unfold mat_max_fl
    simp only
    rw [rd_memcpy, if_pos ⟨hk, hy⟩]
    exact (mat_max_fl_yg_src fl A f x tol).2 k hkc
  rcases hsrc with h | ⟨i, j, hc, he⟩
  · by_cases hex : ∃ i j, mat_max_contrib_fl fl A f tol k i j
    · obtain ⟨i, j, hc⟩ := hex
      left
      refine ⟨i, j, hc, le_antisymm ?_ ?_⟩
      · rw [h]; exact hx i hc.1
      · exact mat_max_fl_ge fl y A f x tol k hk hy hkc i j hc
    · right
      push_neg at hex
      exact ⟨hex, h⟩
  · left
    exact ⟨i, j, hc, he⟩

theorem mat_max_spec_witness :
    (0 < (tridiag4 ℚ).rn ∧ 0 < [(0 : ℚ), 0, 0, 0].length ∧ 0 < (tridiag4 ℚ).cn ∧
      ∀ i, i < (tridiag4 ℚ).rn → -DBL_MAX ≤ rd [(1 : ℚ), 2, 3, 4] i) ∧
    ((∀ i j, mat_max_contrib_fl id (tridiag4 ℚ) [1, 1, 1, 1] (1 / 10) 0 i j →
        rd [(1 : ℚ), 2, 3, 4] i ≤
          rd (mat_max_fl id [0, 0, 0, 0] (tridiag4 ℚ) [1, 1, 1, 1] [1, 2, 3, 4] (1 / 10)) 0) ∧
    ((∃ i j, mat_max_contrib_fl id (tridiag4 ℚ) [1, 1, 1, 1] (1 / 10) 0 i j ∧
        rd (mat_max_fl id [0, 0, 0, 0] (tridiag4 ℚ) [1, 1, 1, 1] [1, 2, 3, 4] (1 / 10)) 0 =
          rd [(1 : ℚ), 2, 3, 4] i) ∨
      ((∀ i j, ¬ mat_max_contrib_fl id (tridiag4 ℚ) [1, 1, 1, 1] (1 / 10) 0 i j) ∧
        rd (mat_max_fl id [0, 0, 0, 0] (tridiag4 ℚ) [1, 1, 1, 1] [1, 2, 3, 4] (1 / 10)) 0 =
          -DBL_MAX)) ∧
    mat_max_fl id [0, 0, 0, 0] (tridiag4 ℚ) [1, 1, 1, 1] [1, 2, 3, 4] (1 / 10) =
      mat_max [0, 0, 0, 0] (tridiag4 ℚ) [1, 1, 1, 1] [1, 2, 3, 4] (1 / 10)) :=
  have hx : ∀ i, i < (tridiag4 ℚ).rn → -DBL_MAX ≤ rd [(1 : ℚ), 2, 3, 4] i := by
    intro i hi
    have hi1 : i < 4 := hi
    have h := neg_DBL_MAX_lt (rd [(1 : ℚ), 2, 3, 4] i)
      (by interval_cases i <;> norm_num [rd])
    exact le_of_lt (of_eq_true h)
  ⟨⟨by decide, by decide, by decide, hx⟩,
    (mat_max_spec id [0, 0, 0, 0] (tridiag4 ℚ) [1, 1, 1, 1] [1, 2, 3, 4] (1 / 10) 0
      (by decide) (by decide) (by decide) hx).1,
    (mat_max_spec id [0, 0, 0, 0] (tridiag4 ℚ) [1, 1, 1, 1] [1, 2, 3, 4] (1 / 10) 0
      (by decide) (by decide) (by decide) hx).2.1,
    (mat_max_spec id [0, 0, 0, 0] (tridiag4 ℚ) [1, 1, 1, 1] [1, 2, 3, 4] (1 / 10) 0
      (by decide) (by decide) (by decide) hx).2.2.2.1⟩

/-- C11, counterexample: the only stored entry of the `1 x 1` matrix `zero1` has value `0`,
so no row has a non-zero stored entry; `mat_max` nevertheless pushes `x[0] = 5` through
it (the cut-off `tol * Amax` is `0`) and returns `y[0] = 5`, not `-DBL_MAX`. -/
theorem mat_max_zero_entry_contributes :
    csr_wf (zero1 ℚ) ∧
    (∀ i j, i < (zero1 ℚ).rn → j ∈ rowIdx (zero1 ℚ) i → rd (zero1 ℚ).a j = 0) ∧
    rd (mat_max [0] (zero1 ℚ) [1] [5] (1 / 10)) 0 = 5 ∧
    rd (mat_max [0] (zero1 ℚ) [1] [5] (1 / 10)) 0 ≠ -DBL_MAX := by
  have h5 : rd (mat_max [0] (zero1 ℚ) [1] [5] (1 / 10)) 0 = 5 := by
    norm_num [mat_max, mat_max_row, mat_max_Amax, neg_DBL_MAX_lt, DBL_MAX_pos,
      List.replicate, zero1, memcpy, forUpd, rowIdx, rd, List.range_succ, range'_cons']
  refine ⟨by decide, ?_, h5, ?_⟩
  · intro i j hi hj
    have hi' : i < 1 := hi
    interval_cases i
    have : j = 0 := by simpa [rowIdx, zero1, rd] using hj
    subst this
    rfl
  · rw [h5]
    have := @DBL_MAX_pos ℚ _
    linarith

/-! ## `chebsim` -/

theorem chebsim_loop_iff {α : Type} [LinearOrderedField α] (alpha rho tol : α) (fuel : Nat)
    (s s1 : cheb_state α) :
    chebsim_loop alpha rho tol fuel s = some s1 ↔
      ∃ n, n < fuel ∧ (∀ k, k < n → tol < ((chebsim_body alpha rho)^[k] s).c) ∧
        ((chebsim_body alpha rho)^[n] s).c ≤ tol ∧ s1 = (chebsim_body alpha rho)^[n] s := by
  induction fuel generalizing s with
  | zero => simp [chebsim_loop]
  | succ fuel ih =>
    rw [chebsim_loop]
    by_cases hc : s.c > tol
    · rw [if_pos hc, ih]
      constructor
      · rintro ⟨n, hn, hk, hle, he⟩
        refine ⟨n + 1, by omega, ?_, by simpa using hle, by simpa using he⟩
        intro k hk1
        cases k with
        | zero => exact hc
        | succ k => simpa using hk k (by omega)
      · rintro ⟨n, hn, hk, hle, he⟩
        cases n with
        | zero => exact absurd hle (not_le.2 hc)
        | succ n =>
          refine ⟨n, by omega, ?_, by simpa using hle, by simpa using he⟩
          intro k hk1
          simpa using hk (k + 1) (by omega)
    · rw [if_neg hc]
      constructor
      · intro h
        exact ⟨0, by omega, by intro k hk; omega, not_lt.1 hc, (Option.some.inj h).symm⟩
      · rintro ⟨n, hn, hk, hle, he⟩
        cases n with
        | zero => rw [he]; rfl
        | succ n => exact absurd (hk 0 (by omega)) hc

theorem cheb_u_mono {α : Type} [LinearOrderedField α] (rho : α) (h0 : 0 ≤ rho)
    (h1 : rho < 1) (n : Nat) : 1 ≤ cheb_u rho n ∧ cheb_u rho n ≤ cheb_u rho (n + 1) := by
  induction n with
  | zero => simp [cheb_u]
  | succ n ih =>
    refine ⟨le_trans ih.1 ih.2, ?_⟩
    have hu : cheb_u rho (n + 2) = 2 * cheb_u rho (n + 1) - rho ^ 2 * cheb_u rho n := rfl
    rw [hu]
    have h2 : rho ^ 2 ≤ 1 := by nlinarith
    have h3 : 0 ≤ cheb_u rho n := le_trans zero_le_one ih.1
    nlinarith [mul_le_mul_of_nonneg_right h2 h3]

theorem cheb_u_pos {α : Type} [LinearOrderedField α] (rho : α) (h0 : 0 ≤ rho)
    (h1 : rho < 1) (n : Nat) : 0 < cheb_u rho n :=
  lt_of_lt_of_le zero_lt_one (cheb_u_mono rho h0 h1 n).1

/-- The closed form of the values of `chebsim` after `n` rounds. -/
theorem chebsim_closed {α : Type} [LinearOrderedField α] (rho : α) (h0 : 0 ≤ rho)
    (h1 : rho < 1) (n : Nat) :
    (chebsim_body (1 / 4 * rho * rho) rho)^[n] ⟨1, rho, 1, 1⟩ =
      ⟨1 + (n : α), rho ^ (n + 1) / cheb_u rho (n + 1), rho ^ n / cheb_u rho n,
        2 * cheb_u rho n / cheb_u rho (n + 1) - 1⟩ := by
  induction n with
  | zero => simp [cheb_u]; norm_num
  | succ n ih =>
    rw [Function.iterate_succ_apply', ih]
    have hu : cheb_u rho (n + 1 + 1) = 2 * cheb_u rho (n + 1) - rho ^ 2 * cheb_u rho n := rfl
    have p0 := ne_of_gt (cheb_u_pos rho h0 h1 n)
    have p1 := ne_of_gt (cheb_u_pos rho h0 h1 (n + 1))
    have p2 := ne_of_gt (cheb_u_pos rho h0 h1 (n + 1 + 1))
    have hd : 1 / 4 * rho * rho * (1 + (2 * cheb_u rho n / cheb_u rho (n + 1) - 1)) =
        rho ^ 2 * cheb_u rho n / (2 * cheb_u rho (n + 1)) := by
      field_simp; ring
    have hd1 : 1 - rho ^ 2 * cheb_u rho n / (2 * cheb_u rho (n + 1)) =
        cheb_u rho (n + 1 + 1) / (2 * cheb_u rho (n + 1)) := by
      rw [hu]; field_simp
    have hg : rho ^ 2 * cheb_u rho n / (2 * cheb_u rho (n + 1)) /
        (cheb_u rho (n + 1 + 1) / (2 * cheb_u rho (n + 1))) =
        rho ^ 2 * cheb_u rho n / cheb_u rho (n + 1 + 1) := by
      field_simp
    have hc : (1 + rho ^ 2 * cheb_u rho n / cheb_u rho (n + 1 + 1)) * rho *
        (rho ^ (n + 1) / cheb_u rho (n + 1)) -
        rho ^ 2 * cheb_u rho n / cheb_u rho (n + 1 + 1) * (rho ^ n / cheb_u rho n) =
        rho ^ (n + 1 + 1) / cheb_u rho (n + 1 + 1) := by
      have e : cheb_u rho (n + 1 + 1) + rho ^ 2 * cheb_u rho n = 2 * cheb_u rho (n + 1) := by
        rw [hu]; ring
      have e2 : 1 + rho ^ 2 * cheb_u rho n / cheb_u rho (n + 1 + 1) =
          2 * cheb_u rho (n + 1) / cheb_u rho (n + 1 + 1) := by
        rw [← e]; field_simp
      rw [e2]
      field_simp
      ring
    have hgam : rho ^ 2 * cheb_u rho n / cheb_u rho (n + 1 + 1) =
        2 * cheb_u rho (n + 1) / cheb_u rho (n + 1 + 1) - 1 := by
      rw [hu] at p2 ⊢
      field_simp
    have hm : (1 : α) + (n : α) + 1 = 1 + ((n + 1 : Nat) : α) := by
      push_cast; ring
    simp only [chebsim_body, hd, hd1, hg, hc, hm]
    rw [← hgam]

/-- C13: in exact arithmetic (an Archimedean ordered field, such as the reals), for
`0 <= rho < 1` and `tol > 0` the loop of `chebsim` terminates: with enough fuel the
function returns. -/
theorem chebsim_terminates {α : Type} [LinearOrderedField α] [Archimedean α] (rho tol : α)
    (h0 : 0 ≤ rho) (h1 : rho < 1) (ht : 0 < tol) :
    ∃ N, ∀ fuel, N ≤ fuel → ∃ m c, chebsim fuel rho tol = some (m, c) := by
  obtain ⟨n, hn⟩ := exists_pow_lt_of_lt_one ht h1
  have hle : ∀ k, ((chebsim_body (1 / 4 * rho * rho) rho)^[k] ⟨1, rho, 1, 1⟩).c ≤
      rho ^ (k + 1) := by
    intro k
    rw [chebsim_closed rho h0 h1 k]
    exact div_le_self (pow_nonneg h0 _) (cheb_u_mono rho h0 h1 (k + 1)).1
  have hfin : ∃ k, ((chebsim_body (1 / 4 * rho * rho) rho)^[k] ⟨1, rho, 1, 1⟩).c ≤ tol := by
    refine ⟨n, le_trans (hle n) (le_trans ?_ (le_of_lt hn))⟩
    rw [pow_succ]
    exact mul_le_of_le_one_right (pow_nonneg h0 _) (le_of_lt h1)
  classical
  refine ⟨Nat.find hfin + 1, ?_⟩
  intro fuel hf
  have h := (chebsim_loop_iff (1 / 4 * rho * rho) rho tol fuel ⟨1, rho, 1, 1⟩
    ((chebsim_body (1 / 4 * rho * rho) rho)^[Nat.find hfin] ⟨1, rho, 1, 1⟩)).2
    ⟨Nat.find hfin, by omega, fun k hk => not_le.1 (Nat.find_min hfin hk),
      Nat.find_spec hfin, rfl⟩
  unfold chebsim
  simp only [h, Option.map_some']
  exact ⟨_, _, rfl⟩

theorem chebsim_terminates_witness :
    ((0 : ℚ) ≤ 1 / 2 ∧ (1 : ℚ) / 2 < 1 ∧ (0 : ℚ) < 1 / 10) ∧
    ∃ N, ∀ fuel, N ≤ fuel → ∃ m c, chebsim fuel ((1 : ℚ) / 2) (1 / 10) = some (m, c) :=
  ⟨⟨by norm_num, by norm_num, by norm_num⟩,
    chebsim_terminates ((1 : ℚ) / 2) (1 / 10) (by norm_num) (by norm_num) (by norm_num)⟩

/-! ## `pcg` -/

theorem vv_dot_eq {α : Type} [LinearOrderedField α] (a b : List α) (n : Nat) :
    vv_dot a b n = ∑ i in Finset.range n, rd a i * rd b i := by
  unfold vv_dot
  induction n with
  | zero => simp
  | succ n ih => rw [List.range_succ, List.foldl_append, ih, Finset.sum_range_succ]; rfl

theorem ar_scal_op_length {α : Type} [LinearOrderedField α] (a : List α) (scal : α)
    (n : Nat) (op : ar_scal_ops) : (ar_scal_op a scal n op).length = a.length := by
  cases op; simp only [ar_scal_op]; exact forUpd_length _ _ _

theorem rd_ar_scal_op {α : Type} [LinearOrderedField α] (a : List α) (scal : α)
    (n : Nat) (i : Nat) :
    rd (ar_scal_op a scal n .mult_op) i =
      if i < n ∧ i < a.length then rd a i * scal else rd a i := by
  simp only [ar_scal_op]
  exact rd_forUpd _ _ _ _

theorem pcg_loop_k_le {α : Type} [LinearOrderedField α] (A : csr_mat α) (M : List α)
    (rho_stop : α) (n fuel : Nat) (s : pcg_state α) (h : s.k ≤ n) :
    (pcg_loop A M rho_stop n fuel s).k ≤ n := by
  induction fuel generalizing s with
  | zero => exact h
  | succ fuel ih =>
    rw [pcg_loop]
    split_ifs with hc
    · exact ih _ (by show s.k + 1 ≤ n; omega)
    · exact h

/-- When the loop of `pcg` is left, its test fails: the fuel is not what stopped it. -/
theorem pcg_loop_exit {α : Type} [LinearOrderedField α] (A : csr_mat α) (M : List α)
    (rho_stop : α) (n fuel : Nat) (s : pcg_state α) (h : n ≤ s.k + fuel) :
    ¬ ((pcg_loop A M rho_stop n fuel s).rho > rho_stop ∧
      (pcg_loop A M rho_stop n fuel s).k < n) := by
  induction fuel generalizing s with
  | zero =>
    rw [pcg_loop]
    intro hc
    omega
  | succ fuel ih =>
    rw [pcg_loop]
    split_ifs with hc
    · exact ih _ (by show n ≤ s.k + 1 + fuel; omega)
    · exact hc

theorem pcg_loop_zero {α : Type} [LinearOrderedField α] (A : csr_mat α) (M : List α)
    (rho_stop : α) (n fuel : Nat) (s : pcg_state α) (h : ¬ s.rho > rho_stop) :
    pcg_loop A M rho_stop n fuel s = s := by
  cases fuel with
  | zero => rfl
  | succ fuel => rw [pcg_loop, if_neg (fun hc => h hc.1)]

theorem pcg_init_rho {α : Type} [LinearOrderedField α] (mem : pcg_mem α) (x : List α)
    (A : csr_mat α) (r M : List α) :
    (pcg_init mem x A r M).rho = ∑ i in Finset.range A.rn, rd r i * (rd M i * rd r i) := by
  simp only [pcg_init]
  rw [vv_dot_eq]
  apply Finset.sum_congr rfl
  intro i hi
  have hi' : i < A.rn := Finset.mem_range.1 hi
  rw [rd_vv_op_ewmult, memcpy_length, tmalloc_length, if_pos ⟨hi', hi'⟩, rd_memcpy,
    tmalloc_length, if_pos ⟨hi', hi'⟩]

theorem pcg_init_x {α : Type} [LinearOrderedField α] (mem : pcg_mem α) (x : List α)
    (A : csr_mat α) (r M : List α) (i : Nat) (hi : i < A.rn) :
    rd (pcg_init mem x A r M).x i = 0 := by
  simp only [pcg_init]
  rw [rd_init_array]
  split_ifs with h
  · rfl
  · exact rd_of_le _ _ (by omega)

/-- With the quotients of the field: `pcg` returns a count `k <= min(N, 100)`; it returns
`0` with `x = 0` on its `rn` cells when `N = 0` or when the initial `rho = r.(M r)` is `0`;
and when it returns `k < min(N, 100)` the final `rho` is at most `tol^2 * rho_0`. -/
theorem pcg_exact_count {α : Type} [LinearOrderedField α] (mem : pcg_mem α) (x : List α)
    (A : csr_mat α) (r M : List α) (tol : α) :
    (pcg mem x A r M tol).k ≤ min A.rn 100 ∧
    ((A.rn = 0 ∨ ∑ i in Finset.range A.rn, rd r i * (rd M i * rd r i) = 0) →
      (pcg mem x A r M tol).k = 0 ∧ ∀ i, i < A.rn → rd (pcg mem x A r M tol).x i = 0) ∧
    ((pcg mem x A r M tol).k < min A.rn 100 →
      (pcg mem x A r M tol).rho ≤
        tol ^ 2 * ∑ i in Finset.range A.rn, rd r i * (rd M i * rd r i)) := by
  have hn : pcg_n A = min A.rn 100 := by
    unfold pcg_n
    split_ifs with h
    · exact (min_eq_left h).symm
    · exact (min_eq_right (by omega)).symm
  refine ⟨?_, ?_, ?_⟩
  · unfold pcg
    simp only
    split_ifs with h0
    · exact Nat.zero_le _
    · rw [← hn]
      exact pcg_loop_k_le _ _ _ _ _ _ (Nat.zero_le _)
  · intro h
    unfold pcg
    simp only
    split_ifs with h0
    · exact ⟨rfl, fun i hi => pcg_init_x mem x A r M i hi⟩
    · have hr : (pcg_init mem x A r M).rho = 0 := by
        rcases h with h | h
        · exact absurd (by rw [hn, h]; rfl) h0
        · rw [pcg_init_rho]; exact h
      rw [pcg_loop_zero _ _ _ _ _ _ (by rw [hr]; simp)]
      exact ⟨rfl, fun i hi => pcg_init_x mem x A r M i hi⟩
  · intro hk
    rw [← pcg_init_rho mem x A r M]
    unfold pcg at hk ⊢
    simp only at hk ⊢
    split_ifs at hk ⊢ with h0
    · rw [hn] at h0
      exact absurd hk (by rw [h0]; exact Nat.lt_irrefl _)
    · have hex := pcg_loop_exit A M (tol * tol * (pcg_init mem x A r M).rho) (pcg_n A)
        (pcg_n A) (pcg_init mem x A r M) (by show pcg_n A ≤ 0 + pcg_n A; omega)
      rw [← hn] at hk
      push_neg at hex
      by_contra hc
      push_neg at hc
      have := hex (by rw [pow_two] at hc; exact hc)
      omega

/-! ## `interpolation` and `solve_weights` -/

theorem copy_csr_min_skel {α : Type} [LinearOrderedField α] (R : csr_mat α) :
    copy_csr (min_skel R) = min_skel R := by
  obtain ⟨h1, h2, h3, _, h5, h6, _⟩ := min_skel_shape R
  have hr : (min_skel R).row_off.length = R.rn + 1 := by
    rw [min_skel_row_off]; simp
  unfold copy_csr
  rw [h1, h3 R.rn (Nat.le_refl _), List.take_of_length_le (le_of_eq hr),
    List.take_of_length_le (le_of_eq h5), List.take_of_length_le (le_of_eq h6)]
  rfl

theorem interpolation_W {α : Type} [LinearOrderedField α] (sqrt : α → α)
    (mem : interpolation_mem α) (W Af Ac Ar : csr_mat α) (gamma2 tol : α) :
    (interpolation sqrt mem W Af Ac Ar gamma2 tol).W =
      (if Ac.rn = 0 then { W with rn := Af.rn, cn := 0 } else W) := rfl

/-- The preconditioner that `interpolation` hands to `pcg` is the array `Df`, whose cell
`i` is the stored diagonal entry of row `i` of `Af`, not its inverse. -/
theorem interpolation_pcg_M {α : Type} [LinearOrderedField α] (sqrt : α → α)
    (mem : interpolation_mem α) (W Af Ac Ar : csr_mat α) (gamma2 tol : α)
    (hd : stored_diag Af) (i j : Nat) (hi : i < Af.rn) (hj : diagPos Af i = some j) :
    rd (interpolation sqrt mem W Af Ac Ar gamma2 tol).pcg_M i = rd Af.a j ∧
    rd (interpolation_Dfinv sqrt mem Af) i = 1 / rd Af.a j := by
  constructor
  · show rd (diag (tmalloc mem.Df Af.rn) Af) i = rd Af.a j
    exact rd_diag _ Af hd (by rw [tmalloc_length]) i j hi hj
  · unfold interpolation_Dfinv
    rw [rd_array_op_minv, diag_length, tmalloc_length, if_pos ⟨hi, hi⟩,
      rd_diag _ Af hd (by rw [tmalloc_length]) i j hi hj]

/-- C18, the code at a failing input: for `Af = [[2]]` the array passed to `pcg` is
`[2] = diag(Af)`, while the Jacobi preconditioner `1/diag(Af)`, which the code also
computes as `Dfinv`, is `[1/2]`. -/
theorem interpolation_pcg_M_not_inverse :
    (interpolation Real.sqrt (interpolation_mem_zero ℝ) ⟨0, 0, [], [], []⟩ (scal1 2)
      (scal1 2) (scal1 (-1)) (1 / 2) (1 / 2)).pcg_M = [2] ∧
    interpolation_Dfinv Real.sqrt (interpolation_mem_zero ℝ) (scal1 (2 : ℝ)) = [1 / 2] ∧
    ([2] : List ℝ) ≠ [1 / 2] := by
  refine ⟨?_, ?_, by norm_num⟩
  · show diag (tmalloc [] 1) (scal1 (2 : ℝ)) = [2]
    simp [diag, diag_step, diagPos, rowIdx, scal1, rd, tmalloc, List.range_succ, List.range']
  · simp [interpolation_Dfinv, array_op, forUpd, diag, diag_step, diagPos, rowIdx, scal1,
      rd, tmalloc, List.range_succ, List.range', interpolation_mem_zero]

/-- C19 (as the code behaves): `solve_weights` writes the copy of `W_skel` into `W0` and
leaves `W` as it was passed in; hence `interpolation` returns its argument `W` with no
array written (only `rn`, `cn` are set, when there is no coarse row), and it is `W0` that
equals `W_skel`, with exactly one entry per fine row. -/
theorem solve_weights_copy {α : Type} [LinearOrderedField α] (sqrt : α → α) (au0 : List α)
    (W W0 : csr_mat α) (lam : List α) (R Af Ar : csr_mat α) (rnc : Nat)
    (alpha u v : List α) (tol : α) (mem : interpolation_mem α) (Ac : csr_mat α)
    (gamma2 : α) :
    (solve_weights au0 W W0 lam (min_skel R) Af Ar rnc alpha u v tol).W = W ∧
    (solve_weights au0 W W0 lam (min_skel R) Af Ar rnc alpha u v tol).W0 = min_skel R ∧
    (interpolation sqrt mem W Af Ac Ar gamma2 tol).W =
      (if Ac.rn = 0 then { W with rn := Af.rn, cn := 0 } else W) ∧
    (interpolation sqrt mem W Af Ac Ar gamma2 tol).W0 =
      (interpolation sqrt mem W Af Ac Ar gamma2 tol).W_skel ∧
    (interpolation sqrt mem W Af Ac Ar gamma2 tol).W0.rn = Ar.rn ∧
    ∀ i, i < Ar.rn → rowIdx (interpolation sqrt mem W Af Ac Ar gamma2 tol).W0 i = [i] := by
  have h0 : (interpolation sqrt mem W Af Ac Ar gamma2 tol).W0 =
      min_skel (interpolation_ArD sqrt mem Af Ac Ar) :=
    copy_csr_min_skel _
  have hrn : (interpolation_ArD sqrt mem Af Ac Ar).rn = Ar.rn := by
    simp only [interpolation_ArD]
    rw [(diagcsr_op_struct _ _ _).1, (diagcsr_op_struct _ _ _).1]
    rfl
  refine ⟨rfl, copy_csr_min_skel R, interpolation_W _ _ _ _ _ _ _ _, copy_csr_min_skel _,
    ?_, ?_⟩
  · rw [h0, (min_skel_shape _).1, hrn]
  · intro i hi
    rw [h0]
    exact (min_skel_shape _).2.2.2.1 i (by rw [hrn]; exact hi)

theorem solve_weights_copy_witness :
    (interpolation Real.sqrt (interpolation_mem_zero ℝ) ⟨0, 0, [], [], []⟩ (scal1 2)
      (scal1 2) (scal1 (-1)) (1 / 2) (1 / 2)).W0.rn = 1 :=
  (solve_weights_copy Real.sqrt [] ⟨0, 0, [], [], []⟩ ⟨0, 0, [], [], []⟩ [] (scal1 1)
    (scal1 2) (scal1 (-1)) 1 [] [] [] (1 / 2) (interpolation_mem_zero ℝ) (scal1 2)
    (1 / 2)).2.2.2.2.1

/-- C19, counterexample: with one fine and one coarse row, `interpolation` called on an
empty `W` returns that empty `W` (no row, no stored entry), while `W_skel` has one row
with one entry. -/
theorem interpolation_W_not_skel :
    (interpolation Real.sqrt (interpolation_mem_zero ℝ) ⟨0, 0, [], [], []⟩ (scal1 2)
      (scal1 2) (scal1 (-1)) (1 / 2) (1 / 2)).W = ⟨0, 0, [], [], []⟩ ∧
    (interpolation Real.sqrt (interpolation_mem_zero ℝ) ⟨0, 0, [], [], []⟩ (scal1 2)
      (scal1 2) (scal1 (-1)) (1 / 2) (1 / 2)).W_skel.rn = 1 ∧
    (interpolation Real.sqrt (interpolation_mem_zero ℝ) ⟨0, 0, [], [], []⟩ (scal1 2)
      (scal1 2) (scal1 (-1)) (1 / 2) (1 / 2)).W ≠
    (interpolation Real.sqrt (interpolation_mem_zero ℝ) ⟨0, 0, [], [], []⟩ (scal1 2)
      (scal1 2) (scal1 (-1)) (1 / 2) (1 / 2)).W_skel := by
  have h1 : (interpolation Real.sqrt (interpolation_mem_zero ℝ) ⟨0, 0, [], [], []⟩ (scal1 2)
      (scal1 2) (scal1 (-1)) (1 / 2) (1 / 2)).W = ⟨0, 0, [], [], []⟩ := by
    rw [interpolation_W, if_neg (by decide)]
  have h2 : (interpolation Real.sqrt (interpolation_mem_zero ℝ) ⟨0, 0, [], [], []⟩ (scal1 2)
      (scal1 2) (scal1 (-1)) (1 / 2) (1 / 2)).W_skel.rn = 1 := by
    show (min_skel _).rn = 1
    rw [(min_skel_shape _).1]
    simp only [interpolation_ArD]
    rw [(diagcsr_op_struct _ _ _).1, (diagcsr_op_struct _ _ _).1]
    rfl
  refine ⟨h1, h2, ?_⟩
  intro h
  have h3 := congrArg csr_mat.rn h
  rw [h2, h1] at h3
  exact absurd h3 (by decide)

/-! ## `lanczos`: the two shortcut branches -/

theorem foldl_add_init {α : Type} [LinearOrderedField α] (t : Nat → α) (l : List Nat)
    (a : α) : l.foldl (fun s j => s + t j) a = a + l.foldl (fun s j => s + t j) 0 := by
  induction l generalizing a with
  | nil => simp
  | cons j l ih =>
    rw [List.foldl_cons, List.foldl_cons, ih, ih (0 + t j)]
    ring

/-- A sum over all stored positions is the sum of the sums over the rows. -/
theorem foldl_rows {α : Type} [LinearOrderedField α] (A : csr_mat α) (hA : csr_wf A)
    (t : Nat → α) (n : Nat) (hn : n ≤ A.rn) :
    (List.range (rd A.row_off n)).foldl (fun s j => s + t j) 0 =
      (List.range n).foldl
        (fun s i => s + (rowIdx A i).foldl (fun s j => s + t j) 0) 0 := by
  induction n with
  | zero => rw [hA.2.1]; rfl
  | succ n ih =>
    have hle : rd A.row_off n ≤ rd A.row_off (n + 1) := hA.2.2.1 n (by omega)
    have hsplit : List.range (rd A.row_off (n + 1)) =
        List.range (rd A.row_off n) ++ rowIdx A n := by
      unfold rowIdx
      rw [List.range_eq_range', List.range_eq_range']
      have := List.range'_append 0 (rd A.row_off n) (rd A.row_off (n + 1) - rd A.row_off n) 1
      simp only [Nat.zero_add, Nat.one_mul] at this
      rw [this]
      congr 1
      omega
    rw [hsplit, List.foldl_append, ih (by omega), List.range_succ, List.foldl_append,
      List.foldl_cons, List.foldl_nil, foldl_add_init]

/-- The values of a matrix after `diagcsr_op(B, D, dminus)`, cell by cell. -/
theorem dminus_fold_gen {α : Type} [LinearOrderedField α] (B : csr_mat α) (hB : csr_wf B)
    (D : List α) (n : Nat) (hn : n ≤ B.rn) :
    ((List.range n).foldl (dminus_step B D) B.a).length = B.a.length ∧
    ∀ j, (∀ i, i < n → diagPos B i = some j →
        rd ((List.range n).foldl (dminus_step B D) B.a) j = rd B.a j - rd D i) ∧
      ((∀ i, i < n → diagPos B i ≠ some j) →
        rd ((List.range n).foldl (dminus_step B D) B.a) j = rd B.a j) := by
  induction n with
  | zero =>
    refine ⟨rfl, fun j => ⟨fun i hi => absurd hi (Nat.not_lt_zero _), fun _ => rfl⟩⟩
  | succ n ih =>
    obtain ⟨hl, hv⟩ := ih (by omega)
    rw [List.range_succ, List.foldl_append]
    simp only [List.foldl_cons, List.foldl_nil]
    cases hjn : diagPos B n with
    | none =>
      simp only [dminus_step, hjn]
      refine ⟨hl, fun j => ⟨?_, ?_⟩⟩
      · intro i hi hc
        have hin : i ≠ n := by
          intro he; subst he; rw [hjn] at hc; exact absurd hc (by simp)
        exact (hv j).1 i (by omega) hc
      · intro hno
        exact (hv j).2 (fun i hi => hno i (by omega))
    | some jn =>
      simp only [dminus_step, hjn]
      have hjnr := (diagPos_some B n jn hjn).1
      have hlt : jn < B.a.length := by
        rw [hB.2.2.2.2.1]; exact mem_rowIdx_lt B hB n jn (by omega) hjnr
      have h1 : rd ((List.range n).foldl (dminus_step B D) B.a) jn = rd B.a jn := by
        apply (hv jn).2
        intro i hi hc
        have := rowIdx_disjoint B hB i n jn (by omega) (by omega) (diagPos_some B i jn hc).1
          hjnr
        omega
      refine ⟨by simp [hl], fun j => ?_⟩
      rw [rd_set, h1, hl]
      refine ⟨?_, ?_⟩
      · intro i hi hc
        by_cases hin : i = n
        · subst hin
          have hjj : jn = j := Option.some.inj (hjn.symm.trans hc)
          subst hjj
          rw [if_pos ⟨rfl, hlt⟩]
        · have hne : jn ≠ j := by
            intro he
            subst he
            have := rowIdx_disjoint B hB i n jn (by omega) (by omega)
              (diagPos_some B i jn hc).1 hjnr
            exact hin this
          rw [if_neg (fun h => hne h.1)]
          exact (hv j).1 i (by omega) hc
      · intro hno
        have hne : jn ≠ j := by
          intro he; subst he; exact hno n (by omega) hjn
        rw [if_neg (fun h => hne h.1)]
        exact (hv j).2 (fun i hi => hno i (by omega))

/-- The sum of squares that `lanczos` takes for the Frobenius norm of `A - I` does not
exceed the squared Frobenius norm of `A - I`. -/
theorem lanczos_fro_le {α : Type} [LinearOrderedField α] (eye0 : List α) (A : csr_mat α)
    (hA : csr_wf A) :
    (List.range (rd A.row_off A.rn)).foldl
      (fun r i =>
        r + rd (diagcsr_op A (init_array (tmalloc eye0 A.rn) A.rn 1) .dminus).a i *
          rd (diagcsr_op A (init_array (tmalloc eye0 A.rn) A.rn 1) .dminus).a i) 0 ≤
      fro2_sub_eye A := by
  rw [foldl_rows A hA _ A.rn (Nat.le_refl _)]
  unfold fro2_sub_eye
  have key : ∀ i, i ∈ List.range A.rn →
      (rowIdx A i).foldl
        (fun s j =>
          s + rd (diagcsr_op A (init_array (tmalloc eye0 A.rn) A.rn 1) .dminus).a j *
            rd (diagcsr_op A (init_array (tmalloc eye0 A.rn) A.rn 1) .dminus).a j) 0 ≤
      (rowIdx A i).foldl
          (fun t j => t + (rd A.a j - (if rd A.col j = i then 1 else 0)) ^ 2) 0 +
        (if diagPos A i = none ∧ i < A.cn then 1 else 0) := by
    intro i hi
    have hi' : i < A.rn := List.mem_range.1 hi
    have h0 : (0 : α) ≤ (if diagPos A i = none ∧ i < A.cn then 1 else 0) := by
      split_ifs <;> norm_num
    refine le_trans ?_ (le_add_of_nonneg_right h0)
    apply foldl_add_le _ _ _ _ _ _ (le_refl _)
    intro j hj
    have hv := (dminus_fold_gen A hA (init_array (tmalloc eye0 A.rn) A.rn 1) A.rn
      (Nat.le_refl _)).2 j
    have hval : rd (diagcsr_op A (init_array (tmalloc eye0 A.rn) A.rn 1) .dminus).a j =
        rd A.a j - (if rd A.col j = i then 1 else 0) := by
      show rd ((List.range A.rn).foldl (dminus_step A _) A.a) j = _
      by_cases hc : rd A.col j = i
      · rw [if_pos hc]
        cases hp : diagPos A i with
        | none =>
          exfalso
          unfold diagPos at hp
          rw [List.find?_eq_none] at hp
          exact hp j hj (by simpa using hc)
        | some j0 =>
          have hjj : j = j0 := diagPos_unique A hA i j0 j hi' hp hj hc
          subst hjj
          rw [hv.1 i hi' hp, rd_init_array, tmalloc_length, if_pos ⟨hi', hi'⟩]
      · rw [if_neg hc, sub_zero]
        apply hv.2
        intro i1 hi1 hp
        have h1 := diagPos_some A i1 j hp
        have := rowIdx_disjoint A hA i1 i j hi1 hi' h1.1 hj
        subst this
        exact hc h1.2
    rw [hval, pow_two]
  exact foldl_add_le _ _ _ key 0 0 (le_refl _)

theorem lanczos_fronorm_small {α : Type} [LinearOrderedField α] (sqrt : α → α)
    (hsqrt : ∀ x, 0 ≤ x → 0 ≤ sqrt x ∧ sqrt x * sqrt x = x) (eye0 : List α)
    (A : csr_mat α) (hA : csr_wf A) (h : fro2_sub_eye A < (1 / 10 ^ 11) ^ 2) :
    lanczos_fronorm sqrt eye0 A < 1 / 10 ^ 11 := by
  unfold lanczos_fronorm
  simp only [array_op]
  rw [copy_csr_eq A hA]
  have hro : (diagcsr_op A (init_array (tmalloc eye0 A.rn) A.rn 1) .dminus).row_off =
      A.row_off := (diagcsr_op_struct _ _ _).2.2.1
  rw [hro]
  have hle := lanczos_fro_le eye0 A hA
  have hS : 0 ≤ (List.range (rd A.row_off A.rn)).foldl
      (fun r i =>
        r + rd (diagcsr_op A (init_array (tmalloc eye0 A.rn) A.rn 1) .dminus).a i *
          rd (diagcsr_op A (init_array (tmalloc eye0 A.rn) A.rn 1) .dminus).a i) 0 :=
    foldl_add_nonneg _ _ (fun j _ => mul_self_nonneg _)
  generalize (List.range (rd A.row_off A.rn)).foldl
      (fun r i =>
        r + rd (diagcsr_op A (init_array (tmalloc eye0 A.rn) A.rn 1) .dminus).a i *
          rd (diagcsr_op A (init_array (tmalloc eye0 A.rn) A.rn 1) .dminus).a i) 0 = S
    at hle hS ⊢
  rw [(hsqrt S hS).2]
  by_contra hc
  push_neg at hc
  have h1 := (hsqrt S hS).1
  have h2 := (hsqrt S hS).2
  have hpos : (0 : α) < 1 / 10 ^ 11 := by positivity
  have : (1 / 10 ^ 11 : α) ^ 2 ≤ S := by
    rw [← h2, pow_two]
    exact mul_le_mul hc hc (le_of_lt hpos) h1
  linarith

theorem lanczos_loop_skip {α : Type} [LinearOrderedField α] (sqrt : α → α) (fuel : Nat)
    (A : csr_mat α) (rounds : Nat) (s : lanczos_state α)
    (h : ¬ (s.k < lanczos_kmax ∧
      (s.change > 1 / 10 ^ 5 ∨ rd s.y 0 > 1 / 10 ^ 3 ∨ rd s.y (s.k - 1) > 1 / 10 ^ 3))) :
    lanczos_loop sqrt fuel A rounds s = some s := by
  cases rounds with
  | zero => rfl
  | succ rounds => rw [lanczos_loop, if_neg h]

theorem rd_set_set_zero {β : Type} [Zero β] (l : List β) (x : β) :
    rd ((l.set 0 x).set 1 x) 0 = (if 0 < l.length then x else 0) ∧
    rd ((l.set 0 x).set 1 x) 1 = (if 1 < l.length then x else 0) := by
  constructor
  · rw [rd_set, if_neg (by omega), rd_set]
    split_ifs with h1 h2 h3
    · rfl
    · omega
    · exact absurd ⟨rfl, h3⟩ h1
    · exact rd_of_le _ _ (by omega)
  · rw [rd_set, List.length_set]
    split_ifs with h1 h2 h3
    · rfl
    · exact absurd h1.2 h2
    · exact absurd ⟨rfl, h3⟩ h1
    · exact rd_of_le _ _ (by simp; omega)

/-- A state with `k = 2`, `change = 0` and `y[0] = y[1] = 0` passes the loop of `lanczos`
untouched, and the output loop returns its two values `l[0]`, `l[1]`. -/
theorem lanczos_shortcut {α : Type} [LinearOrderedField α] (sqrt : α → α) (fuel : Nat)
    (A : csr_mat α) (rounds : Nat) (s : lanczos_state α) (hk : s.k = 2)
    (hc : s.change = 0) (hy0 : rd s.y 0 = 0) (hy1 : rd s.y 1 = 0) (hl : 2 ≤ s.l.length) :
    lanczos_loop sqrt fuel A rounds s = some s ∧
    (lanczos_filter s.l s.y s.k).2 = 2 ∧
    rd (lanczos_filter s.l s.y s.k).1 0 = rd s.l 0 ∧
    rd (lanczos_filter s.l s.y s.k).1 1 = rd s.l 1 := by
  refine ⟨lanczos_loop_skip sqrt fuel A rounds s ?_, ?_⟩
  · rw [hk, hc, hy0]
    show ¬ (_ ∧ (_ ∨ _ ∨ rd s.y 1 > 1 / 10 ^ 3))
    rw [hy1]
    intro h
    rcases h.2 with h | h | h
    · exact absurd h (not_lt.2 (by positivity))
    · exact absurd h (not_lt.2 (by positivity))
    · exact absurd h (not_lt.2 (by positivity))
  · have hlt : (0 : α) < 1 / 100 := by norm_num
    rw [hk]
    simp only [lanczos_filter, List.range_succ, List.range_zero, List.nil_append,
      List.cons_append, List.foldl_cons, List.foldl_nil, hy0, hy1, hlt, if_true]
    refine ⟨trivial, ?_, ?_⟩
    · rw [rd_set, if_neg (by omega), rd_set, if_pos ⟨rfl, by omega⟩]
    · rw [rd_set, List.length_set, if_pos ⟨rfl, by omega⟩, rd_set, if_neg (by omega)]

theorem lanczos_start_rn1 {α : Type} [LinearOrderedField α] (sqrt : α → α)
    (mem : lanczos_mem α) (rnd : List α) (A : csr_mat α) (h : A.rn = 1) :
    (lanczos_start sqrt mem rnd A).k = 2 ∧ (lanczos_start sqrt mem rnd A).change = 0 ∧
    rd (lanczos_start sqrt mem rnd A).y 0 = 0 ∧ rd (lanczos_start sqrt mem rnd A).y 1 = 0 ∧
    rd (lanczos_start sqrt mem rnd A).l 0 = rd A.a 0 ∧
    rd (lanczos_start sqrt mem rnd A).l 1 = rd A.a 0 ∧
    2 ≤ (lanczos_start sqrt mem rnd A).l.length := by
  simp only [lanczos_start, if_pos h]
  refine ⟨trivial, trivial, ?_, ?_, ?_, ?_, ?_⟩
  · rw [(rd_set_set_zero _ _).1]; split_ifs <;> rfl
  · rw [(rd_set_set_zero _ _).2]; split_ifs <;> rfl
  · rw [(rd_set_set_zero _ _).1, if_pos]
    split_ifs <;> simp [tmalloc_length, lanczos_kmax]
  · rw [(rd_set_set_zero _ _).2, if_pos]
    split_ifs <;> simp [tmalloc_length, lanczos_kmax]
  · split_ifs <;> simp [tmalloc_length, lanczos_kmax]

theorem lanczos_start_small {α : Type} [LinearOrderedField α] (sqrt : α → α)
    (mem : lanczos_mem α) (rnd : List α) (A : csr_mat α) (h : A.rn ≠ 1)
    (hs : lanczos_fronorm sqrt mem.eye A < 1 / 10 ^ 11) :
    (lanczos_start sqrt mem rnd A).k = 2 ∧ (lanczos_start sqrt mem rnd A).change = 0 ∧
    rd (lanczos_start sqrt mem rnd A).y 0 = 0 ∧ rd (lanczos_start sqrt mem rnd A).y 1 = 0 ∧
    rd (lanczos_start sqrt mem rnd A).l 0 = 1 ∧
    rd (lanczos_start sqrt mem rnd A).l 1 = 1 ∧
    2 ≤ (lanczos_start sqrt mem rnd A).l.length := by
  simp only [lanczos_start, if_neg h, if_pos hs]
  refine ⟨trivial, trivial, ?_, ?_, ?_, ?_, ?_⟩
  · rw [(rd_set_set_zero _ _).1]; split_ifs <;> rfl
  · rw [(rd_set_set_zero _ _).2]; split_ifs <;> rfl
  · rw [(rd_set_set_zero _ _).1, if_pos]
    simp [tmalloc_length, lanczos_kmax]
  · rw [(rd_set_set_zero _ _).2, if_pos]
    simp [tmalloc_length, lanczos_kmax]
  · simp [tmalloc_length, lanczos_kmax]

/-- The result of `lanczos` from a start state that meets `lanczos_shortcut`. -/
theorem lanczos_of_shortcut {α : Type} [LinearOrderedField α] (sqrt : α → α)
    (mem : lanczos_mem α) (fuel : Nat) (rnd : List α) (A : csr_mat α) (c : α)
    (h : (lanczos_start sqrt mem rnd A).k = 2 ∧ (lanczos_start sqrt mem rnd A).change = 0 ∧
      rd (lanczos_start sqrt mem rnd A).y 0 = 0 ∧ rd (lanczos_start sqrt mem rnd A).y 1 = 0 ∧
      rd (lanczos_start sqrt mem rnd A).l 0 = c ∧
      rd (lanczos_start sqrt mem rnd A).l 1 = c ∧
      2 ≤ (lanczos_start sqrt mem rnd A).l.length) :
    lanczos_core sqrt mem fuel rnd A = some (lanczos_start sqrt mem rnd A) ∧
    ∃ lam, lanczos sqrt mem fuel rnd A = some (2, lam) ∧ rd lam 0 = c ∧ rd lam 1 = c := by
  obtain ⟨hk, hc, hy0, hy1, hl0, hl1, hlen⟩ := h
  obtain ⟨h1, h2, h3, h4⟩ := lanczos_shortcut sqrt fuel A lanczos_kmax
    (lanczos_start sqrt mem rnd A) hk hc hy0 hy1 hlen
  have hcore : lanczos_core sqrt mem fuel rnd A = some (lanczos_start sqrt mem rnd A) := h1
  refine ⟨hcore, (lanczos_filter (lanczos_start sqrt mem rnd A).l
    (lanczos_start sqrt mem rnd A).y (lanczos_start sqrt mem rnd A).k).1, ?_, ?_, ?_⟩
  · unfold lanczos
    rw [hcore, Option.map_some', h2]
  · rw [h3, hl0]
  · rw [h4, hl1]

/-- C14 (as the code behaves): on a single process, for every well-formed `A` whose
`A - I` has Frobenius norm below `1e-11` and whose row count is not `1`, `lanczos` returns
the count `2` with `lambda = {1, 1}`; for every `A` with one row it returns the count `2`
with `lambda = {A00, A00}`, `A00` the first stored value (the entry of `[[A00]]`).  In both
cases the loop is left in the state in which it was reached: its body is not executed.
This is in exact arithmetic: the norm is the exact root of the exact sum of squares and the
bound is `10^-11`, where the code compares the rounded norm with the double nearest to
`1e-11`. -/
theorem lanczos_shortcuts {α : Type} [LinearOrderedField α] (sqrt : α → α)
    (hsqrt : ∀ x, 0 ≤ x → 0 ≤ sqrt x ∧ sqrt x * sqrt x = x) (mem : lanczos_mem α)
    (fuel : Nat) (rnd : List α) (A : csr_mat α) :
    (csr_wf A → fro2_sub_eye A < (1 / 10 ^ 11) ^ 2 → A.rn ≠ 1 →
      lanczos_core sqrt mem fuel rnd A = some (lanczos_start sqrt mem rnd A) ∧
      ∃ lam, lanczos sqrt mem fuel rnd A = some (2, lam) ∧ rd lam 0 = 1 ∧ rd lam 1 = 1) ∧
    (A.rn = 1 →
      lanczos_core sqrt mem fuel rnd A = some (lanczos_start sqrt mem rnd A) ∧
      ∃ lam, lanczos sqrt mem fuel rnd A = some (2, lam) ∧ rd lam 0 = rd A.a 0 ∧
        rd lam 1 = rd A.a 0) := by
  constructor
  · intro hA hf hn
    exact lanczos_of_shortcut sqrt mem fuel rnd A 1
      (lanczos_start_small sqrt mem rnd A hn (lanczos_fronorm_small sqrt hsqrt mem.eye A hA hf))
  · intro h1
    exact lanczos_of_shortcut sqrt mem fuel rnd A (rd A.a 0)
      (lanczos_start_rn1 sqrt mem rnd A h1)

theorem lanczos_shortcuts_witness :
    ((∀ x : ℝ, 0 ≤ x → 0 ≤ Real.sqrt x ∧ Real.sqrt x * Real.sqrt x = x) ∧
      csr_wf (identity2 ℝ) ∧ fro2_sub_eye (identity2 ℝ) < (1 / 10 ^ 11) ^ 2 ∧
      (identity2 ℝ).rn ≠ 1 ∧ (scal1 (3 : ℝ)).rn = 1) ∧
    (∃ lam, lanczos Real.sqrt (lanczos_mem_zero ℝ) 0 [] (identity2 ℝ) = some (2, lam) ∧
      rd lam 0 = 1 ∧ rd lam 1 = 1) ∧
    (∃ lam, lanczos Real.sqrt (lanczos_mem_zero ℝ) 0 [] (scal1 (3 : ℝ)) = some (2, lam) ∧
      rd lam 0 = 3 ∧ rd lam 1 = 3) :=
  have hf : fro2_sub_eye (identity2 ℝ) < (1 / 10 ^ 11) ^ 2 := by
    have hd0 : ¬ (diagPos (identity2 ℝ) 0 = none ∧ 0 < (identity2 ℝ).cn) := by
      intro h; exact absurd h.1 (by decide)
    have hd1 : ¬ (diagPos (identity2 ℝ) 1 = none ∧ 1 < (identity2 ℝ).cn) := by
      intro h; exact absurd h.1 (by decide)
    have hr0 : rowIdx (identity2 ℝ) 0 = [0] := rfl
    have hr1 : rowIdx (identity2 ℝ) 1 = [1] := rfl
    have hrn : (identity2 ℝ).rn = 2 := rfl
    simp only [fro2_sub_eye, hrn, List.range_succ, List.range_zero, List.nil_append,
      List.cons_append, List.foldl_cons, List.foldl_nil, if_neg hd0, if_neg hd1, hr0, hr1]
    norm_num [identity2, rd]
  ⟨⟨real_sqrt_ok, by decide, hf, by decide, rfl⟩,
    ((lanczos_shortcuts Real.sqrt real_sqrt_ok (lanczos_mem_zero ℝ) 0 [] (identity2 ℝ)).1
      (by decide) hf (by decide)).2,
    ((lanczos_shortcuts Real.sqrt real_sqrt_ok (lanczos_mem_zero ℝ) 0 []
      (scal1 (3 : ℝ))).2 rfl).2⟩

/-- C14, counterexample: the `1 x 1` matrix `[[1 + 1e-12]]` is within `1e-11` of the
identity in Frobenius norm, and `lanczos` returns `lambda = {1 + 1e-12, 1 + 1e-12}`, not
`{1, 1}`: the one-row branch overwrites the values set by the near-identity branch. -/
theorem lanczos_near_identity_1x1 :
    csr_wf (scal1 (1 + 1 / 10 ^ 12 : ℝ)) ∧
    fro2_sub_eye (scal1 (1 + 1 / 10 ^ 12 : ℝ)) < (1 / 10 ^ 11) ^ 2 ∧
    ∃ lam, lanczos Real.sqrt (lanczos_mem_zero ℝ) 0 [] (scal1 (1 + 1 / 10 ^ 12 : ℝ)) =
        some (2, lam) ∧
      rd lam 0 = 1 + 1 / 10 ^ 12 ∧ rd lam 1 = 1 + 1 / 10 ^ 12 ∧ rd lam 0 ≠ 1 := by
  refine ⟨by decide, ?_, ?_⟩
  · have hd : ¬ (diagPos (scal1 (1 + 1 / 10 ^ 12 : ℝ)) 0 = none ∧
        0 < (scal1 (1 + 1 / 10 ^ 12 : ℝ)).cn) := by
      intro h; exact absurd h.1 (by decide)
    have hr : rowIdx (scal1 (1 + 1 / 10 ^ 12 : ℝ)) 0 = [0] := rfl
    have hrn : (scal1 (1 + 1 / 10 ^ 12 : ℝ)).rn = 1 := rfl
    simp only [fro2_sub_eye, hrn, List.range_succ, List.range_zero, List.nil_append,
      List.foldl_cons, List.foldl_nil, if_neg hd, hr]
    norm_num [scal1, rd]
  · obtain ⟨lam, h1, h2, h3⟩ := (lanczos_of_shortcut Real.sqrt (lanczos_mem_zero ℝ) 0 []
      (scal1 (1 + 1 / 10 ^ 12 : ℝ)) _ (lanczos_start_rn1 Real.sqrt (lanczos_mem_zero ℝ) []
        (scal1 (1 + 1 / 10 ^ 12 : ℝ)) rfl)).2
    have h2' : rd lam 0 = 1 + 1 / 10 ^ 12 := h2
    refine ⟨lam, h1, h2', h3, ?_⟩
    rw [h2']
    norm_num

/-! ## `lanczos`: the output loop -/

theorem take_set_of_le {β : Type} (l : List β) (n m : Nat) (x : β) (h : m ≤ n) :
    (l.set n x).take m = l.take m := by
  induction l generalizing n m with
  | nil => simp
  | cons a l ih =>
    cases m with
    | zero => simp
    | succ m =>
      cases n with
      | zero => omega
      | succ n =>
        simp only [List.set_cons_succ, List.take_succ_cons]
        rw [ih n m (by omega)]

theorem rd_drop {β : Type} [Zero β] (l : List β) (n i : Nat) :
    rd (l.drop n) i = rd l (n + i) := by
  unfold rd
  rw [List.getD_eq_getElem?_getD, List.getD_eq_getElem?_getD, List.getElem?_drop]

theorem toUint_sub (a b : Nat) (h : a ≤ b) (hb : b ≤ UINT_MAX) :
    toUint ((b : Int) - (a : Int)) = b - a := by
  unfold toUint
  unfold UINT_MAX at hb
  omega

theorem sub_mat_rn_le {α : Type} [Zero α] [DecidableEq α] (A : csr_mat α) (vr vc : List α) :
    (sub_mat A vr vc).rn ≤ A.rn := by
  rw [sub_mat_rn]
  unfold selRows
  exact le_trans (List.length_filter_le _ _) (by simp)

theorem rd_vv_op_plus {α : Type} [LinearOrderedField α] (a b : List α) (n k : Nat) :
    rd (vv_op a b n .plus) k =
      if k < n ∧ k < a.length then rd a k + rd b k else rd a k := by
  simp only [vv_op]; exact rd_forUpd _ _ _ _

theorem foldl_add_congr {α : Type} [LinearOrderedField α] (t u : Nat → α) (l : List Nat)
    (h : ∀ j, j ∈ l → t j = u j) :
    l.foldl (fun s j => s + t j) 0 = l.foldl (fun s j => s + u j) 0 :=
  le_antisymm (foldl_add_le _ _ _ (fun j hj => le_of_eq (h j hj)) 0 0 (le_refl _))
    (foldl_add_le _ _ _ (fun j hj => le_of_eq (h j hj).symm) 0 0 (le_refl _))

/-- The row product accumulated by `apply_M` is the product with the vector of the first
`N` cells, when every stored column is below `N`. -/
theorem Sx_eq_csr_op {α : Type} [LinearOrderedField α] (A : csr_mat α) (hA : csr_wf A)
    (hsq : A.cn = A.rn) (p : List α) (i : Fin A.rn) :
    (rowIdx A i).foldl (fun t j => t + rd A.a j * rd p (rd A.col j)) 0 =
      csr_op A.rn A (vecN A.rn p) i := by
  unfold csr_op
  apply foldl_add_congr
  intro j hj
  have hc : rd A.col j < A.rn := by
    rw [← hsq]; exact mem_rowIdx_col_lt A hA i j i.2 hj
  rw [dif_pos hc]
  rfl

theorem foldl_add_linear {α : Type} [LinearOrderedField α] (t u : Nat → α) (a b : α)
    (l : List Nat) :
    l.foldl (fun s j => s + (a * t j + b * u j)) 0 =
      a * l.foldl (fun s j => s + t j) 0 + b * l.foldl (fun s j => s + u j) 0 := by
  induction l with
  | nil => simp
  | cons j l ih =>
    rw [List.foldl_cons, List.foldl_cons, List.foldl_cons,
      foldl_add_init _ l (0 + (a * t j + b * u j)), ih, foldl_add_init t l (0 + t j),
      foldl_add_init u l (0 + u j)]
    ring

theorem csr_op_linear {α : Type} [LinearOrderedField α] (N : Nat) (A : csr_mat α)
    (u v : Fin N → α) (a b : α) :
    csr_op N A (a • u + b • v) = a • csr_op N A u + b • csr_op N A v := by
  funext i
  simp only [csr_op, Pi.add_apply, Pi.smul_apply, smul_eq_mul]
  rw [← foldl_add_linear]
  apply foldl_add_congr
  intro j _
  split_ifs <;> ring

theorem csr_op_zero {α : Type} [LinearOrderedField α] (N : Nat) (A : csr_mat α) :
    csr_op N A 0 = 0 := by
  have := csr_op_linear N A 0 0 0 0
  simpa using this

theorem csr_op_sub_smul {α : Type} [LinearOrderedField α] (N : Nat) (A : csr_mat α)
    (u v : Fin N → α) (c : α) :
    csr_op N A (u - c • v) = csr_op N A u - c • csr_op N A v := by
  have := csr_op_linear N A u v 1 (-c)
  simp only [one_smul, neg_smul] at this
  rw [sub_eq_add_neg, this, sub_eq_add_neg]

theorem csr_op_add_smul {α : Type} [LinearOrderedField α] (N : Nat) (A : csr_mat α)
    (u v : Fin N → α) (c : α) :
    csr_op N A (u + c • v) = csr_op N A u + c • csr_op N A v := by
  have := csr_op_linear N A u v 1 c
  simpa using this

theorem vv_dot_vecN {α : Type} [LinearOrderedField α] (a b : List α) (N : Nat) :
    vv_dot a b N = Matrix.dotProduct (vecN N a) (vecN N b) := by
  rw [vv_dot_eq, Matrix.dotProduct, ← Fin.sum_univ_eq_sum_range (fun i => rd a i * rd b i) N]
  rfl

/-- The arrays of a state of `pcg` have room for the `N` rows. -/
theorem pcg_body_lens {α : Type} [LinearOrderedField α] (A : csr_mat α) (M : List α)
    (s : pcg_state α) :
    (pcg_body A M s).x.length = s.x.length ∧ (pcg_body A M s).r.length = s.r.length ∧
    (pcg_body A M s).p.length = s.p.length ∧ (pcg_body A M s).z.length = s.z.length ∧
    (pcg_body A M s).w.length = s.w.length ∧ (pcg_body A M s).tmp.length = s.tmp.length := by
  simp only [pcg_body, vv_op_length, ar_scal_op_length, memcpy_length, apply_M_length,
    and_self]

/-- One round of the loop of `pcg`, on the vectors of the first `N = rn` cells. -/
theorem pcg_body_vec {α : Type} [LinearOrderedField α] (A : csr_mat α) (hA : csr_wf A)
    (hsq : A.cn = A.rn) (M : List α) (s : pcg_state α)
    (hx : A.rn ≤ s.x.length) (hr : A.rn ≤ s.r.length) (hp : A.rn ≤ s.p.length)
    (hz : A.rn ≤ s.z.length) (hw : A.rn ≤ s.w.length) (ht : A.rn ≤ s.tmp.length) :
    vecN A.rn (pcg_body A M s).p = vecN A.rn s.z + (s.rho / s.rho_old) • vecN A.rn s.p ∧
    (pcg_body A M s).alpha =
      s.rho / Matrix.dotProduct (vecN A.rn (pcg_body A M s).p)
        (csr_op A.rn A (vecN A.rn (pcg_body A M s).p)) ∧
    vecN A.rn (pcg_body A M s).x =
      vecN A.rn s.x + (pcg_body A M s).alpha • vecN A.rn (pcg_body A M s).p ∧
    vecN A.rn (pcg_body A M s).r =
      vecN A.rn s.r -
        (pcg_body A M s).alpha • csr_op A.rn A (vecN A.rn (pcg_body A M s).p) ∧
    (∀ i : Fin A.rn, vecN A.rn (pcg_body A M s).z i =
      rd M i * vecN A.rn (pcg_body A M s).r i) ∧
    (pcg_body A M s).rho =
      Matrix.dotProduct (vecN A.rn (pcg_body A M s).r) (vecN A.rn (pcg_body A M s).z) ∧
    (pcg_body A M s).rho_old = s.rho ∧ (pcg_body A M s).k = s.k + 1 := by
  have hP : vecN A.rn (pcg_body A M s).p =
      vecN A.rn s.z + (s.rho / s.rho_old) • vecN A.rn s.p := by
    funext i
    have hi := i.2
    simp only [pcg_body, vecN, Pi.add_apply, Pi.smul_apply, smul_eq_mul]
    rw [rd_vv_op_plus, ar_scal_op_length, if_pos ⟨hi, by omega⟩, rd_ar_scal_op,
      if_pos ⟨hi, by omega⟩]
    ring
  have hW : ∀ i : Fin A.rn,
      rd (apply_M s.w 0 (pcg_body A M s).p 1 A (pcg_body A M s).p) i =
        csr_op A.rn A (vecN A.rn (pcg_body A M s).p) i := by
    intro i
    rw [rd_apply_M, if_pos ⟨i.2, by have := i.2; omega⟩, Sx_eq_csr_op A hA hsq]
    ring
  have hal : (pcg_body A M s).alpha =
      s.rho / Matrix.dotProduct (vecN A.rn (pcg_body A M s).p)
        (csr_op A.rn A (vecN A.rn (pcg_body A M s).p)) := by
    show s.rho / vv_dot (pcg_body A M s).p
      (apply_M s.w 0 (pcg_body A M s).p 1 A (pcg_body A M s).p) A.rn = _
    rw [vv_dot_vecN]
    congr 2
    funext i
    exact hW i
  have hR : vecN A.rn (pcg_body A M s).r =
      vecN A.rn s.r -
        (pcg_body A M s).alpha • csr_op A.rn A (vecN A.rn (pcg_body A M s).p) := by
    funext i
    have hi := i.2
    show rd (vv_op s.r (ar_scal_op (apply_M s.w 0 (pcg_body A M s).p 1 A (pcg_body A M s).p)
      (pcg_body A M s).alpha A.rn .mult_op) A.rn .minus) i = _
    rw [rd_vv_op_minus, if_pos ⟨hi, by omega⟩, rd_ar_scal_op, apply_M_length,
      if_pos ⟨hi, by omega⟩, hW i]
    simp only [vecN, Pi.sub_apply, Pi.smul_apply, smul_eq_mul]
    ring
  refine ⟨hP, hal, ?_, hR, ?_, ?_, rfl, rfl⟩
  · funext i
    have hi := i.2
    show rd (vv_op s.x (ar_scal_op (memcpy s.tmp (pcg_body A M s).p A.rn)
      (pcg_body A M s).alpha A.rn .mult_op) A.rn .plus) i = _
    rw [rd_vv_op_plus, if_pos ⟨hi, by omega⟩, rd_ar_scal_op, memcpy_length,
      if_pos ⟨hi, by omega⟩, rd_memcpy, if_pos ⟨hi, by omega⟩]
    simp only [vecN, Pi.add_apply, Pi.smul_apply, smul_eq_mul]
    ring
  · intro i
    have hi := i.2
    show rd (vv_op (memcpy s.z M A.rn) (pcg_body A M s).r A.rn .ewmult) i = _
    rw [rd_vv_op_ewmult, memcpy_length, if_pos ⟨hi, by omega⟩, rd_memcpy,
      if_pos ⟨hi, by omega⟩]
    rfl
  · show vv_dot (pcg_body A M s).r (pcg_body A M s).z A.rn = _
    exact vv_dot_vecN _ _ _

/-! ### The conjugate gradient recurrences -/

/-- The orthogonality relations of the conjugate gradient recurrences, as long as the
values `rho` stay positive: the residual `R k` is orthogonal to the earlier directions and
to the earlier preconditioned residuals, and the directions are `A`-conjugate. -/
theorem cg_orth {α : Type} [LinearOrderedField α] (N : Nat)
    (Aop : (Fin N → α) → (Fin N → α))
    (hsym : ∀ u v, Matrix.dotProduct u (Aop v) = Matrix.dotProduct (Aop u) v)
    (hpd : ∀ u, u ≠ 0 → 0 < Matrix.dotProduct u (Aop u))
    (Mv : Fin N → α) (R Z P : Nat → Fin N → α) (rho al be : Nat → α)
    (hZ : ∀ k i, Z k i = Mv i * R k i)
    (hrho : ∀ k, rho k = Matrix.dotProduct (R k) (Z k))
    (hP0 : P 0 = 0)
    (hP : ∀ k, P (k + 1) = Z k + be k • P k)
    (hbe : ∀ k, be (k + 1) = rho (k + 1) / rho k)
    (hal : ∀ k, al k = rho k / Matrix.dotProduct (P (k + 1)) (Aop (P (k + 1))))
    (hR : ∀ k, R (k + 1) = R k - al k • Aop (P (k + 1)))
    (K : Nat) (hpos : ∀ j, j < K → 0 < rho j) (k : Nat) (hk : k ≤ K) :
    (∀ j, 1 ≤ j → j ≤ k → Matrix.dotProduct (R k) (P j) = 0) ∧
    (∀ j, j < k → Matrix.dotProduct (R k) (Z j) = 0) ∧
    (∀ i j, 1 ≤ i → i < j → j ≤ k → Matrix.dotProduct (P j) (Aop (P i)) = 0) ∧
    (∀ j, 1 ≤ j → j ≤ k → 0 < Matrix.dotProduct (P j) (Aop (P j))) ∧
    (∀ j, j < k → Matrix.dotProduct (R j) (P (j + 1)) = rho j) := by
  have hMsym : ∀ a b, Matrix.dotProduct (Z a) (R b) = Matrix.dotProduct (R a) (Z b) := by
    intro a b
    simp only [Matrix.dotProduct]
    apply Finset.sum_congr rfl
    intro i _
    rw [hZ a i, hZ b i]
    ring
  induction k with
  | zero =>
    refine ⟨?_, ?_, ?_, ?_, ?_⟩
    · intro j h1 h2; omega
    · intro j h1; omega
    · intro i j h1 h2 h3; omega
    · intro j h1 h2; omega
    · intro j h1; omega
  | succ k ih =>
    obtain ⟨ha, hb, hc, hd, he⟩ := ih (by omega)
    have hrk : 0 < rho k := hpos k (by omega)
    -- the new direction against the current residual
    have hRP : Matrix.dotProduct (R k) (P k) = 0 := by
      cases k with
      | zero => rw [hP0, Matrix.dotProduct_zero]
      | succ k => exact ha (k + 1) (by omega) (Nat.le_refl _)
    have hek : Matrix.dotProduct (R k) (P (k + 1)) = rho k := by
      rw [hP k, Matrix.dotProduct_add, Matrix.dotProduct_smul, hRP, ← hrho k]
      simp
    have hPne : P (k + 1) ≠ 0 := by
      intro h0
      rw [h0, Matrix.dotProduct_zero] at hek
      exact absurd hek.symm (ne_of_gt hrk)
    have hdk : 0 < Matrix.dotProduct (P (k + 1)) (Aop (P (k + 1))) := hpd _ hPne
    have hald : al k * Matrix.dotProduct (P (k + 1)) (Aop (P (k + 1))) = rho k := by
      rw [hal k]
      field_simp
    -- the earlier steps, solved for `A p`
    have hAP : ∀ i, 1 ≤ i → i ≤ k → ∀ u : Fin N → α,
        al (i - 1) * Matrix.dotProduct u (Aop (P i)) =
          Matrix.dotProduct u (R (i - 1)) - Matrix.dotProduct u (R i) := by
      intro i h1 h2 u
      have h := hR (i - 1)
      rw [show i - 1 + 1 = i by omega] at h
      rw [h, Matrix.dotProduct_sub, Matrix.dotProduct_smul]
      simp
    have halne : ∀ i, 1 ≤ i → i ≤ k → al (i - 1) ≠ 0 := by
      intro i h1 h2
      have h := hal (i - 1)
      rw [show i - 1 + 1 = i by omega] at h
      rw [h]
      exact ne_of_gt (div_pos (hpos (i - 1) (by omega)) (hd i h1 h2))
    have hc' : ∀ i, 1 ≤ i → i < k + 1 →
        Matrix.dotProduct (P (k + 1)) (Aop (P i)) = 0 := by
      intro i h1 h2
      rw [hP k, Matrix.add_dotProduct, Matrix.smul_dotProduct]
      have h3 := hAP i h1 (by omega) (Z k)
      rw [hMsym, hMsym] at h3
      by_cases hik : i < k
      · rw [hb (i - 1) (by omega), hb i hik, sub_zero] at h3
        have h4 : Matrix.dotProduct (Z k) (Aop (P i)) = 0 := by
          rcases mul_eq_zero.1 h3 with h | h
          · exact absurd h (halne i h1 (by omega))
          · exact h
        rw [h4, hc i k h1 hik (Nat.le_refl _)]
        simp
      · have hik' : i = k := by omega
        subst hik'
        rw [hb (i - 1) (by omega), ← hrho i, zero_sub] at h3
        have h5 := hbe (i - 1)
        have h6 := hal (i - 1)
        rw [show i - 1 + 1 = i by omega] at h5 h6
        have hdi := hd i h1 (Nat.le_refl _)
        have hri := hpos (i - 1) (by omega)
        have h7 : Matrix.dotProduct (Z i) (Aop (P i)) = -rho i / al (i - 1) := by
          rw [eq_div_iff (halne i h1 (Nat.le_refl _)), mul_comm]
          exact h3
        rw [h7, h5, h6, smul_eq_mul]
        field_simp
    have ha' : ∀ j, 1 ≤ j → j ≤ k + 1 → Matrix.dotProduct (R (k + 1)) (P j) = 0 := by
      intro j h1 h2
      rw [hR k, Matrix.sub_dotProduct, Matrix.smul_dotProduct, ← hsym, smul_eq_mul]
      by_cases hjk : j ≤ k
      · rw [ha j h1 hjk, hc' j h1 (by omega)]
        simp
      · have : j = k + 1 := by omega
        subst this
        rw [hek, hald, sub_self]
    refine ⟨ha', ?_, ?_, ?_, ?_⟩
    · intro j hj
      have hZj : Z j = P (j + 1) - be j • P j := by
        rw [hP j]; simp
      rw [hZj, Matrix.dotProduct_sub, Matrix.dotProduct_smul, ha' (j + 1) (by omega) (by omega)]
      cases j with
      | zero => rw [hP0, Matrix.dotProduct_zero]; simp
      | succ j => rw [ha' (j + 1) (by omega) (by omega)]; simp
    · intro i j h1 h2 h3
      by_cases hjk : j ≤ k
      · exact hc i j h1 h2 hjk
      · have : j = k + 1 := by omega
        subst this
        exact hc' i h1 h2
    · intro j h1 h2
      by_cases hjk : j ≤ k
      · exact hd j h1 hjk
      · have : j = k + 1 := by omega
        subst this
        exact hdk
    · intro j hj
      by_cases hjk : j < k
      · exact he j hjk
      · have : j = k := by omega
        subst this
        exact hek

/-- More than `N` non-zero vectors of `N` values cannot be pairwise orthogonal for a
weighted dot product with positive weights. -/
theorem orth_family_card {α : Type} [LinearOrderedField α] (N : Nat) (Mv : Fin N → α)
    (hM : ∀ i, 0 < Mv i) (R : Nat → Fin N → α)
    (horth : ∀ j k, j < k → k ≤ N →
      Matrix.dotProduct (R k) (fun i => Mv i * R j i) = 0)
    (hne : ∀ k, k ≤ N → R k ≠ 0) : False := by
  have hself : ∀ k, k ≤ N → 0 < Matrix.dotProduct (R k) (fun i => Mv i * R k i) := by
    intro k hk
    obtain ⟨i0, hi0⟩ : ∃ i, R k i ≠ 0 := by
      by_contra hcon
      push_neg at hcon
      exact hne k hk (funext hcon)
    simp only [Matrix.dotProduct]
    apply Finset.sum_pos'
    · intro i _
      have := mul_nonneg (le_of_lt (hM i)) (mul_self_nonneg (R k i))
      nlinarith
    · refine ⟨i0, Finset.mem_univ _, ?_⟩
      have h1 : 0 < R k i0 * R k i0 := mul_self_pos.2 hi0
      have := mul_pos (hM i0) h1
      nlinarith
  have hsymm : ∀ j k, Matrix.dotProduct (R k) (fun i => Mv i * R j i) =
      Matrix.dotProduct (R j) (fun i => Mv i * R k i) := by
    intro j k
    simp only [Matrix.dotProduct]
    apply Finset.sum_congr rfl
    intro i _
    ring
  have hli : LinearIndependent α (fun k : Fin (N + 1) => R k) := by
    rw [linearIndependent_iff']
    intro s g hsum k hk
    have h1 : Matrix.dotProduct (∑ i in s, g i • R i) (fun i => Mv i * R k i) = 0 := by
      rw [hsum, Matrix.zero_dotProduct]
    have hexp : Matrix.dotProduct (∑ i in s, g i • R i) (fun i => Mv i * R k i) =
        ∑ i in s, g i * Matrix.dotProduct (R i) (fun i' => Mv i' * R k i') := by
      simp only [Matrix.dotProduct, Finset.sum_apply, Pi.smul_apply, smul_eq_mul,
        Finset.sum_mul, Finset.mul_sum]
      rw [Finset.sum_comm]
      apply Finset.sum_congr rfl
      intro i _
      apply Finset.sum_congr rfl
      intro x _
      ring
    rw [hexp] at h1
    have h2 : ∑ i in s, g i * Matrix.dotProduct (R i) (fun i' => Mv i' * R k i') =
        g k * Matrix.dotProduct (R k) (fun i' => Mv i' * R k i') := by
      rw [Finset.sum_eq_single k]
      · intro b _ hbk
        have hbk' : (b : Nat) ≠ (k : Nat) := fun h => hbk (Fin.ext h)
        rcases Nat.lt_or_gt_of_ne hbk' with h | h
        · rw [hsymm, horth b k h (by have := k.2; omega)]
          simp
        · rw [horth k b h (by have := b.2; omega)]
          simp
      · intro hnk
        exact absurd hk hnk
    rw [h2] at h1
    rcases mul_eq_zero.1 h1 with h | h
    · exact h
    · exact absurd h (ne_of_gt (hself k (by have := k.2; omega)))
  have hcard := hli.fintype_card_le_finrank
  simp at hcard

/-- Along the conjugate gradient recurrences the squared `A`-norm of the error does not
increase. -/
theorem cg_anorm {α : Type} [LinearOrderedField α] (N : Nat)
    (Aop : (Fin N → α) → (Fin N → α))
    (hsym : ∀ u v, Matrix.dotProduct u (Aop v) = Matrix.dotProduct (Aop u) v)
    (hpd : ∀ u, u ≠ 0 → 0 < Matrix.dotProduct u (Aop u))
    (hlin : ∀ (u v : Fin N → α) (c : α), Aop (u - c • v) = Aop u - c • Aop v)
    (Mv : Fin N → α) (R Z P X : Nat → Fin N → α) (rho al be : Nat → α)
    (hZ : ∀ k i, Z k i = Mv i * R k i)
    (hrho : ∀ k, rho k = Matrix.dotProduct (R k) (Z k))
    (hP0 : P 0 = 0)
    (hP : ∀ k, P (k + 1) = Z k + be k • P k)
    (hbe : ∀ k, be (k + 1) = rho (k + 1) / rho k)
    (hal : ∀ k, al k = rho k / Matrix.dotProduct (P (k + 1)) (Aop (P (k + 1))))
    (hR : ∀ k, R (k + 1) = R k - al k • Aop (P (k + 1)))
    (hX : ∀ k, X (k + 1) = X k + al k • P (k + 1))
    (xs : Fin N → α) (h0 : Aop (xs - X 0) = R 0)
    (K : Nat) (hpos : ∀ j, j < K → 0 < rho j) (k : Nat) (hk : k < K) :
    Matrix.dotProduct (xs - X (k + 1)) (Aop (xs - X (k + 1))) ≤
      Matrix.dotProduct (xs - X k) (Aop (xs - X k)) := by
  have hstep : ∀ k, xs - X (k + 1) = (xs - X k) - al k • P (k + 1) := by
    intro k
    rw [hX k]
    abel
  have hE : ∀ k, Aop (xs - X k) = R k := by
    intro k
    induction k with
    | zero => exact h0
    | succ k ih => rw [hstep k, hlin, ih, hR k]
  obtain ⟨_, _, _, hd, he⟩ := cg_orth N Aop hsym hpd Mv R Z P rho al be hZ hrho hP0 hP hbe
    hal hR K hpos (k + 1) (by omega)
  have hdk := hd (k + 1) (by omega) (Nat.le_refl _)
  have hek := he k (by omega)
  have hrk := hpos k hk
  have hald : al k * Matrix.dotProduct (P (k + 1)) (Aop (P (k + 1))) = rho k := by
    rw [hal k]
    field_simp
  have hal0 : 0 ≤ al k := by
    rw [hal k]
    exact le_of_lt (div_pos hrk hdk)
  have h1 : Matrix.dotProduct (xs - X k) (Aop (P (k + 1))) = rho k := by
    rw [hsym, hE k, hek]
  have h2 : Matrix.dotProduct (P (k + 1)) (R k) = rho k := by
    rw [Matrix.dotProduct_comm, hek]
  rw [hE (k + 1), hE k, hstep k, hR k, Matrix.sub_dotProduct, Matrix.dotProduct_sub,
    Matrix.dotProduct_sub, Matrix.smul_dotProduct, Matrix.smul_dotProduct,
    Matrix.dotProduct_smul, Matrix.dotProduct_smul, h1, h2]
  simp only [smul_eq_mul]
  have h3 : al k * (al k * Matrix.dotProduct (P (k + 1)) (Aop (P (k + 1)))) =
      al k * rho k := by rw [hald]
  have h4 : 0 ≤ al k * rho k := mul_nonneg hal0 (le_of_lt hrk)
  linarith

/-! ### The iterates of `pcg` follow the recurrences -/

theorem pcg_iter_succ {α : Type} [LinearOrderedField α] (mem : pcg_mem α) (x : List α)
    (A : csr_mat α) (r M : List α) (k : Nat) :
    pcg_iter mem x A r M (k + 1) = pcg_body A M (pcg_iter mem x A r M k) :=
  Function.iterate_succ_apply' _ _ _

theorem pcg_iter_lens {α : Type} [LinearOrderedField α] (mem : pcg_mem α) (x : List α)
    (A : csr_mat α) (r M : List α) (hsq : A.cn = A.rn) (hx : A.rn ≤ x.length)
    (hr : A.rn ≤ r.length) (k : Nat) :
    A.rn ≤ (pcg_iter mem x A r M k).x.length ∧ A.rn ≤ (pcg_iter mem x A r M k).r.length ∧
    A.rn ≤ (pcg_iter mem x A r M k).p.length ∧ A.rn ≤ (pcg_iter mem x A r M k).z.length ∧
    A.rn ≤ (pcg_iter mem x A r M k).w.length ∧
    A.rn ≤ (pcg_iter mem x A r M k).tmp.length := by
  induction k with
  | zero =>
    simp only [pcg_iter, Function.iterate_zero, id_eq, pcg_init, init_array_length,
      tmalloc_length, vv_op_length, memcpy_length, hsq]
    exact ⟨hx, hr, le_refl _, le_refl _, le_refl _, le_refl _⟩
  | succ k ih =>
    rw [pcg_iter_succ]
    obtain ⟨e1, e2, e3, e4, e5, e6⟩ := pcg_body_lens A M (pcg_iter mem x A r M k)
    rw [e1, e2, e3, e4, e5, e6]
    exact ih

theorem pcg_iter_k {α : Type} [LinearOrderedField α] (mem : pcg_mem α) (x : List α)
    (A : csr_mat α) (r M : List α) (k : Nat) : (pcg_iter mem x A r M k).k = k := by
  induction k with
  | zero => rfl
  | succ k ih => rw [pcg_iter_succ]; show (pcg_iter mem x A r M k).k + 1 = k + 1; rw [ih]

/-- The state in which the loop of `pcg` is left is an iterate of its body; the test held
before every round, and fails at the end unless the fuel is spent. -/
theorem pcg_loop_iter {α : Type} [LinearOrderedField α] (A : csr_mat α) (M : List α)
    (rs : α) (n fuel : Nat) (s : pcg_state α) :
    ∃ m, m ≤ fuel ∧ pcg_loop A M rs n fuel s = (pcg_body A M)^[m] s ∧
      (∀ j, j < m → ((pcg_body A M)^[j] s).rho > rs) ∧
      (m < fuel → ¬ ((pcg_body A M)^[m] s).rho > rs ∨ ¬ ((pcg_body A M)^[m] s).k < n) := by
  induction fuel generalizing s with
  | zero => exact ⟨0, le_refl _, rfl, fun j hj => absurd hj (Nat.not_lt_zero _),
      fun h => absurd h (Nat.lt_irrefl _)⟩
  | succ fuel ih =>
    rw [pcg_loop]
    split_ifs with hc
    · obtain ⟨m, hm, he, hj, hend⟩ := ih (pcg_body A M s)
      refine ⟨m + 1, by omega, by rw [he, Function.iterate_succ_apply], ?_, ?_⟩
      · intro j hj1
        cases j with
        | zero => exact hc.1
        | succ j => rw [Function.iterate_succ_apply]; exact hj j (by omega)
      · intro hlt
        rw [Function.iterate_succ_apply]
        exact hend (by omega)
    · refine ⟨0, Nat.zero_le _, rfl, fun j hj => absurd hj (Nat.not_lt_zero _), fun _ => ?_⟩
      by_contra hcon
      push_neg at hcon
      exact hc ⟨hcon.1, hcon.2⟩

theorem pcg_iter_facts {α : Type} [LinearOrderedField α] (mem : pcg_mem α) (x : List α)
    (A : csr_mat α) (r M : List α) (hA : csr_wf A) (hsq : A.cn = A.rn)
    (hx : A.rn ≤ x.length) (hr : A.rn ≤ r.length) :
    (∀ k i, vecN A.rn (pcg_iter mem x A r M k).z i =
      vecN A.rn M i * vecN A.rn (pcg_iter mem x A r M k).r i) ∧
    (∀ k, (pcg_iter mem x A r M k).rho =
      Matrix.dotProduct (vecN A.rn (pcg_iter mem x A r M k).r)
        (vecN A.rn (pcg_iter mem x A r M k).z)) ∧
    vecN A.rn (pcg_iter mem x A r M 0).p = 0 ∧
    (∀ k, vecN A.rn (pcg_iter mem x A r M (k + 1)).p =
      vecN A.rn (pcg_iter mem x A r M k).z +
        ((pcg_iter mem x A r M k).rho / (pcg_iter mem x A r M k).rho_old) •
          vecN A.rn (pcg_iter mem x A r M k).p) ∧
    (∀ k, (pcg_iter mem x A r M (k + 1)).rho / (pcg_iter mem x A r M (k + 1)).rho_old =
      (pcg_iter mem x A r M (k + 1)).rho / (pcg_iter mem x A r M k).rho) ∧
    (∀ k, (pcg_iter mem x A r M (k + 1)).alpha =
      (pcg_iter mem x A r M k).rho /
        Matrix.dotProduct (vecN A.rn (pcg_iter mem x A r M (k + 1)).p)
          (csr_op A.rn A (vecN A.rn (pcg_iter mem x A r M (k + 1)).p))) ∧
    (∀ k, vecN A.rn (pcg_iter mem x A r M (k + 1)).r =
      vecN A.rn (pcg_iter mem x A r M k).r -
        (pcg_iter mem x A r M (k + 1)).alpha •
          csr_op A.rn A (vecN A.rn (pcg_iter mem x A r M (k + 1)).p)) ∧
    (∀ k, vecN A.rn (pcg_iter mem x A r M (k + 1)).x =
      vecN A.rn (pcg_iter mem x A r M k).x +
        (pcg_iter mem x A r M (k + 1)).alpha • vecN A.rn (pcg_iter mem x A r M (k + 1)).p) ∧
    vecN A.rn (pcg_iter mem x A r M 0).x = 0 ∧
    vecN A.rn (pcg_iter mem x A r M 0).r = vecN A.rn r := by
  have hstep : ∀ k, _ := fun k =>
    pcg_body_vec A hA hsq M (pcg_iter mem x A r M k)
      (pcg_iter_lens mem x A r M hsq hx hr k).1
      (pcg_iter_lens mem x A r M hsq hx hr k).2.1
      (pcg_iter_lens mem x A r M hsq hx hr k).2.2.1
      (pcg_iter_lens mem x A r M hsq hx hr k).2.2.2.1
      (pcg_iter_lens mem x A r M hsq hx hr k).2.2.2.2.1
      (pcg_iter_lens mem x A r M hsq hx hr k).2.2.2.2.2
  refine ⟨?_, ?_, ?_, ?_, ?_, ?_, ?_, ?_, ?_, rfl⟩
  · intro k i
    cases k with
    | zero =>
      have hi := i.2
      show rd (vv_op (memcpy (tmalloc mem.z A.rn) M A.rn) r A.rn .ewmult) i = _
      rw [rd_vv_op_ewmult, memcpy_length, tmalloc_length, if_pos ⟨hi, hi⟩, rd_memcpy,
        tmalloc_length, if_pos ⟨hi, hi⟩]
      rfl
    | succ k =>
      rw [pcg_iter_succ]
      exact (hstep k).2.2.2.2.1 i
  · intro k
    cases k with
    | zero => exact vv_dot_vecN _ _ _
    | succ k =>
      rw [pcg_iter_succ]
      exact (hstep k).2.2.2.2.2.1
  · funext i
    have hi := i.2
    show rd (init_array (tmalloc mem.p A.cn) A.cn 0) i = 0
    rw [rd_init_array, tmalloc_length, hsq, if_pos ⟨hi, hi⟩]
  · intro k
    rw [pcg_iter_succ]
    exact (hstep k).1
  · intro k
    rw [pcg_iter_succ, (hstep k).2.2.2.2.2.2.1]
  · intro k
    rw [pcg_iter_succ]
    exact (hstep k).2.1
  · intro k
    rw [pcg_iter_succ]
    exact (hstep k).2.2.2.1
  · intro k
    rw [pcg_iter_succ]
    exact (hstep k).2.2.1
  · funext i
    have hi := i.2
    show rd (init_array x A.rn 0) i = 0
    rw [rd_init_array, if_pos ⟨hi, by omega⟩]

/-- If the loop of `pcg` could run `N` rounds on a symmetric positive definite `N x N`
matrix with a positive diagonal preconditioner, the residual after these rounds is `0`. -/
theorem pcg_residual_zero {α : Type} [LinearOrderedField α] (mem : pcg_mem α) (x : List α)
    (A : csr_mat α) (r M : List α) (hA : csr_spd A)
    (hM : ∀ i, i < A.rn → 0 < rd M i) (hx : A.rn ≤ x.length) (hr : A.rn ≤ r.length)
    (hpos : ∀ j, j < A.rn → 0 < (pcg_iter mem x A r M j).rho) :
    vecN A.rn (pcg_iter mem x A r M A.rn).r = 0 := by
  obtain ⟨hwf, hsq, hsym, hpd⟩ := hA
  obtain ⟨hZ, hrho, hP0, hP, hbe, hal, hR, _, _, _⟩ :=
    pcg_iter_facts mem x A r M hwf hsq hx hr
  by_contra hne
  apply orth_family_card A.rn (vecN A.rn M) (fun i => hM i i.2)
    (fun k => vecN A.rn (pcg_iter mem x A r M k).r)
  · intro j k hjk hk
    have hb := (cg_orth A.rn (csr_op A.rn A) hsym hpd (vecN A.rn M)
      (fun k => vecN A.rn (pcg_iter mem x A r M k).r)
      (fun k => vecN A.rn (pcg_iter mem x A r M k).z)
      (fun k => vecN A.rn (pcg_iter mem x A r M k).p)
      (fun k => (pcg_iter mem x A r M k).rho)
      (fun k => (pcg_iter mem x A r M (k + 1)).alpha)
      (fun k => (pcg_iter mem x A r M k).rho / (pcg_iter mem x A r M k).rho_old)
      hZ hrho hP0 hP hbe hal hR A.rn hpos k hk).2.1 j hjk
    have hZj : vecN A.rn (pcg_iter mem x A r M j).z =
        fun i => vecN A.rn M i * vecN A.rn (pcg_iter mem x A r M j).r i := funext (hZ j)
    rw [← hZj]
    exact hb
  · intro k hk
    by_cases hkN : k = A.rn
    · rw [hkN]; exact hne
    · intro h0
      have h1 := hrho k
      rw [h0, Matrix.zero_dotProduct] at h1
      exact absurd h1 (ne_of_gt (hpos k (by omega)))

/-- C17: in exact arithmetic on a single process, for a symmetric positive definite
`N x N` matrix `A` with `N <= 100`, a positive diagonal preconditioner `M` and any
right-hand side `r` (arrays of at least `N` cells), `pcg` stops after `k <= N` rounds with
`rho <= tol^2 * rho_0`; if it ran all `N` rounds the residual is `0`; and the squared
`A`-norm of the error `x* - x_k` does not increase from one round to the next, for every
`x*` with `A x* = r`. -/
theorem pcg_spd {α : Type} [LinearOrderedField α] (mem : pcg_mem α) (x : List α)
    (A : csr_mat α) (r M : List α) (tol : α) (hA : csr_spd A) (hN : A.rn ≤ 100)
    (hM : ∀ i, i < A.rn → 0 < rd M i) (hx : A.rn ≤ x.length) (hr : A.rn ≤ r.length) :
    (pcg mem x A r M tol).k ≤ A.rn ∧
    (pcg mem x A r M tol).rho ≤
      tol ^ 2 * ∑ i in Finset.range A.rn, rd r i * (rd M i * rd r i) ∧
    ((pcg mem x A r M tol).k = A.rn → ∀ i, i < A.rn → rd (pcg mem x A r M tol).r i = 0) ∧
    (pcg mem x A r M tol).x = (pcg_iter mem x A r M (pcg mem x A r M tol).k).x ∧
    ∀ xs : Fin A.rn → α, csr_op A.rn A xs = vecN A.rn r →
      ∀ k, k < (pcg mem x A r M tol).k →
        Anorm2 A (xs - vecN A.rn (pcg_iter mem x A r M (k + 1)).x) ≤
          Anorm2 A (xs - vecN A.rn (pcg_iter mem x A r M k).x) := by
  have hA' := hA
  obtain ⟨hwf, hsq, hsym, hpd⟩ := hA
  obtain ⟨hZ, hrho, hP0, hP, hbe, hal, hR, hX, hX0, hR0⟩ :=
    pcg_iter_facts mem x A r M hwf hsq hx hr
  rw [← pcg_init_rho mem x A r M]
  have hs0 : pcg_init mem x A r M = pcg_iter mem x A r M 0 := rfl
  -- the initial `rho` is not negative
  have hrho0 : 0 ≤ (pcg_iter mem x A r M 0).rho := by
    rw [hrho 0]
    simp only [Matrix.dotProduct]
    apply Finset.sum_nonneg
    intro i _
    rw [hZ 0 i]
    have := mul_nonneg (le_of_lt (hM i i.2))
      (mul_self_nonneg (vecN A.rn (pcg_iter mem x A r M 0).r i))
    have e : vecN A.rn (pcg_iter mem x A r M 0).r i *
        (vecN A.rn M i * vecN A.rn (pcg_iter mem x A r M 0).r i) =
        rd M i * (vecN A.rn (pcg_iter mem x A r M 0).r i *
          vecN A.rn (pcg_iter mem x A r M 0).r i) := by
      simp only [vecN]; ring
    rw [e]
    exact this
  have hrs : 0 ≤ tol * tol * (pcg_iter mem x A r M 0).rho :=
    mul_nonneg (mul_self_nonneg tol) hrho0
  -- the state in which `pcg` returns
  have hout : ∃ m, m ≤ A.rn ∧ (pcg mem x A r M tol).k = m ∧
      (pcg mem x A r M tol).rho = (pcg_iter mem x A r M m).rho ∧
      (pcg mem x A r M tol).r = (pcg_iter mem x A r M m).r ∧
      (pcg mem x A r M tol).x = (pcg_iter mem x A r M m).x ∧
      (∀ j, j < m → (pcg_iter mem x A r M j).rho > tol * tol * (pcg_iter mem x A r M 0).rho) ∧
      (m < A.rn →
        (pcg_iter mem x A r M m).rho ≤ tol * tol * (pcg_iter mem x A r M 0).rho) := by
    have hn : pcg_n A = A.rn := by unfold pcg_n; rw [if_pos hN]
    unfold pcg
    simp only [hn]
    split_ifs with h0
    · exact ⟨0, Nat.zero_le _, rfl, rfl, rfl, rfl, fun j hj => absurd hj (Nat.not_lt_zero _),
        fun h => absurd h (by omega)⟩
    · obtain ⟨m, hm, he, hj, hend⟩ := pcg_loop_iter A M
        (tol * tol * (pcg_init mem x A r M).rho) A.rn A.rn (pcg_init mem x A r M)
      rw [he]
      refine ⟨m, hm, pcg_iter_k mem x A r M m, rfl, rfl, rfl, hj, ?_⟩
      intro hlt
      rcases hend hlt with h | h
      · exact not_lt.1 h
      · exact absurd hlt (by
          have := pcg_iter_k mem x A r M m
          unfold pcg_iter at this
          rw [this] at h
          exact h)
  obtain ⟨m, hm, hk, hrho_m, hr_m, hx_m, hj, hend⟩ := hout
  rw [hk, hrho_m, hr_m, hx_m, pow_two, hs0]
  have hpos : ∀ j, j < m → 0 < (pcg_iter mem x A r M j).rho :=
    fun j hjm => lt_of_le_of_lt hrs (hj j hjm)
  have hzero : m = A.rn → vecN A.rn (pcg_iter mem x A r M A.rn).r = 0 := by
    intro hmN
    exact pcg_residual_zero mem x A r M hA' hM hx hr (fun j hjN => hpos j (by omega))
  refine ⟨hm, ?_, ?_, rfl, ?_⟩
  · by_cases hmN : m < A.rn
    · exact hend hmN
    · have hmN' : m = A.rn := by omega
      rw [hmN', hrho A.rn, hzero hmN', Matrix.zero_dotProduct]
      exact hrs
  · intro hmN i hi
    rw [hmN]
    exact congrFun (hzero hmN) ⟨i, hi⟩
  · intro xs hxs k hkm
    unfold Anorm2
    apply cg_anorm A.rn (csr_op A.rn A) hsym hpd (csr_op_sub_smul A.rn A) (vecN A.rn M)
      (fun k => vecN A.rn (pcg_iter mem x A r M k).r)
      (fun k => vecN A.rn (pcg_iter mem x A r M k).z)
      (fun k => vecN A.rn (pcg_iter mem x A r M k).p)
      (fun k => vecN A.rn (pcg_iter mem x A r M k).x)
      (fun k => (pcg_iter mem x A r M k).rho)
      (fun k => (pcg_iter mem x A r M (k + 1)).alpha)
      (fun k => (pcg_iter mem x A r M k).rho / (pcg_iter mem x A r M k).rho_old)
      hZ hrho hP0 hP hbe hal hR hX xs ?_ m hpos k hkm
    show csr_op A.rn A (xs - vecN A.rn (pcg_iter mem x A r M 0).x) = _
    rw [hX0, sub_zero, hxs]
    exact hR0.symm

theorem spd2_op (v : Fin 2 → ℚ) (i : Fin 2) :
    csr_op 2 (spd2 ℚ) v i = if i = 0 then 2 * v 0 + v 1 else v 0 + 2 * v 1 := by
  fin_cases i
  · simp [csr_op, rowIdx, spd2, rd, range'_cons']
  · simp [csr_op, rowIdx, spd2, rd, range'_cons']

theorem spd2_spd : csr_spd (spd2 ℚ) := by
  refine ⟨by decide, rfl, ?_, ?_⟩
  · have h : ∀ u v : Fin 2 → ℚ, Matrix.dotProduct u (csr_op 2 (spd2 ℚ) v) =
        Matrix.dotProduct (csr_op 2 (spd2 ℚ) u) v := by
      intro u v
      simp only [Matrix.dotProduct, Fin.sum_univ_two, spd2_op]
      simp
      ring
    exact h
  · have h : ∀ u : Fin 2 → ℚ, u ≠ 0 → 0 < Matrix.dotProduct u (csr_op 2 (spd2 ℚ) u) := by
      intro u hu
      simp only [Matrix.dotProduct, Fin.sum_univ_two, spd2_op]
      simp
      have hne : u 0 ≠ 0 ∨ u 1 ≠ 0 := by
        by_contra hcon
        push_neg at hcon
        apply hu
        funext i
        fin_cases i
        · exact hcon.1
        · exact hcon.2
      rcases hne with h0 | h1
      · nlinarith [mul_self_pos.2 h0, mul_self_nonneg (u 0 + u 1), mul_self_nonneg (u 1)]
      · nlinarith [mul_self_pos.2 h1, mul_self_nonneg (u 0 + u 1), mul_self_nonneg (u 0)]
    exact h

theorem pcg_spd_witness :
    (csr_spd (spd2 ℚ) ∧ (spd2 ℚ).rn ≤ 100 ∧
      (∀ i, i < (spd2 ℚ).rn → 0 < rd ([1 / 2, 1 / 2] : List ℚ) i) ∧
      (spd2 ℚ).rn ≤ ([0, 0] : List ℚ).length ∧ (spd2 ℚ).rn ≤ ([1, 2] : List ℚ).length) ∧
    ((pcg ⟨[], [], [], []⟩ [0, 0] (spd2 ℚ) [1, 2] [1 / 2, 1 / 2] (1 / 10)).k ≤ (spd2 ℚ).rn ∧
    (pcg ⟨[], [], [], []⟩ [0, 0] (spd2 ℚ) [1, 2] [1 / 2, 1 / 2] (1 / 10)).rho ≤
      (1 / 10 : ℚ) ^ 2 * ∑ i in Finset.range (spd2 ℚ).rn,
        rd ([1, 2] : List ℚ) i * (rd ([1 / 2, 1 / 2] : List ℚ) i * rd ([1, 2] : List ℚ) i) ∧
    ((pcg ⟨[], [], [], []⟩ [0, 0] (spd2 ℚ) [1, 2] [1 / 2, 1 / 2] (1 / 10)).k = (spd2 ℚ).rn →
      ∀ i, i < (spd2 ℚ).rn →
        rd (pcg ⟨[], [], [], []⟩ [0, 0] (spd2 ℚ) [1, 2] [1 / 2, 1 / 2] (1 / 10)).r i = 0) ∧
    (pcg ⟨[], [], [], []⟩ [0, 0] (spd2 ℚ) [1, 2] [1 / 2, 1 / 2] (1 / 10)).x =
      (pcg_iter ⟨[], [], [], []⟩ [0, 0] (spd2 ℚ) [1, 2] [1 / 2, 1 / 2]
        (pcg ⟨[], [], [], []⟩ [0, 0] (spd2 ℚ) [1, 2] [1 / 2, 1 / 2] (1 / 10)).k).x ∧
    ∀ xs : Fin (spd2 ℚ).rn → ℚ,
      csr_op (spd2 ℚ).rn (spd2 ℚ) xs = vecN (spd2 ℚ).rn [1, 2] →
      ∀ k, k < (pcg ⟨[], [], [], []⟩ [0, 0] (spd2 ℚ) [1, 2] [1 / 2, 1 / 2] (1 / 10)).k →
        Anorm2 (spd2 ℚ) (xs - vecN (spd2 ℚ).rn
            (pcg_iter ⟨[], [], [], []⟩ [0, 0] (spd2 ℚ) [1, 2] [1 / 2, 1 / 2] (k + 1)).x) ≤
          Anorm2 (spd2 ℚ) (xs - vecN (spd2 ℚ).rn
            (pcg_iter ⟨[], [], [], []⟩ [0, 0] (spd2 ℚ) [1, 2] [1 / 2, 1 / 2] k).x)) :=
  have hM : ∀ i, i < (spd2 ℚ).rn → 0 < rd ([1 / 2, 1 / 2] : List ℚ) i := by
    intro i hi
    have hi' : i < 2 := hi
    interval_cases i <;> norm_num [rd]
  ⟨⟨spd2_spd, by decide, hM, by decide, by decide⟩,
    pcg_spd ⟨[], [], [], []⟩ [0, 0] (spd2 ℚ) [1, 2] [1 / 2, 1 / 2] (1 / 10) spd2_spd
      (by decide) hM (by decide) (by decide)⟩

/-! ## `mask_op` with `eq`, `bin_op` with `or_op` -/

/-- C28 (as the code behaves): `mask_op` with `op = eq` assigns `trigger` to every `a[i]`
(`i < n`) and sets `mask[i]` to the truth value of the assigned value: `1` when
`trigger != 0` and `0` when `trigger == 0`, whatever `a` held. -/
theorem mask_op_eq_spec {α : Type} [LinearOrderedField α] (mask a : List α) (n : Nat)
    (trigger : α) (k : Nat) (hk : k < n) :
    (k < mask.length →
      rd (mask_op mask a n trigger .eq).1 k = if trigger ≠ 0 then 1 else 0) ∧
    (k < a.length → rd (mask_op mask a n trigger .eq).2 k = trigger) ∧
    (mask_op mask a n trigger .eq).1.length = mask.length ∧
    (mask_op mask a n trigger .eq).2.length = a.length := by
  simp only [mask_op]
  refine ⟨?_, ?_, forUpd_length _ _ _, forUpd_length _ _ _⟩
  · intro hm
    rw [rd_forUpd, if_pos ⟨hk, hm⟩]
  · intro ha
    rw [rd_forUpd, if_pos ⟨hk, ha⟩]

theorem mask_op_eq_spec_witness :
    (0 < 2) ∧
    ((0 < ([7, 7] : List ℚ).length →
      rd (mask_op [7, 7] [3, 4] 2 (5 : ℚ) .eq).1 0 = if (5 : ℚ) ≠ 0 then 1 else 0) ∧
    (0 < ([3, 4] : List ℚ).length → rd (mask_op [7, 7] [3, 4] 2 (5 : ℚ) .eq).2 0 = 5) ∧
    (mask_op [7, 7] [3, 4] 2 (5 : ℚ) .eq).1.length = ([7, 7] : List ℚ).length ∧
    (mask_op [7, 7] [3, 4] 2 (5 : ℚ) .eq).2.length = ([3, 4] : List ℚ).length) :=
  ⟨by decide, mask_op_eq_spec [7, 7] [3, 4] 2 (5 : ℚ) 0 (by decide)⟩

/-- C28, counterexample: with `trigger = 0` the case `eq` of `mask_op` sets the mask to
`0`, not `1` (and overwrites `a` with `0`). -/
theorem mask_op_eq_zero_trigger :
    mask_op [5] [3] 1 (0 : ℚ) .eq = ([0], [0]) ∧
    rd (mask_op [5] [3] 1 (0 : ℚ) .eq).1 0 ≠ 1 := by
  have h : mask_op [5] [3] 1 (0 : ℚ) .eq = ([0], [0]) := by
    simp [mask_op, forUpd, List.range_succ]
  refine ⟨h, ?_⟩
  rw [h]
  simp [rd]

/-- C29: for all values of the operands, `bin_op` with `or_op` yields `0` exactly when both
operands are `0` and `1` otherwise, which is the logical OR of `mask != 0` and `a != 0`; and
it equals `not(and(not mask, not a))` computed with `not_op` and `and_op` of `bin_op` (on
scratch arrays `t1`, `t2`, `t3` of at least `n` cells). -/
theorem bin_op_or_spec {α : Type} [LinearOrderedField α] (mask a t1 t2 t3 : List α)
    (n k : Nat) (hk : k < n) (hm : k < mask.length) (h1 : k < t1.length)
    (h2 : k < t2.length) (h3 : k < t3.length) :
    (rd (bin_op mask a n .or_op) k = 0 ↔ rd mask k = 0 ∧ rd a k = 0) ∧
    (rd (bin_op mask a n .or_op) k = 1 ↔ ¬ (rd mask k = 0 ∧ rd a k = 0)) ∧
    rd (bin_op mask a n .or_op) k = (if rd mask k ≠ 0 ∨ rd a k ≠ 0 then 1 else 0) ∧
    rd (bin_op mask a n .or_op) k =
      rd (bin_op t3
        (bin_op (bin_op t1 mask n .not_op) (bin_op t2 a n .not_op) n .and_op) n .not_op) k := by
  have hor : rd (bin_op mask a n .or_op) k = if rd mask k = 0 ∧ rd a k = 0 then 0 else 1 := by
    rw [rd_bin_op_or]; exact if_pos ⟨hk, hm⟩
  have hn1 : rd (bin_op t1 mask n .not_op) k = if rd mask k = 0 then 1 else 0 := by
    rw [rd_bin_op_not]; exact if_pos ⟨hk, h1⟩
  have hn2 : rd (bin_op t2 a n .not_op) k = if rd a k = 0 then 1 else 0 := by
    rw [rd_bin_op_not]; exact if_pos ⟨hk, h2⟩
  have hand : rd (bin_op (bin_op t1 mask n .not_op) (bin_op t2 a n .not_op) n .and_op) k =
      if (if rd mask k = 0 then (1 : α) else 0) ≠ 0 ∧ (if rd a k = 0 then (1 : α) else 0) ≠ 0
        then 1 else 0 := by
    rw [rd_bin_op_and, hn1, hn2]
    exact if_pos ⟨hk, by rw [bin_op_length]; exact h1⟩
  have hnot : rd (bin_op t3
      (bin_op (bin_op t1 mask n .not_op) (bin_op t2 a n .not_op) n .and_op) n .not_op) k =
      if (if (if rd mask k = 0 then (1 : α) else 0) ≠ 0 ∧
          (if rd a k = 0 then (1 : α) else 0) ≠ 0 then (1 : α) else 0) = 0 then 1 else 0 := by
    rw [rd_bin_op_not, hand]
    exact if_pos ⟨hk, h3⟩
  rw [hor, hnot]
  by_cases hm0 : rd mask k = 0 <;> by_cases ha0 : rd a k = 0 <;> simp [hm0, ha0]

theorem bin_op_or_spec_witness :
    ((0 < 2) ∧ 0 < ([3, 0] : List ℚ).length ∧ 0 < ([9, 9] : List ℚ).length ∧
      0 < ([8, 8] : List ℚ).length ∧ 0 < ([7, 7] : List ℚ).length) ∧
    ((rd (bin_op ([3, 0] : List ℚ) [0, 0] 2 .or_op) 0 = 0 ↔
      rd ([3, 0] : List ℚ) 0 = 0 ∧ rd ([0, 0] : List ℚ) 0 = 0) ∧
    (rd (bin_op ([3, 0] : List ℚ) [0, 0] 2 .or_op) 0 = 1 ↔
      ¬ (rd ([3, 0] : List ℚ) 0 = 0 ∧ rd ([0, 0] : List ℚ) 0 = 0)) ∧
    rd (bin_op ([3, 0] : List ℚ) [0, 0] 2 .or_op) 0 =
      (if rd ([3, 0] : List ℚ) 0 ≠ 0 ∨ rd ([0, 0] : List ℚ) 0 ≠ 0 then 1 else 0) ∧
    rd (bin_op ([3, 0] : List ℚ) [0, 0] 2 .or_op) 0 =
      rd (bin_op ([7, 7] : List ℚ)
        (bin_op (bin_op ([9, 9] : List ℚ) [3, 0] 2 .not_op) (bin_op [8, 8] ([0, 0] : List ℚ) 2 .not_op)
          2 .and_op) 2 .not_op) 0) :=
  ⟨⟨by decide, by decide, by decide, by decide, by decide⟩,
    bin_op_or_spec ([3, 0] : List ℚ) [0, 0] [9, 9] [8, 8] [7, 7] 2 0 (by decide) (by decide) (by decide)
      (by decide) (by decide)⟩

/-! ## The values of the strength matrix of `coarsen` -/

theorem rd_array_op_sqrt {α : Type} [LinearOrderedField α] (sqrt : α → α) (a : List α)
    (n k : Nat) :
    rd (array_op sqrt a n .sqrt_op).2 k =
      if k < n ∧ k < a.length then sqrt (rd a k) else rd a k := by
  simp only [array_op]; exact rd_forUpd _ _ _ _

/-- A loop that rewrites the cells at the distinct positions `l`. -/
theorem posmap_fold {α : Type} [LinearOrderedField α] (g : Nat → α → α) (l : List Nat)
    (hl : l.Nodup) (a : List α) :
    (l.foldl (fun a j => a.set j (g j (rd a j))) a).length = a.length ∧
    ∀ k, rd (l.foldl (fun a j => a.set j (g j (rd a j))) a) k =
      if k ∈ l ∧ k < a.length then g k (rd a k) else rd a k := by
  induction l generalizing a with
  | nil => exact ⟨rfl, fun k => by simp⟩
  | cons j l ih =>
    rw [List.foldl_cons]
    obtain ⟨h1, h2⟩ := ih (List.nodup_cons.1 hl).2 (a.set j (g j (rd a j)))
    refine ⟨by rw [h1, List.length_set], fun k => ?_⟩
    rw [h2 k, List.length_set, rd_set]
    have hjl : j ∉ l := (List.nodup_cons.1 hl).1
    by_cases hkl : k ∈ l
    · have hkj : j ≠ k := fun h => hjl (h ▸ hkl)
      by_cases hk : k < a.length
      · rw [if_pos ⟨hkl, hk⟩, if_neg (fun h => hkj h.1),
          if_pos ⟨List.mem_cons_of_mem _ hkl, hk⟩]
      · rw [if_neg (fun h => hk h.2), if_neg (fun h => hkj h.1),
          if_neg (fun h => hk h.2)]
    · rw [if_neg (fun h => hkl h.1)]
      by_cases hkj : j = k
      · subst hkj
        by_cases hk : j < a.length
        · rw [if_pos ⟨rfl, hk⟩, if_pos ⟨List.mem_cons_self _ _, hk⟩]
        · rw [if_neg (fun h => hk h.2), if_neg (fun h => hk h.2)]
      · rw [if_neg (fun h => hkj h.1), if_neg]
        intro h
        rcases List.mem_cons.1 h.1 with h' | h'
        · exact hkj h'.symm
        · exact hkl h'

/-- A loop over the rows of a well-formed matrix that rewrites every stored value of row
`i` at position `j` to `g i j` of it. -/
theorem rowmap_fold {α : Type} [LinearOrderedField α] (B : csr_mat α) (hB : csr_wf B)
    (g : Nat → Nat → α → α) (a0 : List α) (n : Nat) (hn : n ≤ B.rn) :
    ((List.range n).foldl
      (fun a i => (rowIdx B i).foldl (fun a j => a.set j (g i j (rd a j))) a) a0).length =
      a0.length ∧
    (∀ i j, i < n → j ∈ rowIdx B i → j < a0.length →
      rd ((List.range n).foldl
        (fun a i => (rowIdx B i).foldl (fun a j => a.set j (g i j (rd a j))) a) a0) j =
        g i j (rd a0 j)) ∧
    (∀ j, (∀ i, i < n → j ∉ rowIdx B i) →
      rd ((List.range n).foldl
        (fun a i => (rowIdx B i).foldl (fun a j => a.set j (g i j (rd a j))) a) a0) j =
        rd a0 j) := by
  induction n with
  | zero =>
    exact ⟨rfl, fun i j hi => absurd hi (Nat.not_lt_zero _), fun j _ => rfl⟩
  | succ n ih =>
    obtain ⟨h1, h2, h3⟩ := ih (by omega)
    rw [List.range_succ, List.foldl_append]
    simp only [List.foldl_cons, List.foldl_nil]
    obtain ⟨e1, e2⟩ := posmap_fold (g n) (rowIdx B n) (List.nodup_range' _ _)
      ((List.range n).foldl
        (fun a i => (rowIdx B i).foldl (fun a j => a.set j (g i j (rd a j))) a) a0)
    refine ⟨by rw [e1, h1], ?_, ?_⟩
    · intro i j hi hj hlen
      rw [e2 j, h1]
      by_cases hin : i = n
      · subst hin
        rw [if_pos ⟨hj, hlen⟩, h3 j]
        intro i' hi' hc
        have := rowIdx_disjoint B hB i' i j (by omega) (by omega) hc hj
        omega
      · rw [if_neg, h2 i j (by omega) hj hlen]
        intro h
        have := rowIdx_disjoint B hB i n j (by omega) (by omega) hj h.1
        exact hin this
    · intro j hno
      rw [e2 j, if_neg (fun h => hno n (by omega) h.1)]
      exact h3 j (fun i hi => hno i (by omega))

/-- The values of `abs(D*A*D)` for an arbitrary array `D`. -/
theorem absDAD_rd {α : Type} [LinearOrderedField α] (sqrt : α → α) (A : csr_mat α)
    (hA : csr_wf A) (D : List α) (i j : Nat) (hi : i < A.rn) (hj : j ∈ rowIdx A i) :
    rd (array_op sqrt (diagcsr_op (diagcsr_op A D .dmult) D .multd).a
        (rd A.row_off A.rn) .abs_op).2 j =
      |rd A.a j * rd D i * rd D (rd A.col j)| := by
  have hjlt : j < A.col.length := mem_rowIdx_lt A hA i j hi hj
  have hal : A.a.length = A.col.length := hA.2.2.2.2.1
  have h1 := rowmap_fold A hA (fun i _ x => x * rd D i) A.a A.rn (Nat.le_refl _)
  have hA1 : csr_wf (diagcsr_op A D .dmult) :=
    csr_wf_congr A _ hA rfl rfl rfl rfl (diagcsr_op_length _ _ _)
  have h2 := rowmap_fold (diagcsr_op A D .dmult) hA1
    (fun _ j x => x * rd D (rd A.col j)) (diagcsr_op A D .dmult).a A.rn (Nat.le_refl _)
  rw [rd_array_op_abs, diagcsr_op_length, diagcsr_op_length, hA.2.2.2.1,
    if_pos ⟨hjlt, by omega⟩]
  congr 1
  have e2 : rd (diagcsr_op (diagcsr_op A D .dmult) D .multd).a j =
      rd (diagcsr_op A D .dmult).a j * rd D (rd A.col j) :=
    h2.2.1 i j hi hj (by rw [diagcsr_op_length]; omega)
  have e1 : rd (diagcsr_op A D .dmult).a j = rd A.a j * rd D i :=
    h1.2.1 i j hi hj (by omega)
  rw [e2, e1]

theorem sqrt_mul_of {α : Type} [LinearOrderedField α] (sqrt : α → α)
    (hsqrt : ∀ x, 0 ≤ x → 0 ≤ sqrt x ∧ sqrt x * sqrt x = x) (x y : α) (hx : 0 ≤ x)
    (hy : 0 ≤ y) : sqrt (x * y) = sqrt x * sqrt y := by
  have hxy := hsqrt (x * y) (mul_nonneg hx hy)
  have h1 := hsqrt x hx
  have h2 := hsqrt y hy
  have hsq : sqrt (x * y) * sqrt (x * y) = (sqrt x * sqrt y) * (sqrt x * sqrt y) := by
    rw [hxy.2]
    calc x * y = (sqrt x * sqrt x) * (sqrt y * sqrt y) := by rw [h1.2, h2.2]
      _ = _ := by ring
  exact (mul_self_inj hxy.1 (mul_nonneg h1.1 h2.1)).1 hsq

theorem sqrt_pos_of {α : Type} [LinearOrderedField α] (sqrt : α → α)
    (hsqrt : ∀ x, 0 ≤ x → 0 ≤ sqrt x ∧ sqrt x * sqrt x = x) (x : α) (hx : 0 < x) :
    0 < sqrt x := by
  have h := hsqrt x (le_of_lt hx)
  rcases lt_or_eq_of_le h.1 with h0 | h0
  · exact h0
  · rw [← h0, mul_zero] at h
    exact absurd h.2.symm (ne_of_gt hx)

theorem coarsen_D_rd {α : Type} [LinearOrderedField α] (sqrt : α → α) (D0 : List α)
    (A : csr_mat α) (hA : csr_wf A) (hd : stored_diag A) (i j : Nat) (hi : i < A.rn)
    (hj : diagPos A i = some j) : rd (coarsen_D sqrt D0 A) i = 1 / sqrt (rd A.a j) := by
  have hcn : A.rn ≤ A.cn := stored_diag_lt_cn A hA hd
  unfold coarsen_D
  rw [rd_array_op_minv, array_op_length, diag_length, tmalloc_length,
    if_pos ⟨by omega, by omega⟩, rd_array_op_sqrt, diag_length, tmalloc_length,
    if_pos ⟨by omega, by omega⟩, rd_diag _ A hd (by rw [tmalloc_length]; exact hcn) i j hi hj]

theorem diagPos_some_lt {α : Type} (A : csr_mat α) (hlen : A.row_off.length = A.rn + 1)
    (k dk : Nat) (h : diagPos A k = some dk) : k < A.rn := by
  by_contra hk
  have h0 : rd A.row_off (k + 1) = 0 := rd_of_le _ _ (by omega)
  have : rowIdx A k = [] := by
    unfold rowIdx
    rw [h0, Nat.zero_sub]; rfl
  unfold diagPos at h
  rw [this] at h
  simp at h

/-- C30: in exact arithmetic, for a well-formed CSR matrix `A` in which every row stores a
positive diagonal entry, the strength matrix `S` built at the start of `coarsen` has the
pattern of `A`, every stored diagonal entry equal to `0`, and
`S[i,k] = |A[i,k]| / sqrt(A[i,i] * A[k,k])` for every stored off-diagonal entry whose
column `k` is a row of `A`. -/
theorem coarsen_S_values {α : Type} [LinearOrderedField α] (sqrt : α → α)
    (hsqrt : ∀ x, 0 ≤ x → 0 ≤ sqrt x ∧ sqrt x * sqrt x = x) (D0 : List α) (A : csr_mat α)
    (hA : csr_wf A) (hp : pos_diag A) :
    (coarsen_S sqrt D0 A).rn = A.rn ∧ (coarsen_S sqrt D0 A).cn = A.cn ∧
    (coarsen_S sqrt D0 A).row_off = A.row_off ∧ (coarsen_S sqrt D0 A).col = A.col ∧
    (coarsen_S sqrt D0 A).a.length = A.a.length ∧
    (∀ i j, i < A.rn → j ∈ rowIdx A i → rd A.col j = i → rd (coarsen_S sqrt D0 A).a j = 0) ∧
    (∀ i j di dk, i < A.rn → j ∈ rowIdx A i → rd A.col j ≠ i → diagPos A i = some di →
      diagPos A (rd A.col j) = some dk →
      rd (coarsen_S sqrt D0 A).a j = |rd A.a j| / sqrt (rd A.a di * rd A.a dk)) := by
  have hd := pos_diag_stored A hp
  obtain ⟨p1, p2, p3, p4, p5, _, p7, p8⟩ := coarsen_S_props sqrt D0 A hA hd
  refine ⟨p1, p2, p3, p4, ?_, p7, ?_⟩
  · have := p5.2.2.2.2.1
    rw [this, p4, hA.2.2.2.2.1]
  · intro i j di dk hi hj hne hdi hdk
    have hk : rd A.col j < A.rn := diagPos_some_lt A hA.1 _ dk hdk
    obtain ⟨di', hdi', hpi⟩ := hp i hi
    obtain ⟨dk', hdk', hpk⟩ := hp (rd A.col j) hk
    have e1 : di' = di := Option.some.inj (hdi'.symm.trans hdi)
    have e2 : dk' = dk := Option.some.inj (hdk'.symm.trans hdk)
    subst e1
    subst e2
    rw [p8 i j hi hj hne]
    have hval : rd (coarsen_absDAD sqrt D0 A).a j =
        |rd A.a j * rd (coarsen_D sqrt D0 A) i * rd (coarsen_D sqrt D0 A) (rd A.col j)| := by
      unfold coarsen_absDAD
      simp only [copy_csr_eq A hA]
      exact absDAD_rd sqrt A hA (coarsen_D sqrt D0 A) i j hi hj
    rw [hval, coarsen_D_rd sqrt D0 A hA hd i di' hi hdi,
      coarsen_D_rd sqrt D0 A hA hd (rd A.col j) dk' hk hdk,
      sqrt_mul_of sqrt hsqrt _ _ (le_of_lt hpi) (le_of_lt hpk)]
    have s1 := sqrt_pos_of sqrt hsqrt _ hpi
    have s2 := sqrt_pos_of sqrt hsqrt _ hpk
    rw [show rd A.a j * (1 / sqrt (rd A.a di')) * (1 / sqrt (rd A.a dk')) =
      rd A.a j / (sqrt (rd A.a di') * sqrt (rd A.a dk')) by field_simp,
      abs_div, abs_of_pos (mul_pos s1 s2)]

theorem coarsen_S_values_witness :
    ((∀ x : ℝ, 0 ≤ x → 0 ≤ Real.sqrt x ∧ Real.sqrt x * Real.sqrt x = x) ∧
      csr_wf (tridiag4 ℝ) ∧ pos_diag (tridiag4 ℝ)) ∧
    ((coarsen_S Real.sqrt [] (tridiag4 ℝ)).rn = (tridiag4 ℝ).rn ∧ (coarsen_S Real.sqrt [] (tridiag4 ℝ)).cn = (tridiag4 ℝ).cn ∧
    (coarsen_S Real.sqrt [] (tridiag4 ℝ)).row_off = (tridiag4 ℝ).row_off ∧ (coarsen_S Real.sqrt [] (tridiag4 ℝ)).col = (tridiag4 ℝ).col ∧
    (coarsen_S Real.sqrt [] (tridiag4 ℝ)).a.length = (tridiag4 ℝ).a.length ∧
    (∀ i j, i < (tridiag4 ℝ).rn → j ∈ rowIdx (tridiag4 ℝ) i → rd (tridiag4 ℝ).col j = i →
      rd (coarsen_S Real.sqrt [] (tridiag4 ℝ)).a j = 0) ∧
    (∀ i j di dk, i < (tridiag4 ℝ).rn → j ∈ rowIdx (tridiag4 ℝ) i → rd (tridiag4 ℝ).col j ≠ i →
      diagPos (tridiag4 ℝ) i = some di → diagPos (tridiag4 ℝ) (rd (tridiag4 ℝ).col j) = some dk →
      rd (coarsen_S Real.sqrt [] (tridiag4 ℝ)).a j =
        |rd (tridiag4 ℝ).a j| / Real.sqrt (rd (tridiag4 ℝ).a di * rd (tridiag4 ℝ).a dk))) :=
  ⟨⟨real_sqrt_ok, by decide, tridiag4_pos_diag⟩,
    coarsen_S_values Real.sqrt real_sqrt_ok [] (tridiag4 ℝ) (by decide) tridiag4_pos_diag⟩

/-! ## Assembly: the triples kept by `build_setup_data` -/

theorem build_setup_emit_succ {α : Type} [LinearOrderedField α] (id Ai Aj : List Nat)
    (Av : List α) (rid_map : List rid) (n : Nat) :
    build_setup_emit id Ai Aj Av rid_map (n + 1) =
      if rd id (rd Ai n) = 0 ∨ rd id (rd Aj n) = 0 ∨ |rd Av n| = 0 then
        build_setup_emit id Ai Aj Av rid_map n
      else build_setup_emit id Ai Aj Av rid_map n ++
        [⟨rd Av n, rd rid_map (rd Ai n), rd rid_map (rd Aj n)⟩] := by
  simp only [build_setup_emit, List.range_succ, List.foldl_append, List.foldl_cons,
    List.foldl_nil]

/-- C23: the array `mat` written by the first loop of `build_setup_data` consists of the
triples `k` with `id[Ai[k]] != 0`, `id[Aj[k]] != 0` and `Av[k] != 0`, and of no other, in
the order of the input and with the value `Av[k]` (and the `rid` of row and column); hence
`mat.n`, its length, is the number of these triples. -/
theorem build_setup_emit_spec {α : Type} [LinearOrderedField α] (id Ai Aj : List Nat)
    (Av : List α) (rid_map : List rid) (nz_unassembled : Nat) :
    build_setup_emit id Ai Aj Av rid_map nz_unassembled =
      ((List.range nz_unassembled).filter (fun k =>
          decide (rd id (rd Ai k) ≠ 0 ∧ rd id (rd Aj k) ≠ 0 ∧ rd Av k ≠ 0))).map
        (fun k => (⟨rd Av k, rd rid_map (rd Ai k), rd rid_map (rd Aj k)⟩ : rnz α)) ∧
    (build_setup_emit id Ai Aj Av rid_map nz_unassembled).length =
      ((List.range nz_unassembled).filter (fun k =>
          decide (rd id (rd Ai k) ≠ 0 ∧ rd id (rd Aj k) ≠ 0 ∧ rd Av k ≠ 0))).length := by
  have key : ∀ n, build_setup_emit id Ai Aj Av rid_map n =
      ((List.range n).filter (fun k =>
          decide (rd id (rd Ai k) ≠ 0 ∧ rd id (rd Aj k) ≠ 0 ∧ rd Av k ≠ 0))).map
        (fun k => (⟨rd Av k, rd rid_map (rd Ai k), rd rid_map (rd Aj k)⟩ : rnz α)) := by
    intro n
    induction n with
    | zero => rfl
    | succ n ih =>
      rw [build_setup_emit_succ, ih, List.range_succ, List.filter_append, List.map_append]
      by_cases h : rd id (rd Ai n) = 0 ∨ rd id (rd Aj n) = 0 ∨ |rd Av n| = 0
      · rw [if_pos h]
        have hn : ¬ (rd id (rd Ai n) ≠ 0 ∧ rd id (rd Aj n) ≠ 0 ∧ rd Av n ≠ 0) := by
          rintro ⟨h1, h2, h3⟩
          rcases h with h | h | h
          · exact h1 h
          · exact h2 h
          · exact h3 (abs_eq_zero.1 h)
        simp only [List.filter, decide_eq_false hn, List.map_nil, List.append_nil]
      · rw [if_neg h]
        have hp : rd id (rd Ai n) ≠ 0 ∧ rd id (rd Aj n) ≠ 0 ∧ rd Av n ≠ 0 := by
          refine ⟨fun h1 => h (Or.inl h1), fun h2 => h (Or.inr (Or.inl h2)), fun h3 => ?_⟩
          exact h (Or.inr (Or.inr (abs_eq_zero.2 h3)))
        simp only [List.filter, decide_eq_true hp, List.map_cons, List.map_nil]
  refine ⟨key _, ?_⟩
  rw [key, List.length_map]

/-- When `id` is 0 everywhere, no triple is kept. -/
theorem build_setup_emit_masked {α : Type} [LinearOrderedField α] (id Ai Aj : List Nat)
    (Av : List α) (rid_map : List rid) (n : Nat) (hid : ∀ i, rd id i = 0) :
    build_setup_emit id Ai Aj Av rid_map n = [] := by
  induction n with
  | zero => rfl
  | succ n ih => rw [build_setup_emit_succ, if_pos (Or.inl (hid _)), ih]

/-- For an empty array `coo_A` (`nnz = 0`), `remdup` returns 1 for the rows and for the
columns, so that `build_setup_data` sets `A->rn = 1` and `A->cn = 1`; the only cell of
`row_off` that is written is `row_off[0]`. -/
theorem build_setup_tail_empty {α : Type} [Zero α] (mem : build_setup_mem α) :
    (build_setup_tail mem ([] : List (coo_mat α)) 0).A.rn = 1 ∧
    (build_setup_tail mem ([] : List (coo_mat α)) 0).A.cn = 1 ∧
    (build_setup_tail mem ([] : List (coo_mat α)) 0).A.row_off = [0, rd mem.row_off 1] := by
  refine ⟨rfl, rfl, ?_⟩
  simp [build_setup_tail, build_csr, remdup, tmalloc, List.range_succ]

/-- When `id` is 0 everywhere and `mat_distribute` returns an empty array for an empty
array, `build_setup_data` returns a matrix with `rn = 1` and `cn = 1`. -/
theorem build_setup_data_masked {α : Type} [LinearOrderedField α] (ext : assembly_ext α)
    (mem : build_setup_mem α) (id : List Nat) (nz : Nat) (Ai Aj : List Nat) (Av : List α)
    (hid : ∀ i, rd id i = 0) (hd : ext.distribute [] = []) :
    (build_setup_data ext mem id nz Ai Aj Av).A.rn = 1 ∧
    (build_setup_data ext mem id nz Ai Aj Av).A.cn = 1 := by
  unfold build_setup_data
  simp only [build_setup_emit_masked id Ai Aj Av ext.rid_map nz hid, hd, List.length_nil,
    List.foldl_nil]
  exact ⟨(build_setup_tail_empty mem).1, (build_setup_tail_empty mem).2.1⟩

/-- C24, the code at a failing input: two dofs with `id = [0, 0]` and two entries.  No
triple is kept (`nnz = 0`), and the assembled matrix has `rn = 1` and `cn = 1`, not 0:
`remdup` returns `last + 1 = 1` for an array of size 0. -/
theorem build_setup_data_all_masked :
    build_setup_emit [0, 0] [0, 1] [1, 0] ([3, 4] : List ℚ) [] 2 = [] ∧
    remdup [] 0 = ([], 1) ∧
    (build_setup_data (assembly_ext_empty ℚ) (build_setup_mem_zero ℚ) [0, 0] 2 [0, 1] [1, 0]
      [3, 4]).A.rn = 1 ∧
    (build_setup_data (assembly_ext_empty ℚ) (build_setup_mem_zero ℚ) [0, 0] 2 [0, 1] [1, 0]
      [3, 4]).A.cn = 1 := by
  have hid : ∀ i, rd ([0, 0] : List Nat) i = 0 := by
    intro i
    rcases i with _ | _ | i <;> rfl
  exact ⟨build_setup_emit_masked _ _ _ _ _ _ hid, rfl,
    build_setup_data_masked (assembly_ext_empty ℚ) _ _ _ _ _ _ hid rfl⟩

/-! ## Assembly: `remdup` and the row offsets of `build_csr` -/

theorem list_ext_rd {β : Type} [Zero β] (l₁ l₂ : List β) (hl : l₁.length = l₂.length)
    (h : ∀ k, k < l₁.length → rd l₁ k = rd l₂ k) : l₁ = l₂ := by
  apply List.ext_getElem hl
  intro k h1 h2
  have := h k h1
  rwa [rd_eq_getElem _ _ h1, rd_eq_getElem _ _ h2] at this

theorem chg_succ (l : List Nat) (n : Nat) :
    chg l (n + 1) = chg l n ++ (if n = 0 ∨ rd l n ≠ rd l (n - 1) then [n] else []) := by
  unfold chg
  rw [List.range_succ, List.filter_append]
  by_cases h : n = 0 ∨ rd l n ≠ rd l (n - 1)
  · rw [if_pos h]; simp only [List.filter, decide_eq_true h]
  · rw [if_neg h]; simp only [List.filter, decide_eq_false h]

theorem chg_one (l : List Nat) : chg l 1 = [0] := by
  rw [chg_succ]; rfl

theorem mem_chg (l : List Nat) (n k : Nat) :
    k ∈ chg l n ↔ k < n ∧ (k = 0 ∨ rd l k ≠ rd l (k - 1)) := by
  unfold chg
  rw [List.mem_filter, List.mem_range, decide_eq_true_iff]

theorem chg_pairwise (l : List Nat) (n : Nat) : (chg l n).Pairwise (· < ·) :=
  List.Pairwise.filter _ (List.pairwise_lt_range n)

theorem chg_length_mono (l : List Nat) {a b : Nat} (h : a ≤ b) :
    (chg l a).length ≤ (chg l b).length := by
  induction h with
  | refl => exact le_refl _
  | step _ ih =>
    rw [chg_succ, List.length_append]
    omega

theorem chg_length_pos (l : List Nat) {n : Nat} (h : 1 ≤ n) : 1 ≤ (chg l n).length := by
  have := chg_length_mono l h
  rwa [chg_one] at this

theorem chg_length_le (l : List Nat) (n : Nat) : (chg l n).length ≤ n := by
  unfold chg
  exact le_trans (List.length_filter_le _ _) (by rw [List.length_range])

theorem rd_chg_lt (l : List Nat) (n t : Nat) (h : t < (chg l n).length) :
    rd (chg l n) t < n := by
  rw [rd_eq_getElem _ _ h]
  exact ((mem_chg l n _).1 (List.getElem_mem _)).1

theorem rd_chg_zero (l : List Nat) {n : Nat} (h : 1 ≤ n) : rd (chg l n) 0 = 0 := by
  obtain ⟨m, rfl⟩ : ∃ m, n = m + 1 := ⟨n - 1, by omega⟩
  induction m with
  | zero => rw [chg_one]; rfl
  | succ m ih =>
    rw [chg_succ, rd_append_left _ _ _ (chg_length_pos l (by omega))]
    exact ih (by omega)

theorem rd_chg_mono (l : List Nat) (n a b : Nat) (hab : a < b)
    (hb : b < (chg l n).length) : rd (chg l n) a < rd (chg l n) b := by
  rw [rd_eq_getElem _ _ (lt_trans hab hb), rd_eq_getElem _ _ hb]
  exact List.pairwise_iff_getElem.1 (chg_pairwise l n) a b (lt_trans hab hb) hb hab

/-- In a nondecreasing array, the value at a position of `chg` exceeds every earlier
value. -/
theorem chg_first (l : List Nat) (n : Nat)
    (hs : ∀ a b, a ≤ b → b < n → rd l a ≤ rd l b) (k : Nat) (hk : k ∈ chg l n)
    (k' : Nat) (hk' : k' < k) : rd l k' < rd l k := by
  obtain ⟨hkn, h⟩ := (mem_chg l n k).1 hk
  rcases h with h | h
  · omega
  · have h1 := hs k' (k - 1) (by omega) (by omega)
    have h2 := hs (k - 1) k (by omega) hkn
    omega

theorem kept_length (l : List Nat) (n : Nat) : (kept l n).length = (chg l n).length := by
  unfold kept; rw [List.length_map]

theorem rd_kept (l : List Nat) (n t : Nat) (h : t < (chg l n).length) :
    rd (kept l n) t = rd l (rd (chg l n) t) := by
  unfold kept
  rw [rd_eq_getElem _ _ (by rw [List.length_map]; exact h), List.getElem_map,
    rd_eq_getElem _ _ h]

theorem kept_sorted (l : List Nat) (n : Nat)
    (hs : ∀ a b, a ≤ b → b < n → rd l a ≤ rd l b) : (kept l n).Pairwise (· < ·) := by
  unfold kept
  rw [List.pairwise_map]
  exact List.Pairwise.imp_of_mem
    (fun {a b} _ hb hab => chg_first l n hs b hb a hab) (chg_pairwise l n)

theorem mem_kept (l : List Nat) (n x : Nat) :
    x ∈ kept l n ↔ ∃ k, k < n ∧ rd l k = x := by
  constructor
  · intro h
    unfold kept at h
    obtain ⟨k, hk, rfl⟩ := List.mem_map.1 h
    exact ⟨k, ((mem_chg l n k).1 hk).1, rfl⟩
  · rintro ⟨k, hk, rfl⟩
    induction k using Nat.strong_induction_on with
    | _ k ih =>
      by_cases hc : k = 0 ∨ rd l k ≠ rd l (k - 1)
      · exact List.mem_map.2 ⟨k, (mem_chg l n k).2 ⟨hk, hc⟩, rfl⟩
      · push_neg at hc
        rw [hc.2]
        exact ih (k - 1) (by omega) (by omega)

theorem kept_card (l : List Nat) (hs : ∀ a b, a ≤ b → b < l.length → rd l a ≤ rd l b) :
    (chg l l.length).length = l.toFinset.card := by
  rw [← kept_length, ← List.toFinset_card_of_nodup
    ((kept_sorted l l.length hs).imp (fun h => Nat.ne_of_lt h))]
  congr 1
  ext x
  rw [List.mem_toFinset, List.mem_toFinset, mem_kept]
  constructor
  · rintro ⟨k, hk, rfl⟩
    rw [rd_eq_getElem _ _ hk]; exact List.getElem_mem _
  · intro hx
    obtain ⟨k, hk, rfl⟩ := List.getElem_of_mem hx
    exact ⟨k, hk, rd_eq_getElem _ _ hk⟩


theorem remdup_eq (l : List Nat) (size : Nat) :
    remdup l size =
      (((List.range' 1 (size - 1)).foldl remdup_step (l, 0)).1,
        ((List.range' 1 (size - 1)).foldl remdup_step (l, 0)).2 + 1) := rfl

theorem remdup_inv (l : List Nat) (m : Nat) (hm : m + 1 ≤ l.length) :
    ((List.range' 1 m).foldl remdup_step (l, 0)).2 + 1 = (chg l (m + 1)).length ∧
    ((List.range' 1 m).foldl remdup_step (l, 0)).1.length = l.length ∧
    (∀ t, t ≤ ((List.range' 1 m).foldl remdup_step (l, 0)).2 →
      rd ((List.range' 1 m).foldl remdup_step (l, 0)).1 t = rd l (rd (chg l (m + 1)) t)) ∧
    (∀ t, ((List.range' 1 m).foldl remdup_step (l, 0)).2 < t →
      rd ((List.range' 1 m).foldl remdup_step (l, 0)).1 t = rd l t) ∧
    rd ((List.range' 1 m).foldl remdup_step (l, 0)).1
      ((List.range' 1 m).foldl remdup_step (l, 0)).2 = rd l m ∧
    ((List.range' 1 m).foldl remdup_step (l, 0)).2 ≤ m := by
  induction m with
  | zero =>
    simp only [List.range'_zero, List.foldl_nil]
    rw [chg_one]
    refine ⟨rfl, trivial, ?_, fun _ _ => trivial, trivial, le_refl _⟩
    intro t ht
    have : t = 0 := by omega
    subst this; rfl
  | succ m ih =>
    obtain ⟨h1, h2, h3, h4, h5, h6⟩ := ih (by omega)
    rw [List.range'_1_concat, List.foldl_append, List.foldl_cons, List.foldl_nil]
    generalize (List.range' 1 m).foldl remdup_step (l, 0) = s at h1 h2 h3 h4 h5 h6 ⊢
    have e1 : rd s.1 (1 + m) = rd l (m + 1) := by
      rw [h4 (1 + m) (by omega), Nat.add_comm]
    rw [chg_succ l (m + 1)]
    simp only [Nat.add_sub_cancel, remdup_step]
    rw [e1, h5]
    by_cases hc : rd l (m + 1) ≠ rd l m
    · rw [if_pos hc, if_pos (Or.inr hc)]
      simp only [List.length_append, List.length_singleton, List.length_set]
      refine ⟨by omega, h2, ?_, ?_, ?_, by omega⟩
      · intro t ht
        rw [rd_set]
        by_cases ht' : t = s.2 + 1
        · subst ht'
          have e : rd (chg l (m + 1) ++ [m + 1]) (chg l (m + 1)).length = rd [m + 1] 0 :=
            rd_append_right (chg l (m + 1)) [m + 1] 0
          rw [if_pos ⟨rfl, by omega⟩, h1, e]
          rfl
        · rw [if_neg (fun h => ht' h.1.symm), rd_append_left _ _ _ (by omega)]
          exact h3 t (by omega)
      · intro t ht
        rw [rd_set, if_neg (by omega)]
        exact h4 t (by omega)
      · rw [rd_set, if_pos ⟨rfl, by omega⟩]
    · rw [if_neg hc, if_neg (by simpa using hc)]
      simp only [List.append_nil]
      push_neg at hc
      exact ⟨h1, h2, h3, h4, by rw [h5, hc], by omega⟩

/-- The function `remdup` on the first `size` cells of an array: it returns the number of
positions where a new value starts, moves the values at these positions to the front, and
leaves every cell behind them as it was. -/
theorem remdup_spec (l : List Nat) (size : Nat) (h1 : 1 ≤ size) (h2 : size ≤ l.length) :
    (remdup l size).2 = (chg l size).length ∧
    (remdup l size).1.length = l.length ∧
    (∀ t, t < (remdup l size).2 → rd (remdup l size).1 t = rd (kept l size) t) ∧
    (∀ t, (remdup l size).2 ≤ t → rd (remdup l size).1 t = rd l t) := by
  obtain ⟨m, rfl⟩ : ∃ m, size = m + 1 := ⟨size - 1, by omega⟩
  obtain ⟨i1, i2, i3, i4, _, _⟩ := remdup_inv l m h2
  rw [remdup_eq]
  simp only [Nat.add_sub_cancel]
  refine ⟨i1, i2, ?_, ?_⟩
  · intro t ht
    rw [rd_kept _ _ _ (by omega)]
    exact i3 t (by omega)
  · intro t ht
    exact i4 t (by omega)

theorem take_remdup (l : List Nat) (size : Nat) (h1 : 1 ≤ size) (h2 : size ≤ l.length) :
    (remdup l size).1.take (remdup l size).2 = kept l size := by
  obtain ⟨r1, r2, r3, _⟩ := remdup_spec l size h1 h2
  have hle : (remdup l size).2 ≤ (remdup l size).1.length := by
    rw [r1, r2]; exact le_trans (chg_length_le l size) h2
  apply list_ext_rd
  · rw [List.length_take, kept_length, r1]; omega
  · intro k hk
    rw [List.length_take] at hk
    have hk' : k < (remdup l size).2 := by omega
    rw [← r3 k hk', rd_eq_getElem _ _ (by rw [List.length_take]; omega),
      List.getElem_take, rd_eq_getElem _ _ (by omega)]


theorem rd_coo_rows {α : Type} [Zero α] (coo : List (coo_mat α)) (k : Nat) :
    rd (coo_rows coo) k = (rd coo k).i := by
  unfold coo_rows
  by_cases hk : k < coo.length
  · rw [rd_eq_getElem _ _ (by rw [List.length_map]; exact hk), List.getElem_map,
      rd_eq_getElem _ _ hk]
  · rw [rd_of_le _ _ (by rw [List.length_map]; omega), rd_of_le _ _ (by omega)]; rfl

theorem rd_coo_cols {α : Type} [Zero α] (coo : List (coo_mat α)) (k : Nat) :
    rd (coo_cols coo) k = (rd coo k).j := by
  unfold coo_cols
  by_cases hk : k < coo.length
  · rw [rd_eq_getElem _ _ (by rw [List.length_map]; exact hk), List.getElem_map,
      rd_eq_getElem _ _ hk]
  · rw [rd_of_le _ _ (by rw [List.length_map]; omega), rd_of_le _ _ (by omega)]; rfl

theorem toUint_pred (n : Nat) (h1 : 1 ≤ n) (h2 : n < 4294967296) :
    toUint ((n : Int) - 1) = n - 1 := by
  unfold toUint
  have : ((n : Int) - 1) % 4294967296 = ((n - 1 : Nat) : Int) := by
    rw [Int.emod_eq_of_lt (by omega) (by omega)]; omega
  rw [this, Int.toNat_ofNat]

/-- The first statement of the loop body of `build_csr`, on the array `row_off` and the
counter. -/
theorem build_csr_half (rows R : List Nat) (c k : Nat)
    (hc : c = (chg rows (max k 1)).length)
    (hR : ∀ t, t < c → rd R t = rd (chg rows (max k 1)) t)
    (hroom : (chg rows (k + 1)).length ≤ R.length) :
    (if rd rows k ≠ rd rows (k - 1) then c + 1 else c) = (chg rows (k + 1)).length ∧
    (if rd rows k ≠ rd rows (k - 1) then R.set c k else R).length = R.length ∧
    (∀ t, t < (chg rows (k + 1)).length →
      rd (if rd rows k ≠ rd rows (k - 1) then R.set c k else R) t =
        rd (chg rows (k + 1)) t) := by
  rcases Nat.eq_zero_or_pos k with h0 | hpos
  · subst h0
    have hm : max 0 1 = 1 := rfl
    rw [hm] at hc hR
    simp only [Nat.zero_sub, ne_eq, not_true_eq_false, if_false, Nat.zero_add]
    exact ⟨hc, trivial, fun t ht => hR t (by omega)⟩
  · have hm : max k 1 = k := max_eq_left hpos
    rw [hm] at hc hR
    rw [chg_succ] at hroom ⊢
    by_cases hch : rd rows k ≠ rd rows (k - 1)
    · have hcond : k = 0 ∨ rd rows k ≠ rd rows (k - 1) := Or.inr hch
      rw [if_pos hcond] at hroom
      simp only [if_pos hch, if_pos hcond]
      simp only [List.length_append, List.length_singleton, List.length_set] at hroom ⊢
      refine ⟨by omega, trivial, ?_⟩
      intro t ht
      rw [rd_set]
      by_cases htc : t = c
      · subst htc
        have e : rd (chg rows k ++ [k]) (chg rows k).length = rd [k] 0 :=
          rd_append_right (chg rows k) [k] 0
        rw [if_pos ⟨rfl, by omega⟩, hc, e]; rfl
      · rw [if_neg (fun h => htc h.1.symm), rd_append_left _ _ _ (by omega)]
        exact hR t (by omega)
    · have hn : ¬ (k = 0 ∨ rd rows k ≠ rd rows (k - 1)) := by
        rintro (h | h)
        · omega
        · exact hch h
      simp only [if_neg hch, if_neg hn, List.append_nil]
      exact ⟨hc, trivial, fun t ht => hR t (by omega)⟩

theorem build_csr_fold_succ {α : Type} [Zero α] (coo : List (coo_mat α)) (nnz rn cn : Nat)
    (gs_id : List Int) (bad : Nat) (s0 : build_csr_state α) (k : Nat) :
    (List.range (k + 1)).foldl (build_csr_step coo nnz rn cn gs_id bad) s0 =
      build_csr_step coo nnz rn cn gs_id bad
        ((List.range k).foldl (build_csr_step coo nnz rn cn gs_id bad) s0) k := by
  rw [List.range_succ, List.foldl_append]; rfl

/-- The array `row_off` and the locals `counter`, `row_prev` after `k < nnz` rounds of the
loop of `build_csr`, none of which is the last. -/
theorem build_csr_row_inv {α : Type} [Zero α] (coo : List (coo_mat α)) (nnz rn cn : Nat)
    (gs_id : List Int) (bad : Nat) (s0 : build_csr_state α) (hn1 : 1 ≤ nnz)
    (hn2 : nnz < 4294967296) (h0 : s0.counter = 1) (h0r : rd s0.row_off 0 = 0)
    (hprev : s0.row_prev = rd (coo_rows coo) 0)
    (hroom : (chg (coo_rows coo) nnz).length < s0.row_off.length) (k : Nat)
    (hk : k + 1 ≤ nnz) :
    ((List.range k).foldl (build_csr_step coo nnz rn cn gs_id bad) s0).counter =
      (chg (coo_rows coo) (max k 1)).length ∧
    ((List.range k).foldl (build_csr_step coo nnz rn cn gs_id bad) s0).row_off.length =
      s0.row_off.length ∧
    (∀ t, t < (chg (coo_rows coo) (max k 1)).length →
      rd ((List.range k).foldl (build_csr_step coo nnz rn cn gs_id bad) s0).row_off t =
        rd (chg (coo_rows coo) (max k 1)) t) ∧
    ((List.range k).foldl (build_csr_step coo nnz rn cn gs_id bad) s0).row_prev =
      rd (coo_rows coo) (k - 1) := by
  induction k with
  | zero =>
    have hm : max 0 1 = 1 := rfl
    rw [hm, chg_one]
    refine ⟨h0, rfl, ?_, hprev⟩
    intro t ht
    have : t = 0 := by simpa using ht
    subst this
    exact h0r
  | succ k ih =>
    obtain ⟨i1, i2, i3, i4⟩ := ih (by omega)
    rw [build_csr_fold_succ]
    generalize (List.range k).foldl (build_csr_step coo nnz rn cn gs_id bad) s0 = s
      at i1 i2 i3 i4 ⊢
    have hlast : ¬ (k = toUint ((nnz : Int) - 1)) := by
      rw [toUint_pred nnz hn1 hn2]; omega
    have hm : max (k + 1) 1 = k + 1 := max_eq_left (by omega)
    have hroom' : (chg (coo_rows coo) (k + 1)).length ≤ s.row_off.length := by
      have := chg_length_mono (coo_rows coo) (show k + 1 ≤ nnz by omega)
      omega
    obtain ⟨j1, j2, j3⟩ := build_csr_half (coo_rows coo) s.row_off s.counter k i1
      (fun t ht => i3 t (by omega)) hroom'
    simp only [build_csr_step, if_neg hlast, ← rd_coo_rows, i4, hm, Nat.add_sub_cancel]
    exact ⟨j1, by rw [j2, i2], j3, trivial⟩


/-- The array `row_off` and `counter` when the loop of `build_csr` has ended. -/
theorem build_csr_row_final {α : Type} [Zero α] (coo : List (coo_mat α)) (nnz rn cn : Nat)
    (gs_id : List Int) (bad : Nat) (s0 : build_csr_state α) (hn1 : 1 ≤ nnz)
    (hn2 : nnz < 4294967296) (h0 : s0.counter = 1) (h0r : rd s0.row_off 0 = 0)
    (hprev : s0.row_prev = rd (coo_rows coo) 0)
    (hroom : (chg (coo_rows coo) nnz).length < s0.row_off.length) :
    ((List.range nnz).foldl (build_csr_step coo nnz rn cn gs_id bad) s0).counter =
      (chg (coo_rows coo) nnz).length + 1 ∧
    ((List.range nnz).foldl (build_csr_step coo nnz rn cn gs_id bad) s0).row_off.length =
      s0.row_off.length ∧
    (∀ t, t < (chg (coo_rows coo) nnz).length →
      rd ((List.range nnz).foldl (build_csr_step coo nnz rn cn gs_id bad) s0).row_off t =
        rd (chg (coo_rows coo) nnz) t) ∧
    rd ((List.range nnz).foldl (build_csr_step coo nnz rn cn gs_id bad) s0).row_off
      (chg (coo_rows coo) nnz).length = nnz := by
  obtain ⟨k, hk⟩ : ∃ k, nnz = k + 1 := ⟨nnz - 1, by omega⟩
  obtain ⟨i1, i2, i3, i4⟩ := build_csr_row_inv coo nnz rn cn gs_id bad s0 hn1 hn2 h0 h0r
    hprev hroom k (by omega)
  have hfold : (List.range nnz).foldl (build_csr_step coo nnz rn cn gs_id bad) s0 =
      build_csr_step coo nnz rn cn gs_id bad
        ((List.range k).foldl (build_csr_step coo nnz rn cn gs_id bad) s0) k := by
    rw [← build_csr_fold_succ, ← hk]
  rw [hfold]
  generalize (List.range k).foldl (build_csr_step coo nnz rn cn gs_id bad) s0 = s
    at i1 i2 i3 i4 ⊢
  have hlast : k = toUint ((nnz : Int) - 1) := by
    rw [toUint_pred nnz hn1 hn2]; omega
  have hroom' : (chg (coo_rows coo) (k + 1)).length ≤ s.row_off.length := by
    rw [← hk]; omega
  obtain ⟨j1, j2, j3⟩ := build_csr_half (coo_rows coo) s.row_off s.counter k i1
    (fun t ht => i3 t (by omega)) hroom'
  rw [← hk] at j1 j3
  simp only [build_csr_step, if_pos hlast, ← rd_coo_rows, i4]
  rw [j1]
  refine ⟨rfl, by rw [List.length_set, j2, i2], ?_, ?_⟩
  · intro t ht
    rw [rd_set, if_neg (by omega)]
    exact j3 t ht
  · rw [rd_set, if_pos ⟨rfl, by rw [j2, i2]; exact hroom⟩]

theorem pairwise_rows_rd {α : Type} [Zero α] (coo : List (coo_mat α))
    (hs : coo.Pairwise (fun x y => x.i ≤ y.i)) (a b : Nat) (hab : a ≤ b)
    (hb : b < coo.length) : (rd coo a).i ≤ (rd coo b).i := by
  rcases Nat.eq_or_lt_of_le hab with h | h
  · subst h; exact le_refl _
  · rw [rd_eq_getElem _ _ (by omega), rd_eq_getElem _ _ hb]
    exact List.pairwise_iff_getElem.1 hs a b (by omega) hb h

/-- C27: for an array `coo_A` of `nnz >= 1` triples sorted by row, with `rn` distinct rows
and an array `row_off` of `rn + 1` cells, `build_csr` writes the cells `row_off[0..rn]`
(`counter` ends at `rn + 1`): `row_off[0] = 0`, `row_off[rn] = nnz`, the array is strictly
increasing, and for `r < rn` the cell `row_off[r]` is the index of a triple whose row is
larger than the row of every earlier triple, these rows increasing with `r` - the first
triple of the `r`-th distinct row. -/
theorem build_csr_row_off {α : Type} [Zero α] (A : csr_mat α) (coo : List (coo_mat α))
    (gs_id : List Int) (bad : Nat) (hn1 : 1 ≤ coo.length) (hn2 : coo.length < 4294967296)
    (hs : coo.Pairwise (fun x y => x.i ≤ y.i))
    (hrn : (coo_rows coo).toFinset.card = A.rn) (hlen : A.row_off.length = A.rn + 1) :
    (build_csr A coo coo.length gs_id bad).2 = A.rn + 1 ∧
    (build_csr A coo coo.length gs_id bad).1.row_off.length = A.rn + 1 ∧
    rd (build_csr A coo coo.length gs_id bad).1.row_off 0 = 0 ∧
    rd (build_csr A coo coo.length gs_id bad).1.row_off A.rn = coo.length ∧
    (∀ r, r < A.rn → rd (build_csr A coo coo.length gs_id bad).1.row_off r <
      rd (build_csr A coo coo.length gs_id bad).1.row_off (r + 1)) ∧
    (∀ r, r < A.rn → rd (build_csr A coo coo.length gs_id bad).1.row_off r < coo.length ∧
      ∀ k, k < rd (build_csr A coo coo.length gs_id bad).1.row_off r →
        (rd coo k).i < (rd coo (rd (build_csr A coo coo.length gs_id bad).1.row_off r)).i) ∧
    (∀ r r', r < r' → r' < A.rn →
      (rd coo (rd (build_csr A coo coo.length gs_id bad).1.row_off r)).i <
        (rd coo (rd (build_csr A coo coo.length gs_id bad).1.row_off r')).i) := by
  have hlr : (coo_rows coo).length = coo.length := by unfold coo_rows; rw [List.length_map]
  have hs' : ∀ a b, a ≤ b → b < coo.length → rd (coo_rows coo) a ≤ rd (coo_rows coo) b := by
    intro a b hab hb
    rw [rd_coo_rows, rd_coo_rows]
    exact pairwise_rows_rd coo hs a b hab hb
  have hcard : (chg (coo_rows coo) coo.length).length = A.rn := by
    rw [← hrn, ← kept_card (coo_rows coo) (by rw [hlr]; exact hs'), hlr]
  obtain ⟨f1, f2, f3, f4⟩ := build_csr_row_final coo coo.length A.rn A.cn gs_id bad
    ⟨A.row_off.set 0 0, A.col, A.a, 1, (rd coo 0).i⟩ hn1 hn2 rfl
    (by rw [rd_set, if_pos ⟨rfl, by omega⟩]) (rd_coo_rows coo 0).symm
    (by rw [List.length_set, hcard]; omega)
  rw [hcard] at f1 f3 f4
  simp only [List.length_set] at f2
  have e1 : (build_csr A coo coo.length gs_id bad).2 =
      ((List.range coo.length).foldl (build_csr_step coo coo.length A.rn A.cn gs_id bad)
        ⟨A.row_off.set 0 0, A.col, A.a, 1, (rd coo 0).i⟩).counter := rfl
  have e2 : (build_csr A coo coo.length gs_id bad).1.row_off =
      ((List.range coo.length).foldl (build_csr_step coo coo.length A.rn A.cn gs_id bad)
        ⟨A.row_off.set 0 0, A.col, A.a, 1, (rd coo 0).i⟩).row_off := rfl
  rw [e1, e2]
  generalize ((List.range coo.length).foldl
    (build_csr_step coo coo.length A.rn A.cn gs_id bad)
    ⟨A.row_off.set 0 0, A.col, A.a, 1, (rd coo 0).i⟩) = s at f1 f2 f3 f4 ⊢
  have hpos : 1 ≤ A.rn := by rw [← hcard]; exact chg_length_pos _ hn1
  have hmem : ∀ r, r < A.rn → rd (chg (coo_rows coo) coo.length) r ∈
      chg (coo_rows coo) coo.length := by
    intro r hr
    rw [rd_eq_getElem _ _ (by rw [hcard]; exact hr)]
    exact List.getElem_mem _
  refine ⟨f1, by rw [f2, hlen], ?_, f4, ?_, ?_, ?_⟩
  · rw [f3 0 (by omega)]; exact rd_chg_zero _ hn1
  · intro r hr
    rw [f3 r hr]
    by_cases h : r + 1 < A.rn
    · rw [f3 (r + 1) h]
      exact rd_chg_mono _ _ _ _ (by omega) (by rw [hcard]; exact h)
    · have : r + 1 = A.rn := by omega
      rw [this, f4]
      exact rd_chg_lt _ _ _ (by rw [hcard]; exact hr)
  · intro r hr
    rw [f3 r hr]
    refine ⟨rd_chg_lt _ _ _ (by rw [hcard]; exact hr), ?_⟩
    intro k hk
    rw [← rd_coo_rows, ← rd_coo_rows]
    exact chg_first _ _ hs' _ (hmem r hr) k hk
  · intro r r' hrr hr'
    rw [f3 r (by omega), f3 r' hr', ← rd_coo_rows, ← rd_coo_rows]
    exact chg_first _ _ hs' _ (hmem r' hr') _
      (rd_chg_mono _ _ _ _ hrr (by rw [hcard]; exact hr'))

theorem build_csr_row_off_witness :
    (1 ≤ ([⟨0, 0, 2⟩, ⟨0, 1, -1⟩, ⟨1, 0, -1⟩, ⟨1, 1, 2⟩] : List (coo_mat ℚ)).length ∧
      ([⟨0, 0, 2⟩, ⟨0, 1, -1⟩, ⟨1, 0, -1⟩, ⟨1, 1, 2⟩] : List (coo_mat ℚ)).length <
        4294967296 ∧
      ([⟨0, 0, 2⟩, ⟨0, 1, -1⟩, ⟨1, 0, -1⟩, ⟨1, 1, 2⟩] : List (coo_mat ℚ)).Pairwise
        (fun x y => x.i ≤ y.i) ∧
      (coo_rows ([⟨0, 0, 2⟩, ⟨0, 1, -1⟩, ⟨1, 0, -1⟩, ⟨1, 1, 2⟩] :
        List (coo_mat ℚ))).toFinset.card = 2) ∧
    (build_csr (⟨2, 2, [7, 7, 7], [9, 9, 9, 9], [0, 0, 0, 0]⟩ : csr_mat ℚ)
      [⟨0, 0, 2⟩, ⟨0, 1, -1⟩, ⟨1, 0, -1⟩, ⟨1, 1, 2⟩] 4 [1, 2] 0).2 = 3 ∧
    rd (build_csr (⟨2, 2, [7, 7, 7], [9, 9, 9, 9], [0, 0, 0, 0]⟩ : csr_mat ℚ)
      [⟨0, 0, 2⟩, ⟨0, 1, -1⟩, ⟨1, 0, -1⟩, ⟨1, 1, 2⟩] 4 [1, 2] 0).1.row_off 2 = 4 :=
  ⟨⟨by decide, by decide, by decide, by decide⟩,
    (build_csr_row_off (⟨2, 2, [7, 7, 7], [9, 9, 9, 9], [0, 0, 0, 0]⟩ : csr_mat ℚ)
      [⟨0, 0, 2⟩, ⟨0, 1, -1⟩, ⟨1, 0, -1⟩, ⟨1, 1, 2⟩] [1, 2] 0 (by decide) (by decide)
      (by decide) (by decide) rfl).1,
    (build_csr_row_off (⟨2, 2, [7, 7, 7], [9, 9, 9, 9], [0, 0, 0, 0]⟩ : csr_mat ℚ)
      [⟨0, 0, 2⟩, ⟨0, 1, -1⟩, ⟨1, 0, -1⟩, ⟨1, 1, 2⟩] [1, 2] 0 (by decide) (by decide)
      (by decide) (by decide) rfl).2.2.2.1⟩

/-! ## Assembly: the columns and values written by `build_csr` -/

theorem c_abs_eq (x : Int) (h : |x| < 2147483648) : c_abs x = |x| := by
  unfold c_abs toInt32
  rcases le_total 0 x with h0 | h0
  · rw [abs_of_nonneg h0] at h ⊢
    split_ifs with h1 <;> omega
  · rw [abs_of_nonpos h0] at h ⊢
    split_ifs with h1 <;> omega

theorem comp_gs_id_neg (a b : Int) : comp_gs_id a b < 0 ↔ c_abs a < c_abs b := by
  unfold comp_gs_id
  split_ifs with h1 h2
  · constructor
    · intro h; omega
    · intro h; omega
  · simp [h2]
  · simp [h2]

theorem comp_gs_id_pos (a b : Int) : 0 < comp_gs_id a b ↔ c_abs b < c_abs a := by
  unfold comp_gs_id
  split_ifs with h1 h2
  · simp; exact h1
  · constructor
    · intro h; omega
    · intro h; omega
  · simp; omega

/-- On an array whose values of `abs` increase, the binary search finds the cell with the
`abs` of the key. -/
theorem bsearch_loop_found (key : Int) (base : List Int) (n t0 : Nat)
    (hmono : ∀ a b, a < b → b < n → c_abs (rd base a) < c_abs (rd base b)) (ht0 : t0 < n)
    (hkey : c_abs (rd base t0) = c_abs key) :
    ∀ fuel lo hi, lo ≤ t0 → t0 < hi → hi ≤ n → hi - lo ≤ fuel →
      bsearch_loop comp_gs_id key base fuel lo hi = some t0 := by
  intro fuel
  induction fuel with
  | zero => intro lo hi h1 h2 _ h4; omega
  | succ fuel ih =>
    intro lo hi h1 h2 h3 h4
    rw [bsearch_loop, if_pos (by omega)]
    simp only
    rcases Nat.lt_trichotomy t0 ((lo + hi) / 2) with h | h | h
    · have hlt : c_abs key < c_abs (rd base ((lo + hi) / 2)) := by
        rw [← hkey]; exact hmono _ _ h (by omega)
      rw [if_pos ((comp_gs_id_neg _ _).2 hlt)]
      exact ih lo _ h1 h (by omega) (by omega)
    · have h0 : comp_gs_id key (rd base ((lo + hi) / 2)) = 0 := by
        unfold comp_gs_id
        rw [← h, hkey, if_neg (lt_irrefl _), if_neg (lt_irrefl _)]
      rw [h0, if_neg (lt_irrefl _), if_neg (lt_irrefl _), h]
    · have hlt : c_abs (rd base ((lo + hi) / 2)) < c_abs key := by
        rw [← hkey]; exact hmono _ _ h ht0
      have hn : ¬ comp_gs_id key (rd base ((lo + hi) / 2)) < 0 := by
        rw [comp_gs_id_neg]; omega
      rw [if_neg hn, if_pos ((comp_gs_id_pos _ _).2 hlt)]
      exact ih _ hi (by omega) h2 h3 (by omega)

/-- When no cell has the `abs` of the key, the binary search returns `NULL`. -/
theorem bsearch_loop_none (key : Int) (base : List Int) (n : Nat)
    (hno : ∀ t, t < n → c_abs (rd base t) ≠ c_abs key) :
    ∀ fuel lo hi, hi ≤ n → bsearch_loop comp_gs_id key base fuel lo hi = none := by
  intro fuel
  induction fuel with
  | zero => intro lo hi _; rfl
  | succ fuel ih =>
    intro lo hi h3
    rw [bsearch_loop]
    by_cases hlh : lo < hi
    · rw [if_pos hlh]
      simp only
      have hne := hno ((lo + hi) / 2) (by omega)
      by_cases h1 : comp_gs_id key (rd base ((lo + hi) / 2)) < 0
      · rw [if_pos h1]; exact ih _ _ (by omega)
      · rw [if_neg h1]
        have h2 : 0 < comp_gs_id key (rd base ((lo + hi) / 2)) := by
          rw [comp_gs_id_pos]
          rw [comp_gs_id_neg] at h1
          omega
        rw [if_pos h2]; exact ih _ _ h3
    · rw [if_neg hlh]

theorem bsearch_found (key : Int) (base : List Int) (n t0 : Nat)
    (hmono : ∀ a b, a < b → b < n → c_abs (rd base a) < c_abs (rd base b)) (ht0 : t0 < n)
    (hkey : c_abs (rd base t0) = c_abs key) : bsearch comp_gs_id key base n = some t0 :=
  bsearch_loop_found key base n t0 hmono ht0 hkey n 0 n (Nat.zero_le _) ht0 (le_refl _)
    (by omega)

theorem bsearch_none (key : Int) (base : List Int) (n : Nat)
    (hno : ∀ t, t < n → c_abs (rd base t) ≠ c_abs key) :
    bsearch comp_gs_id key base n = none :=
  bsearch_loop_none key base n hno n 0 n (le_refl _)

/-- The column index of `build_csr` for a global column whose id is in `gs_id`, when the
ids fit the `int` parameter of `abs`. -/
theorem build_csr_col_eq (gs_id : List Int) (rn cn bad j c0 : Nat) (hrc : rn ≤ cn)
    (hcn : cn ≤ UINT_MAX)
    (hfit : ∀ c, c < cn → |rd gs_id c| < 2147483648)
    (h1 : ∀ a b, a < b → b < rn → |rd gs_id a| < |rd gs_id b|)
    (h2 : ∀ a b, rn ≤ a → a < b → b < cn → |rd gs_id a| < |rd gs_id b|)
    (hdist : ∀ c c', c < cn → c' < cn → |rd gs_id c| = |rd gs_id c'| → c = c')
    (hc0 : c0 < cn) (hkey : |rd gs_id c0| = (j : Int) + 1) :
    build_csr_col gs_id rn cn bad j = c0 := by
  have habs : |(j : Int) + 1| = (j : Int) + 1 := abs_of_nonneg (by omega)
  have hca : ∀ c, c < cn → c_abs (rd gs_id c) = |rd gs_id c| :=
    fun c hc => c_abs_eq _ (hfit c hc)
  have hck : c_abs ((j : Int) + 1) = (j : Int) + 1 := by
    rw [c_abs_eq _ (by rw [habs, ← hkey]; exact hfit c0 hc0), habs]
  unfold build_csr_col
  simp only
  by_cases h : c0 < rn
  · rw [bsearch_found _ _ rn c0
      (fun a b hab hb => by rw [hca a (by omega), hca b (by omega)]; exact h1 a b hab hb) h
      (by rw [hca c0 hc0, hkey, hck])]
  · have hno : ∀ t, t < rn → c_abs (rd gs_id t) ≠ c_abs ((j : Int) + 1) := by
      intro t ht he
      rw [hca t (by omega), hck] at he
      have := hdist t c0 (by omega) hc0 (by rw [he, hkey])
      omega
    rw [bsearch_none _ _ rn hno, toUint_sub rn cn hrc hcn]
    have hf := bsearch_found ((j : Int) + 1) (gs_id.drop rn) (cn - rn) (c0 - rn)
      (by
        intro a b hab hb
        rw [rd_drop, rd_drop, hca _ (by omega), hca _ (by omega)]
        exact h2 _ _ (by omega) (by omega) (by omega))
      (by omega)
      (by
        rw [rd_drop, hck, show rn + (c0 - rn) = c0 by omega, hca c0 hc0, hkey])
    rw [hf]
    simp only
    omega

/-- The arrays `col` and `a` after `k` rounds of the loop of `build_csr`. -/
theorem build_csr_col_inv {α : Type} [Zero α] (coo : List (coo_mat α)) (nnz rn cn : Nat)
    (gs_id : List Int) (bad : Nat) (s0 : build_csr_state α) (k : Nat) :
    (∀ t, rd ((List.range k).foldl (build_csr_step coo nnz rn cn gs_id bad) s0).col t =
      if t < k ∧ t < s0.col.length then build_csr_col gs_id rn cn bad (rd coo t).j
      else rd s0.col t) ∧
    ((List.range k).foldl (build_csr_step coo nnz rn cn gs_id bad) s0).col.length =
      s0.col.length ∧
    (∀ t, rd ((List.range k).foldl (build_csr_step coo nnz rn cn gs_id bad) s0).a t =
      if t < k ∧ t < s0.a.length then (rd coo t).v else rd s0.a t) ∧
    ((List.range k).foldl (build_csr_step coo nnz rn cn gs_id bad) s0).a.length =
      s0.a.length := by
  induction k with
  | zero =>
    refine ⟨fun t => ?_, rfl, fun t => ?_, rfl⟩
    · rw [if_neg (by omega)]; rfl
    · rw [if_neg (by omega)]; rfl
  | succ k ih =>
    obtain ⟨i1, i2, i3, i4⟩ := ih
    rw [List.range_succ, List.foldl_append, List.foldl_cons, List.foldl_nil]
    generalize (List.range k).foldl (build_csr_step coo nnz rn cn gs_id bad) s0 = s
      at i1 i2 i3 i4 ⊢
    simp only [build_csr_step, List.length_set]
    refine ⟨fun t => ?_, i2, fun t => ?_, i4⟩
    · rw [rd_set, i1 t, i2]
      by_cases htk : k = t
      · subst htk
        by_cases hl : k < s0.col.length
        · rw [if_pos ⟨rfl, hl⟩, if_pos ⟨by omega, hl⟩]
        · rw [if_neg (fun h => hl h.2), if_neg (fun h => hl h.2), if_neg (fun h => hl h.2)]
      · rw [if_neg (fun h => htk h.1)]
        by_cases hc : t < k ∧ t < s0.col.length
        · rw [if_pos hc, if_pos ⟨by omega, hc.2⟩]
        · rw [if_neg hc, if_neg (fun h => hc ⟨by omega, h.2⟩)]
    · rw [rd_set, i3 t, i4]
      by_cases htk : k = t
      · subst htk
        by_cases hl : k < s0.a.length
        · rw [if_pos ⟨rfl, hl⟩, if_pos ⟨by omega, hl⟩]
        · rw [if_neg (fun h => hl h.2), if_neg (fun h => hl h.2), if_neg (fun h => hl h.2)]
      · rw [if_neg (fun h => htk h.1)]
        by_cases hc : t < k ∧ t < s0.a.length
        · rw [if_pos hc, if_pos ⟨by omega, hc.2⟩]
        · rw [if_neg hc, if_neg (fun h => hc ⟨by omega, h.2⟩)]

theorem rd_take_lt {β : Type} [Zero β] (l : List β) (n c : Nat) (h : c < n) :
    rd (l.take n) c = rd l c := by
  by_cases hc : c < l.length
  · rw [rd_eq_getElem _ _ (by rw [List.length_take]; omega), List.getElem_take,
      rd_eq_getElem _ _ hc]
  · rw [rd_of_le _ _ (by rw [List.length_take]; omega), rd_of_le _ _ (by omega)]


theorem pairwise_rd {β : Type} [Zero β] (R : β → β → Prop) (l : List β)
    (h : l.Pairwise R) (a b : Nat) (hab : a < b) (hb : b < l.length) :
    R (rd l a) (rd l b) := by
  rw [rd_eq_getElem _ _ (by omega), rd_eq_getElem _ _ hb]
  exact List.pairwise_iff_getElem.1 h a b (by omega) hb hab

theorem rd_mem {β : Type} [Zero β] (l : List β) (c : Nat) (h : c < l.length) :
    rd l c ∈ l := by
  rw [rd_eq_getElem _ _ h]; exact List.getElem_mem _

/-- C26 (with the range of `abs`): let `gs_id` have `cn` cells, all below `2^31` in
absolute value, the first `rn` positive and increasing, the others (negative or not) with
increasing absolute value, all absolute values distinct, and let `j + 1` occur among them
for the column `j` of each of the `nnz` triples of `coo_A`.  Then for every `k < nnz`,
`build_csr` sets `A->col[k]` to the index `c < cn` with `|gs_id[c]| = coo_A[k].j + 1`,
which is the only such index, and `A->a[k] = coo_A[k].v`. -/
theorem build_csr_col_spec {α : Type} [Zero α] (A : csr_mat α) (coo : List (coo_mat α))
    (nnz : Nat) (gs_id : List Int) (bad : Nat) (hnnz : nnz ≤ coo.length)
    (hcol : nnz ≤ A.col.length)
    (ha : nnz ≤ A.a.length) (hrc : A.rn ≤ A.cn) (hcn : A.cn ≤ UINT_MAX)
    (hlen : gs_id.length = A.cn)
    (hfit : ∀ x ∈ gs_id, |x| < 2147483648)
    (hpos : ∀ x ∈ gs_id.take A.rn, 0 < x)
    (hinc : (gs_id.take A.rn).Pairwise (fun x y => x < y))
    (hdec : (gs_id.drop A.rn).Pairwise (fun x y => |x| < |y|))
    (hdist : (gs_id.map (fun x => |x|)).Nodup)
    (hall : ∀ e ∈ coo.take nnz, ((e.j : Int) + 1) ∈ gs_id.map (fun x => |x|)) :
    ∀ k, k < nnz →
      rd (build_csr A coo nnz gs_id bad).1.col k < A.cn ∧
      |rd gs_id (rd (build_csr A coo nnz gs_id bad).1.col k)| = ((rd coo k).j : Int) + 1 ∧
      (∀ c, c < A.cn → |rd gs_id c| = ((rd coo k).j : Int) + 1 →
        c = rd (build_csr A coo nnz gs_id bad).1.col k) ∧
      rd (build_csr A coo nnz gs_id bad).1.a k = (rd coo k).v := by
  intro k hk
  have hf : ∀ c, c < A.cn → |rd gs_id c| < 2147483648 :=
    fun c hc => hfit _ (rd_mem gs_id c (by omega))
  have h1 : ∀ a b, a < b → b < A.rn → |rd gs_id a| < |rd gs_id b| := by
    intro a b hab hb
    have hl : (gs_id.take A.rn).length = A.rn := by rw [List.length_take]; omega
    have hlt := pairwise_rd _ _ hinc a b hab (by omega)
    have pa := hpos _ (rd_mem (gs_id.take A.rn) a (by omega))
    have pb := hpos _ (rd_mem (gs_id.take A.rn) b (by omega))
    rw [rd_take_lt _ _ _ (by omega)] at hlt pa
    rw [rd_take_lt _ _ _ hb] at hlt pb
    rw [abs_of_pos pa, abs_of_pos pb]; exact hlt
  have h2 : ∀ a b, A.rn ≤ a → a < b → b < A.cn → |rd gs_id a| < |rd gs_id b| := by
    intro a b har hab hb
    have hl : (gs_id.drop A.rn).length = A.cn - A.rn := by rw [List.length_drop, hlen]
    have hlt := pairwise_rd _ _ hdec (a - A.rn) (b - A.rn) (by omega) (by omega)
    rw [rd_drop, rd_drop] at hlt
    have ea : A.rn + (a - A.rn) = a := by omega
    have eb : A.rn + (b - A.rn) = b := by omega
    rwa [ea, eb] at hlt
  have hd : ∀ c c', c < A.cn → c' < A.cn → |rd gs_id c| = |rd gs_id c'| → c = c' := by
    intro c c' hc hc' he
    have hl : (gs_id.map (fun x => |x|)).length = A.cn := by rw [List.length_map, hlen]
    have hc1 : c < (gs_id.map (fun x => |x|)).length := by omega
    have hc2 : c' < (gs_id.map (fun x => |x|)).length := by omega
    have e : (gs_id.map (fun x => |x|))[c] = (gs_id.map (fun x => |x|))[c'] := by
      rw [List.getElem_map, List.getElem_map, ← rd_eq_getElem _ _ (by omega),
        ← rd_eq_getElem _ _ (by omega)]
      exact he
    exact (List.Nodup.getElem_inj_iff hdist).1 e
  obtain ⟨c1, c2, c3, c4⟩ := build_csr_col_inv coo nnz A.rn A.cn gs_id bad
    ⟨A.row_off.set 0 0, A.col, A.a, 1, (rd coo 0).i⟩ nnz
  have ecol : rd (build_csr A coo nnz gs_id bad).1.col k =
      build_csr_col gs_id A.rn A.cn bad (rd coo k).j := by
    have := c1 k
    rw [if_pos ⟨hk, by exact lt_of_lt_of_le hk hcol⟩] at this
    exact this
  have ea : rd (build_csr A coo nnz gs_id bad).1.a k = (rd coo k).v := by
    have := c3 k
    rw [if_pos ⟨hk, by exact lt_of_lt_of_le hk ha⟩] at this
    exact this
  have hmem : ((rd coo k).j : Int) + 1 ∈ gs_id.map (fun x => |x|) := by
    have hkl : k < coo.length := by omega
    apply hall
    rw [rd_eq_getElem _ _ hkl]
    have : k < (coo.take nnz).length := by rw [List.length_take]; omega
    have e := List.getElem_mem (l := coo.take nnz) this
    rwa [List.getElem_take] at e
  obtain ⟨x, hx, hxe⟩ := List.mem_map.1 hmem
  obtain ⟨c0, hc0, rfl⟩ := List.getElem_of_mem hx
  rw [hlen] at hc0
  have hkey : |rd gs_id c0| = ((rd coo k).j : Int) + 1 := by
    rw [rd_eq_getElem _ _ (by omega)]; exact hxe
  have hcc := build_csr_col_eq gs_id A.rn A.cn bad (rd coo k).j c0 hrc hcn hf h1 h2 hd hc0
    hkey
  rw [ecol, hcc]
  exact ⟨hc0, hkey, fun c hc he => hd c c0 hc hc0 (by rw [he, hkey]), ea⟩

theorem build_csr_col_spec_witness :
    ((4 ≤ ([⟨0, 0, 2⟩, ⟨0, 2, -1⟩, ⟨1, 1, 2⟩, ⟨1, 0, -1⟩] : List (coo_mat ℚ)).length) ∧
      (∀ x ∈ ([1, 2, -3] : List Int), |x| < 2147483648) ∧
      (∀ x ∈ ([1, 2, -3] : List Int).take 2, 0 < x) ∧
      (([1, 2, -3] : List Int).take 2).Pairwise (fun x y => x < y) ∧
      (([1, 2, -3] : List Int).drop 2).Pairwise (fun x y => |x| < |y|) ∧
      (([1, 2, -3] : List Int).map (fun x => |x|)).Nodup ∧
      (∀ e ∈ ([⟨0, 0, 2⟩, ⟨0, 2, -1⟩, ⟨1, 1, 2⟩, ⟨1, 0, -1⟩] : List (coo_mat ℚ)).take 4,
        ((e.j : Int) + 1) ∈ ([1, 2, -3] : List Int).map (fun x => |x|))) ∧
    rd (build_csr (⟨2, 3, [7, 7, 7], [9, 9, 9, 9], [0, 0, 0, 0]⟩ : csr_mat ℚ)
      [⟨0, 0, 2⟩, ⟨0, 2, -1⟩, ⟨1, 1, 2⟩, ⟨1, 0, -1⟩] 4 [1, 2, -3] 0).1.col 1 < 3 ∧
    |rd ([1, 2, -3] : List Int)
      (rd (build_csr (⟨2, 3, [7, 7, 7], [9, 9, 9, 9], [0, 0, 0, 0]⟩ : csr_mat ℚ)
        [⟨0, 0, 2⟩, ⟨0, 2, -1⟩, ⟨1, 1, 2⟩, ⟨1, 0, -1⟩] 4 [1, 2, -3] 0).1.col 1)| =
      ((rd ([⟨0, 0, 2⟩, ⟨0, 2, -1⟩, ⟨1, 1, 2⟩, ⟨1, 0, -1⟩] : List (coo_mat ℚ)) 1).j : Int)
        + 1 ∧
    rd (build_csr (⟨2, 3, [7, 7, 7], [9, 9, 9, 9], [0, 0, 0, 0]⟩ : csr_mat ℚ)
      [⟨0, 0, 2⟩, ⟨0, 2, -1⟩, ⟨1, 1, 2⟩, ⟨1, 0, -1⟩] 4 [1, 2, -3] 0).1.a 1 =
      (rd ([⟨0, 0, 2⟩, ⟨0, 2, -1⟩, ⟨1, 1, 2⟩, ⟨1, 0, -1⟩] : List (coo_mat ℚ)) 1).v :=
  ⟨⟨by decide, by decide, by decide, by decide, by decide, by decide, by decide⟩,
    (build_csr_col_spec (⟨2, 3, [7, 7, 7], [9, 9, 9, 9], [0, 0, 0, 0]⟩ : csr_mat ℚ)
      [⟨0, 0, 2⟩, ⟨0, 2, -1⟩, ⟨1, 1, 2⟩, ⟨1, 0, -1⟩] 4 [1, 2, -3] 0 (by decide) (by decide)
      (by decide) (by decide) (by decide) rfl (by decide) (by decide) (by decide)
      (by decide) (by decide) (by decide) 1 (by decide)).1,
    (build_csr_col_spec (⟨2, 3, [7, 7, 7], [9, 9, 9, 9], [0, 0, 0, 0]⟩ : csr_mat ℚ)
      [⟨0, 0, 2⟩, ⟨0, 2, -1⟩, ⟨1, 1, 2⟩, ⟨1, 0, -1⟩] 4 [1, 2, -3] 0 (by decide) (by decide)
      (by decide) (by decide) (by decide) rfl (by decide) (by decide) (by decide)
      (by decide) (by decide) (by decide) 1 (by decide)).2.1,
    (build_csr_col_spec (⟨2, 3, [7, 7, 7], [9, 9, 9, 9], [0, 0, 0, 0]⟩ : csr_mat ℚ)
      [⟨0, 0, 2⟩, ⟨0, 2, -1⟩, ⟨1, 1, 2⟩, ⟨1, 0, -1⟩] 4 [1, 2, -3] 0 (by decide) (by decide)
      (by decide) (by decide) (by decide) rfl (by decide) (by decide) (by decide)
      (by decide) (by decide) (by decide) 1 (by decide)).2.2.2⟩

/-- C26, counterexample: an id of `2^31` or more, which a `slong` wider than `int` holds.
`gs_id = (1, 2, 4294967295)` has three positive, increasing cells with distinct absolute
values, and the column `j = 4294967294` of the one triple has `j + 1 = |gs_id[2]|`.  The
conversion to `int` makes `abs` of the key `4294967295` and of `gs_id[2]` equal to
`abs(-1) = 1 = abs(gs_id[0])`: the search compares the key with `gs_id[1]`, then with
`gs_id[0]`, where it stops, and `build_csr` stores `col[0] = 0`, not `2`. -/
theorem build_csr_wide_id :
    (1 ≤ ([⟨0, 4294967294, 5⟩] : List (coo_mat ℚ)).length ∧
      (∀ x ∈ ([1, 2, 4294967295] : List Int).take 3, 0 < x) ∧
      (([1, 2, 4294967295] : List Int).take 3).Pairwise (fun x y => x < y) ∧
      (([1, 2, 4294967295] : List Int).drop 3).Pairwise (fun x y => |x| < |y|) ∧
      (([1, 2, 4294967295] : List Int).map (fun x => |x|)).Nodup ∧
      (∀ e ∈ ([⟨0, 4294967294, 5⟩] : List (coo_mat ℚ)).take 1,
        ((e.j : Int) + 1) ∈ ([1, 2, 4294967295] : List Int).map (fun x => |x|))) ∧
    rd (build_csr (⟨3, 3, [7, 7, 7, 7], [9], [0]⟩ : csr_mat ℚ) [⟨0, 4294967294, 5⟩] 1
      [1, 2, 4294967295] 0).1.col 0 = 0 ∧
    |rd ([1, 2, 4294967295] : List Int) 0| ≠
      ((rd ([⟨0, 4294967294, 5⟩] : List (coo_mat ℚ)) 0).j : Int) + 1 ∧
    |rd ([1, 2, 4294967295] : List Int) 2| =
      ((rd ([⟨0, 4294967294, 5⟩] : List (coo_mat ℚ)) 0).j : Int) + 1 ∧
    c_abs (((rd ([⟨0, 4294967294, 5⟩] : List (coo_mat ℚ)) 0).j : Int) + 1) = 1 :=
  ⟨⟨by decide, by decide, by decide, by decide, by decide, by decide⟩, by decide, by decide,
    by decide, by decide⟩

/-! ## Assembly: the array `gs_id` -/

theorem take_succ_rd {β : Type} [Zero β] (l : List β) (i : Nat) (h : i < l.length) :
    l.take (i + 1) = l.take i ++ [rd l i] := by
  rw [List.take_succ, List.getElem?_eq_getElem h, rd_eq_getElem _ _ h]; rfl

theorem filter_length_split (l : List Nat) (P : Nat → Bool) :
    (l.filter P).length + (l.filter (fun x => !P x)).length = l.length := by
  induction l with
  | nil => rfl
  | cons a l ih =>
    by_cases h : P a
    · simp only [List.filter, h, Bool.not_true, List.length_cons]; omega
    · have h' : P a = false := by simpa using h
      simp only [List.filter, h', Bool.not_false, List.length_cons]; omega

theorem rd_pre_eq {β : Type} [Zero β] (l₁ l₂ : List β) (h : l₁ <+: l₂) (t : Nat)
    (ht : t < l₁.length) : rd l₂ t = rd l₁ t := by
  obtain ⟨r, rfl⟩ := h
  exact rd_append_left _ _ _ ht

theorem rd_append_length {β : Type} [Zero β] (l : List β) (x : β) :
    rd (l ++ [x]) l.length = x :=
  rd_append_right l [x] 0

theorem build_gs_id_fold_succ (rows cols : List Nat) (s0 : gs_id_state) (i : Nat) :
    (List.range (i + 1)).foldl (build_gs_id_step rows cols) s0 =
      build_gs_id_step rows cols ((List.range i).foldl (build_gs_id_step rows cols) s0) i := by
  rw [List.range_succ, List.foldl_append]; rfl

/-- The state of the loop that fills `gs_id` after `i` rounds, when the first `rn` cells of
`rows` are the columns among the first `cn` cells of `cols` that are rows, in the same
order. -/
theorem build_gs_id_inv (gs0 : List Int) (Rarr Carr : List Nat) (rn cn : Nat)
    (hCl : cn ≤ Carr.length) (hlen : cn ≤ Rarr.length) (hRl : rn ≤ Rarr.length)
    (hF : (Carr.take cn).filter (fun x => decide (x ∈ Rarr.take rn)) = Rarr.take rn)
    (hstale : rn < Rarr.length → rd Rarr rn ∈ Rarr.take rn)
    (hbound : ∀ x ∈ Carr.take cn, x + 1 < 4294967296) (i : Nat) (hi : i ≤ cn) :
    ((List.range i).foldl (build_gs_id_step Rarr Carr) ⟨tmalloc gs0 cn, 0, rn, []⟩).p =
      ((Carr.take i).filter (fun x => decide (x ∈ Rarr.take rn))).length ∧
    ((List.range i).foldl (build_gs_id_step Rarr Carr) ⟨tmalloc gs0 cn, 0, rn, []⟩).q =
      rn + ((Carr.take i).filter (fun x => !decide (x ∈ Rarr.take rn))).length ∧
    ((List.range i).foldl (build_gs_id_step Rarr Carr)
      ⟨tmalloc gs0 cn, 0, rn, []⟩).gs_id.length = cn ∧
    (∀ t, t < ((Carr.take i).filter (fun x => decide (x ∈ Rarr.take rn))).length →
      rd ((List.range i).foldl (build_gs_id_step Rarr Carr)
        ⟨tmalloc gs0 cn, 0, rn, []⟩).gs_id t = ((rd (Rarr.take rn) t : Nat) : Int) + 1) ∧
    (∀ t, t < ((Carr.take i).filter (fun x => !decide (x ∈ Rarr.take rn))).length →
      rd ((List.range i).foldl (build_gs_id_step Rarr Carr)
        ⟨tmalloc gs0 cn, 0, rn, []⟩).gs_id (rn + t) =
        -(((rd ((Carr.take cn).filter (fun x => !decide (x ∈ Rarr.take rn))) t : Nat) : Int) + 1)) ∧
    (∀ w, w ∈ ((List.range i).foldl (build_gs_id_step Rarr Carr)
      ⟨tmalloc gs0 cn, 0, rn, []⟩).writes → w < cn) := by
  have hRlen : (Rarr.take rn).length = rn := by rw [List.length_take]; omega
  have hsplit := filter_length_split (Carr.take cn) (fun x => decide (x ∈ Rarr.take rn))
  have hClen : (Carr.take cn).length = cn := by rw [List.length_take]; omega
  rw [hF, hRlen, hClen] at hsplit
  induction i with
  | zero =>
    refine ⟨rfl, rfl, tmalloc_length _ _, ?_, ?_, ?_⟩
    · intro t ht; simp at ht
    · intro t ht; simp at ht
    · intro w hw; simp at hw
  | succ i ih =>
    obtain ⟨i1, i2, i3, i4, i5, i6⟩ := ih (by omega)
    rw [build_gs_id_fold_succ]
    generalize (List.range i).foldl (build_gs_id_step Rarr Carr)
      ⟨tmalloc gs0 cn, 0, rn, []⟩ = s at i1 i2 i3 i4 i5 i6 ⊢
    have hti := take_succ_rd Carr i (by omega)
    have hpre : Carr.take (i + 1) <+: Carr.take cn := List.take_prefix_take_left _ hi
    have hpF := List.IsPrefix.filter (fun x => decide (x ∈ Rarr.take rn)) hpre
    have hpN := List.IsPrefix.filter (fun x => !decide (x ∈ Rarr.take rn)) hpre
    rw [hF] at hpF
    have hcC : rd Carr i ∈ Carr.take cn := by
      apply hpre.subset
      rw [hti]; exact List.mem_append_right _ (List.mem_singleton_self _)
    have hmod : (rd Carr i + 1) % 4294967296 = rd Carr i + 1 :=
      Nat.mod_eq_of_lt (hbound _ hcC)
    have hple : s.p ≤ i := by
      rw [i1]
      exact le_trans (List.length_filter_le _ _) (by rw [List.length_take]; omega)
    by_cases hc : rd Carr i ∈ Rarr.take rn
    · have eF : (Carr.take (i + 1)).filter (fun x => decide (x ∈ Rarr.take rn)) =
          (Carr.take i).filter (fun x => decide (x ∈ Rarr.take rn)) ++ [rd Carr i] := by
        rw [hti, List.filter_append]
        simp only [List.filter, decide_eq_true hc]
      have eN : (Carr.take (i + 1)).filter (fun x => !decide (x ∈ Rarr.take rn)) =
          (Carr.take i).filter (fun x => !decide (x ∈ Rarr.take rn)) := by
        rw [hti, List.filter_append]
        simp only [List.filter, decide_eq_true hc, Bool.not_true, List.append_nil]
      rw [eF] at hpF ⊢
      rw [eN]
      have hp_lt : s.p < rn := by
        have := hpF.length_le
        rw [List.length_append, List.length_singleton, hRlen] at this
        omega
      have hRp : rd (Rarr.take rn) s.p = rd Carr i := by
        rw [rd_pre_eq _ _ hpF s.p (by rw [List.length_append, List.length_singleton]; omega),
          i1, rd_append_length]
      have htest : rd Carr i = rd Rarr s.p := by
        rw [← hRp, rd_take_lt _ _ _ hp_lt]
      simp only [build_gs_id_step, if_pos htest, hmod, List.length_set, List.length_append,
        List.length_singleton]
      refine ⟨by rw [i1], i2, i3, ?_, ?_, ?_⟩
      · intro t ht
        rw [rd_set]
        by_cases htp : s.p = t
        · rw [if_pos ⟨htp, by omega⟩, ← htp, hRp]; push_cast; ring
        · rw [if_neg (fun h => htp h.1)]
          exact i4 t (by omega)
      · intro t ht
        rw [rd_set, if_neg (by omega)]
        exact i5 t ht
      · intro w hw
        rcases List.mem_append.1 hw with h | h
        · exact i6 w h
        · rw [List.mem_singleton.1 h]; omega
    · have eF : (Carr.take (i + 1)).filter (fun x => decide (x ∈ Rarr.take rn)) =
          (Carr.take i).filter (fun x => decide (x ∈ Rarr.take rn)) := by
        rw [hti, List.filter_append]
        simp only [List.filter, decide_eq_false hc, List.append_nil]
      have eN : (Carr.take (i + 1)).filter (fun x => !decide (x ∈ Rarr.take rn)) =
          (Carr.take i).filter (fun x => !decide (x ∈ Rarr.take rn)) ++ [rd Carr i] := by
        rw [hti, List.filter_append]
        simp only [List.filter, decide_eq_false hc, Bool.not_false]
      rw [eN] at hpN ⊢
      rw [eF]
      have hp_le : s.p ≤ rn := by
        have := hpF.length_le
        rw [eF, hRlen] at this
        omega
      have hq_lt : s.q < cn := by
        have := hpN.length_le
        rw [List.length_append, List.length_singleton] at this
        omega
      have hNq : rd ((Carr.take cn).filter (fun x => !decide (x ∈ Rarr.take rn)))
          (s.q - rn) = rd Carr i := by
        rw [rd_pre_eq _ _ hpN (s.q - rn)
          (by rw [List.length_append, List.length_singleton]; omega)]
        have : s.q - rn =
            ((Carr.take i).filter (fun x => !decide (x ∈ Rarr.take rn))).length := by omega
        rw [this, rd_append_length]
      have htest : ¬ rd Carr i = rd Rarr s.p := by
        intro h
        apply hc
        rw [h]
        by_cases hp : s.p < rn
        · rw [← rd_take_lt _ _ _ hp]
          exact rd_mem _ _ (by rw [hRlen]; exact hp)
        · have : s.p = rn := by omega
          rw [this]
          exact hstale (by omega)
      simp only [build_gs_id_step, if_neg htest, hmod, List.length_set, List.length_append,
        List.length_singleton]
      refine ⟨i1, by rw [i2]; omega, i3, ?_, ?_, ?_⟩
      · intro t ht
        rw [rd_set, if_neg (by omega)]
        exact i4 t ht
      · intro t ht
        rw [rd_set]
        by_cases htq : s.q = rn + t
        · have e : t = s.q - rn := by omega
          rw [if_pos ⟨htq, by omega⟩, e, hNq]; push_cast; ring
        · rw [if_neg (fun h => htq h.1)]
          exact i5 t (by omega)
      · intro w hw
        rcases List.mem_append.1 hw with h | h
        · exact i6 w h
        · rw [List.mem_singleton.1 h]; exact hq_lt


theorem rd_map_lt {β γ : Type} [Zero β] [Zero γ] (f : β → γ) (l : List β) (k : Nat)
    (h : k < l.length) : rd (l.map f) k = f (rd l k) := by
  rw [rd_eq_getElem _ _ (by rw [List.length_map]; exact h), List.getElem_map,
    rd_eq_getElem _ _ h]

theorem mem_kept_full (l : List Nat) (x : Nat) : x ∈ kept l l.length ↔ x ∈ l := by
  rw [mem_kept]
  constructor
  · rintro ⟨k, hk, rfl⟩
    exact rd_mem l k hk
  · intro hx
    obtain ⟨k, hk, rfl⟩ := List.getElem_of_mem hx
    exact ⟨k, hk, rd_eq_getElem _ _ hk⟩

theorem qsort_coo_sorted {α : Type} (coo : List (coo_mat α))
    (hs : coo.Pairwise (fun x y => x.i < y.i ∨ (x.i = y.i ∧ x.j < y.j))) :
    qsort comp_coo_ij coo = coo := by
  unfold qsort
  apply List.Sorted.insertionSort_eq
  refine List.Pairwise.imp ?_ hs
  intro a b h
  unfold comp_coo_ij
  have h1 : ¬ (a.i > b.i ∨ (a.i = b.i ∧ a.j > b.j)) := by omega
  have h2 : ¬ (a.i = b.i ∧ a.j = b.j) := by omega
  rw [if_neg h1, if_neg h2]
  decide

theorem comp_uint_le (a b : Nat) : comp_uint a b ≤ 0 ↔ a ≤ b := by
  unfold comp_uint
  split_ifs with h1 h2
  · constructor
    · intro h; omega
    · intro h; omega
  · simp; omega
  · simp; omega

theorem qsort_uint_sorted (l : List Nat) :
    (qsort comp_uint l).Pairwise (fun a b => a ≤ b) ∧ (qsort comp_uint l).Perm l := by
  unfold qsort
  haveI : IsTotal Nat (fun a b => comp_uint a b ≤ 0) :=
    ⟨fun a b => by rw [comp_uint_le, comp_uint_le]; exact Nat.le_total a b⟩
  haveI : IsTrans Nat (fun a b => comp_uint a b ≤ 0) :=
    ⟨fun a b c => by rw [comp_uint_le, comp_uint_le, comp_uint_le]; exact Nat.le_trans⟩
  refine ⟨?_, List.perm_insertionSort _ l⟩
  have h := List.sorted_insertionSort (fun a b => comp_uint a b ≤ 0) l
  exact List.Pairwise.imp (fun {a b} hab => (comp_uint_le a b).1 hab) h

theorem forUpd_coo_rows {α : Type} [Zero α] (junk : List Nat) (coo : List (coo_mat α)) :
    forUpd coo.length (fun i _ => (rd coo i).i) (tmalloc junk coo.length) = coo_rows coo := by
  apply list_ext_rd
  · rw [forUpd_length, tmalloc_length]; unfold coo_rows; rw [List.length_map]
  · intro k hk
    rw [forUpd_length, tmalloc_length] at hk
    rw [rd_forUpd, if_pos ⟨hk, by rw [tmalloc_length]; exact hk⟩, rd_coo_rows]

theorem forUpd_coo_cols {α : Type} [Zero α] (junk : List Nat) (coo : List (coo_mat α)) :
    forUpd coo.length (fun i _ => (rd coo i).j) (tmalloc junk coo.length) = coo_cols coo := by
  apply list_ext_rd
  · rw [forUpd_length, tmalloc_length]; unfold coo_cols; rw [List.length_map]
  · intro k hk
    rw [forUpd_length, tmalloc_length] at hk
    rw [rd_forUpd, if_pos ⟨hk, by rw [tmalloc_length]; exact hk⟩, rd_coo_cols]

theorem pairwise_le_rd (l : List Nat) (h : l.Pairwise (fun a b => a ≤ b)) (a b : Nat)
    (hab : a ≤ b) (hb : b < l.length) : rd l a ≤ rd l b := by
  rcases Nat.eq_or_lt_of_le hab with e | e
  · subst e; exact le_refl _
  · exact pairwise_rd _ l h a b e hb

/-- What `remdup` makes of a nondecreasing array of `n >= 1` cells: the first cells are
strictly increasing and have the same elements, as many as there are distinct values, and
the cell behind them holds one of these values. -/
theorem remdup_sorted (l : List Nat) (hn : 1 ≤ l.length)
    (hs : l.Pairwise (fun a b => a ≤ b)) :
    (remdup l l.length).2 = l.toFinset.card ∧
    (remdup l l.length).2 ≤ l.length ∧
    (remdup l l.length).1.length = l.length ∧
    ((remdup l l.length).1.take (remdup l l.length).2).Pairwise (fun a b => a < b) ∧
    (∀ x, x ∈ (remdup l l.length).1.take (remdup l l.length).2 ↔ x ∈ l) ∧
    ((remdup l l.length).2 < l.length →
      rd (remdup l l.length).1 (remdup l l.length).2 ∈
        (remdup l l.length).1.take (remdup l l.length).2) := by
  have hs' := pairwise_le_rd l hs
  obtain ⟨r1, r2, _, r4⟩ := remdup_spec l l.length hn (le_refl _)
  have ht := take_remdup l l.length hn (le_refl _)
  rw [ht]
  refine ⟨by rw [r1]; exact kept_card l hs', by rw [r1]; exact chg_length_le l _, r2,
    kept_sorted l _ hs', mem_kept_full l, ?_⟩
  intro h
  rw [r4 _ (le_refl _), mem_kept_full]
  exact rd_mem l _ h


/-- The array `gs_id` after the loop, when the rows and the columns are strictly increasing
and every row is a column. -/
theorem build_gs_id_final (gs0 : List Int) (Rarr Carr : List Nat) (rn cn : Nat)
    (hCl : cn ≤ Carr.length) (hlen : cn ≤ Rarr.length) (hRl : rn ≤ Rarr.length)
    (hR : (Rarr.take rn).Pairwise (fun a b => a < b))
    (hC : (Carr.take cn).Pairwise (fun a b => a < b))
    (hRC : ∀ x, x ∈ Rarr.take rn → x ∈ Carr.take cn)
    (hstale : rn < Rarr.length → rd Rarr rn ∈ Rarr.take rn)
    (hbound : ∀ x ∈ Carr.take cn, x + 1 < 4294967296) :
    (build_gs_id gs0 Rarr Carr rn cn).gs_id =
      (Rarr.take rn).map (fun x : Nat => (x : Int) + 1) ++
        ((Carr.take cn).filter (fun x => !decide (x ∈ Rarr.take rn))).map
          (fun x : Nat => -((x : Int) + 1)) ∧
    (∀ w, w ∈ (build_gs_id gs0 Rarr Carr rn cn).writes → w < cn) ∧
    rn + ((Carr.take cn).filter (fun x => !decide (x ∈ Rarr.take rn))).length = cn := by
  have hF : (Carr.take cn).filter (fun x => decide (x ∈ Rarr.take rn)) = Rarr.take rn := by
    have hn1 : ((Carr.take cn).filter (fun x => decide (x ∈ Rarr.take rn))).Nodup :=
      List.Nodup.filter _ (hC.imp (fun h => Nat.ne_of_lt h))
    have hn2 : (Rarr.take rn).Nodup := hR.imp (fun h => Nat.ne_of_lt h)
    have hp : ((Carr.take cn).filter (fun x => decide (x ∈ Rarr.take rn))).Perm
        (Rarr.take rn) := by
      rw [List.perm_ext_iff_of_nodup hn1 hn2]
      intro x
      rw [List.mem_filter, decide_eq_true_iff]
      exact ⟨fun h => h.2, fun h => ⟨hRC x h, h⟩⟩
    exact List.eq_of_perm_of_sorted hp (List.Pairwise.filter _ hC) hR
  have hRlen : (Rarr.take rn).length = rn := by rw [List.length_take]; omega
  have hClen : (Carr.take cn).length = cn := by rw [List.length_take]; omega
  have hsplit := filter_length_split (Carr.take cn) (fun x => decide (x ∈ Rarr.take rn))
  rw [hF, hRlen, hClen] at hsplit
  obtain ⟨_, _, i3, i4, i5, i6⟩ := build_gs_id_inv gs0 Rarr Carr rn cn hCl hlen hRl hF hstale
    hbound cn (le_refl _)
  rw [hF, hRlen] at i4
  refine ⟨?_, i6, hsplit⟩
  apply list_ext_rd
  · change (build_gs_id gs0 Rarr Carr rn cn).gs_id.length = _
    rw [List.length_append, List.length_map, List.length_map, hRlen, hsplit]
    exact i3
  · intro k hk
    have hk' : k < cn := by
      have : (build_gs_id gs0 Rarr Carr rn cn).gs_id.length = cn := i3
      omega
    by_cases hkr : k < rn
    · rw [rd_append_left _ _ _ (by rw [List.length_map, hRlen]; exact hkr),
        rd_map_lt _ _ _ (by rw [hRlen]; exact hkr)]
      exact i4 k hkr
    · have e : k = ((Rarr.take rn).map (fun x : Nat => (x : Int) + 1)).length + (k - rn) := by
        rw [List.length_map, hRlen]; omega
      have e2 : k = rn + (k - rn) := by omega
      have hlt : k - rn <
          ((Carr.take cn).filter (fun x => !decide (x ∈ Rarr.take rn))).length := by omega
      rw [e, rd_append_right, rd_map_lt _ _ _ hlt, List.length_map, hRlen, ← e2]
      have := i5 (k - rn) hlt
      rw [← e2] at this
      exact this


theorem build_setup_tail_eq {α : Type} [Zero α] (mem : build_setup_mem α)
    (coo : List (coo_mat α))
    (hs : coo.Pairwise (fun x y => x.i < y.i ∨ (x.i = y.i ∧ x.j < y.j))) :
    build_setup_tail mem coo coo.length =
      ⟨(build_csr
          ⟨(remdup (coo_rows coo) coo.length).2,
            (remdup (qsort comp_uint (coo_cols coo)) coo.length).2,
            tmalloc mem.row_off ((remdup (coo_rows coo) coo.length).2 + 1),
            tmalloc mem.col coo.length, tmalloc mem.a coo.length⟩
          coo coo.length
          (build_gs_id mem.gs_id (remdup (coo_rows coo) coo.length).1
            (remdup (qsort comp_uint (coo_cols coo)) coo.length).1
            (remdup (coo_rows coo) coo.length).2
            (remdup (qsort comp_uint (coo_cols coo)) coo.length).2).gs_id mem.bad).1,
        (build_gs_id mem.gs_id (remdup (coo_rows coo) coo.length).1
          (remdup (qsort comp_uint (coo_cols coo)) coo.length).1
          (remdup (coo_rows coo) coo.length).2
          (remdup (qsort comp_uint (coo_cols coo)) coo.length).2).gs_id,
        (build_gs_id mem.gs_id (remdup (coo_rows coo) coo.length).1
          (remdup (qsort comp_uint (coo_cols coo)) coo.length).1
          (remdup (coo_rows coo) coo.length).2
          (remdup (qsort comp_uint (coo_cols coo)) coo.length).2).writes,
        (remdup (coo_rows coo) coo.length).1,
        (remdup (qsort comp_uint (coo_cols coo)) coo.length).1⟩ := by
  simp only [build_setup_tail, qsort_coo_sorted coo hs, forUpd_coo_rows, forUpd_coo_cols]

/-- C25 (with the missing premise): let `coo_A` hold `nnz >= 1` triples, sorted by row and
then column without a repeated `(i, j)`, let every row index also occur as a column index,
and let `col + 1` fit in a `uint`.  Then `rn` and `cn` are the numbers of distinct rows and
columns, `gs_id` has `cn` cells, its first `rn` cells hold `row + 1` for the rows in
increasing order, the other `cn - rn` cells hold `-(col + 1)` for the columns that are not
rows in increasing order, every write of the loop falls inside `gs_id[0..cn)`, and no two
cells have the same absolute value. -/
theorem build_setup_gs_id {α : Type} [Zero α] (mem : build_setup_mem α)
    (coo : List (coo_mat α)) (hn : 1 ≤ coo.length)
    (hs : coo.Pairwise (fun x y => x.i < y.i ∨ (x.i = y.i ∧ x.j < y.j)))
    (hrc : ∀ x ∈ coo_rows coo, x ∈ coo_cols coo)
    (hb : ∀ x ∈ coo_cols coo, x + 1 < 4294967296) :
    (build_setup_tail mem coo coo.length).A.rn = (coo_rows coo).toFinset.card ∧
    (build_setup_tail mem coo coo.length).A.cn = (coo_cols coo).toFinset.card ∧
    (build_setup_tail mem coo coo.length).gs_id.length =
      (build_setup_tail mem coo coo.length).A.cn ∧
    (∃ R N : List Nat, R.Pairwise (fun a b => a < b) ∧ N.Pairwise (fun a b => a < b) ∧
      (∀ x, x ∈ R ↔ x ∈ coo_rows coo) ∧
      (∀ x, x ∈ N ↔ x ∈ coo_cols coo ∧ x ∉ coo_rows coo) ∧
      R.length = (build_setup_tail mem coo coo.length).A.rn ∧
      (build_setup_tail mem coo coo.length).gs_id =
        R.map (fun x : Nat => (x : Int) + 1) ++ N.map (fun x : Nat => -((x : Int) + 1))) ∧
    (∀ w, w ∈ (build_setup_tail mem coo coo.length).writes →
      w < (build_setup_tail mem coo coo.length).A.cn) ∧
    ((build_setup_tail mem coo coo.length).gs_id.map (fun x => |x|)).Nodup := by
  have hlr : (coo_rows coo).length = coo.length := by unfold coo_rows; rw [List.length_map]
  have hlc0 : (coo_cols coo).length = coo.length := by unfold coo_cols; rw [List.length_map]
  obtain ⟨q1, q2⟩ := qsort_uint_sorted (coo_cols coo)
  have hlc : (qsort comp_uint (coo_cols coo)).length = coo.length := by
    rw [q2.length_eq, hlc0]
  have hrowsP : (coo_rows coo).Pairwise (fun a b => a ≤ b) := by
    unfold coo_rows
    rw [List.pairwise_map]
    exact hs.imp (fun {a b} h => by omega)
  obtain ⟨a1, a2, a3, a4, a5, a6⟩ := remdup_sorted (coo_rows coo) (by omega) hrowsP
  obtain ⟨b1, b2, b3, b4, b5, _⟩ := remdup_sorted (qsort comp_uint (coo_cols coo))
    (by omega) q1
  rw [hlr] at a1 a2 a3 a4 a5 a6
  rw [hlc] at b1 b2 b3 b4 b5
  rw [List.toFinset_eq_of_perm _ _ q2] at b1
  have hmemC : ∀ x, x ∈ (remdup (qsort comp_uint (coo_cols coo)) coo.length).1.take
      (remdup (qsort comp_uint (coo_cols coo)) coo.length).2 ↔ x ∈ coo_cols coo := by
    intro x; rw [b5, q2.mem_iff]
  obtain ⟨f1, f2, f3⟩ := build_gs_id_final mem.gs_id
    (remdup (coo_rows coo) coo.length).1 (remdup (qsort comp_uint (coo_cols coo)) coo.length).1
    (remdup (coo_rows coo) coo.length).2 (remdup (qsort comp_uint (coo_cols coo)) coo.length).2
    (by rw [b3]; exact b2) (by rw [a3]; exact b2) (by rw [a3]; exact a2) a4 b4
    (fun x hx => (hmemC x).2 (hrc x ((a5 x).1 hx)))
    (fun h => a6 (by rw [a3] at h; exact h))
    (fun x hx => hb x ((hmemC x).1 hx))
  rw [build_setup_tail_eq mem coo hs]
  generalize (remdup (coo_rows coo) coo.length).1 = Rarr at *
  generalize (remdup (coo_rows coo) coo.length).2 = rn at *
  generalize (remdup (qsort comp_uint (coo_cols coo)) coo.length).1 = Carr at *
  generalize (remdup (qsort comp_uint (coo_cols coo)) coo.length).2 = cn at *
  have hRlen : (Rarr.take rn).length = rn := by rw [List.length_take]; omega
  have hmemN : ∀ x, x ∈ (Carr.take cn).filter (fun x => !decide (x ∈ Rarr.take rn)) ↔
      x ∈ coo_cols coo ∧ x ∉ coo_rows coo := by
    intro x
    rw [List.mem_filter, hmemC, Bool.not_eq_true', decide_eq_false_iff_not, a5]
  change rn = _ ∧ cn = _ ∧ (build_gs_id mem.gs_id Rarr Carr rn cn).gs_id.length = cn ∧
    (∃ R N : List Nat, R.Pairwise (fun a b => a < b) ∧ N.Pairwise (fun a b => a < b) ∧
      (∀ x, x ∈ R ↔ x ∈ coo_rows coo) ∧
      (∀ x, x ∈ N ↔ x ∈ coo_cols coo ∧ x ∉ coo_rows coo) ∧
      R.length = rn ∧
      (build_gs_id mem.gs_id Rarr Carr rn cn).gs_id =
        R.map (fun x : Nat => (x : Int) + 1) ++ N.map (fun x : Nat => -((x : Int) + 1))) ∧
    (∀ w, w ∈ (build_gs_id mem.gs_id Rarr Carr rn cn).writes → w < cn) ∧
    ((build_gs_id mem.gs_id Rarr Carr rn cn).gs_id.map (fun x => |x|)).Nodup
  refine ⟨a1, b1, ?_, ⟨Rarr.take rn, _, a4, List.Pairwise.filter _ b4, a5, hmemN, hRlen, f1⟩,
    f2, ?_⟩
  · rw [f1, List.length_append, List.length_map, List.length_map, hRlen, f3]
  · rw [f1, List.map_append, List.map_map, List.map_map]
    have e1 : ((fun x : Int => |x|) ∘ fun x : Nat => (x : Int) + 1) =
        fun x : Nat => (x : Int) + 1 := by
      funext x
      show |((x : Int) + 1)| = (x : Int) + 1
      exact abs_of_nonneg (by omega)
    have e2 : ((fun x : Int => |x|) ∘ fun x : Nat => -((x : Int) + 1)) =
        fun x : Nat => (x : Int) + 1 := by
      funext x
      show |(-((x : Int) + 1))| = (x : Int) + 1
      rw [abs_neg]
      exact abs_of_nonneg (by omega)
    rw [e1, e2, ← List.map_append]
    apply List.Nodup.map
    · intro x y h
      have : (x : Int) + 1 = (y : Int) + 1 := h
      omega
    · apply List.Nodup.append (a4.imp (fun h => Nat.ne_of_lt h))
        (List.Nodup.filter _ (b4.imp (fun h => Nat.ne_of_lt h)))
      intro x hx1 hx2
      exact ((hmemN x).1 hx2).2 ((a5 x).1 hx1)

theorem build_setup_gs_id_witness :
    (1 ≤ ([⟨0, 0, 2⟩, ⟨0, 2, -1⟩, ⟨1, 0, -1⟩, ⟨1, 1, 2⟩] : List (coo_mat ℚ)).length ∧
      ([⟨0, 0, 2⟩, ⟨0, 2, -1⟩, ⟨1, 0, -1⟩, ⟨1, 1, 2⟩] : List (coo_mat ℚ)).Pairwise
        (fun x y => x.i < y.i ∨ (x.i = y.i ∧ x.j < y.j)) ∧
      (∀ x ∈ coo_rows ([⟨0, 0, 2⟩, ⟨0, 2, -1⟩, ⟨1, 0, -1⟩, ⟨1, 1, 2⟩] : List (coo_mat ℚ)),
        x ∈ coo_cols ([⟨0, 0, 2⟩, ⟨0, 2, -1⟩, ⟨1, 0, -1⟩, ⟨1, 1, 2⟩] : List (coo_mat ℚ))) ∧
      (∀ x ∈ coo_cols ([⟨0, 0, 2⟩, ⟨0, 2, -1⟩, ⟨1, 0, -1⟩, ⟨1, 1, 2⟩] : List (coo_mat ℚ)),
        x + 1 < 4294967296)) ∧
    (build_setup_tail (build_setup_mem_zero ℚ)
      [⟨0, 0, 2⟩, ⟨0, 2, -1⟩, ⟨1, 0, -1⟩, ⟨1, 1, 2⟩] 4).A.rn =
      (coo_rows ([⟨0, 0, 2⟩, ⟨0, 2, -1⟩, ⟨1, 0, -1⟩, ⟨1, 1, 2⟩] :
        List (coo_mat ℚ))).toFinset.card ∧
    ((build_setup_tail (build_setup_mem_zero ℚ)
      [⟨0, 0, 2⟩, ⟨0, 2, -1⟩, ⟨1, 0, -1⟩, ⟨1, 1, 2⟩] 4).gs_id.map (fun x => |x|)).Nodup :=
  ⟨⟨by decide, by decide, by decide, by decide⟩,
    (build_setup_gs_id (build_setup_mem_zero ℚ)
      [⟨0, 0, 2⟩, ⟨0, 2, -1⟩, ⟨1, 0, -1⟩, ⟨1, 1, 2⟩] (by decide) (by decide) (by decide)
      (by decide)).1,
    (build_setup_gs_id (build_setup_mem_zero ℚ)
      [⟨0, 0, 2⟩, ⟨0, 2, -1⟩, ⟨1, 0, -1⟩, ⟨1, 1, 2⟩] (by decide) (by decide) (by decide)
      (by decide)).2.2.2.2.2⟩

/-- C25, counterexample: the single triple `(0, 1, 5)` is sorted and free of duplicates;
its row 0 is not a column.  `rn = cn = 1`, the loop compares `cols[0] = 1` with
`rows[0] = 0` and writes `gs_id[1]`, outside `gs_id[0..1)`; the cell `gs_id[0]` is not
written and keeps its content, here 0, not the row id 1. -/
theorem build_setup_gs_id_row_not_col :
    ([⟨0, 1, 5⟩] : List (coo_mat ℚ)).Pairwise
      (fun x y => x.i < y.i ∨ (x.i = y.i ∧ x.j < y.j)) ∧
    (build_setup_tail (build_setup_mem_zero ℚ) [⟨0, 1, 5⟩] 1).A.rn = 1 ∧
    (build_setup_tail (build_setup_mem_zero ℚ) [⟨0, 1, 5⟩] 1).A.cn = 1 ∧
    (build_setup_tail (build_setup_mem_zero ℚ) [⟨0, 1, 5⟩] 1).writes = [1] ∧
    (build_setup_tail (build_setup_mem_zero ℚ) [⟨0, 1, 5⟩] 1).gs_id = [0] ∧
    ¬ (∀ w, w ∈ (build_setup_tail (build_setup_mem_zero ℚ) [⟨0, 1, 5⟩] 1).writes →
      w < (build_setup_tail (build_setup_mem_zero ℚ) [⟨0, 1, 5⟩] 1).A.cn) := by
  have e1 : (build_setup_tail (build_setup_mem_zero ℚ) [⟨0, 1, 5⟩] 1).writes = [1] := by
    decide
  have e2 : (build_setup_tail (build_setup_mem_zero ℚ) [⟨0, 1, 5⟩] 1).A.cn = 1 := by decide
  refine ⟨by decide, by decide, e2, e1, by decide, ?_⟩
  intro h
  have := h 1 (by rw [e1]; exact List.mem_singleton_self _)
  rw [e2] at this
  omega

/-! ## The driver `amg_setup` -/

theorem amg_setup_smoother_few {α : Type} [LinearOrderedField α] [FloorRing α]
    (sqrt : α → α) (mems : smoother_mem α) (fuelL fuelC : Nat) (rnd : List α)
    (Af : csr_mat α) (hnf : Af.rn < 2) :
    amg_setup_smoother sqrt mems fuelL fuelC rnd Af =
      some ⟨amg_setup_D sqrt mems Af, 0, 1, 0⟩ := by
  unfold amg_setup_smoother
  simp only
  rw [if_neg (by omega)]

/-- What `amg_setup` has stored when it returns: one level, whose offsets are `0` and
`rnf`; `data->Aff` is `Af`; the arrays `data->W` and `data->AfP` are as `tmalloc` returned
them; the local `W` is the matrix that `interpolation` was given to write. -/
theorem amg_setup_core_facts {α : Type} [LinearOrderedField α] [FloorRing α]
    (sqrt : α → α) (mem : amg_setup_mem α) (fuel fuelL fuelC : Nat) (rnd : List α)
    (A : csr_mat α) (gs_id : List Int) (o : amg_setup_out α)
    (h : amg_setup_core sqrt mem fuel fuelL fuelC rnd A gs_id = some o) :
    o.data.levels = 1 ∧ o.data.W = tmalloc mem.W 10 ∧ o.data.AfP = tmalloc mem.AfP 10 ∧
    o.data.Aff = [o.Af] ∧ rd o.data.lvl_offset 0 = 0 ∧
    rd o.data.lvl_offset 1 = o.Af.rn % 4294967296 ∧
    ∃ vc, coarsen sqrt mem.coarsen fuel (tmalloc mem.vc A.cn) A (7 / 10) gs_id = some vc ∧
      o.Af = sub_mat A (amg_setup_vf mem.vf A.cn vc) (amg_setup_vf mem.vf A.cn vc) ∧
      o.W = (interpolation sqrt mem.interpolation mem.Wloc
        (sub_mat A (amg_setup_vf mem.vf A.cn vc) (amg_setup_vf mem.vf A.cn vc))
        (sub_mat A vc vc) (sub_mat A (amg_setup_vf mem.vf A.cn vc) vc)
        (1 - sqrt (1 - 1 / 2)) (1 / 10 ^ 4)).W := by
  unfold amg_setup_core at h
  simp only at h
  cases hc : coarsen sqrt mem.coarsen fuel (tmalloc mem.vc A.cn) A (7 / 10) gs_id with
  | none => rw [hc] at h; exact absurd h (by simp)
  | some vc =>
    rw [hc] at h
    simp only at h
    cases hs : amg_setup_smoother sqrt mem.smoother fuelL fuelC rnd
        (sub_mat A (amg_setup_vf mem.vf A.cn vc) (amg_setup_vf mem.vf A.cn vc)) with
    | none => rw [hs] at h; exact absurd h (by simp)
    | some sm =>
      rw [hs] at h
      simp only [Option.some.injEq] at h
      subst h
      refine ⟨rfl, rfl, rfl, rfl, ?_, ?_, vc, rfl, rfl, rfl⟩
      · show rd (((tmalloc mem.lvl_offset (10 + 1)).set 0 0).set (0 + 1) _) 0 = 0
        rw [rd_set, if_neg (by omega), rd_set, if_pos ⟨rfl, by rw [tmalloc_length]; omega⟩]
      · show rd (((tmalloc mem.lvl_offset (10 + 1)).set 0 0).set (0 + 1) _) 1 = _
        rw [rd_set, if_pos ⟨rfl, by rw [List.length_set, tmalloc_length]; omega⟩]
        simp only [Nat.zero_add]

/-- For an assembled matrix with fewer than two rows, `amg_setup` returns as soon as
`coarsen` does. -/
theorem amg_setup_core_returns {α : Type} [LinearOrderedField α] [FloorRing α]
    (sqrt : α → α) (mem : amg_setup_mem α) (fuel fuelL fuelC : Nat) (rnd : List α)
    (A : csr_mat α) (gs_id : List Int) (vc : List α) (hA : A.rn < 2)
    (hc : coarsen sqrt mem.coarsen fuel (tmalloc mem.vc A.cn) A (7 / 10) gs_id = some vc) :
    ∃ o, amg_setup_core sqrt mem fuel fuelL fuelC rnd A gs_id = some o := by
  unfold amg_setup_core
  simp only
  rw [hc]
  simp only
  rw [amg_setup_smoother_few sqrt mem.smoother fuelL fuelC rnd _
    (lt_of_le_of_lt (sub_mat_rn_le _ _ _) hA)]
  exact ⟨_, rfl⟩


theorem coarsen_returns {α : Type} [LinearOrderedField α] (sqrt : α → α)
    (hsqrt : ∀ x, 0 ≤ x → 0 ≤ sqrt x ∧ sqrt x * sqrt x = x) (mem : coarsen_mem α)
    (vc : List α) (A : csr_mat α) (ctol : α) (gs_id : List Int)
    (hA : csr_wf A) (hsq : A.rn = A.cn) (hn : 1 ≤ A.rn) (hd : pos_diag A)
    (hvc : A.rn ≤ vc.length) (hc : 0 < ctol)
    (hpos : ∀ i, i < A.rn → 0 < rd gs_id i)
    (hinj : ∀ i i', i < A.rn → i' < A.rn → rd gs_id i = rd gs_id i' → i = i')
    (fuel : Nat) (hfuel : A.rn + 1 ≤ fuel) :
    ∃ vc', coarsen sqrt mem fuel vc A ctol gs_id = some vc' := by
  have hS := coarsen_S_strength sqrt mem.D A hA hsq (pos_diag_stored A hd)
  have hb0 := coarsen_init_bufs mem vc A hsq hvc
  have hsp0 := (coarsen_init_split mem vc A (by omega) hvc).2.2
  unfold coarsen
  apply coarsen_loop_terminates sqrt hsqrt (coarsen_S sqrt mem.D A) hS hn ctol hc gs_id hpos
    hinj fuel _ hb0 hsp0
  have := renum_le_self (coarsen_init mem vc A).vf A.rn
  show renum (coarsen_init mem vc A).vf A.rn < fuel
  omega

/-- C21 (as the code behaves): whenever `amg_setup` returns, `data->levels = 1` and
`lvl_offset[0] = 0`, whatever the number of rows: `slevel` is set to 0 and incremented once,
outside any loop.  For an assembled matrix with one row and a positive diagonal entry, in
exact arithmetic, fuel 2 for the loop of `coarsen` is enough for `amg_setup` to return. -/
theorem amg_setup_levels {α : Type} [LinearOrderedField α] [FloorRing α] (sqrt : α → α)
    (mem : amg_setup_mem α) (fuel fuelL fuelC : Nat) (rnd : List α) (A : csr_mat α)
    (gs_id : List Int) :
    (∀ o, amg_setup_core sqrt mem fuel fuelL fuelC rnd A gs_id = some o →
      o.data.levels = 1 ∧ rd o.data.lvl_offset 0 = 0) ∧
    ((∀ x, 0 ≤ x → 0 ≤ sqrt x ∧ sqrt x * sqrt x = x) → csr_wf A → A.rn = A.cn →
      A.rn = 1 → pos_diag A → 0 < rd gs_id 0 → 2 ≤ fuel →
      ∃ o, amg_setup_core sqrt mem fuel fuelL fuelC rnd A gs_id = some o ∧
        o.data.levels = 1) := by
  constructor
  · intro o h
    obtain ⟨f1, _, _, _, f5, _⟩ := amg_setup_core_facts sqrt mem fuel fuelL fuelC rnd A gs_id
      o h
    exact ⟨f1, f5⟩
  · intro hsqrt hA hsq h1 hd hg hf
    obtain ⟨vc, hvc⟩ := coarsen_returns sqrt hsqrt mem.coarsen (tmalloc mem.vc A.cn) A
      (7 / 10) gs_id hA hsq (by omega) hd (by rw [tmalloc_length]; omega) (by norm_num)
      (fun i hi => by
        have : i = 0 := by omega
        subst this; exact hg)
      (fun i i' hi hi' _ => by omega) fuel (by omega)
    obtain ⟨o, ho⟩ := amg_setup_core_returns sqrt mem fuel fuelL fuelC rnd A gs_id vc
      (by omega) hvc
    exact ⟨o, ho, (amg_setup_core_facts sqrt mem fuel fuelL fuelC rnd A gs_id o ho).1⟩

theorem scal1_pos_diag : pos_diag (scal1 (2 : ℝ)) := by
  intro i hi
  have hi' : i < 1 := hi
  interval_cases i
  exact ⟨0, rfl, by norm_num [scal1, rd]⟩

theorem amg_setup_levels_witness :
    ((∀ x : ℝ, 0 ≤ x → 0 ≤ Real.sqrt x ∧ Real.sqrt x * Real.sqrt x = x) ∧
      csr_wf (scal1 (2 : ℝ)) ∧ (scal1 (2 : ℝ)).rn = (scal1 (2 : ℝ)).cn ∧
      (scal1 (2 : ℝ)).rn = 1 ∧ pos_diag (scal1 (2 : ℝ)) ∧ 0 < rd ([1] : List Int) 0 ∧
      2 ≤ 2) ∧
    ∃ o, amg_setup_core Real.sqrt (amg_setup_mem_zero ℝ) 2 0 0 [] (scal1 2) [1] = some o ∧
      o.data.levels = 1 :=
  ⟨⟨real_sqrt_ok, by decide, rfl, rfl, scal1_pos_diag, by decide, le_refl _⟩,
    (amg_setup_levels Real.sqrt (amg_setup_mem_zero ℝ) 2 0 0 [] (scal1 2) [1]).2
      real_sqrt_ok (by decide) rfl rfl scal1_pos_diag (by decide) (le_refl _)⟩

theorem coarsen_empty :
    coarsen Real.sqrt (mem_zero ℝ) 1 (tmalloc [] 0) (⟨0, 0, [0], [], []⟩ : csr_mat ℝ)
      (7 / 10) [] = some [] := by
  have hS : coarsen_S Real.sqrt (mem_zero ℝ).D (⟨0, 0, [0], [], []⟩ : csr_mat ℝ) =
      ⟨0, 0, [0], [], []⟩ := by
    simp [coarsen_S, mem_zero, tmalloc, diag, copy_csr, diagcsr_op, array_op, forUpd, rd]
  have hinit : coarsen_init (mem_zero ℝ) (tmalloc [] 0) (⟨0, 0, [0], [], []⟩ : csr_mat ℝ) =
      ⟨[], [], 0, [], [], [], [], [], [], []⟩ := by
    simp [coarsen_init, mem_zero, tmalloc, init_array, forUpd]
  have hiter : coarsen_iter Real.sqrt (⟨0, 0, [0], [], []⟩ : csr_mat ℝ) (7 / 10) []
      ⟨[], [], 0, [], [], [], [], [], [], []⟩ = Sum.inl [] := by
    simp [coarsen_iter, coarsen_seed, forUpd, apply_M, vv_op, memcpy, array_op, extr_op, rd]
    norm_num
  unfold coarsen
  rw [hS, hinit, coarsen_loop, hiter]

theorem build_setup_data_masked_eval :
    (build_setup_data (assembly_ext_empty ℝ) (build_setup_mem_zero ℝ) [0, 0] 2 [0, 1]
      [1, 0] [3, 4]).A = ⟨1, 1, [0, 0], [], []⟩ ∧
    (build_setup_data (assembly_ext_empty ℝ) (build_setup_mem_zero ℝ) [0, 0] 2 [0, 1]
      [1, 0] [3, 4]).gs_id = [1] := by
  have hid : ∀ i, rd ([0, 0] : List Nat) i = 0 := by
    intro i
    rcases i with _ | _ | i <;> rfl
  unfold build_setup_data
  simp only [build_setup_emit_masked _ _ _ _ _ _ hid, assembly_ext_empty, List.length_nil,
    List.foldl_nil]
  exact ⟨rfl, rfl⟩

theorem coarsen_masked :
    coarsen Real.sqrt (mem_zero ℝ) 1 (tmalloc [] 1) (⟨1, 1, [0, 0], [], []⟩ : csr_mat ℝ)
      (7 / 10) [1] = some [1] := by
  have hS : coarsen_S Real.sqrt (mem_zero ℝ).D (⟨1, 1, [0, 0], [], []⟩ : csr_mat ℝ) =
      ⟨1, 1, [0, 0], [], []⟩ := by
    simp [coarsen_S, mem_zero, tmalloc, diag, diag_step, diagPos, rowIdx, copy_csr,
      diagcsr_op, dminus_step, array_op, forUpd, rd, List.range_succ]
  have hinit : coarsen_init (mem_zero ℝ) (tmalloc [] 1)
      (⟨1, 1, [0, 0], [], []⟩ : csr_mat ℝ) =
      ⟨[0], [1], 0, [0], [0], [0], [0], [0], [0], [0]⟩ := by
    simp [coarsen_init, mem_zero, tmalloc, init_array, forUpd, rd, List.range_succ]
  have hiter : coarsen_iter Real.sqrt (⟨1, 1, [0, 0], [], []⟩ : csr_mat ℝ) (7 / 10) [1]
      ⟨[0], [1], 0, [0], [0], [0], [0], [0], [0], [0]⟩ = Sum.inl [1] := by
    simp [coarsen_iter, coarsen_seed, forUpd, apply_M, vv_op, memcpy, array_op, extr_op, rd,
      rowIdx, List.range_succ, toUint]
    norm_num
  unfold coarsen
  rw [hS, hinit, coarsen_loop, hiter]

/-- C21, counterexample: with fresh memory that reads as zeros, `amg_setup` returns with
`data->levels = 1`, not 0, both for an assembled matrix with no row (`rnglob = 0`) and from
an input in which every dof is masked (where `build_setup_data` returns a matrix with one
empty row). -/
theorem amg_setup_empty_levels :
    (⟨0, 0, [0], [], []⟩ : csr_mat ℝ).rn = 0 ∧
    (∃ o, amg_setup_core Real.sqrt (amg_setup_mem_zero ℝ) 1 0 0 []
        (⟨0, 0, [0], [], []⟩ : csr_mat ℝ) [] = some o ∧
      o.data.levels = 1 ∧ o.data.levels ≠ 0) ∧
    (∃ o, amg_setup Real.sqrt (assembly_ext_empty ℝ) (build_setup_mem_zero ℝ)
        (amg_setup_mem_zero ℝ) 1 0 0 [] [0, 0] 2 [0, 1] [1, 0] [3, 4] = some o ∧
      o.data.levels = 1 ∧ o.data.levels ≠ 0) := by
  refine ⟨rfl, ?_, ?_⟩
  · obtain ⟨o, ho⟩ := amg_setup_core_returns Real.sqrt (amg_setup_mem_zero ℝ) 1 0 0 []
      (⟨0, 0, [0], [], []⟩ : csr_mat ℝ) [] [] (by decide) coarsen_empty
    have h1 := (amg_setup_core_facts _ _ _ _ _ _ _ _ o ho).1
    exact ⟨o, ho, h1, by rw [h1]; decide⟩
  · unfold amg_setup
    simp only
    rw [build_setup_data_masked_eval.1, build_setup_data_masked_eval.2]
    obtain ⟨o, ho⟩ := amg_setup_core_returns Real.sqrt (amg_setup_mem_zero ℝ) 1 0 0 []
      (⟨1, 1, [0, 0], [], []⟩ : csr_mat ℝ) [1] [1] (by decide) coarsen_masked
    have h1 := (amg_setup_core_facts _ _ _ _ _ _ _ _ o ho).1
    exact ⟨o, ho, h1, by rw [h1]; decide⟩

/-- C22, the code at a failing input: the `1 x 1` matrix `[[2]]`, with a fresh array
`data->W` whose first struct reads `rn = cn = 7`.  `amg_setup` returns; `data->Aff` is
`Af`, `data->levels = 1`, the offsets are `0` and `Af.rn`; but `data->W[0]` is still the
struct that `tmalloc` returned, while the matrix `W` handed to `interpolation` has at most
one row: `data->W` is never assigned. -/
theorem amg_setup_W_not_stored :
    ∃ o, amg_setup_core Real.sqrt
        { amg_setup_mem_zero ℝ with W := [⟨7, 7, [], [], []⟩] } 2 0 0 [] (scal1 2) [1] =
        some o ∧
      o.data.Aff = [o.Af] ∧ o.data.levels = 1 ∧ rd o.data.lvl_offset 0 = 0 ∧
      rd o.data.lvl_offset 1 = o.Af.rn ∧
      rd o.data.W 0 = ⟨7, 7, [], [], []⟩ ∧ o.W.rn ≤ 1 ∧ rd o.data.W 0 ≠ o.W := by
  obtain ⟨vc, hvc⟩ := coarsen_returns Real.sqrt real_sqrt_ok (mem_zero ℝ) (tmalloc [] 1)
    (scal1 (2 : ℝ)) (7 / 10) [1] (by decide) rfl (by decide) scal1_pos_diag (by decide)
    (by norm_num)
    (fun i hi => by
      have hi' : i < 1 := hi
      interval_cases i
      decide)
    (fun i i' hi hi' _ => by
      have h1 : i < 1 := hi
      have h2 : i' < 1 := hi'
      omega) 2 (by decide)
  obtain ⟨o, ho⟩ := amg_setup_core_returns Real.sqrt
    { amg_setup_mem_zero ℝ with W := [⟨7, 7, [], [], []⟩] } 2 0 0 [] (scal1 2) [1] vc
    (by decide) hvc
  obtain ⟨f1, f2, _, f4, f5, f6, vc', _, hAf, hW⟩ := amg_setup_core_facts _ _ _ _ _ _ _ _ o ho
  have hrn : o.Af.rn ≤ 1 := by
    rw [hAf]; exact sub_mat_rn_le _ _ _
  have hW0 : rd o.data.W 0 = ⟨7, 7, [], [], []⟩ := by
    rw [f2]; rfl
  have hWrn : o.W.rn ≤ 1 := by
    rw [hW, interpolation_W]
    split_ifs with h
    · show (sub_mat _ _ _).rn ≤ 1
      rw [← hAf]; exact hrn
    · show (0 : Nat) ≤ 1
      omega
  refine ⟨o, ho, f4, f1, f5, ?_, hW0, hWrn, ?_⟩
  · rw [f6]; exact Nat.mod_eq_of_lt (by omega)
  · intro h
    have : (rd o.data.W 0).rn = o.W.rn := by rw [h]
    rw [hW0] at this
    have e : (⟨7, 7, [], [], []⟩ : csr_mat ℝ).rn = 7 := rfl
    omega

/-! ## `diag` on a matrix with a row that stores no diagonal entry -/

/-- C31, the code at a failing input: the matrix `[[0, 3], [0, 7]]` stores `(0,1) = 3`
and `(1,1) = 7`; row 0 stores no diagonal entry, row 1 stores the diagonal entry 7.
`diag` writes through the running pointer `*D++`, so from `D = [-1, -1]` it returns
`[7, -1]`: the slot `D[0]` of the row without a diagonal is overwritten, and `D[1]` is not
`A[1,1] = 7`. -/
theorem diag_missing_row_shifts :
    diagPos (⟨2, 2, [0, 1, 2], [1, 1], [3, 7]⟩ : csr_mat ℚ) 0 = none ∧
    diagPos (⟨2, 2, [0, 1, 2], [1, 1], [3, 7]⟩ : csr_mat ℚ) 1 = some 1 ∧
    rd (⟨2, 2, [0, 1, 2], [1, 1], [3, 7]⟩ : csr_mat ℚ).a 1 = 7 ∧
    diag [-1, -1] (⟨2, 2, [0, 1, 2], [1, 1], [3, 7]⟩ : csr_mat ℚ) = [7, -1] ∧
    rd (diag [-1, -1] (⟨2, 2, [0, 1, 2], [1, 1], [3, 7]⟩ : csr_mat ℚ)) 1 ≠ 7 ∧
    rd (diag [-1, -1] (⟨2, 2, [0, 1, 2], [1, 1], [3, 7]⟩ : csr_mat ℚ)) 0 ≠ -1 := by
  decide

/-! ## `remdup` on an empty array -/

/-- C38, the code at a failing input: for `size = 0` the loop of `remdup` does not run and
the function returns `last + 1 = 1`, whatever the array, although an empty array has no
value at all. -/
theorem remdup_size_zero :
    remdup [] 0 = ([], 1) ∧ remdup [5, 5, 8] 0 = ([5, 5, 8], 1) ∧
    ([] : List Nat).toFinset.card = 0 ∧ (remdup [] 0).2 ≠ ([] : List Nat).toFinset.card := by
  decide

/-! ## The column indices stored by `min_skel` -/

theorem min_skel_row_col {α : Type} [LinearOrderedField α] (R : csr_mat α) (i : Nat) :
    (min_skel_row R i).2 = 0 ∨ ∃ k, k ∈ rowIdx R i ∧ (min_skel_row R i).2 = rd R.col k := by
  unfold min_skel_row
  rcases min_skel_scan R (rowIdx R i) (-(10 : α) ^ 30) 0 with
    ⟨_, he⟩ | ⟨l₁, k, l₂, hl, _, _, _, he⟩
  · left; rw [he]
  · right
    refine ⟨k, by rw [hl]; simp, by rw [he]⟩

/-- C36 (with the missing premise): for a CSR matrix `R` with at least one column that
satisfies the CSR invariants, every column index stored by `min_skel(R)` is below `R.cn`,
also in a row of `R` without stored entry, where the index is 0. -/
theorem min_skel_col_lt {α : Type} [LinearOrderedField α] (R : csr_mat α) (hR : csr_wf R)
    (hcn : 0 < R.cn) :
    (∀ c, c ∈ (min_skel R).col → c < (min_skel R).cn) ∧
    (∀ i, i < R.rn → rd (min_skel R).col i < R.cn) ∧
    (∀ i, i < R.rn → rowIdx R i = [] → rd (min_skel R).col i = 0) := by
  have key : ∀ i, i < R.rn → (min_skel_row R i).2 < R.cn := by
    intro i hi
    rcases min_skel_row_col R i with h | ⟨k, hk, h⟩
    · rw [h]; exact hcn
    · rw [h]; exact mem_rowIdx_col_lt R hR i k hi hk
  refine ⟨?_, ?_, ?_⟩
  · intro c hc
    rw [min_skel_col] at hc
    obtain ⟨i, hi, rfl⟩ := List.mem_map.1 hc
    exact key i (List.mem_range.1 hi)
  · intro i hi
    rw [min_skel_col, rd_map_range _ _ _ hi]
    exact key i hi
  · intro i hi he
    rw [min_skel_col, rd_map_range _ _ _ hi]
    unfold min_skel_row
    rw [he]; rfl

theorem min_skel_col_lt_witness :
    (csr_wf (tridiag4 ℚ) ∧ 0 < (tridiag4 ℚ).cn) ∧
    ∀ c, c ∈ (min_skel (tridiag4 ℚ)).col → c < (min_skel (tridiag4 ℚ)).cn :=
  ⟨⟨by decide, by decide⟩, (min_skel_col_lt (tridiag4 ℚ) (by decide) (by decide)).1⟩

/-- C36, counterexample: a matrix with one row, no column and no stored entry satisfies
the CSR invariants; `min_skel` stores the column index 0 for its row, which is not below
`cn = 0`. -/
theorem min_skel_no_column :
    csr_wf (⟨1, 0, [0, 0], [], []⟩ : csr_mat ℚ) ∧
    (min_skel (⟨1, 0, [0, 0], [], []⟩ : csr_mat ℚ)).col = [0] ∧
    (min_skel (⟨1, 0, [0, 0], [], []⟩ : csr_mat ℚ)).cn = 0 ∧
    ¬ (∀ c, c ∈ (min_skel (⟨1, 0, [0, 0], [], []⟩ : csr_mat ℚ)).col →
      c < (min_skel (⟨1, 0, [0, 0], [], []⟩ : csr_mat ℚ)).cn) := by
  have e : (min_skel (⟨1, 0, [0, 0], [], []⟩ : csr_mat ℚ)).col = [0] := by decide
  refine ⟨by decide, e, rfl, ?_⟩
  intro h
  have := h 0 (by rw [e]; exact List.mem_singleton_self _)
  exact absurd this (by decide)

/-! ## `sub_slong` and the column numbering of `sub_mat` -/

theorem sub_slong_inv {α : Type} [Zero α] [DecidableEq α] (a b : List Int) (v : List α)
    (k : Nat) (hlen : renum v k ≤ a.length) :
    ((List.range k).foldl (sub_slong_step b v) (a, 0)).2 = renum v k ∧
    ((List.range k).foldl (sub_slong_step b v) (a, 0)).1.length = a.length ∧
    (∀ c, c < k → rd v c ≠ 0 →
      rd ((List.range k).foldl (sub_slong_step b v) (a, 0)).1 (renum v c) = rd b c) ∧
    (∀ t, renum v k ≤ t →
      rd ((List.range k).foldl (sub_slong_step b v) (a, 0)).1 t = rd a t) := by
  induction k with
  | zero =>
    refine ⟨rfl, rfl, fun c hc => absurd hc (Nat.not_lt_zero _), fun t _ => rfl⟩
  | succ k ih =>
    have hk : renum v k ≤ a.length := le_trans (renum_mono v k (k + 1) (by omega)) hlen
    obtain ⟨i1, i2, i3, i4⟩ := ih hk
    rw [List.range_succ, List.foldl_append, List.foldl_cons, List.foldl_nil]
    generalize (List.range k).foldl (sub_slong_step b v) (a, 0) = s at i1 i2 i3 i4 ⊢
    rw [renum_succ] at hlen ⊢
    unfold sub_slong_step
    by_cases hv : rd v k ≠ 0
    · rw [if_pos hv] at hlen
      simp only [if_pos hv, List.length_set]
      refine ⟨by rw [i1], i2, ?_, ?_⟩
      · intro c hc hvc
        rw [rd_set, i1]
        by_cases hck : c = k
        · subst hck
          rw [if_pos ⟨rfl, by omega⟩]
        · have hlt := renum_lt v c k (by omega) hvc
          rw [if_neg (by omega)]
          exact i3 c (by omega) hvc
      · intro t ht
        rw [rd_set, if_neg (by omega)]
        exact i4 t (by omega)
    · simp only [if_neg hv]
      refine ⟨i1, i2, ?_, i4⟩
      intro c hc hvc
      have hck : c ≠ k := fun h => hv (h ▸ hvc)
      exact i3 c (by omega) hvc

/-- C35: for a matrix `A` with `cn` columns, a selector `v` and arrays `gs_id`, `sub_slong`
writes as many cells as `sub_mat(A, vr, v)` has columns (for every row selector `vr`), and
for every column `c < cn` with `v[c] != 0`, which `sub_mat` renumbers to
`c' = g2lcol[c]`, it stores `gs_id[c]` in cell `c'`; `c'` is below the number of columns of
the sub-matrix.  The array `a` has that number of cells, as allocated in `amg_setup`. -/
theorem sub_slong_aligned {α : Type} [Zero α] [DecidableEq α] (A : csr_mat α)
    (vr v : List α) (a gs_id : List Int) (ha : a.length = (sub_mat A vr v).cn) :
    (sub_slong a gs_id v A.cn).2 = (sub_mat A vr v).cn ∧
    (sub_slong a gs_id v A.cn).1.length = (sub_mat A vr v).cn ∧
    ∀ c, c < A.cn → rd v c ≠ 0 →
      rd (sub_mat_g2l A.cn v).2.2 c < (sub_mat A vr v).cn ∧
      rd (sub_slong a gs_id v A.cn).1 (rd (sub_mat_g2l A.cn v).2.2 c) = rd gs_id c := by
  rw [sub_mat_cn] at ha ⊢
  obtain ⟨i1, i2, i3, _⟩ := sub_slong_inv a gs_id v A.cn (by omega)
  refine ⟨i1, by rw [← ha]; exact i2, ?_⟩
  intro c hc hv
  have e : rd (sub_mat_g2l A.cn v).2.2 c = renum v c := by
    rw [sub_mat_g2l_eq]
    exact g2lTable_rd v A.cn c (Or.inl hc) hv
  rw [e]
  exact ⟨renum_lt v c A.cn hc hv, i3 c hc hv⟩

theorem sub_slong_aligned_witness :
    (([0, 0] : List Int).length = (sub_mat (tridiag4 ℚ) [1, 0, 1, 0] [0, 1, 0, 1]).cn) ∧
    (sub_slong ([0, 0] : List Int) [1, 2, 3, 4] ([0, 1, 0, 1] : List ℚ)
      (tridiag4 ℚ).cn).2 = (sub_mat (tridiag4 ℚ) [1, 0, 1, 0] [0, 1, 0, 1]).cn :=
  ⟨by decide,
    (sub_slong_aligned (tridiag4 ℚ) [1, 0, 1, 0] [0, 1, 0, 1] [0, 0] [1, 2, 3, 4]
      (by decide)).1⟩

/-! ## The coarse set returned by `coarsen` is not empty -/

/-- Along a run of the loop of `coarsen`, `anyvc != 0` only when some owned dof is
coarse. -/
theorem coarsen_run_anyvc {α : Type} [LinearOrderedField α] (sqrt : α → α)
    (S : csr_mat α) (ctol : α) (gs_id : List Int) (n : Nat) (s s' : coarsen_state α)
    (h1 : S.rn ≤ s.vc.length)
    (h : s.anyvc ≠ 0 → ∃ i, i < S.rn ∧ rd s.vc i = 1)
    (hr : coarsen_run sqrt S ctol gs_id n s = some s') :
    S.rn ≤ s'.vc.length ∧ (s'.anyvc ≠ 0 → ∃ i, i < S.rn ∧ rd s'.vc i = 1) := by
  induction n generalizing s with
  | zero =>
    simp only [coarsen_run, Option.some.injEq] at hr
    subst hr
    exact ⟨h1, h⟩
  | succ n ih =>
    unfold coarsen_run at hr
    cases hc : coarsen_iter sqrt S ctol gs_id s with
    | inl v => rw [hc] at hr; cases hr
    | inr s1 =>
      rw [hc] at hr
      obtain ⟨_, hs1⟩ := coarsen_iter_inr sqrt S ctol gs_id s s1 hc
      subst hs1
      refine ih _ ?_ ?_ hr
      · show S.rn ≤ (bin_op s.vc (it_mask2 sqrt S ctol gs_id s) S.rn .or_op).length
        rw [bin_op_length]; exact h1
      · intro hany
        show ∃ i, i < S.rn ∧
          rd (bin_op s.vc (it_mask2 sqrt S ctol gs_id s) S.rn .or_op) i = 1
        by_cases ha : s.anyvc = 0
        · have hany' : (if s.anyvc = 0 then
              (if (List.range S.rn).any
                (fun i => rd (bin_op s.vc (it_mask2 sqrt S ctol gs_id s) S.rn .or_op) i = 1)
              then 1 else s.anyvc) else s.anyvc) ≠ 0 := hany
          rw [if_pos ha] at hany'
          by_cases hex : (List.range S.rn).any
              (fun i => rd (bin_op s.vc (it_mask2 sqrt S ctol gs_id s) S.rn .or_op) i = 1)
          · rw [List.any_eq_true] at hex
            obtain ⟨i, hi, hv⟩ := hex
            exact ⟨i, List.mem_range.1 hi, by simpa using hv⟩
          · rw [if_neg hex] at hany'
            exact absurd ha hany'
        · obtain ⟨i, hi, hv⟩ := h ha
          refine ⟨i, hi, ?_⟩
          rw [rd_bin_op_or, if_pos ⟨hi, by omega⟩, hv]
          simp

/-- C34: on a single process, in exact arithmetic, for a CSR matrix `A` with `rn >= 1`
rows, positive stored diagonal and distinct positive global ids, and `ctol > 0`: `coarsen`
returns when given fuel for `rn + 1` iterations, and whenever it returns, some owned dof
is coarse: `vc[i] = 1` for some `i < rn`. -/
theorem coarsen_nonempty {α : Type} [LinearOrderedField α] (sqrt : α → α)
    (hsqrt : ∀ x, 0 ≤ x → 0 ≤ sqrt x ∧ sqrt x * sqrt x = x) (mem : coarsen_mem α)
    (vc : List α) (A : csr_mat α) (ctol : α) (gs_id : List Int)
    (hA : csr_wf A) (hsq : A.rn = A.cn) (hn : 1 ≤ A.rn) (hd : pos_diag A)
    (hvc : A.rn ≤ vc.length) (hc : 0 < ctol)
    (hpos : ∀ i, i < A.rn → 0 < rd gs_id i)
    (hinj : ∀ i i', i < A.rn → i' < A.rn → rd gs_id i = rd gs_id i' → i = i') :
    (∀ fuel, A.rn + 1 ≤ fuel → ∃ vc', coarsen sqrt mem fuel vc A ctol gs_id = some vc') ∧
    ∀ fuel vc', coarsen sqrt mem fuel vc A ctol gs_id = some vc' →
      ∃ i, i < A.rn ∧ rd vc' i = 1 := by
  refine ⟨fun fuel hf => coarsen_returns sqrt hsqrt mem vc A ctol gs_id hA hsq hn hd hvc hc
    hpos hinj fuel hf, ?_⟩
  intro fuel vc' h
  unfold coarsen at h
  obtain ⟨n, s, _, hr, hi⟩ := coarsen_loop_some sqrt _ ctol gs_id fuel _ vc' h
  have hlen0 : (coarsen_S sqrt mem.D A).rn ≤ (coarsen_init mem vc A).vc.length := by
    show A.rn ≤ (init_array vc A.rn 0).length
    rw [init_array_length]; exact hvc
  obtain ⟨hl, hany⟩ := coarsen_run_anyvc sqrt (coarsen_S sqrt mem.D A) ctol gs_id n _ s hlen0
    (fun h0 => absurd rfl h0) hr
  have hl' : A.rn ≤ s.vc.length := hl
  rw [coarsen_iter_eq] at hi
  by_cases hb : it_b sqrt (coarsen_S sqrt mem.D A) s ≤ ctol
  · rw [if_pos hb] at hi
    by_cases ha : s.anyvc = 0
    · rw [if_pos ha] at hi
      have hmil := (extr_op_max (it_w1 (coarsen_S sqrt mem.D A) s)
        (coarsen_S sqrt mem.D A).rn (show 0 < A.rn by omega)).1
      obtain ⟨k, hk, he⟩ := coarsen_seed_found s.vc (coarsen_S sqrt mem.D A).rn gs_id
        (extr_op (it_w1 (coarsen_S sqrt mem.D A) s) (coarsen_S sqrt mem.D A).rn .max).1
        (extr_op (it_w1 (coarsen_S sqrt mem.D A) s) (coarsen_S sqrt mem.D A).rn .max).2 hmil
      have hv := (Sum.inl.inj hi).symm
      rw [he] at hv
      have hmil' : (extr_op (it_w1 (coarsen_S sqrt mem.D A) s)
        (coarsen_S sqrt mem.D A).rn .max).2 < A.rn := hmil
      refine ⟨k, by omega, ?_⟩
      rw [hv, rd_set, if_pos ⟨rfl, by omega⟩]
    · rw [if_neg ha] at hi
      have hv := (Sum.inl.inj hi).symm
      rw [hv]
      exact hany ha
  · rw [if_neg hb] at hi
    cases hi

theorem coarsen_nonempty_witness :
    ((∀ x : ℝ, 0 ≤ x → 0 ≤ Real.sqrt x ∧ Real.sqrt x * Real.sqrt x = x) ∧
      csr_wf (tridiag4 ℝ) ∧ (tridiag4 ℝ).rn = (tridiag4 ℝ).cn ∧ 1 ≤ (tridiag4 ℝ).rn ∧
      pos_diag (tridiag4 ℝ) ∧ (tridiag4 ℝ).rn ≤ ([0, 0, 0, 0] : List ℝ).length ∧
      (0 : ℝ) < 7 / 10 ∧
      (∀ i, i < (tridiag4 ℝ).rn → 0 < rd ([1, 2, 3, 4] : List Int) i) ∧
      (∀ i i', i < (tridiag4 ℝ).rn → i' < (tridiag4 ℝ).rn →
        rd ([1, 2, 3, 4] : List Int) i = rd ([1, 2, 3, 4] : List Int) i' → i = i')) ∧
    ∃ vc', coarsen Real.sqrt (mem_zero ℝ) 5 [0, 0, 0, 0] (tridiag4 ℝ) (7 / 10)
        [1, 2, 3, 4] = some vc' ∧
      ∃ i, i < (tridiag4 ℝ).rn ∧ rd vc' i = 1 :=
  ⟨⟨real_sqrt_ok, by decide, rfl, by decide, tridiag4_pos_diag, by decide, by norm_num,
      by decide, ids4_inj⟩,
    (fun h : (∀ fuel, (tridiag4 ℝ).rn + 1 ≤ fuel →
          ∃ vc', coarsen Real.sqrt (mem_zero ℝ) fuel [0, 0, 0, 0] (tridiag4 ℝ) (7 / 10)
            [1, 2, 3, 4] = some vc') ∧
        ∀ fuel vc', coarsen Real.sqrt (mem_zero ℝ) fuel [0, 0, 0, 0] (tridiag4 ℝ) (7 / 10)
            [1, 2, 3, 4] = some vc' → ∃ i, i < (tridiag4 ℝ).rn ∧ rd vc' i = 1 =>
      (h.1 5 (by decide)).elim (fun vc' hv => ⟨vc', hv, h.2 5 vc' hv⟩))
    (coarsen_nonempty Real.sqrt real_sqrt_ok (mem_zero ℝ) [0, 0, 0, 0] (tridiag4 ℝ) (7 / 10)
      [1, 2, 3, 4] (by decide) rfl (by decide) tridiag4_pos_diag (by decide) (by norm_num)
      (by decide) ids4_inj)⟩

/-! ## `sparsify` marks positions of the sorted array -/

/-- C33, the code at a failing input: `A = [[5, 1/10], [0, 3]]` stores `(0,0) = 5`,
`(0,1) = 1/10`, `(1,1) = 3` in this order, and `tol = 1`.  After the sort by absolute value
the entry `(0,1)` is at position 0, and the loop sets `S[0] = 0`, the position in the
sorted array: `S = [0, 1, 1]`, although entry 0 of `A` is the diagonal entry 5 (above
`tol`), and the entry `1/10` that is dropped is entry 1 of `A`, where `S[1] = 1`. -/
theorem sparsify_marks_sorted_position :
    sparsify ⟨[], []⟩ [7, 7, 7] (⟨2, 2, [0, 2, 3], [0, 1, 1], [5, 1 / 10, 3]⟩ : csr_mat ℚ) 1 =
      [0, 1, 1] ∧
    rd (⟨2, 2, [0, 2, 3], [0, 1, 1], [5, 1 / 10, 3]⟩ : csr_mat ℚ).col 0 = 0 ∧
    (1 : ℚ) < |rd (⟨2, 2, [0, 2, 3], [0, 1, 1], [5, 1 / 10, 3]⟩ : csr_mat ℚ).a 0| ∧
    qsort comp_coo_v
      (sparsify_coo (⟨2, 2, [0, 2, 3], [0, 1, 1], [5, 1 / 10, 3]⟩ : csr_mat ℚ) []) =
      [⟨0, 1, 1 / 10⟩, ⟨1, 1, 3⟩, ⟨0, 0, 5⟩] := by
  have h1 : sparsify_coo (⟨2, 2, [0, 2, 3], [0, 1, 1], [5, 1 / 10, 3]⟩ : csr_mat ℚ) [] =
      [⟨0, 0, 5⟩, ⟨0, 1, 1 / 10⟩, ⟨1, 1, 3⟩] := by
    norm_num [sparsify_coo, sparsify_fill_row, rowIdx, tmalloc, rd, List.range_succ,
      List.range', abs_of_nonneg]
  have h2 : qsort comp_coo_v ([⟨0, 0, 5⟩, ⟨0, 1, 1 / 10⟩, ⟨1, 1, 3⟩] : List (coo_mat ℚ)) =
      [⟨0, 1, 1 / 10⟩, ⟨1, 1, 3⟩, ⟨0, 0, 5⟩] := by
    norm_num [qsort, comp_coo_v, List.insertionSort, List.orderedInsert]
  have h3 : ((List.range 3).foldl (sparsify_mark_step
      ([⟨0, 1, 1 / 10⟩, ⟨1, 1, 3⟩, ⟨0, 0, 5⟩] : List (coo_mat ℚ)) 1)
      ([1, 1, 1], [0, 0], false)).1 = [0, 1, 1] := by
    norm_num [sparsify_mark_step, rd, List.range_succ, abs_of_nonneg]
  have h4 : init_array ([7, 7, 7] : List ℚ) 3 1 = [1, 1, 1] := by
    simp [init_array, forUpd, List.range_succ]
  have h5 : init_array (tmalloc ([] : List ℚ) 2) 2 0 = [0, 0] := by
    simp [init_array, forUpd, tmalloc, List.range_succ]
  refine ⟨?_, rfl, by norm_num [rd], by rw [h1, h2]⟩
  unfold sparsify
  simp only
  rw [h1, h2]
  have h6 : rd (⟨2, 2, [0, 2, 3], [0, 1, 1], [5, 1 / 10, 3]⟩ : csr_mat ℚ).row_off 2 = 3 := rfl
  rw [h6, h4, h5]
  exact h3

/-! ## `sp_restrict_sorted` -/

theorem sp_val_none {α : Type} [Zero α] (xn : Nat) (xi : List Nat) (x : List α) (i : Nat)
    (h : ∀ t, t < xn → rd xi t ≠ i) : sp_val xn xi x i = 0 := by
  unfold sp_val
  have : (List.range xn).find? (fun t => decide (rd xi t = i)) = none := by
    rw [List.find?_eq_none]
    intro t ht
    simpa using h t (List.mem_range.1 ht)
  rw [this]

theorem sp_val_some {α : Type} [Zero α] (xn : Nat) (xi : List Nat) (x : List α) (i t : Nat)
    (ht : t < xn) (he : rd xi t = i) (hfirst : ∀ t', t' < t → rd xi t' ≠ i) :
    sp_val xn xi x i = rd x t := by
  unfold sp_val
  have : (List.range xn).find? (fun t => decide (rd xi t = i)) = some t := by
    rw [List.find?_range_eq_some]
    refine ⟨by simpa using he, List.mem_range.2 ht, ?_⟩
    intro j hj
    simpa using hfirst j hj
  rw [this]

/-- The `while` loop of `sp_restrict_sorted` before the entry `t` of `x`: it ends, having
written zeros in the cells whose index is smaller than `xi[t]`. -/
theorem sp_skip_inv {α : Type} [Zero α] (Ri : List Nat) (Rn : Nat) (xn : Nat)
    (xi : List Nat) (x : List α) (n0 : Nat)
    (hR : ∀ a b, a < b → b < Rn → rd Ri a < rd Ri b)
    (hx : ∀ a b, a < b → b < xn → rd xi a < rd xi b) (t : Nat) :
    ∀ fuel (s : List α × Nat), Rn ≤ s.2 + fuel → s.2 ≤ Rn → Rn ≤ s.1.length →
      s.1.length = n0 →
      (∀ k, k < s.2 → rd s.1 k = sp_val xn xi x (rd Ri k)) →
      (s.2 < Rn → ∀ t', t' < t → rd xi t' < rd Ri s.2) →
      (sp_skip Ri Rn (rd xi t) fuel s).2 ≤ Rn ∧
      (sp_skip Ri Rn (rd xi t) fuel s).1.length = n0 ∧
      (∀ k, k < (sp_skip Ri Rn (rd xi t) fuel s).2 →
        rd (sp_skip Ri Rn (rd xi t) fuel s).1 k = sp_val xn xi x (rd Ri k)) ∧
      ((sp_skip Ri Rn (rd xi t) fuel s).2 < Rn →
        (∀ t', t' < t → rd xi t' < rd Ri (sp_skip Ri Rn (rd xi t) fuel s).2) ∧
        rd xi t ≤ rd Ri (sp_skip Ri Rn (rd xi t) fuel s).2) ∧
      (∀ k, Rn ≤ k → rd (sp_skip Ri Rn (rd xi t) fuel s).1 k = rd s.1 k) := by
  intro fuel
  induction fuel with
  | zero =>
    intro s h1 h2 h3 h4 h5 h6
    have : s.2 = Rn := by omega
    refine ⟨h2, h4, h5, fun h => absurd h (by simp [sp_skip]; omega), fun k _ => rfl⟩
  | succ fuel ih =>
    intro s h1 h2 h3 h4 h5 h6
    unfold sp_skip
    by_cases hc : s.2 < Rn ∧ rd Ri s.2 < rd xi t
    · rw [if_pos hc]
      have hz : sp_val xn xi x (rd Ri s.2) = 0 := by
        apply sp_val_none
        intro t' ht' he
        rcases Nat.lt_or_ge t' t with hlt | hge
        · have := h6 hc.1 t' hlt; omega
        · rcases Nat.eq_or_lt_of_le hge with e | e
          · subst e; omega
          · have := hx t t' e ht'; omega
      obtain ⟨r1, r2, r3, r4, r5⟩ := ih (s.1.set s.2 0, s.2 + 1) (by simp only; omega)
        (by simp only; omega) (by simp only [List.length_set]; exact h3)
        (by simp only [List.length_set]; exact h4)
        (by
          intro k hk
          simp only at hk ⊢
          rw [rd_set]
          by_cases hks : s.2 = k
          · rw [if_pos ⟨hks, by omega⟩, ← hks, hz]
          · rw [if_neg (fun h => hks h.1)]
            exact h5 k (by omega))
        (by
          intro hlt t' ht'
          simp only at hlt ⊢
          have := h6 hc.1 t' ht'
          have := hR s.2 (s.2 + 1) (by omega) hlt
          omega)
      refine ⟨r1, r2, r3, r4, ?_⟩
      intro k hk
      rw [r5 k hk]
      simp only
      rw [rd_set, if_neg (by omega)]
    · rw [if_neg hc]
      refine ⟨h2, h4, h5, ?_, fun k _ => rfl⟩
      intro hlt
      exact ⟨h6 hlt, by
        have : ¬ rd Ri s.2 < rd xi t := fun h => hc ⟨hlt, h⟩
        omega⟩

theorem sp_restrict_fold_succ {α : Type} [Zero α] (Ri : List Nat) (Rn : Nat)
    (xi : List Nat) (x : List α) (s0 : List α × Nat) (t : Nat) :
    (List.range (t + 1)).foldl (sp_restrict_step Ri Rn xi x) s0 =
      sp_restrict_step Ri Rn xi x ((List.range t).foldl (sp_restrict_step Ri Rn xi x) s0) t := by
  rw [List.range_succ, List.foldl_append]; rfl

/-- The state of `sp_restrict_sorted` after the first `t` entries of `x`. -/
theorem sp_restrict_inv {α : Type} [Zero α] (y : List α) (Ri : List Nat) (Rn : Nat)
    (xn : Nat) (xi : List Nat) (x : List α)
    (hR : ∀ a b, a < b → b < Rn → rd Ri a < rd Ri b)
    (hx : ∀ a b, a < b → b < xn → rd xi a < rd xi b) (hy : Rn ≤ y.length) (t : Nat)
    (ht : t ≤ xn) :
    ((List.range t).foldl (sp_restrict_step Ri Rn xi x) (y, 0)).2 ≤ Rn ∧
    ((List.range t).foldl (sp_restrict_step Ri Rn xi x) (y, 0)).1.length = y.length ∧
    (∀ k, k < ((List.range t).foldl (sp_restrict_step Ri Rn xi x) (y, 0)).2 →
      rd ((List.range t).foldl (sp_restrict_step Ri Rn xi x) (y, 0)).1 k =
        sp_val xn xi x (rd Ri k)) ∧
    (((List.range t).foldl (sp_restrict_step Ri Rn xi x) (y, 0)).2 < Rn →
      ∀ t', t' < t →
        rd xi t' < rd Ri ((List.range t).foldl (sp_restrict_step Ri Rn xi x) (y, 0)).2) ∧
    (∀ k, Rn ≤ k →
      rd ((List.range t).foldl (sp_restrict_step Ri Rn xi x) (y, 0)).1 k = rd y k) := by
  induction t with
  | zero =>
    refine ⟨Nat.zero_le _, rfl, fun k hk => absurd hk (Nat.not_lt_zero _),
      fun _ t' ht' => absurd ht' (Nat.not_lt_zero _), fun k _ => rfl⟩
  | succ t ih =>
    obtain ⟨i1, i2, i3, i4, i5⟩ := ih (by omega)
    rw [sp_restrict_fold_succ]
    generalize (List.range t).foldl (sp_restrict_step Ri Rn xi x) (y, 0) = s
      at i1 i2 i3 i4 i5 ⊢
    obtain ⟨r1, r2, r3, r4, r5⟩ := sp_skip_inv Ri Rn xn xi x y.length hR hx t Rn s
      (by omega) i1 (by omega) i2 i3 i4
    unfold sp_restrict_step
    simp only
    generalize sp_skip Ri Rn (rd xi t) Rn s = s1 at r1 r2 r3 r4 r5 ⊢
    by_cases hc : s1.2 < Rn ∧ rd Ri s1.2 = rd xi t
    · rw [if_pos hc]
      have hv : sp_val xn xi x (rd Ri s1.2) = rd x t := by
        apply sp_val_some xn xi x _ t (by omega) hc.2.symm
        intro t' ht' he
        have := (r4 hc.1).1 t' ht'
        omega
      simp only [List.length_set]
      refine ⟨by omega, r2, ?_, ?_, ?_⟩
      · intro k hk
        rw [rd_set]
        by_cases hks : s1.2 = k
        · rw [if_pos ⟨hks, by omega⟩, ← hks, hv]
        · rw [if_neg (fun h => hks h.1)]
          exact r3 k (by omega)
      · intro hlt t' ht'
        have h1 := hR s1.2 (s1.2 + 1) (by omega) hlt
        rcases Nat.eq_or_lt_of_le (Nat.le_of_lt_succ ht') with e | e
        · rw [e]; omega
        · have := (r4 hc.1).1 t' e; omega
      · intro k hk
        rw [rd_set, if_neg (by omega), r5 k hk, i5 k hk]
    · rw [if_neg hc]
      refine ⟨r1, r2, r3, ?_, fun k hk => by rw [r5 k hk, i5 k hk]⟩
      intro hlt t' ht'
      obtain ⟨q1, q2⟩ := r4 hlt
      rcases Nat.eq_or_lt_of_le (Nat.le_of_lt_succ ht') with e | e
      · rw [e]
        have : rd Ri s1.2 ≠ rd xi t := fun h => hc ⟨hlt, h⟩
        omega
      · exact q1 t' e

theorem rd_zero_fill {α : Type} [Zero α] (y : List α) (a n k : Nat) :
    rd ((List.range' a n).foldl (fun y k => y.set k 0) y) k =
      if a ≤ k ∧ k < a + n ∧ k < y.length then 0 else rd y k := by
  induction n generalizing y a with
  | zero =>
    rw [if_neg (by omega)]; rfl
  | succ n ih =>
    rw [List.range'_succ, List.foldl_cons, ih, List.length_set, rd_set]
    split_ifs with h1 h2 h3 h4 h5 <;> first | rfl | (exfalso; omega)

theorem length_zero_fill {α : Type} [Zero α] (y : List α) (a n : Nat) :
    ((List.range' a n).foldl (fun y k => y.set k 0) y).length = y.length := by
  induction n generalizing y a with
  | zero => rfl
  | succ n ih => rw [List.range'_succ, List.foldl_cons, ih, List.length_set]

/-- C37 (with the missing premise): let `Ri` be strictly increasing on its first `Rn`
cells and let the indices `xi` of the sparse vector `x` be strictly increasing too.  Then
`sp_restrict_sorted` sets `y[k]`, for every `k < Rn`, to the value of `x` at the index
`Ri[k]` when this index occurs in `xi`, and to 0 otherwise; it changes no other cell. -/
theorem sp_restrict_sorted_spec {α : Type} [Zero α] (y : List α) (Rn : Nat) (Ri : List Nat)
    (xn : Nat) (xi : List Nat) (x : List α) (hRl : Rn ≤ Ri.length) (hxl : xn ≤ xi.length)
    (hR : (Ri.take Rn).Pairwise (fun a b => a < b))
    (hx : (xi.take xn).Pairwise (fun a b => a < b)) (hy : Rn ≤ y.length) :
    (sp_restrict_sorted y Rn Ri xn xi x).length = y.length ∧
    (∀ k, k < Rn → rd (sp_restrict_sorted y Rn Ri xn xi x) k = sp_val xn xi x (rd Ri k)) ∧
    (∀ k, k < Rn → (∀ t, t < xn → rd xi t = rd Ri k →
        rd (sp_restrict_sorted y Rn Ri xn xi x) k = rd x t) ∧
      ((∀ t, t < xn → rd xi t ≠ rd Ri k) →
        rd (sp_restrict_sorted y Rn Ri xn xi x) k = 0)) ∧
    (∀ k, Rn ≤ k → rd (sp_restrict_sorted y Rn Ri xn xi x) k = rd y k) := by
  have hR' : ∀ a b, a < b → b < Rn → rd Ri a < rd Ri b := by
    intro a b hab hb
    have := pairwise_rd _ _ hR a b hab (by rw [List.length_take]; omega)
    rwa [rd_take_lt _ _ _ (by omega), rd_take_lt _ _ _ hb] at this
  have hx' : ∀ a b, a < b → b < xn → rd xi a < rd xi b := by
    intro a b hab hb
    have := pairwise_rd _ _ hx a b hab (by rw [List.length_take]; omega)
    rwa [rd_take_lt _ _ _ (by omega), rd_take_lt _ _ _ hb] at this
  obtain ⟨i1, i2, i3, i4, i5⟩ := sp_restrict_inv y Ri Rn xn xi x hR' hx' hy xn (le_refl _)
  have key : ∀ k, k < Rn →
      rd (sp_restrict_sorted y Rn Ri xn xi x) k = sp_val xn xi x (rd Ri k) := by
    intro k hk
    unfold sp_restrict_sorted
    simp only
    generalize (List.range xn).foldl (sp_restrict_step Ri Rn xi x) (y, 0) = s
      at i1 i2 i3 i4 i5 ⊢
    rw [rd_zero_fill]
    by_cases hks : k < s.2
    · rw [if_neg (by omega)]
      exact i3 k hks
    · rw [if_pos ⟨by omega, by omega, by omega⟩]
      symm
      apply sp_val_none
      intro t ht he
      have h1 := i4 (by omega) t ht
      rcases Nat.eq_or_lt_of_le (Nat.le_of_not_lt hks) with e | e
      · rw [e] at h1; omega
      · have := hR' s.2 k e hk; omega
  refine ⟨?_, key, ?_, ?_⟩
  · unfold sp_restrict_sorted
    simp only
    rw [length_zero_fill]
    exact i2
  · intro k hk
    refine ⟨?_, ?_⟩
    · intro t ht he
      rw [key k hk]
      apply sp_val_some xn xi x _ t ht he
      intro t' ht' he'
      have := hx' t' t ht' ht
      omega
    · intro hno
      rw [key k hk]
      exact sp_val_none xn xi x _ hno
  · intro k hk
    unfold sp_restrict_sorted
    simp only
    rw [rd_zero_fill, if_neg (by omega)]
    exact i5 k hk

theorem sp_restrict_sorted_spec_witness :
    ((2 : Nat) ≤ ([1, 3] : List Nat).length ∧ (3 : Nat) ≤ ([0, 1, 2] : List Nat).length ∧
      (([1, 3] : List Nat).take 2).Pairwise (fun a b => a < b) ∧
      (([0, 1, 2] : List Nat).take 3).Pairwise (fun a b => a < b) ∧
      (2 : Nat) ≤ ([9, 9] : List ℚ).length) ∧
    ∀ k, k < 2 → rd (sp_restrict_sorted ([9, 9] : List ℚ) 2 [1, 3] 3 [0, 1, 2] [5, 6, 7]) k =
      sp_val 3 [0, 1, 2] ([5, 6, 7] : List ℚ) (rd [1, 3] k) :=
  ⟨⟨by decide, by decide, by decide, by decide, by decide⟩,
    (sp_restrict_sorted_spec ([9, 9] : List ℚ) 2 [1, 3] 3 [0, 1, 2] [5, 6, 7] (by decide)
      (by decide) (by decide) (by decide) (by decide)).2.1⟩

/-- C37, counterexample: `Ri = [1, 2]` is strictly increasing and the sparse vector with
the entries `(2, 5)`, `(1, 7)` has distinct indices, which are not sorted.  The value of
`x` at the index `Ri[0] = 1` is 7, but `sp_restrict_sorted` returns `y = [0, 5]`. -/
theorem sp_restrict_sorted_unsorted_x :
    ([1, 2] : List Nat).Pairwise (fun a b => a < b) ∧ ([2, 1] : List Nat).Nodup ∧
    sp_restrict_sorted ([9, 9] : List ℚ) 2 [1, 2] 2 [2, 1] [5, 7] = [0, 5] ∧
    sp_val 2 [2, 1] ([5, 7] : List ℚ) (rd [1, 2] 0) = 7 ∧
    rd (sp_restrict_sorted ([9, 9] : List ℚ) 2 [1, 2] 2 [2, 1] [5, 7]) 0 ≠
      sp_val 2 [2, 1] ([5, 7] : List ℚ) (rd [1, 2] 0) := by
  decide

/-! ## `interp` -/

theorem foldl_add_sum {α : Type} [LinearOrderedField α] (f : Nat → α) (n : Nat) (a : α) :
    (List.range n).foldl (fun v m => v + f m) a = a + ∑ m in Finset.range n, f m := by
  induction n with
  | zero => simp
  | succ n ih => rw [List.range_succ, List.foldl_append, ih, Finset.sum_range_succ]; simp [add_assoc]

theorem foldl_sub_sum {α : Type} [LinearOrderedField α] (f : Nat → α) (n : Nat) (a : α) :
    (List.range n).foldl (fun v m => v - f m) a = a - ∑ m in Finset.range n, f m := by
  induction n with
  | zero => simp
  | succ n ih =>
    rw [List.range_succ, List.foldl_append, ih, Finset.sum_range_succ]
    simp only [List.foldl_cons, List.foldl_nil]
    ring

/-- A loop that rewrites the cells `yo, ..., yo + m - 1` one by one. -/
theorem rd_fold_off {β : Type} [Zero β] (yo m : Nat) (h : Nat → β → β) (y : List β) :
    ((List.range m).foldl (fun y i => y.set (yo + i) (h i (rd y (yo + i)))) y).length
      = y.length ∧
    ∀ t, rd ((List.range m).foldl (fun y i => y.set (yo + i) (h i (rd y (yo + i)))) y) t =
      if yo ≤ t ∧ t < yo + m ∧ t < y.length then h (t - yo) (rd y t) else rd y t := by
  induction m with
  | zero =>
    refine ⟨rfl, fun t => ?_⟩
    rw [if_neg (by omega)]; rfl
  | succ m ih =>
    obtain ⟨i1, i2⟩ := ih
    rw [List.range_succ, List.foldl_append]
    simp only [List.foldl_cons, List.foldl_nil, List.length_set]
    refine ⟨i1, fun t => ?_⟩
    rw [rd_set, i1, i2 t, i2 (yo + m)]
    by_cases ht : yo + m = t
    · subst ht
      by_cases hl : yo + m < y.length
      · rw [if_pos ⟨rfl, hl⟩, if_neg (by omega), if_pos ⟨by omega, by omega, hl⟩]
        simp
      · rw [if_neg (fun h => hl h.2), if_neg (by omega), if_neg (by omega)]
    · rw [if_neg (fun h => ht h.1)]
      by_cases hc : yo ≤ t ∧ t < yo + m ∧ t < y.length
      · rw [if_pos hc, if_pos ⟨hc.1, by omega, hc.2.2⟩]
      · rw [if_neg hc, if_neg (by omega)]

theorem mv_utt_inv {α : Type} [LinearOrderedField α] (y : List α) (n : Nat)
    (U x : List α) :
    ((List.range n).foldl (mv_utt_step U x) (y, 0)).2 = tri n ∧
    ((List.range n).foldl (mv_utt_step U x) (y, 0)).1.length = y.length ∧
    ∀ j, rd ((List.range n).foldl (mv_utt_step U x) (y, 0)).1 j =
      if j < n ∧ j < y.length then
        ∑ m in Finset.range (j + 1), rd U (tri j + m) * rd x m
      else rd y j := by
  induction n with
  | zero =>
    refine ⟨rfl, rfl, fun j => ?_⟩
    rw [if_neg (by omega)]; rfl
  | succ n ih =>
    obtain ⟨i1, i2, i3⟩ := ih
    rw [List.range_succ, List.foldl_append]
    simp only [List.foldl_cons, List.foldl_nil]
    generalize (List.range n).foldl (mv_utt_step U x) (y, 0) = s at i1 i2 i3 ⊢
    unfold mv_utt_step
    simp only [List.length_set]
    refine ⟨by rw [i1]; rfl, i2, fun j => ?_⟩
    rw [rd_set, i2, i3 j, foldl_add_sum, zero_add, i1]
    by_cases hj : n = j
    · subst hj
      by_cases hl : n < y.length
      · rw [if_pos ⟨rfl, hl⟩, if_pos ⟨by omega, hl⟩]
      · rw [if_neg (fun h => hl h.2), if_neg (by omega), if_neg (by omega)]
    · rw [if_neg (fun h => hj h.1)]
      by_cases hc : j < n ∧ j < y.length
      · rw [if_pos hc, if_pos ⟨by omega, hc.2⟩]
      · rw [if_neg hc, if_neg (by omega)]

theorem mv_utt_length {α : Type} [LinearOrderedField α] (y : List α) (n : Nat)
    (U x : List α) : (mv_utt y n U x).length = y.length :=
  (mv_utt_inv y n U x).2.1

theorem rd_mv_utt {α : Type} [LinearOrderedField α] (y : List α) (n : Nat)
    (U x : List α) (j : Nat) :
    rd (mv_utt y n U x) j =
      if j < n ∧ j < y.length then
        ∑ m in Finset.range (j + 1), rd U (tri j + m) * rd x m
      else rd y j :=
  (mv_utt_inv y n U x).2.2 j

theorem mv_ut_inv {α : Type} [LinearOrderedField α] (y : List α) (yo n : Nat)
    (U x : List α) :
    ((List.range n).foldl (mv_ut_step yo U x) (y, 0)).2 = tri n ∧
    ((List.range n).foldl (mv_ut_step yo U x) (y, 0)).1.length = y.length ∧
    ∀ t, rd ((List.range n).foldl (mv_ut_step yo U x) (y, 0)).1 t =
      if yo ≤ t ∧ t < yo + n ∧ t < y.length then
        ∑ j in Finset.range n, (if t - yo ≤ j then rd U (tri j + (t - yo)) * rd x j else 0)
      else rd y t := by
  induction n with
  | zero =>
    refine ⟨rfl, rfl, fun j => ?_⟩
    rw [if_neg (by omega)]; rfl
  | succ n ih =>
    obtain ⟨i1, i2, i3⟩ := ih
    rw [List.range_succ, List.foldl_append]
    simp only [List.foldl_cons, List.foldl_nil]
    generalize (List.range n).foldl (mv_ut_step yo U x) (y, 0) = s at i1 i2 i3 ⊢
    unfold mv_ut_step
    simp only
    obtain ⟨f1, f2⟩ := rd_fold_off yo (n + 1) (fun i v => v + rd U (s.2 + i) * rd x n)
      (s.1.set (yo + n) 0)
    simp only [List.length_set] at f1 f2
    refine ⟨by rw [i1]; rfl, by rw [f1, i2], fun t => ?_⟩
    rw [f2 t, rd_set, i2, i3 t, i1]
    by_cases hc : yo ≤ t ∧ t < yo + (n + 1) ∧ t < y.length
    · rw [if_pos hc, if_pos hc, Finset.sum_range_succ]
      by_cases ht : yo + n = t
      · rw [if_pos ⟨ht, hc.2.2⟩, if_pos (by omega), zero_add]
        rw [Finset.sum_eq_zero, zero_add]
        intro j hj
        rw [Finset.mem_range] at hj
        rw [if_neg (by omega)]
      · rw [if_neg (fun h => ht h.1), if_pos ⟨hc.1, by omega, hc.2.2⟩, if_pos (by omega)]
    · rw [if_neg hc, if_neg hc]
      by_cases ht : yo + n = t
      · rw [if_neg (by omega), if_neg (by omega)]
      · rw [if_neg (fun h => ht h.1), if_neg (by omega)]

theorem mv_ut_length {α : Type} [LinearOrderedField α] (y : List α) (yo n : Nat)
    (U x : List α) : (mv_ut y yo n U x).length = y.length :=
  (mv_ut_inv y yo n U x).2.1

theorem rd_mv_ut {α : Type} [LinearOrderedField α] (y : List α) (yo n : Nat)
    (U x : List α) (t : Nat) :
    rd (mv_ut y yo n U x) t =
      if yo ≤ t ∧ t < yo + n ∧ t < y.length then
        ∑ j in Finset.range n, (if t - yo ≤ j then rd U (tri j + (t - yo)) * rd x j else 0)
      else rd y t :=
  (mv_ut_inv y yo n U x).2.2 t

theorem tri_mono (a b : Nat) (h : a ≤ b) : tri a ≤ tri b := by
  induction b with
  | zero => rw [Nat.le_zero.1 h]
  | succ b ih =>
    rcases Nat.eq_or_lt_of_le h with e | e
    · rw [e]
    · have := ih (by omega)
      show tri a ≤ tri b + (b + 1)
      omega

theorem tri_two (n : Nat) : 2 * tri n = n * (n + 1) := by
  induction n with
  | zero => rfl
  | succ n ih =>
    show 2 * (tri n + (n + 1)) = (n + 1) * (n + 1 + 1)
    rw [Nat.mul_add, ih]
    ring

/-- The inner loop of `mv_ut` reading `U` from the array it writes gives the same array
as reading it from a copy, when the cells read lie below the cells written. -/
theorem mv_ut_self_inner {α : Type} [LinearOrderedField α] (Q : List α) (yo p : Nat)
    (c : α) (m : Nat) (hp : p + m ≤ yo) (y : List α) (hy : ∀ t, t < yo → rd y t = rd Q t) :
    (List.range m).foldl (fun y i => y.set (yo + i) (rd y (yo + i) + rd y (p + i) * c)) y =
      (List.range m).foldl (fun y i => y.set (yo + i) (rd y (yo + i) + rd Q (p + i) * c)) y := by
  induction m with
  | zero => rfl
  | succ m ih =>
    rw [List.range_succ, List.foldl_append, List.foldl_append, ih (by omega)]
    simp only [List.foldl_cons, List.foldl_nil]
    have := (rd_fold_off yo m (fun i v => v + rd Q (p + i) * c) y).2 (p + m)
    rw [if_neg (by omega)] at this
    rw [this, hy _ (by omega)]

theorem mv_ut_self_eq {α : Type} [LinearOrderedField α] (Q : List α) (yo n : Nat)
    (x : List α) (h : tri n ≤ yo) : mv_ut_self Q yo n x = mv_ut Q yo n Q x := by
  unfold mv_ut_self mv_ut
  have key : ∀ k, k ≤ n →
      (List.range k).foldl (mv_ut_self_step yo x) (Q, 0) =
        (List.range k).foldl (mv_ut_step yo Q x) (Q, 0) := by
    intro k hk
    induction k with
    | zero => rfl
    | succ k ih =>
      rw [List.range_succ, List.foldl_append, List.foldl_append, ih (by omega)]
      simp only [List.foldl_cons, List.foldl_nil]
      obtain ⟨i1, i2, i3⟩ := mv_ut_inv Q yo k Q x
      generalize (List.range k).foldl (mv_ut_step yo Q x) (Q, 0) = s at i1 i2 i3 ⊢
      unfold mv_ut_self_step mv_ut_step
      have hk1 : tri (k + 1) ≤ yo := le_trans (tri_mono _ _ hk) h
      have hk2 : tri (k + 1) = tri k + (k + 1) := rfl
      rw [mv_ut_self_inner Q yo s.2 (rd x k) (k + 1) (by rw [i1]; omega)]
      intro t ht
      rw [rd_set, if_neg (by omega), i3 t, if_neg (by omega)]
  rw [key n (le_refl _)]

/-- The array written by `sp_restrict_sorted` for strictly increasing `Ri` and `xi`. -/
theorem sp_restrict_sorted_rd {α : Type} [Zero α] (y : List α) (Rn : Nat) (Ri : List Nat)
    (xn : Nat) (xi : List Nat) (x : List α)
    (hR : ∀ a b, a < b → b < Rn → rd Ri a < rd Ri b)
    (hx : ∀ a b, a < b → b < xn → rd xi a < rd xi b) (hy : Rn ≤ y.length) :
    (sp_restrict_sorted y Rn Ri xn xi x).length = y.length ∧
    (∀ k, k < Rn → rd (sp_restrict_sorted y Rn Ri xn xi x) k = sp_val xn xi x (rd Ri k)) ∧
    (∀ k, Rn ≤ k → rd (sp_restrict_sorted y Rn Ri xn xi x) k = rd y k) := by
  obtain ⟨i1, i2, i3, i4, i5⟩ := sp_restrict_inv y Ri Rn xn xi x hR hx hy xn (le_refl _)
  unfold sp_restrict_sorted
  simp only
  generalize (List.range xn).foldl (sp_restrict_step Ri Rn xi x) (y, 0) = s
    at i1 i2 i3 i4 i5 ⊢
  refine ⟨by rw [length_zero_fill]; exact i2, ?_, ?_⟩
  · intro k hk
    rw [rd_zero_fill]
    by_cases hks : k < s.2
    · rw [if_neg (by omega)]
      exact i3 k hks
    · rw [if_pos ⟨by omega, by omega, by omega⟩]
      symm
      apply sp_val_none
      intro t ht he
      have h1 := i4 (by omega) t ht
      rcases Nat.eq_or_lt_of_le (Nat.le_of_not_lt hks) with e | e
      · rw [e] at h1; omega
      · have := hR s.2 k e hk; omega
  · intro k hk
    rw [rd_zero_fill, if_neg (by omega)]
    exact i5 k hk

theorem bform_linear {α : Type} [LinearOrderedField α] (n : Nat) (M : Nat → Nat → α) :
    ∃ B : (Nat → α) →ₗ[α] (Nat → α) →ₗ[α] α, ∀ u v, B u v = bform n M u v :=
  ⟨LinearMap.mk₂ α (bform n M)
    (by intro u u' v; simp only [bform, Pi.add_apply, add_mul, Finset.sum_add_distrib])
    (by intro c u v; simp only [bform, Pi.smul_apply, smul_eq_mul, Finset.mul_sum, mul_assoc])
    (by intro u v v'; simp only [bform, Pi.add_apply, mul_add, Finset.sum_add_distrib])
    (by
      intro c u v
      simp only [bform, Pi.smul_apply, smul_eq_mul, Finset.mul_sum]
      refine Finset.sum_congr rfl (fun a _ => Finset.sum_congr rfl (fun b _ => ?_))
      ring),
    fun _ _ => rfl⟩

theorem bform_symm {α : Type} [LinearOrderedField α] (n : Nat) (M : Nat → Nat → α)
    (hsym : ∀ a b, a < n → b < n → M a b = M b a) (u v : Nat → α) :
    bform n M u v = bform n M v u := by
  unfold bform
  rw [Finset.sum_comm]
  refine Finset.sum_congr rfl (fun a ha => Finset.sum_congr rfl (fun b hb => ?_))
  rw [hsym b a (Finset.mem_range.1 hb) (Finset.mem_range.1 ha)]
  ring

theorem bform_unit_right {α : Type} [LinearOrderedField α] (n : Nat) (M : Nat → Nat → α)
    (k : Nat) (hk : k < n) (u : Nat → α) :
    bform n M u (unit_vec k) = ∑ a in Finset.range n, u a * M a k := by
  unfold bform unit_vec
  refine Finset.sum_congr rfl (fun a _ => ?_)
  simp only [mul_ite, mul_one, mul_zero]
  rw [Finset.sum_ite_eq', if_pos (Finset.mem_range.2 hk)]

theorem bform_unit_left {α : Type} [LinearOrderedField α] (n : Nat) (M : Nat → Nat → α)
    (k : Nat) (hk : k < n) (v : Nat → α) :
    bform n M (unit_vec k) v = ∑ b in Finset.range n, M k b * v b := by
  unfold bform unit_vec
  simp only [ite_mul, one_mul, zero_mul]
  rw [Finset.sum_comm]
  refine Finset.sum_congr rfl (fun b _ => ?_)
  rw [Finset.sum_ite_eq', if_pos (Finset.mem_range.2 hk)]

/-- One step of the Gram-Schmidt process in a symmetric bilinear form: the part of `e`
orthogonal to the orthonormal vectors `q 0, ..., q (k-1)`. -/
theorem gs_step {α : Type} [LinearOrderedField α] {V : Type} [AddCommGroup V] [Module α V]
    (B : V →ₗ[α] V →ₗ[α] α) (hsym : ∀ u v, B u v = B v u) (k : Nat) (q : Nat → V)
    (horth : ∀ i j, i < k → j < k → B (q i) (q j) = if i = j then 1 else 0) (e : V) :
    B (e - ∑ j in Finset.range k, B (q j) e • q j) (e - ∑ j in Finset.range k, B (q j) e • q j)
      = B e e - B e (∑ j in Finset.range k, B (q j) e • q j) ∧
    ∀ j, j < k → B (q j) (e - ∑ j in Finset.range k, B (q j) e • q j) = 0 := by
  have h1 : ∀ j, j < k → B (q j) (e - ∑ j in Finset.range k, B (q j) e • q j) = 0 := by
    intro j hj
    rw [map_sub, map_sum]
    simp only [map_smul, smul_eq_mul]
    rw [Finset.sum_congr rfl (fun i hi => by
      rw [horth j i hj (Finset.mem_range.1 hi)])]
    simp only [mul_ite, mul_one, mul_zero]
    rw [Finset.sum_ite_eq, if_pos (Finset.mem_range.2 hj)]
    ring
  refine ⟨?_, h1⟩
  have h2 : B (∑ j in Finset.range k, B (q j) e • q j)
      (e - ∑ j in Finset.range k, B (q j) e • q j) = 0 := by
    rw [map_sum, LinearMap.sum_apply]
    apply Finset.sum_eq_zero
    intro j hj
    rw [map_smul, LinearMap.smul_apply, h1 j (Finset.mem_range.1 hj), smul_zero]
  have h3 : B (e - ∑ j in Finset.range k, B (q j) e • q j)
      (∑ j in Finset.range k, B (q j) e • q j) = 0 := by
    rw [hsym]; exact h2
  rw [map_sub, h3, sub_zero, hsym _ e, map_sub]

theorem sum_packed_col {α : Type} [LinearOrderedField α] (Q : List α) (j n : Nat)
    (hj : j < n) (f : Nat → α) :
    ∑ a in Finset.range n, packed_col Q j a * f a =
      ∑ a in Finset.range (j + 1), rd Q (tri j + a) * f a := by
  rw [← Finset.sum_subset (Finset.range_subset.2 (show j + 1 ≤ n by omega))]
  · refine Finset.sum_congr rfl (fun a ha => ?_)
    rw [Finset.mem_range] at ha
    unfold packed_col
    rw [if_pos (by omega)]
  · intro a _ ha
    rw [Finset.mem_range] at ha
    unfold packed_col
    rw [if_neg (by omega), zero_mul]

theorem interp_scale_spec {α : Type} [LinearOrderedField α] (Q : List α) (qo k : Nat)
    (al : α) :
    (interp_scale Q qo k al).length = Q.length ∧
    ∀ t, rd (interp_scale Q qo k al) t =
      if t = qo + k ∧ t < Q.length then -al
      else if qo ≤ t ∧ t < qo + k ∧ t < Q.length then rd Q t * al else rd Q t := by
  obtain ⟨f1, f2⟩ := rd_fold_off qo k (fun _ v => v * al) Q
  unfold interp_scale
  refine ⟨by rw [List.length_set, f1], fun t => ?_⟩
  rw [rd_set, f1, f2 t]
  split_ifs with a1 a2 a3 a4 <;> first | rfl | (exfalso; omega)

/-- One column of the loop over `k` of `interp`: column `k` of `Q` is the normalised part
of `e_k` that is orthogonal, in the form of the restricted matrix, to the columns before
it. -/
theorem interp_col_step {α : Type} [LinearOrderedField α] (sqrt : α → α)
    (hsqrt : ∀ x : α, 0 ≤ x → 0 ≤ sqrt x ∧ sqrt x * sqrt x = x)
    (At : csr_mat α) (Qj : List Nat) (nz : Nat)
    (hQj : ∀ a b, a < b → b < nz → rd Qj a < rd Qj b)
    (hAt : ∀ k, k < nz → ∀ a b, a < b →
      b < row_nz At (rd Qj k) →
      rd (At.col.drop (rd At.row_off (rd Qj k))) a <
        rd (At.col.drop (rd At.row_off (rd Qj k))) b)
    (hsym : ∀ a b, a < nz → b < nz → pattern_mat At Qj a b = pattern_mat At Qj b a)
    (hpd : ∀ v : Nat → α, (∃ a, a < nz ∧ v a ≠ 0) → 0 < bform nz (pattern_mat At Qj) v v)
    (st : interp_state α) (k : Nat) (hk : k < nz) (e1 : st.qk = tri k)
    (h1 : nz ≤ st.sqv1.length) (h2 : nz ≤ st.sqv2.length) (h3 : tri nz ≤ st.Q.length)
    (horth : ∀ i j, i < k → j < k →
      bform nz (pattern_mat At Qj) (packed_col st.Q i) (packed_col st.Q j) =
        if i = j then 1 else 0)
    (hspan : ∀ i, i < k → ∃ t : Nat → α,
      (unit_vec i : Nat → α) = ∑ j in Finset.range (i + 1), t j • packed_col st.Q j) :
    (interp_col sqrt At Qj st k).qk = tri (k + 1) ∧
    (interp_col sqrt At Qj st k).sqv1.length = st.sqv1.length ∧
    (interp_col sqrt At Qj st k).sqv2.length = st.sqv2.length ∧
    (interp_col sqrt At Qj st k).Q.length = st.Q.length ∧
    (∀ i j, i < k + 1 → j < k + 1 →
      bform nz (pattern_mat At Qj) (packed_col (interp_col sqrt At Qj st k).Q i)
        (packed_col (interp_col sqrt At Qj st k).Q j) = if i = j then 1 else 0) ∧
    (∀ i, i < k + 1 → ∃ t : Nat → α,
      (unit_vec i : Nat → α) =
        ∑ j in Finset.range (i + 1), t j • packed_col (interp_col sqrt At Qj st k).Q j) := by
  obtain ⟨B, hB⟩ := bform_linear nz (pattern_mat At Qj)
  have hBsym : ∀ u v, B u v = B v u := fun u v => by
    rw [hB, hB]; exact bform_symm nz _ hsym u v
  have horthB : ∀ i j, i < k → j < k →
      B (packed_col st.Q i) (packed_col st.Q j) = if i = j then 1 else 0 := fun i j hi hj => by
    rw [hB]; exact horth i j hi hj
  obtain ⟨g1, g2⟩ := gs_step B hBsym k (packed_col st.Q) horthB (unit_vec k)
  have htk : tri (k + 1) ≤ st.Q.length := le_trans (tri_mono _ _ hk) h3
  have htk' : tri (k + 1) = tri k + (k + 1) := rfl
  have hres : interp_col sqrt At Qj st k =
      ⟨sp_restrict_sorted st.sqv1 (k + 1) Qj
          (row_nz At (rd Qj k))
          (At.col.drop (rd At.row_off (rd Qj k))) (At.a.drop (rd At.row_off (rd Qj k))),
        mv_utt st.sqv2 k st.Q (sp_restrict_sorted st.sqv1 (k + 1) Qj
          (row_nz At (rd Qj k))
          (At.col.drop (rd At.row_off (rd Qj k))) (At.a.drop (rd At.row_off (rd Qj k)))),
        interp_scale (mv_ut_self st.Q st.qk k (mv_utt st.sqv2 k st.Q
          (sp_restrict_sorted st.sqv1 (k + 1) Qj
          (row_nz At (rd Qj k))
          (At.col.drop (rd At.row_off (rd Qj k))) (At.a.drop (rd At.row_off (rd Qj k))))))
          st.qk k
          (interp_alpha sqrt (sp_restrict_sorted st.sqv1 (k + 1) Qj
          (row_nz At (rd Qj k))
          (At.col.drop (rd At.row_off (rd Qj k))) (At.a.drop (rd At.row_off (rd Qj k))))
            (mv_ut_self st.Q st.qk k (mv_utt st.sqv2 k st.Q
          (sp_restrict_sorted st.sqv1 (k + 1) Qj
          (row_nz At (rd Qj k))
          (At.col.drop (rd At.row_off (rd Qj k))) (At.a.drop (rd At.row_off (rd Qj k))))))
            st.qk k),
        st.qk + (k + 1)⟩ := rfl
  rw [hres]
  clear hres
  rw [e1]
  -- the restricted row of `At`
  obtain ⟨s1, s2, s3⟩ := sp_restrict_sorted_rd st.sqv1 (k + 1) Qj
    (row_nz At (rd Qj k))
    (At.col.drop (rd At.row_off (rd Qj k))) (At.a.drop (rd At.row_off (rd Qj k)))
    (fun a b hab hb => hQj a b hab (by omega)) (hAt k hk) (by omega)
  have s2' : ∀ m, m < k + 1 → rd (sp_restrict_sorted st.sqv1 (k + 1) Qj
      (row_nz At (rd Qj k))
      (At.col.drop (rd At.row_off (rd Qj k))) (At.a.drop (rd At.row_off (rd Qj k)))) m =
      pattern_mat At Qj k m := s2
  clear s2 s3
  generalize sp_restrict_sorted st.sqv1 (k + 1) Qj
    (row_nz At (rd Qj k))
    (At.col.drop (rd At.row_off (rd Qj k))) (At.a.drop (rd At.row_off (rd Qj k))) = sqv1
    at s1 s2' ⊢
  -- the coefficients `Q^t A e_s`
  have c_eq : ∀ j, j < k →
      rd (mv_utt st.sqv2 k st.Q sqv1) j = B (packed_col st.Q j) (unit_vec k) := by
    intro j hj
    rw [rd_mv_utt, if_pos ⟨hj, by omega⟩, hB, bform_unit_right nz _ k hk,
      sum_packed_col st.Q j nz (by omega)]
    refine Finset.sum_congr rfl (fun m hm => ?_)
    rw [Finset.mem_range] at hm
    rw [s2' m (by omega), hsym m k (by omega) hk]
  have hl2 := mv_utt_length st.sqv2 k st.Q sqv1
  generalize mv_utt st.sqv2 k st.Q sqv1 = sqv2 at c_eq hl2 ⊢
  -- the projection `Q Q^t A e_s`
  have p_apply : ∀ a, (∑ j in Finset.range k,
      B (packed_col st.Q j) (unit_vec k) • packed_col st.Q j) a =
      ∑ j in Finset.range k, B (packed_col st.Q j) (unit_vec k) * packed_col st.Q j a := by
    intro a
    rw [Finset.sum_apply]
    rfl
  generalize hp : (∑ j in Finset.range k,
      B (packed_col st.Q j) (unit_vec k) • packed_col st.Q j) = p at g1 g2 p_apply
  have p_zero : ∀ a, k ≤ a → p a = 0 := by
    intro a ha
    rw [p_apply]
    apply Finset.sum_eq_zero
    intro j hj
    rw [Finset.mem_range] at hj
    unfold packed_col
    rw [if_neg (by omega), mul_zero]
  rw [mv_ut_self_eq st.Q (tri k) k sqv2 (le_refl _)]
  have hl3 := mv_ut_length st.Q (tri k) k st.Q sqv2
  have hQ1 := rd_mv_ut st.Q (tri k) k st.Q sqv2
  have hQ1a : ∀ a, a < k → rd (mv_ut st.Q (tri k) k st.Q sqv2) (tri k + a) = p a := by
    intro a ha
    rw [hQ1, if_pos ⟨by omega, by omega, by omega⟩, p_apply]
    refine Finset.sum_congr rfl (fun j hj => ?_)
    rw [Finset.mem_range] at hj
    rw [Nat.add_sub_cancel_left, c_eq j hj]
    unfold packed_col
    by_cases haj : a ≤ j
    · rw [if_pos haj, if_pos haj]; ring
    · rw [if_neg haj, if_neg haj, mul_zero]
  have hQ1b : ∀ t, t < tri k → rd (mv_ut st.Q (tri k) k st.Q sqv2) t = rd st.Q t := by
    intro t ht
    rw [hQ1, if_neg (by omega)]
  clear hQ1
  generalize mv_ut st.Q (tri k) k st.Q sqv2 = Q1 at hl3 hQ1a hQ1b ⊢
  -- the scalar alpha
  have hal0 : (List.range k).foldl (fun alpha m => alpha - rd sqv1 m * rd Q1 (tri k + m))
      (rd sqv1 k) = B (unit_vec k - p) (unit_vec k - p) := by
    rw [g1, foldl_sub_sum, hB, hB, bform_unit_left nz _ k hk, bform_unit_left nz _ k hk,
      s2' k (by omega)]
    congr 1
    · unfold unit_vec
      simp only [mul_ite, mul_one, mul_zero]
      rw [Finset.sum_ite_eq', if_pos (Finset.mem_range.2 hk)]
    · rw [← Finset.sum_subset (Finset.range_subset.2 (show k ≤ nz by omega))]
      · refine Finset.sum_congr rfl (fun m hm => ?_)
        rw [Finset.mem_range] at hm
        rw [s2' m (by omega), hQ1a m hm]
      · intro b _ hb
        rw [Finset.mem_range] at hb
        rw [p_zero b (by omega), mul_zero]
  have hpos : 0 < B (unit_vec k - p) (unit_vec k - p) := by
    rw [hB]
    apply hpd
    refine ⟨k, hk, ?_⟩
    rw [Pi.sub_apply, p_zero k (le_refl _), sub_zero]
    unfold unit_vec
    rw [if_pos rfl]
    exact one_ne_zero
  obtain ⟨r1, r2⟩ := hsqrt _ (le_of_lt hpos)
  have hr : sqrt (B (unit_vec k - p) (unit_vec k - p)) ≠ 0 := by
    intro h0
    rw [h0, mul_zero] at r2
    rw [← r2] at hpos
    exact lt_irrefl _ hpos
  have hal : interp_alpha sqrt sqv1 Q1 (tri k) k =
      -(sqrt (B (unit_vec k - p) (unit_vec k - p)))⁻¹ := by
    unfold interp_alpha
    simp only
    rw [hal0]
    field_simp
  rw [hal]
  generalize sqrt (B (unit_vec k - p) (unit_vec k - p)) = r at r1 r2 hr
  obtain ⟨q1, q2⟩ := interp_scale_spec Q1 (tri k) k (-r⁻¹)
  -- the columns of the new `Q`
  have hold : ∀ j, j < k → packed_col (interp_scale Q1 (tri k) k (-r⁻¹)) j =
      packed_col st.Q j := by
    intro j hj
    funext a
    unfold packed_col
    by_cases haj : a ≤ j
    · have hlt : tri j + a < tri k := by
        have := tri_mono (j + 1) k (by omega)
        have e : tri (j + 1) = tri j + (j + 1) := rfl
        omega
      rw [if_pos haj, if_pos haj, q2, if_neg (by omega), if_neg (by omega), hQ1b _ hlt]
    · rw [if_neg haj, if_neg haj]
  have hnew : packed_col (interp_scale Q1 (tri k) k (-r⁻¹)) k = r⁻¹ • (unit_vec k - p) := by
    funext a
    rw [Pi.smul_apply, Pi.sub_apply, smul_eq_mul]
    unfold packed_col unit_vec
    by_cases hak : a ≤ k
    · rw [if_pos hak, q2]
      rcases Nat.eq_or_lt_of_le hak with e | e
      · rw [if_pos ⟨by omega, by omega⟩, if_pos e, e, p_zero k (le_refl _)]
        ring
      · rw [if_neg (by omega), if_pos ⟨by omega, by omega, by omega⟩, hQ1a a e,
          if_neg (by omega)]
        ring
    · rw [if_neg hak, if_neg (by omega), p_zero a (by omega)]
      ring
  refine ⟨rfl, s1, hl2, by rw [q1, hl3], ?_, ?_⟩
  · intro i j hi hj
    show bform nz (pattern_mat At Qj) (packed_col (interp_scale Q1 (tri k) k (-r⁻¹)) i)
      (packed_col (interp_scale Q1 (tri k) k (-r⁻¹)) j) = _
    rw [← hB]
    rcases Nat.eq_or_lt_of_le (Nat.le_of_lt_succ hi) with ei | ei
    · rcases Nat.eq_or_lt_of_le (Nat.le_of_lt_succ hj) with ej | ej
      · rw [ei, ej, hnew, if_pos rfl]
        simp only [map_smul, LinearMap.smul_apply, smul_eq_mul]
        rw [← r2]
        field_simp
      · rw [ei, hnew, hold j ej, if_neg (by omega)]
        simp only [map_smul, LinearMap.smul_apply, smul_eq_mul]
        rw [hBsym, g2 j ej, mul_zero]
    · rcases Nat.eq_or_lt_of_le (Nat.le_of_lt_succ hj) with ej | ej
      · rw [ej, hnew, hold i ei, if_neg (by omega)]
        simp only [map_smul, smul_eq_mul]
        rw [g2 i ei, mul_zero]
      · rw [hold i ei, hold j ej]
        exact horthB i j ei ej
  · intro i hi
    show ∃ t : Nat → α, (unit_vec i : Nat → α) =
      ∑ j in Finset.range (i + 1), t j • packed_col (interp_scale Q1 (tri k) k (-r⁻¹)) j
    rcases Nat.eq_or_lt_of_le (Nat.le_of_lt_succ hi) with ei | ei
    · refine ⟨fun j => if j = k then r else B (packed_col st.Q j) (unit_vec k), ?_⟩
      rw [ei, Finset.sum_range_succ]
      beta_reduce
      rw [if_pos rfl, hnew, smul_smul, mul_inv_cancel₀ hr, one_smul]
      have hs : ∑ j in Finset.range k, (if j = k then r else B (packed_col st.Q j) (unit_vec k)) •
          packed_col (interp_scale Q1 (tri k) k (-r⁻¹)) j = p := by
        rw [← hp]
        refine Finset.sum_congr rfl (fun j hj => ?_)
        rw [Finset.mem_range] at hj
        rw [if_neg (by omega), hold j hj]
      rw [hs]
      abel
    · obtain ⟨t, ht⟩ := hspan i ei
      refine ⟨t, ?_⟩
      rw [ht]
      refine Finset.sum_congr rfl (fun j hj => ?_)
      rw [hold j (by have := Finset.mem_range.1 hj; omega)]

/-- The loop over `k` of `interp`: the columns of the packed matrix `Q` are orthonormal
in the form of the restricted matrix, and every unit vector is a combination of them. -/
theorem interp_basis_spec {α : Type} [LinearOrderedField α] (sqrt : α → α)
    (hsqrt : ∀ x : α, 0 ≤ x → 0 ≤ sqrt x ∧ sqrt x * sqrt x = x)
    (At : csr_mat α) (Qj : List Nat) (nz : Nat)
    (hQj : ∀ a b, a < b → b < nz → rd Qj a < rd Qj b)
    (hAt : ∀ k, k < nz → ∀ a b, a < b →
      b < row_nz At (rd Qj k) →
      rd (At.col.drop (rd At.row_off (rd Qj k))) a <
        rd (At.col.drop (rd At.row_off (rd Qj k))) b)
    (hsym : ∀ a b, a < nz → b < nz → pattern_mat At Qj a b = pattern_mat At Qj b a)
    (hpd : ∀ v : Nat → α, (∃ a, a < nz ∧ v a ≠ 0) → 0 < bform nz (pattern_mat At Qj) v v)
    (st : interp_state α)
    (h1 : nz ≤ st.sqv1.length) (h2 : nz ≤ st.sqv2.length) (h3 : tri nz ≤ st.Q.length) :
    (interp_basis sqrt At Qj nz st).sqv1.length = st.sqv1.length ∧
    (interp_basis sqrt At Qj nz st).sqv2.length = st.sqv2.length ∧
    (interp_basis sqrt At Qj nz st).Q.length = st.Q.length ∧
    (∀ i j, i < nz → j < nz →
      bform nz (pattern_mat At Qj) (packed_col (interp_basis sqrt At Qj nz st).Q i)
        (packed_col (interp_basis sqrt At Qj nz st).Q j) = if i = j then 1 else 0) ∧
    (∀ i, i < nz → ∃ t : Nat → α,
      (unit_vec i : Nat → α) =
        ∑ j in Finset.range (i + 1), t j • packed_col (interp_basis sqrt At Qj nz st).Q j) := by
  have key : ∀ k, k ≤ nz →
      ((List.range k).foldl (interp_col sqrt At Qj) ⟨st.sqv1, st.sqv2, st.Q, 0⟩).qk = tri k ∧
      ((List.range k).foldl (interp_col sqrt At Qj) ⟨st.sqv1, st.sqv2, st.Q, 0⟩).sqv1.length
        = st.sqv1.length ∧
      ((List.range k).foldl (interp_col sqrt At Qj) ⟨st.sqv1, st.sqv2, st.Q, 0⟩).sqv2.length
        = st.sqv2.length ∧
      ((List.range k).foldl (interp_col sqrt At Qj) ⟨st.sqv1, st.sqv2, st.Q, 0⟩).Q.length
        = st.Q.length ∧
      (∀ i j, i < k → j < k →
        bform nz (pattern_mat At Qj)
          (packed_col ((List.range k).foldl (interp_col sqrt At Qj)
            ⟨st.sqv1, st.sqv2, st.Q, 0⟩).Q i)
          (packed_col ((List.range k).foldl (interp_col sqrt At Qj)
            ⟨st.sqv1, st.sqv2, st.Q, 0⟩).Q j) = if i = j then 1 else 0) ∧
      (∀ i, i < k → ∃ t : Nat → α,
        (unit_vec i : Nat → α) =
          ∑ j in Finset.range (i + 1), t j • packed_col ((List.range k).foldl
            (interp_col sqrt At Qj) ⟨st.sqv1, st.sqv2, st.Q, 0⟩).Q j) := by
    intro k hk
    induction k with
    | zero =>
      exact ⟨rfl, rfl, rfl, rfl, fun i j hi => absurd hi (Nat.not_lt_zero _),
        fun i hi => absurd hi (Nat.not_lt_zero _)⟩
    | succ k ih =>
      obtain ⟨i1, i2, i3, i4, i5, i6⟩ := ih (by omega)
      rw [List.range_succ, List.foldl_append]
      simp only [List.foldl_cons, List.foldl_nil]
      generalize (List.range k).foldl (interp_col sqrt At Qj) ⟨st.sqv1, st.sqv2, st.Q, 0⟩ = s
        at i1 i2 i3 i4 i5 i6 ⊢
      obtain ⟨j1, j2, j3, j4, j5, j6⟩ := interp_col_step sqrt hsqrt At Qj nz hQj hAt hsym hpd
        s k (by omega) i1 (by omega) (by omega) (by omega) i5 i6
      exact ⟨j1, by rw [j2, i2], by rw [j3, i3], by rw [j4, i4], j5, j6⟩
  obtain ⟨_, k2, k3, k4, k5, k6⟩ := key nz (le_refl _)
  exact ⟨k2, k3, k4, k5, k6⟩

/-- The two products that end a round of `interp`: with orthonormal columns that span the
unit vectors, `Q Q^t b` solves the restricted system with the right-hand side `b`. -/
theorem interp_solve {α : Type} [LinearOrderedField α] (nz : Nat) (M : Nat → Nat → α)
    (hsym : ∀ a b, a < nz → b < nz → M a b = M b a) (Q : List α)
    (horth : ∀ i j, i < nz → j < nz →
      bform nz M (packed_col Q i) (packed_col Q j) = if i = j then 1 else 0)
    (hspan : ∀ i, i < nz → ∃ t : Nat → α,
      (unit_vec i : Nat → α) = ∑ j in Finset.range (i + 1), t j • packed_col Q j)
    (sqv1 sqv2 a : List α) (wir : Nat) (h2 : nz ≤ sqv2.length) (ha : wir + nz ≤ a.length) :
    (mv_ut a wir nz Q (mv_utt sqv2 nz Q sqv1)).length = a.length ∧
    (∀ k, k < nz →
      ∑ b in Finset.range nz, M k b * rd (mv_ut a wir nz Q (mv_utt sqv2 nz Q sqv1)) (wir + b)
        = rd sqv1 k) ∧
    (∀ t, ¬ (wir ≤ t ∧ t < wir + nz) →
      rd (mv_ut a wir nz Q (mv_utt sqv2 nz Q sqv1)) t = rd a t) := by
  obtain ⟨B, hB⟩ := bform_linear nz M
  have hBsym : ∀ u v, B u v = B v u := fun u v => by
    rw [hB, hB]; exact bform_symm nz _ hsym u v
  have d_eq : ∀ j, j < nz → rd (mv_utt sqv2 nz Q sqv1) j =
      ∑ m in Finset.range nz, packed_col Q j m * rd sqv1 m := by
    intro j hj
    rw [rd_mv_utt, if_pos ⟨hj, by omega⟩, sum_packed_col Q j nz hj]
  generalize mv_utt sqv2 nz Q sqv1 = d at d_eq
  refine ⟨mv_ut_length _ _ _ _ _, ?_, ?_⟩
  · intro k hk
    have w_eq : ∀ b, b < nz → rd (mv_ut a wir nz Q d) (wir + b) =
        (∑ j in Finset.range nz, rd d j • packed_col Q j) b := by
      intro b hb
      rw [rd_mv_ut, if_pos ⟨by omega, by omega, by omega⟩, Finset.sum_apply]
      refine Finset.sum_congr rfl (fun j _ => ?_)
      rw [Nat.add_sub_cancel_left, Pi.smul_apply, smul_eq_mul]
      unfold packed_col
      by_cases hbj : b ≤ j
      · rw [if_pos hbj, if_pos hbj]; ring
      · rw [if_neg hbj, if_neg hbj, mul_zero]
    rw [Finset.sum_congr rfl (fun b hb => by rw [w_eq b (Finset.mem_range.1 hb)]),
      ← bform_unit_left nz M k hk, ← hB]
    have hq : ∀ i, i < nz → B (packed_col Q i)
        (∑ j in Finset.range nz, rd d j • packed_col Q j) = rd d i := by
      intro i hi
      rw [map_sum]
      simp only [map_smul, smul_eq_mul]
      rw [Finset.sum_congr rfl (fun j hj => by
        rw [hB, horth i j hi (Finset.mem_range.1 hj)])]
      simp only [mul_ite, mul_one, mul_zero]
      rw [Finset.sum_ite_eq, if_pos (Finset.mem_range.2 hi)]
    obtain ⟨t, ht⟩ := hspan k hk
    have hk' : (unit_vec k : Nat → α) k = 1 := by unfold unit_vec; rw [if_pos rfl]
    generalize (∑ j in Finset.range nz, rd d j • packed_col Q j) = W at hq ⊢
    rw [ht, map_sum, LinearMap.sum_apply]
    simp only [map_smul, LinearMap.smul_apply, smul_eq_mul]
    rw [Finset.sum_congr rfl (fun j hj => by
      rw [hq j (by have := Finset.mem_range.1 hj; omega),
        d_eq j (by have := Finset.mem_range.1 hj; omega), Finset.mul_sum])]
    rw [Finset.sum_comm]
    have hcol : ∀ m, ∑ j in Finset.range (k + 1), t j * (packed_col Q j m * rd sqv1 m) =
        (unit_vec k : Nat → α) m * rd sqv1 m := by
      intro m
      rw [ht, Finset.sum_apply, Finset.sum_mul]
      refine Finset.sum_congr rfl (fun j _ => ?_)
      rw [Pi.smul_apply, smul_eq_mul]
      ring
    rw [Finset.sum_congr rfl (fun m _ => hcol m)]
    unfold unit_vec
    simp only [ite_mul, one_mul, zero_mul]
    rw [Finset.sum_ite_eq', if_pos (Finset.mem_range.2 hk)]
  · intro t ht
    rw [rd_mv_ut, if_neg (fun c => ht ⟨c.1, c.2.1⟩)]

theorem rows_sorted_raw {α : Type} (A : csr_mat α) (hA : csr_wf A) (hs : csr_rows_sorted A)
    (hm : A.col.length ≤ UINT_MAX) (r : Nat) (hr : r < A.rn) :
    row_nz A r =
      rd A.row_off (r + 1) - rd A.row_off r ∧
    rd A.row_off r ≤ rd A.row_off (r + 1) ∧ rd A.row_off (r + 1) ≤ A.col.length ∧
    ∀ a b, a < b → b < rd A.row_off (r + 1) - rd A.row_off r →
      rd (A.col.drop (rd A.row_off r)) a < rd (A.col.drop (rd A.row_off r)) b := by
  have h1 := hA.2.2.1 r hr
  have h2 : rd A.row_off (r + 1) ≤ A.col.length := by
    have := wf_row_off_le A hA (r + 1) (A.rn - (r + 1)) (by omega)
    rw [show r + 1 + (A.rn - (r + 1)) = A.rn by omega, hA.2.2.2.1] at this
    exact this
  refine ⟨toUint_sub _ _ h1 (by omega), h1, h2, ?_⟩
  intro a b hab hb
  have hl : ((rowIdx A r).map (fun j => rd A.col j)).length =
      rd A.row_off (r + 1) - rd A.row_off r := by
    unfold rowIdx; rw [List.length_map, List.length_range']
  have hrd : ∀ c, c < rd A.row_off (r + 1) - rd A.row_off r →
      rd ((rowIdx A r).map (fun j => rd A.col j)) c = rd (A.col.drop (rd A.row_off r)) c := by
    intro c hc
    rw [rd_eq_getElem _ _ (by rw [hl]; exact hc), List.getElem_map, rd_drop]
    unfold rowIdx
    rw [List.getElem_range']
    simp
  have := pairwise_rd _ _ (hs r hr) a b hab (by rw [hl]; exact hb)
  rwa [hrd a (by omega), hrd b hb] at this

/-- One round of the main loop of `interp`: the cells of the row in `Wt->a` solve the
restricted system. -/
theorem interp_row_spec {α : Type} [LinearOrderedField α] (sqrt : α → α)
    (hsqrt : ∀ x : α, 0 ≤ x → 0 ≤ sqrt x ∧ sqrt x * sqrt x = x)
    (Wt At Bt : csr_mat α) (u lambda : List α) (i nz : Nat)
    (hnz : row_nz Wt i = nz)
    (hQj : ∀ a b, a < b → b < nz →
      rd (Wt.col.drop (rd Wt.row_off i)) a < rd (Wt.col.drop (rd Wt.row_off i)) b)
    (hAt : ∀ k, k < nz → ∀ a b, a < b →
      b < row_nz At (rd (Wt.col.drop (rd Wt.row_off i)) k) →
      rd (At.col.drop (rd At.row_off (rd (Wt.col.drop (rd Wt.row_off i)) k))) a <
        rd (At.col.drop (rd At.row_off (rd (Wt.col.drop (rd Wt.row_off i)) k))) b)
    (hBt : ∀ a b, a < b →
      b < row_nz Bt i →
      rd (Bt.col.drop (rd Bt.row_off i)) a < rd (Bt.col.drop (rd Bt.row_off i)) b)
    (hsym : ∀ a b, a < nz → b < nz →
      pattern_mat At (Wt.col.drop (rd Wt.row_off i)) a b =
        pattern_mat At (Wt.col.drop (rd Wt.row_off i)) b a)
    (hpd : ∀ v : Nat → α, (∃ a, a < nz ∧ v a ≠ 0) →
      0 < bform nz (pattern_mat At (Wt.col.drop (rd Wt.row_off i))) v v)
    (s : interp_state α × List α)
    (h1 : nz ≤ s.1.sqv1.length) (h2 : nz ≤ s.1.sqv2.length) (h3 : tri nz ≤ s.1.Q.length)
    (ha : rd Wt.row_off i + nz ≤ s.2.length) :
    (interp_row sqrt Wt At Bt u lambda s i).1.sqv1.length = s.1.sqv1.length ∧
    (interp_row sqrt Wt At Bt u lambda s i).1.sqv2.length = s.1.sqv2.length ∧
    (interp_row sqrt Wt At Bt u lambda s i).1.Q.length = s.1.Q.length ∧
    (interp_row sqrt Wt At Bt u lambda s i).2.length = s.2.length ∧
    (∀ k, k < nz →
      ∑ b in Finset.range nz, pattern_mat At (Wt.col.drop (rd Wt.row_off i)) k b *
          rd (interp_row sqrt Wt At Bt u lambda s i).2 (rd Wt.row_off i + b) =
        csr_entry Bt i (rd (Wt.col.drop (rd Wt.row_off i)) k) +
          rd u i * rd lambda (rd (Wt.col.drop (rd Wt.row_off i)) k)) ∧
    (∀ t, ¬ (rd Wt.row_off i ≤ t ∧ t < rd Wt.row_off i + nz) →
      rd (interp_row sqrt Wt At Bt u lambda s i).2 t = rd s.2 t) := by
  obtain ⟨b1, b2, b3, b4, b5⟩ := interp_basis_spec sqrt hsqrt At
    (Wt.col.drop (rd Wt.row_off i)) nz hQj hAt hsym hpd s.1 h1 h2 h3
  unfold interp_row
  simp only
  rw [hnz]
  generalize interp_basis sqrt At (Wt.col.drop (rd Wt.row_off i)) nz s.1 = st
    at b1 b2 b3 b4 b5 ⊢
  obtain ⟨r1, r2, r3⟩ := sp_restrict_sorted_rd st.sqv1 nz (Wt.col.drop (rd Wt.row_off i))
    (row_nz Bt i)
    (Bt.col.drop (rd Bt.row_off i)) (Bt.a.drop (rd Bt.row_off i)) hQj hBt (by omega)
  have r2' : ∀ k, k < nz → rd (sp_restrict_sorted st.sqv1 nz (Wt.col.drop (rd Wt.row_off i))
      (row_nz Bt i)
      (Bt.col.drop (rd Bt.row_off i)) (Bt.a.drop (rd Bt.row_off i))) k =
      csr_entry Bt i (rd (Wt.col.drop (rd Wt.row_off i)) k) := r2
  clear r2 r3
  generalize sp_restrict_sorted st.sqv1 nz (Wt.col.drop (rd Wt.row_off i))
    (row_nz Bt i)
    (Bt.col.drop (rd Bt.row_off i)) (Bt.a.drop (rd Bt.row_off i)) = sq at r1 r2' ⊢
  obtain ⟨v1, v2, v3⟩ := interp_solve nz (pattern_mat At (Wt.col.drop (rd Wt.row_off i)))
    hsym st.Q b4 b5
    (forUpd nz (fun k v => v + rd u i * rd lambda (rd (Wt.col.drop (rd Wt.row_off i)) k)) sq)
    st.sqv2 s.2 (rd Wt.row_off i) (by omega) ha
  refine ⟨by rw [forUpd_length, r1, b1], by rw [mv_utt_length, b2], b3, v1, ?_, v3⟩
  intro k hk
  rw [v2 k hk, rd_forUpd, if_pos ⟨hk, by omega⟩, r2' k hk]

theorem interp_max_nz_ge {α : Type} (Wt : csr_mat α) (i : Nat) (hi : i < Wt.rn) :
    row_nz Wt i ≤ interp_max_nz Wt := by
  unfold interp_max_nz
  simp only
  generalize Wt.rn = n at hi
  induction n with
  | zero => omega
  | succ n ih =>
    rw [List.range_succ, List.foldl_append]
    simp only [List.foldl_cons, List.foldl_nil]
    rcases Nat.eq_or_lt_of_le (Nat.le_of_lt_succ hi) with e | e
    · rw [e]
      split_ifs with h <;> omega
    · have := ih e
      split_ifs with h <;> omega

/-- The main loop of `interp` after `n` rows. -/
theorem interp_rows_inv {α : Type} [LinearOrderedField α] (sqrt : α → α)
    (hsqrt : ∀ x : α, 0 ≤ x → 0 ≤ sqrt x ∧ sqrt x * sqrt x = x)
    (Wt At Bt : csr_mat α) (u lambda : List α)
    (hW : csr_wf Wt) (hA : csr_wf At) (hB : csr_wf Bt)
    (hWs : csr_rows_sorted Wt) (hAs : csr_rows_sorted At) (hBs : csr_rows_sorted Bt)
    (hAr : Wt.cn ≤ At.rn) (hBr : Wt.rn ≤ Bt.rn)
    (hWm : Wt.col.length ≤ UINT_MAX) (hAm : At.col.length ≤ UINT_MAX)
    (hBm : Bt.col.length ≤ UINT_MAX)
    (hsym : ∀ i, i < Wt.rn → ∀ a b, a < rd Wt.row_off (i + 1) - rd Wt.row_off i →
      b < rd Wt.row_off (i + 1) - rd Wt.row_off i →
      pattern_mat At (Wt.col.drop (rd Wt.row_off i)) a b =
        pattern_mat At (Wt.col.drop (rd Wt.row_off i)) b a)
    (hpd : ∀ i, i < Wt.rn → ∀ v : Nat → α,
      (∃ a, a < rd Wt.row_off (i + 1) - rd Wt.row_off i ∧ v a ≠ 0) →
      0 < bform (rd Wt.row_off (i + 1) - rd Wt.row_off i)
        (pattern_mat At (Wt.col.drop (rd Wt.row_off i))) v v)
    (st : interp_state α)
    (h1 : interp_max_nz Wt ≤ st.sqv1.length) (h2 : interp_max_nz Wt ≤ st.sqv2.length)
    (h3 : tri (interp_max_nz Wt) ≤ st.Q.length) (n : Nat) (hn : n ≤ Wt.rn) :
    ((List.range n).foldl (interp_row sqrt Wt At Bt u lambda) (st, Wt.a)).1.sqv1.length
      = st.sqv1.length ∧
    ((List.range n).foldl (interp_row sqrt Wt At Bt u lambda) (st, Wt.a)).1.sqv2.length
      = st.sqv2.length ∧
    ((List.range n).foldl (interp_row sqrt Wt At Bt u lambda) (st, Wt.a)).1.Q.length
      = st.Q.length ∧
    ((List.range n).foldl (interp_row sqrt Wt At Bt u lambda) (st, Wt.a)).2.length
      = Wt.a.length ∧
    (∀ i, i < n → ∀ k, k < rd Wt.row_off (i + 1) - rd Wt.row_off i →
      ∑ b in Finset.range (rd Wt.row_off (i + 1) - rd Wt.row_off i),
          pattern_mat At (Wt.col.drop (rd Wt.row_off i)) k b *
          rd ((List.range n).foldl (interp_row sqrt Wt At Bt u lambda) (st, Wt.a)).2
            (rd Wt.row_off i + b) =
        csr_entry Bt i (rd (Wt.col.drop (rd Wt.row_off i)) k) +
          rd u i * rd lambda (rd (Wt.col.drop (rd Wt.row_off i)) k)) ∧
    (∀ t, rd Wt.row_off n ≤ t →
      rd ((List.range n).foldl (interp_row sqrt Wt At Bt u lambda) (st, Wt.a)).2 t =
        rd Wt.a t) := by
  induction n with
  | zero =>
    exact ⟨rfl, rfl, rfl, rfl, fun i hi => absurd hi (Nat.not_lt_zero _), fun t _ => rfl⟩
  | succ n ih =>
    obtain ⟨i1, i2, i3, i4, i5, i6⟩ := ih (by omega)
    rw [List.range_succ, List.foldl_append]
    simp only [List.foldl_cons, List.foldl_nil]
    generalize (List.range n).foldl (interp_row sqrt Wt At Bt u lambda) (st, Wt.a) = s
      at i1 i2 i3 i4 i5 i6 ⊢
    obtain ⟨w1, w2, w3, w4⟩ := rows_sorted_raw Wt hW hWs hWm n (by omega)
    have hge := interp_max_nz_ge Wt n (by omega)
    rw [w1] at hge
    have hcol : ∀ k, k < rd Wt.row_off (n + 1) - rd Wt.row_off n →
        rd (Wt.col.drop (rd Wt.row_off n)) k < At.rn := by
      intro k hk
      rw [rd_drop]
      have := hW.2.2.2.2.2.1 _ (rd_mem Wt.col (rd Wt.row_off n + k) (by omega))
      omega
    obtain ⟨j1, j2, j3, j4, j5, j6⟩ := interp_row_spec sqrt hsqrt Wt At Bt u lambda n
      (rd Wt.row_off (n + 1) - rd Wt.row_off n) w1 w4
      (fun k hk a b hab hb => by
        obtain ⟨a1, _, _, a4⟩ := rows_sorted_raw At hA hAs hAm _ (hcol k hk)
        rw [a1] at hb
        exact a4 a b hab hb)
      (fun a b hab hb => by
        obtain ⟨a1, _, _, a4⟩ := rows_sorted_raw Bt hB hBs hBm n (by omega)
        rw [a1] at hb
        exact a4 a b hab hb)
      (hsym n (by omega)) (hpd n (by omega)) s (by omega) (by omega)
      (le_trans (tri_mono _ _ hge) (by omega))
      (by rw [i4, hW.2.2.2.2.1]; omega)
    refine ⟨by rw [j1, i1], by rw [j2, i2], by rw [j3, i3], by rw [j4, i4], ?_, ?_⟩
    · intro i hi k hk
      rcases Nat.eq_or_lt_of_le (Nat.le_of_lt_succ hi) with e | e
      · rw [e]
        exact j5 k (by rw [← e]; exact hk)
      · rw [← i5 i e k hk]
        refine Finset.sum_congr rfl (fun b hb => ?_)
        rw [Finset.mem_range] at hb
        have hle : rd Wt.row_off (i + 1) ≤ rd Wt.row_off n := by
          have := wf_row_off_le Wt hW (i + 1) (n - (i + 1)) (by omega)
          rwa [show i + 1 + (n - (i + 1)) = n by omega] at this
        rw [j6 _ (by omega)]
    · intro t ht
      rw [j6 t (by omega), i6 t (by omega)]

theorem interp_ex_pattern (a b : Nat) (ha : a < 2) (hb : b < 2) :
    pattern_mat (interp_ex_A ℝ) ((interp_ex_W ℝ).col.drop (rd (interp_ex_W ℝ).row_off 0)) a b =
      if a = b then 2 else 1 := by
  have h0 : row_nz (interp_ex_A ℝ) 0 = 2 := by decide
  have h1 : row_nz (interp_ex_A ℝ) 1 = 2 := by decide
  interval_cases a <;> interval_cases b <;>
    simp [pattern_mat, csr_entry, sp_val, interp_ex_A, interp_ex_W, rd, h0, h1,
      List.range_succ, List.find?]

theorem interp_ex_sym (i : Nat) (hi : i < (interp_ex_W ℝ).rn) (a b : Nat)
    (ha : a < rd (interp_ex_W ℝ).row_off (i + 1) - rd (interp_ex_W ℝ).row_off i)
    (hb : b < rd (interp_ex_W ℝ).row_off (i + 1) - rd (interp_ex_W ℝ).row_off i) :
    pattern_mat (interp_ex_A ℝ) ((interp_ex_W ℝ).col.drop (rd (interp_ex_W ℝ).row_off i)) a b =
      pattern_mat (interp_ex_A ℝ) ((interp_ex_W ℝ).col.drop (rd (interp_ex_W ℝ).row_off i))
        b a := by
  have hi0 : i = 0 := by
    have : (interp_ex_W ℝ).rn = 1 := rfl
    omega
  subst hi0
  have ha' : a < 2 := ha
  have hb' : b < 2 := hb
  rw [interp_ex_pattern a b ha' hb', interp_ex_pattern b a hb' ha']
  by_cases h : a = b
  · rw [if_pos h, if_pos h.symm]
  · rw [if_neg h, if_neg (fun c => h c.symm)]

theorem interp_ex_pd (i : Nat) (hi : i < (interp_ex_W ℝ).rn) (v : Nat → ℝ)
    (hv : ∃ a, a < rd (interp_ex_W ℝ).row_off (i + 1) - rd (interp_ex_W ℝ).row_off i ∧
      v a ≠ 0) :
    0 < bform (rd (interp_ex_W ℝ).row_off (i + 1) - rd (interp_ex_W ℝ).row_off i)
      (pattern_mat (interp_ex_A ℝ)
        ((interp_ex_W ℝ).col.drop (rd (interp_ex_W ℝ).row_off i))) v v := by
  have hi0 : i = 0 := by
    have : (interp_ex_W ℝ).rn = 1 := rfl
    omega
  subst hi0
  have hn : rd (interp_ex_W ℝ).row_off (0 + 1) - rd (interp_ex_W ℝ).row_off 0 = 2 := by decide
  rw [hn] at hv ⊢
  unfold bform
  rw [Finset.sum_range_succ, Finset.sum_range_succ, Finset.sum_range_zero,
    Finset.sum_range_succ, Finset.sum_range_succ, Finset.sum_range_zero,
    Finset.sum_range_succ, Finset.sum_range_succ, Finset.sum_range_zero,
    interp_ex_pattern 0 0 (by omega) (by omega), interp_ex_pattern 0 1 (by omega) (by omega),
    interp_ex_pattern 1 0 (by omega) (by omega), interp_ex_pattern 1 1 (by omega) (by omega)]
  obtain ⟨a, ha, hva⟩ := hv
  have hne : v 0 ≠ 0 ∨ v 1 ≠ 0 := by
    interval_cases a
    · exact Or.inl hva
    · exact Or.inr hva
  simp only [if_true, zero_add, Nat.zero_ne_one, Nat.one_ne_zero, if_false]
  have hsq : v 0 * 2 * v 0 + v 0 * 1 * v 1 + (v 1 * 1 * v 0 + v 1 * 2 * v 1) =
      v 0 * v 0 + v 1 * v 1 + (v 0 + v 1) * (v 0 + v 1) := by ring
  rw [hsq]
  rcases hne with h | h
  · have := mul_self_pos.2 h
    nlinarith [mul_self_nonneg (v 1), mul_self_nonneg (v 0 + v 1)]
  · have := mul_self_pos.2 h
    nlinarith [mul_self_nonneg (v 0), mul_self_nonneg (v 0 + v 1)]

/-- C32: let `Wt`, `At`, `Bt` satisfy the invariants of the data model, with strictly
increasing columns in every row, a row of `At` for every column of `Wt` and a row of `Bt`
for every row of `Wt`, sizes that fit in `uint` and fewer than 65536 entries in a row of
`Wt`; let the square root be exact, and let `At`, restricted to the pattern `Qj` of each
row of `Wt`, be symmetric and positive definite.  Then `interp` leaves `rn`, `cn`,
`row_off` and `col` of `Wt` unchanged, and the cells of row `i` of `Wt->a` are weights `w`
with `(R At R^T) w = R (Bt e_i + u[i] lambda)`: for every `k` below the length of the row,
the sum over `b` of `At[Qj[k], Qj[b]] * w[b]` is `Bt[i, Qj[k]] + u[i] * lambda[Qj[k]]`.
Moreover the packed matrix `Q` built by the loop over `k`, from any contents of the block,
satisfies `Q^T (R At R^T) Q = I`. -/
theorem interp_solves_restricted {α : Type} [LinearOrderedField α] (sqrt : α → α)
    (hsqrt : ∀ x : α, 0 ≤ x → 0 ≤ sqrt x ∧ sqrt x * sqrt x = x)
    (mem : interp_mem α) (Wt At Bt : csr_mat α) (u lambda : List α)
    (hW : csr_wf Wt) (hA : csr_wf At) (hB : csr_wf Bt)
    (hWs : csr_rows_sorted Wt) (hAs : csr_rows_sorted At) (hBs : csr_rows_sorted Bt)
    (hAr : Wt.cn ≤ At.rn) (hBr : Wt.rn ≤ Bt.rn)
    (hWm : Wt.col.length ≤ UINT_MAX) (hAm : At.col.length ≤ UINT_MAX)
    (hBm : Bt.col.length ≤ UINT_MAX) (hmax : interp_max_nz Wt < 65536)
    (hsym : ∀ i, i < Wt.rn → ∀ a b, a < rd Wt.row_off (i + 1) - rd Wt.row_off i →
      b < rd Wt.row_off (i + 1) - rd Wt.row_off i →
      pattern_mat At (Wt.col.drop (rd Wt.row_off i)) a b =
        pattern_mat At (Wt.col.drop (rd Wt.row_off i)) b a)
    (hpd : ∀ i, i < Wt.rn → ∀ v : Nat → α,
      (∃ a, a < rd Wt.row_off (i + 1) - rd Wt.row_off i ∧ v a ≠ 0) →
      0 < bform (rd Wt.row_off (i + 1) - rd Wt.row_off i)
        (pattern_mat At (Wt.col.drop (rd Wt.row_off i))) v v) :
    (interp sqrt mem Wt At Bt u lambda).rn = Wt.rn ∧
    (interp sqrt mem Wt At Bt u lambda).cn = Wt.cn ∧
    (interp sqrt mem Wt At Bt u lambda).row_off = Wt.row_off ∧
    (interp sqrt mem Wt At Bt u lambda).col = Wt.col ∧
    (interp sqrt mem Wt At Bt u lambda).a.length = Wt.a.length ∧
    (∀ i, i < Wt.rn → ∀ k, k < rd Wt.row_off (i + 1) - rd Wt.row_off i →
      ∑ b in Finset.range (rd Wt.row_off (i + 1) - rd Wt.row_off i),
          pattern_mat At (Wt.col.drop (rd Wt.row_off i)) k b *
          rd (interp sqrt mem Wt At Bt u lambda).a (rd Wt.row_off i + b) =
        csr_entry Bt i (rd (Wt.col.drop (rd Wt.row_off i)) k) +
          rd u i * rd lambda (rd (Wt.col.drop (rd Wt.row_off i)) k)) ∧
    (∀ i, i < Wt.rn → ∀ st : interp_state α,
      rd Wt.row_off (i + 1) - rd Wt.row_off i ≤ st.sqv1.length →
      rd Wt.row_off (i + 1) - rd Wt.row_off i ≤ st.sqv2.length →
      tri (rd Wt.row_off (i + 1) - rd Wt.row_off i) ≤ st.Q.length →
      ∀ a b, a < rd Wt.row_off (i + 1) - rd Wt.row_off i →
        b < rd Wt.row_off (i + 1) - rd Wt.row_off i →
        bform (rd Wt.row_off (i + 1) - rd Wt.row_off i)
          (pattern_mat At (Wt.col.drop (rd Wt.row_off i)))
          (packed_col (interp_basis sqrt At (Wt.col.drop (rd Wt.row_off i))
            (rd Wt.row_off (i + 1) - rd Wt.row_off i) st).Q a)
          (packed_col (interp_basis sqrt At (Wt.col.drop (rd Wt.row_off i))
            (rd Wt.row_off (i + 1) - rd Wt.row_off i) st).Q b) = if a = b then 1 else 0) := by
  have hQlen : interp_max_nz Wt * (interp_max_nz Wt + 1) % 4294967296 / 2 =
      tri (interp_max_nz Wt) := by
    have h2 := tri_two (interp_max_nz Wt)
    have hlt : interp_max_nz Wt * (interp_max_nz Wt + 1) < 4294967296 :=
      lt_of_le_of_lt (Nat.mul_le_mul (show interp_max_nz Wt ≤ 65535 by omega)
        (show interp_max_nz Wt + 1 ≤ 65536 by omega)) (by decide)
    rw [Nat.mod_eq_of_lt hlt, ← h2]
    omega
  obtain ⟨_, _, _, r4, r5, _⟩ := interp_rows_inv sqrt hsqrt Wt At Bt u lambda hW hA hB hWs hAs
    hBs hAr hBr hWm hAm hBm hsym hpd
    ⟨tmalloc mem.sqv1 (interp_max_nz Wt), tmalloc mem.sqv2 (interp_max_nz Wt),
      tmalloc mem.Q (interp_max_nz Wt * (interp_max_nz Wt + 1) % 4294967296 / 2), 0⟩
    (by rw [tmalloc_length]) (by rw [tmalloc_length]) (by rw [tmalloc_length, hQlen])
    Wt.rn (le_refl _)
  refine ⟨rfl, rfl, rfl, rfl, r4, r5, ?_⟩
  intro i hi st l1 l2 l3
  obtain ⟨_, _, _, w4⟩ := rows_sorted_raw Wt hW hWs hWm i hi
  have hcol : ∀ k, k < rd Wt.row_off (i + 1) - rd Wt.row_off i →
      rd (Wt.col.drop (rd Wt.row_off i)) k < At.rn := by
    intro k hk
    obtain ⟨_, _, w3, _⟩ := rows_sorted_raw Wt hW hWs hWm i hi
    rw [rd_drop]
    have := hW.2.2.2.2.2.1 _ (rd_mem Wt.col (rd Wt.row_off i + k) (by omega))
    omega
  exact (interp_basis_spec sqrt hsqrt At (Wt.col.drop (rd Wt.row_off i))
    (rd Wt.row_off (i + 1) - rd Wt.row_off i) w4
    (fun k hk a b hab hb => by
      obtain ⟨a1, _, _, a4⟩ := rows_sorted_raw At hA hAs hAm _ (hcol k hk)
      rw [a1] at hb
      exact a4 a b hab hb)
    (hsym i hi) (hpd i hi) st l1 l2 l3).2.2.2.1

theorem interp_solves_restricted_witness :
    ((∀ x : ℝ, 0 ≤ x → 0 ≤ Real.sqrt x ∧ Real.sqrt x * Real.sqrt x = x) ∧
      csr_wf (interp_ex_W ℝ) ∧ csr_wf (interp_ex_A ℝ) ∧ csr_wf (interp_ex_B ℝ) ∧
      csr_rows_sorted (interp_ex_W ℝ) ∧ csr_rows_sorted (interp_ex_A ℝ) ∧
      csr_rows_sorted (interp_ex_B ℝ) ∧ (interp_ex_W ℝ).cn ≤ (interp_ex_A ℝ).rn ∧
      (interp_ex_W ℝ).rn ≤ (interp_ex_B ℝ).rn ∧ (interp_ex_W ℝ).col.length ≤ UINT_MAX ∧
      (interp_ex_A ℝ).col.length ≤ UINT_MAX ∧ (interp_ex_B ℝ).col.length ≤ UINT_MAX ∧
      interp_max_nz (interp_ex_W ℝ) < 65536) ∧
    (interp Real.sqrt ⟨[], [], []⟩ (interp_ex_W ℝ) (interp_ex_A ℝ) (interp_ex_B ℝ) [0]
      [0, 0]).col = (interp_ex_W ℝ).col ∧
    ∀ i, i < (interp_ex_W ℝ).rn →
      ∀ k, k < rd (interp_ex_W ℝ).row_off (i + 1) - rd (interp_ex_W ℝ).row_off i →
      ∑ b in Finset.range (rd (interp_ex_W ℝ).row_off (i + 1) - rd (interp_ex_W ℝ).row_off i),
          pattern_mat (interp_ex_A ℝ)
            ((interp_ex_W ℝ).col.drop (rd (interp_ex_W ℝ).row_off i)) k b *
          rd (interp Real.sqrt ⟨[], [], []⟩ (interp_ex_W ℝ) (interp_ex_A ℝ) (interp_ex_B ℝ)
            [0] [0, 0]).a (rd (interp_ex_W ℝ).row_off i + b) =
        csr_entry (interp_ex_B ℝ) i
            (rd ((interp_ex_W ℝ).col.drop (rd (interp_ex_W ℝ).row_off i)) k) +
          rd ([0] : List ℝ) i *
            rd ([0, 0] : List ℝ) (rd ((interp_ex_W ℝ).col.drop (rd (interp_ex_W ℝ).row_off i)) k) :=
  ⟨⟨real_sqrt_ok, by decide, by decide, by decide, by decide, by decide, by decide, by decide,
      by decide, by decide, by decide, by decide, by decide⟩,
    (interp_solves_restricted Real.sqrt real_sqrt_ok ⟨[], [], []⟩ (interp_ex_W ℝ)
      (interp_ex_A ℝ) (interp_ex_B ℝ) [0] [0, 0] (by decide) (by decide) (by decide)
      (by decide) (by decide) (by decide) (by decide) (by decide) (by decide) (by decide)
      (by decide) (by decide) interp_ex_sym interp_ex_pd).2.2.2.1,
    (interp_solves_restricted Real.sqrt real_sqrt_ok ⟨[], [], []⟩ (interp_ex_W ℝ)
      (interp_ex_A ℝ) (interp_ex_B ℝ) [0] [0, 0] (by decide) (by decide) (by decide)
      (by decide) (by decide) (by decide) (by decide) (by decide) (by decide) (by decide)
      (by decide) (by decide) interp_ex_sym interp_ex_pd).2.2.2.2.2.1⟩

/-! ## `pcg`: the count, and a division by zero -/

theorem pcg_body_alpha {α : Type} [LinearOrderedField α] (A : csr_mat α) (M : List α)
    (s : pcg_state α) : (pcg_body A M s).alpha = s.rho / pcg_pw A s := rfl

theorem pcg_ex_init (A : csr_mat ℚ) (hrn : A.rn = 2) (hcn : A.cn = 2) :
    pcg_init ⟨[], [], [], []⟩ [7, 7] A [1, 1] [1, 1] =
      ⟨[0, 0], [1, 1], [0, 0], [1, 1], [0, 0], [0, 0], 2, 1, 0, 0, 0⟩ := by
  norm_num [pcg_init, hrn, hcn, init_array, tmalloc, memcpy, vv_op, vv_dot, forUpd, rd,
    List.range_succ]

theorem pcg_ex_pw : pcg_pw (spd2 ℚ)
    ⟨[0, 0], [1, 1], [0, 0], [1, 1], [0, 0], [0, 0], 2, 1, 0, 0, 0⟩ = 6 := by
  have hrn : (spd2 ℚ).rn = 2 := rfl
  have h0 : rowIdx (spd2 ℚ) 0 = [0, 1] := rfl
  have h1 : rowIdx (spd2 ℚ) 1 = [2, 3] := rfl
  have ha : (spd2 ℚ).a = [2, 1, 1, 2] := rfl
  have hc : (spd2 ℚ).col = [0, 1, 0, 1] := rfl
  norm_num [pcg_pw, hrn, h0, h1, ar_scal_op, vv_op, vv_dot, apply_M, forUpd, rd,
    List.range_succ, ha, hc]

theorem pcg_ex_body : (pcg_body (spd2 ℚ) [1, 1]
    ⟨[0, 0], [1, 1], [0, 0], [1, 1], [0, 0], [0, 0], 2, 1, 0, 0, 0⟩).rho = 0 ∧
    (pcg_body (spd2 ℚ) [1, 1]
    ⟨[0, 0], [1, 1], [0, 0], [1, 1], [0, 0], [0, 0], 2, 1, 0, 0, 0⟩).k = 1 := by
  have hrn : (spd2 ℚ).rn = 2 := rfl
  have h0 : rowIdx (spd2 ℚ) 0 = [0, 1] := rfl
  have h1 : rowIdx (spd2 ℚ) 1 = [2, 3] := rfl
  have ha : (spd2 ℚ).a = [2, 1, 1, 2] := rfl
  have hc : (spd2 ℚ).col = [0, 1, 0, 1] := rfl
  refine ⟨?_, rfl⟩
  norm_num [pcg_body, hrn, h0, h1, ar_scal_op, vv_op, vv_dot, apply_M, memcpy, forUpd, rd,
    List.range_succ, ha, hc]

theorem pcg_ex_run :
    pcg ⟨[], [], [], []⟩ [7, 7] (spd2 ℚ) [1, 1] [1, 1] (1 / 10) =
      pcg_body (spd2 ℚ) [1, 1]
        ⟨[0, 0], [1, 1], [0, 0], [1, 1], [0, 0], [0, 0], 2, 1, 0, 0, 0⟩ := by
  have hn : pcg_n (spd2 ℚ) = 2 := rfl
  unfold pcg
  simp only [pcg_ex_init (spd2 ℚ) rfl rfl, hn]
  rw [if_neg (by decide)]
  rw [pcg_loop, if_pos ⟨by norm_num, by decide⟩, pcg_loop, if_neg]
  rw [pcg_ex_body.1]
  norm_num

theorem xdouble_zero_eq {α : Type} [Zero α] : (0 : xdouble α) = .fin 0 := rfl

theorem pcg_fp_ex_init :
    pcg_init_fp ⟨[], [], [], []⟩ [.fin 7, .fin 7] zero2_fp [.fin 1, .fin 1] [.fin 1, .fin 1] =
      ⟨[.fin 0, .fin 0], [.fin 1, .fin 1], [.fin 0, .fin 0], [.fin 1, .fin 1],
        [.fin 0, .fin 0], [.fin 0, .fin 0], .fin 2, .fin 1, .fin 0, .fin 0, 0⟩ := by
  have hrn : zero2_fp.rn = 2 := rfl
  have hcn : zero2_fp.cn = 2 := rfl
  norm_num [pcg_init_fp, hrn, hcn, init_array, tmalloc, memcpy, vv_op_fp, vv_dot_fp, forUpd,
    rd, List.range_succ, xdouble.add, xdouble.mul]
  rfl

theorem pcg_fp_ex_body :
    pcg_body_fp zero2_fp [.fin 1, .fin 1]
      ⟨[.fin 0, .fin 0], [.fin 1, .fin 1], [.fin 0, .fin 0], [.fin 1, .fin 1],
        [.fin 0, .fin 0], [.fin 0, .fin 0], .fin 2, .fin 1, .fin 0, .fin 0, 0⟩ =
      ⟨[.inf false, .inf false], [.nan, .nan], [.fin 1, .fin 1], [.nan, .nan],
        [.nan, .nan], [.inf false, .inf false], .nan, .fin 2, .inf false, .fin 2, 1⟩ := by
  have hrn : zero2_fp.rn = 2 := rfl
  have h0 : rowIdx zero2_fp 0 = [0] := rfl
  have h1 : rowIdx zero2_fp 1 = [1] := rfl
  have ha : zero2_fp.a = [.fin 0, .fin 0] := rfl
  have hc : zero2_fp.col = [0, 1] := rfl
  norm_num [pcg_body_fp, hrn, h0, h1, ar_scal_op_fp, vv_op_fp, vv_dot_fp, apply_M_fp, memcpy,
    forUpd, rd, List.range_succ, ha, hc, xdouble_zero_eq, xdouble.add, xdouble.mul,
    xdouble.sub, xdouble.div]

theorem rd_xvec {α : Type} [Zero α] (l : List α) (i : Nat) :
    rd (xvec l) i = .fin (rd l i) :=
  List.getD_map l 0 xdouble.fin

theorem forUpd_xvec {α : Type} [Zero α] (n : Nat) (g : Nat → α → α)
    (g1 : Nat → xdouble α → xdouble α) (h : ∀ i x, g1 i (.fin x) = .fin (g i x))
    (l : List α) : forUpd n g1 (xvec l) = xvec (forUpd n g l) := by
  unfold forUpd
  induction n with
  | zero => rfl
  | succ n ih =>
    rw [List.range_succ, List.foldl_append, List.foldl_append, ih]
    simp only [List.foldl_cons, List.foldl_nil]
    rw [rd_xvec, h]
    exact List.map_set.symm

theorem tmalloc_xvec {α : Type} [Zero α] (junk : List α) (n : Nat) :
    tmalloc (xvec junk) n = xvec (tmalloc junk n) := by
  unfold tmalloc xvec
  rw [List.map_map]
  exact List.map_congr_left (fun i _ => rd_xvec junk i)

theorem memcpy_xvec {α : Type} [Zero α] (d s : List α) (n : Nat) :
    memcpy (xvec d) (xvec s) n = xvec (memcpy d s n) :=
  forUpd_xvec n (fun i _ => rd s i) (fun i _ => rd (xvec s) i) (fun i _ => rd_xvec s i) d

theorem init_array_xvec {α : Type} [Zero α] (a : List α) (n : Nat) (v : α) :
    init_array (xvec a) n (.fin v) = xvec (init_array a n v) :=
  forUpd_xvec n (fun _ _ => v) (fun _ _ => .fin v) (fun _ _ => rfl) a

theorem vv_op_xvec {α : Type} [LinearOrderedField α] (a b : List α) (n : Nat)
    (op : vv_ops) : vv_op_fp (xvec a) (xvec b) n op = xvec (vv_op a b n op) := by
  cases op
  · exact forUpd_xvec n (fun i x => x + rd b i) (fun i x => x.add (rd (xvec b) i))
      (fun i x => by beta_reduce; rw [rd_xvec]; rfl) a
  · exact forUpd_xvec n (fun i x => x - rd b i) (fun i x => x.sub (rd (xvec b) i))
      (fun i x => by beta_reduce; rw [rd_xvec]; rfl) a
  · exact forUpd_xvec n (fun i x => x * rd b i) (fun i x => x.mul (rd (xvec b) i))
      (fun i x => by beta_reduce; rw [rd_xvec]; rfl) a

theorem ar_scal_op_xvec {α : Type} [LinearOrderedField α] (a : List α) (c : α) (n : Nat)
    (op : ar_scal_ops) : ar_scal_op_fp (xvec a) (.fin c) n op = xvec (ar_scal_op a c n op) := by
  cases op
  exact forUpd_xvec n (fun _ x => x * c) (fun _ x => x.mul (.fin c)) (fun i x => rfl) a

theorem foldl_fin {α : Type} [LinearOrderedField α] (f : Nat → α) (f1 : Nat → xdouble α)
    (h : ∀ i, f1 i = .fin (f i)) (is : List Nat) (t : α) :
    is.foldl (fun (r : xdouble α) i => r.add (f1 i)) (.fin t) =
      .fin (is.foldl (fun r i => r + f i) t) := by
  induction is generalizing t with
  | nil => rfl
  | cons i is ih =>
    simp only [List.foldl_cons]
    rw [h i]
    exact ih (t + f i)

theorem vv_dot_xvec {α : Type} [LinearOrderedField α] (a b : List α) (n : Nat) :
    vv_dot_fp (xvec a) (xvec b) n = .fin (vv_dot a b n) :=
  foldl_fin (fun i => rd a i * rd b i) _ (fun i => by rw [rd_xvec, rd_xvec]; rfl) _ 0

theorem apply_M_xvec {α : Type} [LinearOrderedField α] (z : List α) (alpha : α)
    (y : List α) (beta : α) (M : csr_mat α) (x : List α) :
    apply_M_fp (xvec z) (.fin alpha) (xvec y) (.fin beta) (xmat M) (xvec x) =
      xvec (apply_M z alpha y beta M x) := by
  refine forUpd_xvec M.rn
    (fun i _ => alpha * rd y i +
      beta * (rowIdx M i).foldl (fun t j => t + rd M.a j * rd x (rd M.col j)) 0)
    (fun i _ => ((xdouble.fin alpha).mul (rd (xvec y) i)).add
      ((xdouble.fin beta).mul ((rowIdx (xmat M) i).foldl (fun (t : xdouble α) j =>
        t.add ((rd (xmat M).a j).mul (rd (xvec x) (rd (xmat M).col j)))) (.fin 0))))
    (fun i _ => ?_) z
  have hf : (rowIdx (xmat M) i).foldl
      (fun (t : xdouble α) j =>
        t.add ((rd (xmat M).a j).mul (rd (xvec x) (rd (xmat M).col j)))) (.fin 0) =
      .fin ((rowIdx M i).foldl (fun t j => t + rd M.a j * rd x (rd M.col j)) 0) :=
    foldl_fin (fun j => rd M.a j * rd x (rd M.col j)) _
      (fun j => by
        show (rd (xvec M.a) j).mul (rd (xvec x) (rd M.col j)) = _
        rw [rd_xvec, rd_xvec]; rfl) _ 0
  beta_reduce
  rw [hf, rd_xvec]
  rfl

theorem xdouble_div_fin {α : Type} [LinearOrderedField α] (a b : α) (hb : b ≠ 0) :
    (xdouble.fin a).div (.fin b) = .fin (a / b) := by
  simp only [xdouble.div, if_neg hb]

/-- One round of `pcg` without a division by zero is the same on both kinds of doubles. -/
theorem pcg_body_xstate {α : Type} [LinearOrderedField α] (A : csr_mat α) (M : List α)
    (s : pcg_state α) (h1 : s.rho_old ≠ 0) (h2 : pcg_pw A s ≠ 0) :
    pcg_body_fp (xmat A) (xvec M) (xstate s) = xstate (pcg_body A M s) := by
  have hrn : (xmat A).rn = A.rn := rfl
  unfold pcg_pw at h2
  simp only at h2
  simp only [pcg_body_fp, pcg_body, xstate, hrn, xdouble_div_fin _ _ h1, ar_scal_op_xvec,
    vv_op_xvec, apply_M_xvec, vv_dot_xvec, xdouble_div_fin _ _ h2, memcpy_xvec]

theorem pcg_loop_k_ge {α : Type} [LinearOrderedField α] (A : csr_mat α) (M : List α)
    (rho_stop : α) (n fuel : Nat) (s : pcg_state α) :
    s.k ≤ (pcg_loop A M rho_stop n fuel s).k := by
  induction fuel generalizing s with
  | zero => exact le_refl _
  | succ fuel ih =>
    rw [pcg_loop]
    split_ifs with hc
    · exact le_trans (Nat.le_succ _) (ih (pcg_body A M s))
    · exact le_refl _

/-- The loop of `pcg` without a division by zero is the same on both kinds of doubles. -/
theorem pcg_loop_xstate {α : Type} [LinearOrderedField α] (A : csr_mat α) (M : List α)
    (rs : α) (n fuel : Nat) (s : pcg_state α)
    (h : ∀ j, s.k + j < (pcg_loop A M rs n fuel s).k →
      ((pcg_body A M)^[j] s).rho_old ≠ 0 ∧ pcg_pw A ((pcg_body A M)^[j] s) ≠ 0) :
    pcg_loop_fp (xmat A) (xvec M) (.fin rs) n fuel (xstate s) =
      xstate (pcg_loop A M rs n fuel s) := by
  induction fuel generalizing s with
  | zero => rfl
  | succ fuel ih =>
    rw [pcg_loop] at h ⊢
    rw [pcg_loop_fp]
    have hg : ((xstate s).rho.gt (.fin rs) = true ∧ (xstate s).k < n) ↔
        (s.rho > rs ∧ s.k < n) := by
      show (decide (s.rho > rs) = true ∧ s.k < n) ↔ _
      rw [decide_eq_true_iff]
    by_cases hc : s.rho > rs ∧ s.k < n
    · rw [if_pos hc] at h ⊢
      rw [if_pos (hg.2 hc)]
      have hk := pcg_loop_k_ge A M rs n fuel (pcg_body A M s)
      have hk1 : (pcg_body A M s).k = s.k + 1 := rfl
      obtain ⟨d1, d2⟩ := h 0 (by omega)
      rw [pcg_body_xstate A M s d1 d2]
      refine ih (pcg_body A M s) (fun j hj => ?_)
      have := h (j + 1) (by omega)
      rw [Function.iterate_succ_apply] at this
      exact this
    · rw [if_neg hc]
      rw [if_neg (fun hx => hc (hg.1 hx))]

theorem pcg_init_xstate {α : Type} [LinearOrderedField α] (mem : pcg_mem α) (x : List α)
    (A : csr_mat α) (r M : List α) :
    pcg_init_fp (xmem mem) (xvec x) (xmat A) (xvec r) (xvec M) =
      xstate (pcg_init mem x A r M) := by
  have hrn : (xmat A).rn = A.rn := rfl
  have hcn : (xmat A).cn = A.cn := rfl
  simp only [pcg_init_fp, pcg_init, xstate, xmem, hrn, hcn, init_array_xvec, tmalloc_xvec,
    memcpy_xvec, vv_op_xvec, vv_dot_xvec]

/-- A run of `pcg` without a division by zero is the same on both kinds of doubles. -/
theorem pcg_fp_eq {α : Type} [LinearOrderedField α] (mem : pcg_mem α) (x : List α)
    (A : csr_mat α) (r M : List α) (tol : α)
    (h : ∀ j, j < (pcg mem x A r M tol).k →
      (pcg_iter mem x A r M j).rho_old ≠ 0 ∧ pcg_pw A (pcg_iter mem x A r M j) ≠ 0) :
    pcg_fp (xmem mem) (xvec x) (xmat A) (xvec r) (xvec M) (.fin tol) =
      xstate (pcg mem x A r M tol) := by
  have hn : pcg_n (xmat A) = pcg_n A := rfl
  unfold pcg at h ⊢
  unfold pcg_fp
  simp only [pcg_init_xstate, hn] at h ⊢
  by_cases h0 : pcg_n A = 0
  · rw [if_pos h0, if_pos h0]
    rfl
  · rw [if_neg h0] at h ⊢
    rw [if_neg h0]
    have e : ((xdouble.fin tol).mul (.fin tol)).mul (xstate (pcg_init mem x A r M)).rho =
        .fin (tol * tol * (pcg_init mem x A r M).rho) := rfl
    rw [e]
    refine pcg_loop_xstate A M _ _ _ _ (fun j hj => ?_)
    have hk0 : (pcg_init mem x A r M).k = 0 := rfl
    rw [hk0, Nat.zero_add] at hj
    exact h j hj

theorem pcg_loop_fp_k_le {α : Type} [LinearOrderedField α] (A : csr_mat (xdouble α))
    (M : List (xdouble α)) (rho_stop : xdouble α) (n fuel : Nat) (s : pcg_state (xdouble α))
    (h : s.k ≤ n) : (pcg_loop_fp A M rho_stop n fuel s).k ≤ n := by
  induction fuel generalizing s with
  | zero => exact h
  | succ fuel ih =>
    rw [pcg_loop_fp]
    split_ifs with hc
    · exact ih _ (by show s.k + 1 ≤ n; omega)
    · exact h

/-- When the loop of `pcg` is left, its test fails: the fuel is not what stopped it. -/
theorem pcg_loop_fp_exit {α : Type} [LinearOrderedField α] (A : csr_mat (xdouble α))
    (M : List (xdouble α)) (rho_stop : xdouble α) (n fuel : Nat) (s : pcg_state (xdouble α))
    (h : n ≤ s.k + fuel) :
    ¬ ((pcg_loop_fp A M rho_stop n fuel s).rho.gt rho_stop = true ∧
      (pcg_loop_fp A M rho_stop n fuel s).k < n) := by
  induction fuel generalizing s with
  | zero =>
    rw [pcg_loop_fp]
    intro hc
    omega
  | succ fuel ih =>
    rw [pcg_loop_fp]
    split_ifs with hc
    · exact ih _ (by show n ≤ s.k + 1 + fuel; omega)
    · exact hc

/-- A double that is not greater than a finite one is `NaN`, `-inf`, or a finite number
that is at most the other. -/
theorem xdouble_not_gt {α : Type} [LinearOrderedField α] (a : xdouble α) (b : α)
    (h : ¬ a.gt (.fin b) = true) :
    a = .nan ∨ a = .inf true ∨ ∃ v, a = .fin v ∧ v ≤ b := by
  cases a with
  | fin v =>
    refine Or.inr (Or.inr ⟨v, rfl, ?_⟩)
    by_contra hc
    exact h (decide_eq_true (lt_of_not_le hc))
  | inf s =>
    cases s with
    | false => exact absurd rfl h
    | true => exact Or.inr (Or.inl rfl)
  | nan => exact Or.inl rfl

/-- C16, with what the code does after a division by zero: on finite doubles, arithmetic on
finite values being exact, `pcg` returns a count `k <= min(N, 100)`; it returns `0` with
`x = 0` on its `rn` cells when `N = 0` or when the initial `rho = r.(M r)` is `0`; when it
returns `k < min(N, 100)`, the final `rho` is `NaN`, or `-inf`, or a finite number that is
at most `tol^2 * rho_0`; and when no division of the rounds performed has the divisor `0`
(`rho_old` in `beta = rho / rho_old`, `p'*w` in `alpha = rho / (p'*w)`), every number of
the final state is finite and is the one computed in exact arithmetic, so that
`rho <= tol^2 * rho_0` for `k < min(N, 100)`. -/
theorem pcg_count {α : Type} [LinearOrderedField α] (mem : pcg_mem α) (x : List α)
    (A : csr_mat α) (r M : List α) (tol : α) :
    (pcg_fp (xmem mem) (xvec x) (xmat A) (xvec r) (xvec M) (.fin tol)).k ≤ min A.rn 100 ∧
    ((A.rn = 0 ∨ ∑ i in Finset.range A.rn, rd r i * (rd M i * rd r i) = 0) →
      (pcg_fp (xmem mem) (xvec x) (xmat A) (xvec r) (xvec M) (.fin tol)).k = 0 ∧
      ∀ i, i < A.rn →
        rd (pcg_fp (xmem mem) (xvec x) (xmat A) (xvec r) (xvec M) (.fin tol)).x i = .fin 0) ∧
    ((pcg_fp (xmem mem) (xvec x) (xmat A) (xvec r) (xvec M) (.fin tol)).k < min A.rn 100 →
      (pcg_fp (xmem mem) (xvec x) (xmat A) (xvec r) (xvec M) (.fin tol)).rho = .nan ∨
      (pcg_fp (xmem mem) (xvec x) (xmat A) (xvec r) (xvec M) (.fin tol)).rho = .inf true ∨
      ∃ v, (pcg_fp (xmem mem) (xvec x) (xmat A) (xvec r) (xvec M) (.fin tol)).rho = .fin v ∧
        v ≤ tol ^ 2 * ∑ i in Finset.range A.rn, rd r i * (rd M i * rd r i)) ∧
    ((∀ j, j < (pcg mem x A r M tol).k →
        (pcg_iter mem x A r M j).rho_old ≠ 0 ∧ pcg_pw A (pcg_iter mem x A r M j) ≠ 0) →
      pcg_fp (xmem mem) (xvec x) (xmat A) (xvec r) (xvec M) (.fin tol) =
        xstate (pcg mem x A r M tol) ∧
      ((pcg mem x A r M tol).k < min A.rn 100 →
        (pcg mem x A r M tol).rho ≤
          tol ^ 2 * ∑ i in Finset.range A.rn, rd r i * (rd M i * rd r i))) := by
  have hn : pcg_n A = min A.rn 100 := by
    unfold pcg_n
    split_ifs with h
    · exact (min_eq_left h).symm
    · exact (min_eq_right (by omega)).symm
  have hnx : pcg_n (xmat A) = pcg_n A := rfl
  have hex := pcg_exact_count mem x A r M tol
  have hrs : ((xdouble.fin tol).mul (.fin tol)).mul (xstate (pcg_init mem x A r M)).rho =
      .fin (tol * tol * (pcg_init mem x A r M).rho) := rfl
  refine ⟨?_, ?_, ?_, ?_⟩
  · unfold pcg_fp
    simp only [hnx]
    split_ifs with h0
    · exact Nat.zero_le _
    · rw [← hn]
      exact pcg_loop_fp_k_le _ _ _ _ _ _ (Nat.zero_le _)
  · intro h
    obtain ⟨hk, hx⟩ := hex.2.1 h
    have e := pcg_fp_eq mem x A r M tol (fun j hj => absurd hj (by rw [hk]; exact Nat.not_lt_zero _))
    rw [e]
    refine ⟨hk, fun i hi => ?_⟩
    show rd (xvec (pcg mem x A r M tol).x) i = _
    rw [rd_xvec, hx i hi]
  · intro hk
    unfold pcg_fp at hk ⊢
    simp only [hnx, pcg_init_xstate] at hk ⊢
    split_ifs at hk ⊢ with h0
    · rw [hn] at h0
      exact absurd hk (by rw [h0]; exact Nat.lt_irrefl _)
    · rw [hrs] at hk ⊢
      have hx := pcg_loop_fp_exit (xmat A) (xvec M) (.fin (tol * tol * (pcg_init mem x A r M).rho))
        (pcg_n A) (pcg_n A) (xstate (pcg_init mem x A r M))
        (by show pcg_n A ≤ 0 + pcg_n A; omega)
      rw [← hn] at hk
      have hg := xdouble_not_gt _ _ (fun hgt => hx ⟨hgt, hk⟩)
      have e2 : tol * tol * (pcg_init mem x A r M).rho =
          tol ^ 2 * ∑ i in Finset.range A.rn, rd r i * (rd M i * rd r i) := by
        rw [pcg_init_rho, pow_two]
      obtain hg | hg | ⟨v, hv, hle⟩ := hg
      · exact Or.inl hg
      · exact Or.inr (Or.inl hg)
      · exact Or.inr (Or.inr ⟨v, hv, by rw [← e2]; exact hle⟩)
  · intro h
    exact ⟨pcg_fp_eq mem x A r M tol h, hex.2.2⟩

/-- On the matrix `[[2, 1], [1, 2]]` with `r = M = (1, 1)` and `tol = 0.1`, the one round of
`pcg` divides by `rho_old = 1` and by `p'*w = 6`, and ends with `rho = 0`. -/
theorem pcg_count_witness :
    ((∀ j, j < (pcg ⟨[], [], [], []⟩ [7, 7] (spd2 ℚ) [1, 1] [1, 1] (1 / 10)).k →
        (pcg_iter ⟨[], [], [], []⟩ [7, 7] (spd2 ℚ) [1, 1] [1, 1] j).rho_old ≠ 0 ∧
        pcg_pw (spd2 ℚ) (pcg_iter ⟨[], [], [], []⟩ [7, 7] (spd2 ℚ) [1, 1] [1, 1] j) ≠ 0) ∧
      (pcg ⟨[], [], [], []⟩ [7, 7] (spd2 ℚ) [1, 1] [1, 1] (1 / 10)).k < min (spd2 ℚ).rn 100 ∧
      (pcg_fp (xmem ⟨[], [], [], []⟩) (xvec [7, 7]) (xmat (spd2 ℚ)) (xvec [1, 1])
        (xvec [1, 1]) (.fin (1 / 10))).k < min (spd2 ℚ).rn 100 ∧
      ∑ i in Finset.range (scal1 (2 : ℚ)).rn,
        rd ([0] : List ℚ) i * (rd ([1 / 2] : List ℚ) i * rd ([0] : List ℚ) i) = 0) ∧
    (pcg_fp (xmem ⟨[], [], [], []⟩) (xvec [7, 7]) (xmat (spd2 ℚ)) (xvec [1, 1]) (xvec [1, 1])
      (.fin (1 / 10))).k = 1 ∧
    (pcg_fp (xmem ⟨[], [], [], []⟩) (xvec [7, 7]) (xmat (spd2 ℚ)) (xvec [1, 1]) (xvec [1, 1])
      (.fin (1 / 10))).rho = .fin 0 ∧
    (pcg ⟨[], [], [], []⟩ [7, 7] (spd2 ℚ) [1, 1] [1, 1] (1 / 10)).rho ≤
      (1 / 10) ^ 2 * ∑ i in Finset.range (spd2 ℚ).rn,
        rd ([1, 1] : List ℚ) i * (rd ([1, 1] : List ℚ) i * rd ([1, 1] : List ℚ) i) ∧
    ((pcg_fp (xmem ⟨[], [], [], []⟩) (xvec [7, 7]) (xmat (spd2 ℚ)) (xvec [1, 1]) (xvec [1, 1])
        (.fin (1 / 10))).rho = .nan ∨
      (pcg_fp (xmem ⟨[], [], [], []⟩) (xvec [7, 7]) (xmat (spd2 ℚ)) (xvec [1, 1])
        (xvec [1, 1]) (.fin (1 / 10))).rho = .inf true ∨
      ∃ v, (pcg_fp (xmem ⟨[], [], [], []⟩) (xvec [7, 7]) (xmat (spd2 ℚ)) (xvec [1, 1])
          (xvec [1, 1]) (.fin (1 / 10))).rho = .fin v ∧
        v ≤ (1 / 10) ^ 2 * ∑ i in Finset.range (spd2 ℚ).rn,
          rd ([1, 1] : List ℚ) i * (rd ([1, 1] : List ℚ) i * rd ([1, 1] : List ℚ) i)) ∧
    (pcg_fp (xmem ⟨[], [], [], []⟩) (xvec [7]) (xmat (scal1 (2 : ℚ))) (xvec [0])
      (xvec [1 / 2]) (.fin (1 / 10))).k = 0 := by
  have hk : (pcg ⟨[], [], [], []⟩ [7, 7] (spd2 ℚ) [1, 1] [1, 1] (1 / 10)).k = 1 := by
    rw [pcg_ex_run]; exact pcg_ex_body.2
  have hrho : (pcg ⟨[], [], [], []⟩ [7, 7] (spd2 ℚ) [1, 1] [1, 1] (1 / 10)).rho = 0 := by
    rw [pcg_ex_run]; exact pcg_ex_body.1
  have hd : ∀ j, j < (pcg ⟨[], [], [], []⟩ [7, 7] (spd2 ℚ) [1, 1] [1, 1] (1 / 10)).k →
      (pcg_iter ⟨[], [], [], []⟩ [7, 7] (spd2 ℚ) [1, 1] [1, 1] j).rho_old ≠ 0 ∧
      pcg_pw (spd2 ℚ) (pcg_iter ⟨[], [], [], []⟩ [7, 7] (spd2 ℚ) [1, 1] [1, 1] j) ≠ 0 := by
    intro j hj
    rw [hk] at hj
    have hj0 : j = 0 := by omega
    subst hj0
    have e : pcg_iter ⟨[], [], [], []⟩ [7, 7] (spd2 ℚ) [1, 1] [1, 1] 0 =
        ⟨[0, 0], [1, 1], [0, 0], [1, 1], [0, 0], [0, 0], 2, 1, 0, 0, 0⟩ :=
      pcg_ex_init (spd2 ℚ) rfl rfl
    rw [e, pcg_ex_pw]
    exact ⟨by norm_num, by norm_num⟩
  have hlt : (pcg ⟨[], [], [], []⟩ [7, 7] (spd2 ℚ) [1, 1] [1, 1] (1 / 10)).k <
      min (spd2 ℚ).rn 100 := by
    rw [hk]; decide
  have hs : ∑ i in Finset.range (scal1 (2 : ℚ)).rn,
      rd ([0] : List ℚ) i * (rd ([1 / 2] : List ℚ) i * rd ([0] : List ℚ) i) = 0 := by
    simp [scal1, rd]
  have H := (pcg_count ⟨[], [], [], []⟩ [7, 7] (spd2 ℚ) [1, 1] [1, 1] (1 / 10)).2.2.2 hd
  have hkf : (pcg_fp (xmem ⟨[], [], [], []⟩) (xvec [7, 7]) (xmat (spd2 ℚ)) (xvec [1, 1])
      (xvec [1, 1]) (.fin (1 / 10))).k = 1 := by
    rw [H.1]; exact hk
  have hltf : (pcg_fp (xmem ⟨[], [], [], []⟩) (xvec [7, 7]) (xmat (spd2 ℚ)) (xvec [1, 1])
      (xvec [1, 1]) (.fin (1 / 10))).k < min (spd2 ℚ).rn 100 := by
    rw [hkf]; decide
  refine ⟨⟨hd, hlt, hltf, hs⟩, hkf, ?_, H.2 hlt,
    (pcg_count ⟨[], [], [], []⟩ [7, 7] (spd2 ℚ) [1, 1] [1, 1] (1 / 10)).2.2.1 hltf,
    ((pcg_count ⟨[], [], [], []⟩ [7] (scal1 (2 : ℚ)) [0] [1 / 2] (1 / 10)).2.1
      (Or.inr hs)).1⟩
  rw [H.1]; show xdouble.fin _ = _; rw [hrho]

/-- C16, counterexample: the run of `pcg` on the stored zero matrix of order 2 with
`r = M = (1, 1)` and `tol = 0.1`.  The loop is entered with `rho = 2 > 0.02`; in the first
round `p'*w = 0`, `alpha = 2 / 0 = inf`, `x = 0 + 1 * inf = inf`, `w = 0 * inf = NaN`,
`r = 1 - NaN`, and `rho = NaN` fails the test `rho > rho_stop`.  `pcg` returns
`k = 1 < 2 = min(N, 100)` with a `rho` that is not at most `tol^2 * rho_0 = 0.02`. -/
theorem pcg_zero_divisor :
    (pcg_fp (xmem ⟨[], [], [], []⟩) (xvec [7, 7]) (xmat (zero2 ℚ)) (xvec [1, 1]) (xvec [1, 1])
      (.fin (1 / 10))).k = 1 ∧
    1 < min (zero2 ℚ).rn 100 ∧
    (pcg_fp (xmem ⟨[], [], [], []⟩) (xvec [7, 7]) (xmat (zero2 ℚ)) (xvec [1, 1]) (xvec [1, 1])
      (.fin (1 / 10))).rho = .nan ∧
    (pcg_init_fp (xmem ⟨[], [], [], []⟩) (xvec [7, 7]) (xmat (zero2 ℚ)) (xvec [1, 1])
      (xvec [1, 1])).rho = .fin 2 ∧
    pcg_pw (zero2 ℚ) (pcg_init ⟨[], [], [], []⟩ [7, 7] (zero2 ℚ) [1, 1] [1, 1]) = 0 ∧
    (pcg_fp (xmem ⟨[], [], [], []⟩) (xvec [7, 7]) (xmat (zero2 ℚ)) (xvec [1, 1]) (xvec [1, 1])
      (.fin (1 / 10))).alpha = .inf false ∧
    (pcg_fp (xmem ⟨[], [], [], []⟩) (xvec [7, 7]) (xmat (zero2 ℚ)) (xvec [1, 1]) (xvec [1, 1])
      (.fin (1 / 10))).x = [.inf false, .inf false] := by
  have hn : pcg_n zero2_fp = 2 := rfl
  have hm : xmat (zero2 ℚ) = zero2_fp := rfl
  have hme : xmem (⟨[], [], [], []⟩ : pcg_mem ℚ) = ⟨[], [], [], []⟩ := rfl
  have h7 : xvec ([7, 7] : List ℚ) = [.fin 7, .fin 7] := rfl
  have h1 : xvec ([1, 1] : List ℚ) = [.fin 1, .fin 1] := rfl
  have e : pcg_fp ⟨[], [], [], []⟩ [.fin 7, .fin 7] zero2_fp [.fin 1, .fin 1]
      [.fin 1, .fin 1] (.fin (1 / 10)) =
      ⟨[.inf false, .inf false], [.nan, .nan], [.fin 1, .fin 1], [.nan, .nan],
        [.nan, .nan], [.inf false, .inf false], .nan, .fin 2, .inf false, .fin 2, 1⟩ := by
    unfold pcg_fp
    simp only [pcg_fp_ex_init, hn]
    rw [if_neg (by decide)]
    rw [pcg_loop_fp, if_pos ⟨by norm_num [xdouble.mul, xdouble.gt], by decide⟩,
      pcg_fp_ex_body, pcg_loop_fp, if_neg]
    simp [xdouble.gt, xdouble.mul]
  have hp : pcg_pw (zero2 ℚ) (pcg_init ⟨[], [], [], []⟩ [7, 7] (zero2 ℚ) [1, 1] [1, 1]) = 0 := by
    have hrn : (zero2 ℚ).rn = 2 := rfl
    have h0 : rowIdx (zero2 ℚ) 0 = [0] := rfl
    have h1 : rowIdx (zero2 ℚ) 1 = [1] := rfl
    have ha : (zero2 ℚ).a = [0, 0] := rfl
    have hc : (zero2 ℚ).col = [0, 1] := rfl
    rw [pcg_ex_init (zero2 ℚ) rfl rfl]
    norm_num [pcg_pw, hrn, h0, h1, ar_scal_op, vv_op, vv_dot, apply_M, forUpd, rd,
      List.range_succ, ha, hc]
  rw [hm, hme, h7, h1, e, pcg_fp_ex_init]
  exact ⟨rfl, by decide, rfl, rfl, hp, rfl, rfl⟩

end AmgSetup
